import Mathlib

/-!
# INET functions of `sql/item_inetfunc.cc`

A shallow embedding of the textual codecs of `sql/item_inetfunc.cc`
(`Inet4::str_to_ipv4`, `Inet4::to_string`, `Inet6::str_to_ipv6`,
`Inet6::to_string`, `INET6_ATON`, `INET6_NTOA`, `INET_ATON`, `INET_NTOA`) and
theorems about them.

Conventions of the embedding:

* a text (`const char *str, size_t length`) is the list of its `length` bytes,
  each byte a natural number (`58` is `':'`, `46` is `'.'`, `48..57` are the
  digits, `0` is the NUL byte);
* a binary address (`m_buffer`) is a list of bytes;
* a function that reports failure (`return true`, a NULL result) returns
  `none`; on success it returns `some` of the buffer it filled or of the text
  it wrote;
* pointers into the 16-byte buffer are offsets into that list;
* `while`/`for` loops are recursive functions over the remaining input, or
  carry a fuel counter whose exhaustion is reported as `none`.
-/

set_option maxRecDepth 100000

/-! ## Constants -/

/-- The constant `IN_ADDR_SIZE`. -/
def IN_ADDR_SIZE : Nat := 4

/-- The constant `IN6_ADDR_SIZE`. -/
def IN6_ADDR_SIZE : Nat := 16

/-- The constant `IN6_ADDR_NUM_WORDS = IN6_ADDR_SIZE / 2`. -/
def IN6_ADDR_NUM_WORDS : Nat := IN6_ADDR_SIZE / 2

/-- The constant `IN6_ADDR_MAX_CHAR_LENGTH = 8 * 4 + 7`. -/
def IN6_ADDR_MAX_CHAR_LENGTH : Nat := 8 * 4 + 7

/-- The array `HEX_DIGITS[] = "0123456789abcdef"`, without its terminating NUL. -/
def HEX_DIGITS : List Nat :=
  [48, 49, 50, 51, 52, 53, 54, 55, 56, 57, 97, 98, 99, 100, 101, 102]

/-- Modelled from the spec: the system constant `INET_ADDRSTRLEN` (declared
outside the source file); section 4.2 asks for a buffer of at least 16 bytes. -/
def INET_ADDRSTRLEN : Nat := 16

/-- Modelled from the spec: the system constant `INET6_ADDRSTRLEN` (declared
outside the source file); section 4.4 asks for a buffer of at least 46 bytes. -/
def INET6_ADDRSTRLEN : Nat := 46

/-- The bytes of a string literal, to write texts readably. -/
def str (s : String) : List Nat := s.toList.map Char.toNat

/-! ## Library routines used by the source -/

/-- Modelled from the spec: `my_isdigit(&my_charset_latin1, c)` (a ctype table
lookup declared outside the source file); section 4.1: the ASCII digits
`0`..`9`. -/
def my_isdigit (c : Nat) : Bool := decide (48 ≤ c) && decide (c ≤ 57)

/-- Modelled from the spec: `my_tolower(&my_charset_latin1, c)` (a table lookup
declared outside the source file); section 4.3: hex digits are
case-insensitive, so `A`..`Z` map to `a`..`z`.  The bytes the latin1 table
moves besides these are above 127 and are mapped to bytes above 127, none of
which occurs in `HEX_DIGITS`. -/
def my_tolower (c : Nat) : Nat := if 65 ≤ c ∧ c ≤ 90 then c + 32 else c

/-- The C routine `strchr(s, c)` on a NUL-terminated array whose bytes before
the terminator are `s`: the offset of the first occurrence of `c`, the
terminator included (so `c = 0` is found at offset `s.length`). -/
def strchr : List Nat → Nat → Option Nat
  | [], c => if c = 0 then some 0 else none
  | x :: xs, c => if x = c then some 0 else (strchr xs c).map (· + 1)

/-- The digits of `n` in base `base`, most significant first, as bytes;
`digit` gives the byte of one digit.  The fuel bounds the number of digits. -/
def sprintf_digits (base : Nat) (digit : Nat → Nat) : Nat → Nat → List Nat → List Nat
  | 0, _, acc => acc
  | fuel + 1, n, acc =>
    if n < base then digit n :: acc
    else sprintf_digits base digit fuel (n / base) (digit (n % base) :: acc)

/-- The C conversion `%d` of a non-negative value: decimal, no leading zeros. -/
def sprintf_d (n : Nat) : List Nat :=
  sprintf_digits 10 (fun d => 48 + d) (n + 1) n []

/-- The byte of the lowercase hex digit of value `d`. -/
def lower_hex_digit (d : Nat) : Nat := if d < 10 then 48 + d else 87 + d

/-- The C conversion `%x` of a non-negative value: lowercase hex, no leading
zeros. -/
def sprintf_x (n : Nat) : List Nat :=
  sprintf_digits 16 lower_hex_digit (n + 1) n []

/-- Modelled from the spec: `my_snprintf(dst, n, "%d.%d.%d.%d", a, b, c, d)`
(defined outside the source file); section 4.2: the text `a.b.c.d`, each number
in decimal with no leading zeros, and the length written is returned.  The
routine never writes more than `n - 1` bytes before the terminator; the spec
fixes the text only for `n >= 16`, where nothing is cut. -/
def my_snprintf_ipv4 (n : Nat) (a b c d : Nat) : List Nat :=
  (sprintf_d a ++ 46 :: sprintf_d b ++ 46 :: sprintf_d c ++ 46 :: sprintf_d d).take (n - 1)

/-! ## `Inet4` -/

/-- The state of the scanning loop of `Inet4::str_to_ipv4` when it is left. -/
structure Inet4.Scan where
  /-- The buffer `ipv4_bytes` (`m_buffer`). -/
  ipv4_bytes : List Nat
  /-- The local `byte_value`. -/
  byte_value : Nat
  /-- The local `dot_count`. -/
  dot_count : Nat
  /-- The local `c`: the last byte read. -/
  c : Nat
deriving DecidableEq

/-- The loop `while (p < str_end && *p)` of `Inet4::str_to_ipv4`.  The first
argument is the text from `p` to `str_end`; `none` is `return true`. -/
def Inet4.scan : List Nat → List Nat → Nat → Nat → Nat → Nat → Option Inet4.Scan
  | [], ipv4_bytes, byte_value, _, dot_count, c =>
    some ⟨ipv4_bytes, byte_value, dot_count, c⟩
  | ch :: p, ipv4_bytes, byte_value, chars_in_group, dot_count, c =>
    if ch = 0 then some ⟨ipv4_bytes, byte_value, dot_count, c⟩
    else if my_isdigit ch then
      if chars_in_group + 1 > 3 then none
      else if byte_value * 10 + (ch - 48) > 255 then none
      else Inet4.scan p ipv4_bytes (byte_value * 10 + (ch - 48)) (chars_in_group + 1)
        dot_count ch
    else if ch = 46 then
      if chars_in_group = 0 then none
      else if dot_count + 1 > 3 then none
      else Inet4.scan p (ipv4_bytes.set dot_count (byte_value % 256)) 0 0 (dot_count + 1) ch
    else none

/-- The method `Inet4::str_to_ipv4(str, str_length, cs)`: `none` when it
returns true (error), the four bytes of `m_buffer` when it returns false.  The
buffer starts uninitialised in the source; all four bytes are written before a
successful return. -/
def Inet4.str_to_ipv4 (str : List Nat) : Option (List Nat) :=
  if str.length < 7 then none
  else if str.length > 15 then none
  else
    match Inet4.scan str [0, 0, 0, 0] 0 0 0 0 with
    | none => none
    | some st =>
      if st.c = 46 then none
      else if st.dot_count ≠ 3 then none
      else some (st.ipv4_bytes.set 3 (st.byte_value % 256))

/-- The method `Inet4::to_string(dst, dstsize)`: the text written to `dst`
(its length is the value returned). -/
def Inet4.to_string (m_buffer : List Nat) (dstsize : Nat) : List Nat :=
  my_snprintf_ipv4 dstsize (m_buffer.getD 0 0) (m_buffer.getD 1 0)
    (m_buffer.getD 2 0) (m_buffer.getD 3 0)

/-- The method `Inet4::binary_to_ipv4(str, length)`. -/
def Inet4.binary_to_ipv4 (str : List Nat) : Option (List Nat) :=
  if str.length ≠ 4 then none else some str

/-! ## `Inet6::str_to_ipv6` -/

/-- The state of the scanning loop of `Inet6::str_to_ipv6` when it is left. -/
structure Inet6.Scan where
  /-- The buffer `m_buffer`. -/
  m_buffer : List Nat
  /-- The offset of `dst` in `m_buffer`. -/
  dst : Nat
  /-- The offset of `gap_ptr` in `m_buffer`; `none` is the NULL pointer. -/
  gap_ptr : Option Nat
  /-- The local `chars_in_group`. -/
  chars_in_group : Nat
  /-- The local `group_value`. -/
  group_value : Nat
deriving DecidableEq

/-- The two stores `dst[0]= (group_value >> 8) & 0xff; dst[1]= group_value & 0xff`. -/
def Inet6.store_group (m_buffer : List Nat) (dst group_value : Nat) : List Nat :=
  (m_buffer.set dst ((group_value >>> 8) % 256)).set (dst + 1) (group_value % 256)

/-- The copy `tmp.to_binary(dst, IN_ADDR_SIZE)` of four bytes to offset `dst`. -/
def Inet6.store_ipv4 (m_buffer : List Nat) (dst : Nat) (ipv4 : List Nat) : List Nat :=
  (((m_buffer.set dst (ipv4.getD 0 0)).set (dst + 1) (ipv4.getD 1 0)).set (dst + 2)
    (ipv4.getD 2 0)).set (dst + 3) (ipv4.getD 3 0)

/-- The loop `while (p < str_end && *p)` of `Inet6::str_to_ipv6`.  The first
argument is the text from `p` to `str_end`, `group_start` the text from
`group_start_ptr` to `str_end`; `none` is `return true`. -/
def Inet6.scan : List Nat → List Nat → Nat → Option Nat → List Nat → Nat → Nat →
    Option Inet6.Scan
  | [], m_buffer, dst, gap_ptr, _, chars_in_group, group_value =>
    some ⟨m_buffer, dst, gap_ptr, chars_in_group, group_value⟩
  | c :: p, m_buffer, dst, gap_ptr, group_start, chars_in_group, group_value =>
    if c = 0 then some ⟨m_buffer, dst, gap_ptr, chars_in_group, group_value⟩
    else if c = 58 then
      if chars_in_group = 0 then
        if gap_ptr.isSome then none
        else Inet6.scan p m_buffer dst (some dst) p chars_in_group group_value
      else if p.head? = some 0 ∨ p = [] then none
      else if dst + 2 > IN6_ADDR_SIZE then none
      else Inet6.scan p (Inet6.store_group m_buffer dst group_value) (dst + 2) gap_ptr p 0 0
    else if c = 46 then
      if dst + IN_ADDR_SIZE > IN6_ADDR_SIZE then none
      else
        match Inet4.str_to_ipv4 group_start with
        | none => none
        | some ipv4 =>
          some ⟨Inet6.store_ipv4 m_buffer dst ipv4, dst + IN_ADDR_SIZE, gap_ptr, 0, group_value⟩
    else
      match strchr HEX_DIGITS (my_tolower c) with
      | none => none
      | some hdp =>
        if chars_in_group ≥ 4 then none
        else Inet6.scan p m_buffer dst gap_ptr group_start (chars_in_group + 1)
          ((group_value <<< 4) ||| hdp)

/-- The loop `for (int i= 1; i <= bytes_to_move; ++i)` of `Inet6::str_to_ipv6`,
run for `i = i, i + 1, ..`, with `count` iterations left: it moves the bytes
written after the gap to the end of the buffer and zeroes their old place. -/
def Inet6.move_gap (gap_ptr bytes_to_move : Nat) : Nat → Nat → List Nat → List Nat
  | 0, _, m_buffer => m_buffer
  | count + 1, i, m_buffer =>
    Inet6.move_gap gap_ptr bytes_to_move count (i + 1)
      ((m_buffer.set (IN6_ADDR_SIZE - i) (m_buffer.getD (gap_ptr + (bytes_to_move - i)) 0)).set
        (gap_ptr + (bytes_to_move - i)) 0)

/-- The code of `Inet6::str_to_ipv6` after the scanning loop: the commit of a
pending group, the fix-up of the gap and the final check that the buffer is
full. -/
def Inet6.str_to_ipv6_end (st : Inet6.Scan) : Option (List Nat) :=
  if st.chars_in_group > 0 ∧ st.dst + 2 > IN6_ADDR_SIZE then none
  else
    let m_buffer :=
      if st.chars_in_group > 0 then Inet6.store_group st.m_buffer st.dst st.group_value
      else st.m_buffer
    let dst := if st.chars_in_group > 0 then st.dst + 2 else st.dst
    match st.gap_ptr with
    | some gap_ptr =>
      if dst = IN6_ADDR_SIZE then none
      else
        let bytes_to_move := dst - gap_ptr
        some (Inet6.move_gap gap_ptr bytes_to_move bytes_to_move 1 m_buffer)
    | none => if dst < IN6_ADDR_SIZE then none else some m_buffer

/-- The method `Inet6::str_to_ipv6(str, str_length, cs)`: `none` when it
returns true (error), the sixteen bytes of `m_buffer` when it returns false. -/
def Inet6.str_to_ipv6 (str : List Nat) : Option (List Nat) :=
  if str.length < 2 then none
  else if str.length > IN6_ADDR_MAX_CHAR_LENGTH then none
  else
    let m_buffer := List.replicate IN6_ADDR_SIZE 0
    if str.head? = some 58 ∧ (str.drop 1).head? ≠ some 58 then none
    else
      let p := if str.head? = some 58 then str.drop 1 else str
      match Inet6.scan p m_buffer 0 none p 0 0 with
      | none => none
      | some st => Inet6.str_to_ipv6_end st

/-- The method `Inet6::binary_to_ipv6(str, length)`. -/
def Inet6.binary_to_ipv6 (str : List Nat) : Option (List Nat) :=
  if str.length ≠ 16 then none else some str

/-! ## `Inet6::to_string` -/

/-- The local `struct Region` of `Inet6::to_string`. -/
structure Region where
  /-- The field `pos`. -/
  pos : Int
  /-- The field `length`. -/
  length : Int
deriving DecidableEq

/-- Step 1 of `Inet6::to_string`: `ipv6_words[i]= (ipv6_bytes[2 * i] << 8) +
ipv6_bytes[2 * i + 1]`, stored in a `uint16`. -/
def Inet6.ipv6_words (m_buffer : List Nat) : List Nat :=
  (List.range IN6_ADDR_NUM_WORDS).map fun i =>
    ((m_buffer.getD (2 * i) 0 <<< 8) + m_buffer.getD (2 * i + 1) 0) % 65536

/-- One iteration of the loop of step 2 of `Inet6::to_string` on the word `w`
at index `i`; the state is the pair `(gap, rg)`. -/
def Inet6.gap_step (st : Region × Region) (iw : Nat × Nat) : Region × Region :=
  let gap := st.1
  let rg := st.2
  if iw.2 ≠ 0 then
    if rg.pos ≥ 0 then
      (if rg.length > gap.length then rg else gap, ⟨-1, -1⟩)
    else (gap, rg)
  else
    if rg.pos ≥ 0 then (gap, ⟨rg.pos, rg.length + 1⟩)
    else (gap, ⟨(iw.1 : Int), 1⟩)

/-- Step 2 of `Inet6::to_string`: the gap, the longest sequence of zero words. -/
def Inet6.find_gap (ipv6_words : List Nat) : Region :=
  let st := ipv6_words.enum.foldl Inet6.gap_step (⟨-1, -1⟩, ⟨-1, -1⟩)
  if st.2.pos ≥ 0 then
    if st.2.length > st.1.length then st.2 else st.1
  else st.1

/-- Step 3 of `Inet6::to_string`: the loop `for (int i= 0; i < 8; ++i)`, from
index `i` with the text `p` written so far.  The result is the text written
when the function returns; `none` reports that the fuel ran out. -/
def Inet6.to_string_loop (m_buffer ipv6_words : List Nat) (gap : Region) (dstsize : Nat) :
    Nat → Int → List Nat → Option (List Nat)
  | 0, i, p => if i < (IN6_ADDR_NUM_WORDS : Int) then none else some p
  | fuel + 1, i, p =>
    if ¬ i < (IN6_ADDR_NUM_WORDS : Int) then some p
    else if dstsize - p.length < 5 then some p
    else if i = gap.pos then
      let p := if i = 0 then p ++ [58] else p
      let p := p ++ [58]
      Inet6.to_string_loop m_buffer ipv6_words gap dstsize fuel (i + (gap.length - 1) + 1) p
    else if i = 6 ∧ gap.pos = 0 ∧
        (gap.length = 6 ∨ (gap.length = 5 ∧ ipv6_words.getD 5 0 = 0xffff)) then
      some (p ++ Inet4.to_string ((m_buffer.drop 12).take 4) (dstsize - p.length))
    else
      let p := p ++ sprintf_x (ipv6_words.getD i.toNat 0)
      let p := if i + 1 ≠ (IN6_ADDR_NUM_WORDS : Int) then p ++ [58] else p
      Inet6.to_string_loop m_buffer ipv6_words gap dstsize fuel (i + 1) p

/-- The method `Inet6::to_string(dst, dstsize)`: the text written to `dst`
before the terminator (its length is the value returned).  Every iteration of
the loop advances `i`, so eight units of fuel are enough
(`Inet6.to_string_isSome`). -/
def Inet6.to_string (m_buffer : List Nat) (dstsize : Nat) : Option (List Nat) :=
  let ipv6_words := Inet6.ipv6_words m_buffer
  Inet6.to_string_loop m_buffer ipv6_words (Inet6.find_gap ipv6_words) dstsize
    IN6_ADDR_NUM_WORDS 0 []

/-! ## `INET6_ATON` and `INET6_NTOA` -/

/-- The method `Item_func_inet6_aton::val_str`: the argument is the value of
`args[0]` as an ASCII text (`none` for SQL NULL); the result is the binary
string returned, `none` for NULL. -/
def Item_func_inet6_aton.val_str (arg : Option (List Nat)) : Option (List Nat) :=
  match arg with
  | none => none
  | some s =>
    match Inet4.str_to_ipv4 s with
    | some ipv4 => some ipv4
    | none =>
      match Inet6.str_to_ipv6 s with
      | some ipv6 => some ipv6
      | none => none

/-- The method `Item_func_inet6_ntoa::val_str_ascii`: `is_binary_string` says
that `args[0]` has `STRING_RESULT` and the binary collation, `arg` is its value
(`none` for SQL NULL); the result is the text returned, `none` for NULL.  The
texts are written into buffers of `INET_ADDRSTRLEN` and `INET6_ADDRSTRLEN`
bytes. -/
def Item_func_inet6_ntoa.val_str_ascii (is_binary_string : Bool) (arg : Option (List Nat)) :
    Option (List Nat) :=
  if ¬ is_binary_string then none
  else
    match arg with
    | none => none
    | some s =>
      match Inet4.binary_to_ipv4 s with
      | some ipv4 => some (Inet4.to_string ipv4 INET_ADDRSTRLEN)
      | none =>
        match Inet6.binary_to_ipv6 s with
        | some ipv6 => Inet6.to_string ipv6 INET6_ADDRSTRLEN
        | none => none

/-! ## `INET_ATON` and `INET_NTOA` -/

/-- The C cast `(longlong) u` of a 64-bit unsigned value: the signed reading of
the same 64 bits. -/
def to_longlong (u : Nat) : Int :=
  if u % 2 ^ 64 < 2 ^ 63 then ((u % 2 ^ 64 : Nat) : Int) else ((u % 2 ^ 64 : Nat) : Int) - 2 ^ 64

/-- The C cast `(ulonglong) v` of a `longlong`: the unsigned reading of the
same 64 bits. -/
def to_ulonglong (v : Int) : Nat := (v % 2 ^ 64).toNat

/-- The variables of `Item_func_inet_aton::val_int` that are read after its
loop: `byte_result`, `result`, `dot_count` and `c`, the last byte read. -/
structure Item_func_inet_aton.Scan where
  byte_result : Nat
  result : Nat
  dot_count : Nat
  c : Nat
  deriving DecidableEq

/-- The loop `while (p < end)` of `Item_func_inet_aton::val_int`.  The first
argument is the text from `p` to `end`; `none` is `goto err`.  `result` is an
`ulonglong`, so the shift and the sum are taken modulo `2 ^ 64`; `byte_result`
never exceeds 2559 and `dot_count` never exceeds the length of the text. -/
def Item_func_inet_aton.scan : List Nat → Nat → Nat → Nat → Nat →
    Option Item_func_inet_aton.Scan
  | [], byte_result, result, dot_count, c => some ⟨byte_result, result, dot_count, c⟩
  | c :: p, byte_result, result, dot_count, _ =>
    if 48 ≤ c ∧ c ≤ 57 then
      if byte_result * 10 + (c - 48) > 255 then none
      else Item_func_inet_aton.scan p (byte_result * 10 + (c - 48)) result dot_count c
    else if c = 46 then
      Item_func_inet_aton.scan p 0 (((result <<< 8) + byte_result) % 2 ^ 64) (dot_count + 1) c
    else none

/-- The method `Item_func_inet_aton::val_int`: the argument is the value of
`args[0]` as an ASCII text (`none` for SQL NULL); the result is the `longlong`
returned, `none` when `null_value` is set. -/
def Item_func_inet_aton.val_int (arg : Option (List Nat)) : Option Int :=
  match arg with
  | none => none
  | some s =>
    match Item_func_inet_aton.scan s 0 0 0 46 with
    | none => none
    | some st =>
      if st.c ≠ 46 then
        let result :=
          if st.dot_count = 1 then (((st.result <<< 8) % 2 ^ 64) <<< 8) % 2 ^ 64
          else if st.dot_count = 2 then (st.result <<< 8) % 2 ^ 64
          else st.result
        some (to_longlong (((result <<< 8) + st.byte_result) % 2 ^ 64))
      else none

/-- Modelled from the spec: the macro `int4store(T, A)` (defined outside the
source file); section 4.6 and the comment `Now we can assume little endian` of
the source: the four low bytes of `A`, the least significant first. -/
def int4store (n : Nat) : List Nat :=
  [n % 256, n / 256 % 256, n / 65536 % 256, n / 16777216 % 256]

/-- One iteration of the `for` loop of `Item_func_inet_ntoa::val_str`, with
`p` the offset of the pointer `p` from `buf`: the three decimal digits of the
byte `*p` and a dot are put into `num`, and `num` is appended to `str` without
its leading zeros and, for `p = buf`, without the dot. -/
def Item_func_inet_ntoa.append_octet (str buf : List Nat) (p : Nat) : List Nat :=
  let c := buf.getD p 0
  let n1 := c / 100
  let c := c - n1 * 100
  let n2 := c / 10
  let c := c - n2 * 10
  let num := [n1 + 48, n2 + 48, c + 48, 46]
  let length := if n1 ≠ 0 then 4 else if n2 ≠ 0 then 3 else 2
  let dot_length := if p ≤ 0 then 1 else 0
  str ++ (num.drop (4 - length)).take (length - dot_length)

/-- The loop `for (uchar *p= buf + 4; p-- > buf;)` of
`Item_func_inet_ntoa::val_str`: the second argument is the offset of `p` from
`buf` when the condition is evaluated. -/
def Item_func_inet_ntoa.loop (buf : List Nat) : Nat → List Nat → List Nat
  | 0, str => str
  | p + 1, str =>
    Item_func_inet_ntoa.loop buf p (Item_func_inet_ntoa.append_octet str buf p)

/-- The method `Item_func_inet_ntoa::val_str`: the argument is the `longlong`
returned by `args[0]->val_int()` (`none` when `args[0]->null_value` is set);
the result is the text returned, `none` for NULL. -/
def Item_func_inet_ntoa.val_str (arg : Option Int) : Option (List Nat) :=
  match arg with
  | none => none
  | some v =>
    let n := to_ulonglong v
    if n > 0xffffffff then none
    else some (Item_func_inet_ntoa.loop (int4store n) 4 [])

/-! ## Vocabulary of the statements about `Inet4` -/

/-- The value accumulated from `byte_value` over a run of decimal digits. -/
def dec_acc (byte_value : Nat) (g : List Nat) : Nat :=
  g.foldl (fun a d => a * 10 + (d - 48)) byte_value

/-- The numeric value of a run of decimal digits. -/
def dec_value (g : List Nat) : Nat := dec_acc 0 g

/-- A group of an IPv4 text: one to three ASCII digits of value at most 255. -/
def IsDecGroup (g : List Nat) : Prop :=
  1 ≤ g.length ∧ g.length ≤ 3 ∧ (∀ d ∈ g, 48 ≤ d ∧ d ≤ 57) ∧ dec_value g ≤ 255

instance IsDecGroup.decidable (g : List Nat) : Decidable (IsDecGroup g) := by
  unfold IsDecGroup; infer_instance

/-- A binary IPv4 address: four bytes. -/
def IsInet4 (b : List Nat) : Prop := b.length = 4 ∧ ∀ x ∈ b, x < 256

/-- A binary IPv6 address: sixteen bytes. -/
def IsInet6 (b : List Nat) : Prop := b.length = 16 ∧ ∀ x ∈ b, x < 256

instance IsInet4.decidable (b : List Nat) : Decidable (IsInet4 b) := by unfold IsInet4; infer_instance

instance IsInet6.decidable (b : List Nat) : Decidable (IsInet6 b) := by unfold IsInet6; infer_instance

/-! ## Vocabulary of the statements about `Inet6` -/

/-- A hex digit, in either case. -/
def is_hex_digit (c : Nat) : Prop :=
  (48 ≤ c ∧ c ≤ 57) ∨ (97 ≤ c ∧ c ≤ 102) ∨ (65 ≤ c ∧ c ≤ 70)

instance is_hex_digit.decidable (c : Nat) : Decidable (is_hex_digit c) := by
  unfold is_hex_digit; infer_instance

/-- The numeric value of a hex digit. -/
def hex_digit_value (c : Nat) : Nat :=
  if c ≤ 57 then c - 48 else if c ≤ 70 then c - 55 else c - 87

/-- The value accumulated from `v` over a run of hex digits. -/
def hex_acc (v : Nat) (g : List Nat) : Nat :=
  g.foldl (fun a c => a * 16 + hex_digit_value c) v

/-- The numeric value of a run of hex digits. -/
def hex_value (g : List Nat) : Nat := hex_acc 0 g

/-- A hex group of an IPv6 text: one to four hex digits, in either case. -/
def IsHexGroup (g : List Nat) : Prop :=
  1 ≤ g.length ∧ g.length ≤ 4 ∧ ∀ c ∈ g, is_hex_digit c

instance IsHexGroup.decidable (g : List Nat) : Decidable (IsHexGroup g) := by
  unfold IsHexGroup; infer_instance

/-- The groups joined by single colons. -/
def join_colon : List (List Nat) → List Nat
  | [] => []
  | [g] => g
  | g :: g1 :: gs => g ++ 58 :: join_colon (g1 :: gs)

/-- The bytes of a list of 16-bit values, each big-endian. -/
def word_bytes : List Nat → List Nat
  | [] => []
  | w :: ws => w / 256 :: w % 256 :: word_bytes ws

/-- The words `pos .. pos + len - 1` of `ws` are a run of consecutive zero
words, of length at least one. -/
def IsZeroRun (ws : List Nat) (pos len : Nat) : Prop :=
  1 ≤ len ∧ pos + len ≤ ws.length ∧ ∀ i < len, ws.getD (pos + i) 1 = 0

instance IsZeroRun.decidable (ws : List Nat) (pos len : Nat) : Decidable (IsZeroRun ws pos len) := by
  unfold IsZeroRun; infer_instance

/-- The run `pos .. pos + len - 1` is the longest run of consecutive zero words
of `ws`, and the leftmost one among the runs of that length. -/
def IsLeftmostLongestZeroRun (ws : List Nat) (pos len : Nat) : Prop :=
  IsZeroRun ws pos len ∧ ∀ p l, IsZeroRun ws p l → l ≤ len ∧ (l = len → pos ≤ p)

/-- The text `Inet6::to_string` writes around a gap at words `pos .. pos + len - 1`:
the words before the gap joined by colons, two colons, the words after the gap
joined by colons. -/
def Inet6.gap_text (ws : List Nat) (pos len : Nat) : List Nat :=
  join_colon ((ws.take pos).map sprintf_x) ++ 58 :: 58 ::
    join_colon ((ws.drop (pos + len)).map sprintf_x)

/-- Modelled from the spec: the system macro `IN6_IS_ADDR_V4COMPAT` behind
`Inet6::is_v4compat` (declared outside the source file); section 3: bytes 0..11
are zero, bytes 12..15 are not all zero and the address is not the loopback
`::1`. -/
def Inet6.is_v4compat (m_buffer : List Nat) : Prop :=
  (∀ i < 12, m_buffer.getD i 0 = 0) ∧ (∃ i < 4, m_buffer.getD (12 + i) 0 ≠ 0) ∧
    m_buffer ≠ [0, 0, 0, 0, 0, 0, 0, 0, 0, 0, 0, 0, 0, 0, 0, 1]

instance Inet6.is_v4compat.decidable (b : List Nat) : Decidable (Inet6.is_v4compat b) := by
  unfold Inet6.is_v4compat; infer_instance

/-- Modelled from the spec: the system macro `IN6_IS_ADDR_V4MAPPED` behind
`Inet6::is_v4mapped` (declared outside the source file); section 3: bytes 0..9
are zero, bytes 10 and 11 are `0xff`. -/
def Inet6.is_v4mapped (m_buffer : List Nat) : Prop :=
  (∀ i < 10, m_buffer.getD i 0 = 0) ∧ m_buffer.getD 10 0 = 0xff ∧ m_buffer.getD 11 0 = 0xff

instance Inet6.is_v4mapped.decidable (b : List Nat) : Decidable (Inet6.is_v4mapped b) := by
  unfold Inet6.is_v4mapped; infer_instance

/-- The text written by `Inet6::to_string` ends with the last four bytes in
dotted-quad form. -/
def Inet6.prints_ipv4_tail (m_buffer : List Nat) (dstsize : Nat) : Prop :=
  ∃ t, Inet6.to_string m_buffer dstsize = some t ∧
    Inet4.to_string (m_buffer.drop 12) INET_ADDRSTRLEN <:+ t

instance Inet6.prints_ipv4_tail.decidable (b : List Nat) (n : Nat) :
    Decidable (Inet6.prints_ipv4_tail b n) :=
  match h : Inet6.to_string b n with
  | none => isFalse (by
      rintro ⟨t, ht, _⟩
      rw [h] at ht
      cases ht)
  | some t =>
    if hs : Inet4.to_string (b.drop 12) INET_ADDRSTRLEN <:+ t then isTrue ⟨t, h, hs⟩
    else isFalse (by
      rintro ⟨t1, ht, hs1⟩
      rw [h] at ht
      cases ht
      exact hs hs1)

/-- The number of positions of a text at which two consecutive colons start
(overlapping occurrences are all counted). -/
def count_double_colon : List Nat → Nat
  | [] => 0
  | c :: rest => (if c = 58 ∧ rest.head? = some 58 then 1 else 0) + count_double_colon rest

/-- The text written by the iterations of the loop of step 3 of
`Inet6::to_string` for the `m` words from index `k` on, none of them in the gap
or at the IPv4 tail: each word in hex, followed by a colon unless it is the
last of the eight. -/
def Inet6.words_text (ws : List Nat) : Nat → Nat → List Nat
  | _, 0 => []
  | k, m + 1 =>
    sprintf_x (ws.getD k 0) ++ (if k + 1 ≠ IN6_ADDR_NUM_WORDS then [58] else []) ++
      Inet6.words_text ws (k + 1) m

/-- The condition on the eight words under which `Inet6::to_string` prints an
IPv4 tail: words 0..5 are zero and word 6 is not, or words 0..4 are zero and
word 5 is `0xffff`. -/
def Inet6.ipv4_tail_words (ws : List Nat) : Prop :=
  ((∀ i < 6, ws.getD i 1 = 0) ∧ ws.getD 6 0 ≠ 0) ∨
    ((∀ i < 5, ws.getD i 1 = 0) ∧ ws.getD 5 0 = 0xffff)

instance Inet6.ipv4_tail_words.decidable (ws : List Nat) :
    Decidable (Inet6.ipv4_tail_words ws) := by
  unfold Inet6.ipv4_tail_words; infer_instance

/-- Zero stays zero, every other word becomes one. -/
def Inet6.nz (w : Nat) : Nat := if w = 0 then 0 else 1

/-- The lists of `n` words, each zero or one. -/
def Inet6.zero_patterns : Nat → List (List Nat)
  | 0 => [[]]
  | n + 1 => (Inet6.zero_patterns n).map (0 :: ·) ++ (Inet6.zero_patterns n).map (1 :: ·)

instance IsLeftmostLongestZeroRun.decidable (ws : List Nat) (pos len : Nat) :
    Decidable (IsLeftmostLongestZeroRun ws pos len) :=
  decidable_of_iff (IsZeroRun ws pos len ∧ ∀ p ≤ ws.length, ∀ l ≤ ws.length,
      IsZeroRun ws p l → l ≤ len ∧ (l = len → pos ≤ p)) (by
    unfold IsLeftmostLongestZeroRun
    constructor
    · rintro ⟨h1, h2⟩
      refine ⟨h1, fun p l hr => ?_⟩
      have hb := hr.2.1
      exact h2 p (by omega) l (by omega) hr
    · rintro ⟨h1, h2⟩
      exact ⟨h1, fun p _ l _ hr => h2 p l hr⟩)

/-- The groups, each followed by a colon. -/
def groups_colon : List (List Nat) → List Nat
  | [] => []
  | g :: gs => g ++ 58 :: groups_colon gs

/-- The commits of the group values `vs` by `Inet6::str_to_ipv6`, the first at
offset `dst`. -/
def Inet6.store_groups (m_buffer : List Nat) : Nat → List Nat → List Nat
  | _, [] => m_buffer
  | dst, v :: vs => Inet6.store_groups (Inet6.store_group m_buffer dst v) (dst + 2) vs

/-- A list of bytes. -/
def IsByteList (l : List Nat) : Prop := ∀ x ∈ l, x < 256

/-! ## Vocabulary of the statements about `INET_ATON` and `INET_NTOA` -/

/-- The first group of a dotted text (the bytes before its first dot) and the
groups after the first dot; the groups are the maximal runs of bytes other
than a dot, and a group may be empty. -/
def dot_split : List Nat → List Nat × List (List Nat)
  | [] => ([], [])
  | c :: s =>
    if c = 46 then ([], (dot_split s).1 :: (dot_split s).2)
    else (c :: (dot_split s).1, (dot_split s).2)

/-- The groups of a dotted text: what stands before, between and after its
dots. -/
def dot_groups (s : List Nat) : List (List Nat) := (dot_split s).1 :: (dot_split s).2

/-- A run of decimal digits, possibly empty, of value at most 255. -/
def IsDecRun (g : List Nat) : Prop := (∀ d ∈ g, 48 ≤ d ∧ d ≤ 57) ∧ dec_value g ≤ 255

instance IsDecRun.decidable (g : List Nat) : Decidable (IsDecRun g) := by
  unfold IsDecRun; infer_instance

/-- A decimal integer in 0..255 written without leading zeros: a non-empty run
of digits of value at most 255 that starts with `0` only when it is `0`. -/
def IsCanonicalOctet (g : List Nat) : Prop :=
  g ≠ [] ∧ IsDecRun g ∧ (g.head? = some 48 → g = [48])

instance IsCanonicalOctet.decidable (g : List Nat) : Decidable (IsCanonicalOctet g) := by
  unfold IsCanonicalOctet; infer_instance

/-! ## `Inet6::cmp`, `Inet6::make_from_item` and the predicates on items -/

/-- The C routine `memcmp(s1, s2, n)` on two arrays that hold at least `n`
bytes: zero when the first `n` bytes agree, else the difference of the first
two bytes that differ, read as `unsigned char`.  The C standard fixes only the
sign of the result; the theorems use nothing else. -/
def memcmp : List Nat → List Nat → Nat → Int
  | a :: s1, b :: s2, n + 1 => if a ≠ b then (a : Int) - (b : Int) else memcmp s1 s2 n
  | _, _, _ => 0

/-- The method `Inet6::cmp(other)`. -/
def Inet6.cmp (m_buffer other : List Nat) : Int := memcmp m_buffer other IN6_ADDR_SIZE

/-- The method `Inet6::binary_length()`. -/
def Inet6.binary_length : Nat := IN6_ADDR_SIZE

/-- The method `Type_handler_inet6::cmp_native(a, b)`; both natives hold
`Inet6::binary_length()` bytes (asserted by the source). -/
def Type_handler_inet6.cmp_native (a b : List Nat) : Int := memcmp a b Inet6.binary_length

/-- What `Inet6::make_from_item` reads of an `Item`: either its type handler
is `type_handler_inet6` and `val_native` gives sixteen bytes (`none` when it
returns true), or `val_str` gives a string (`none` for a null pointer) whose
character set is `my_charset_bin` or not. -/
inductive Item where
  | inet6 (val_native : Option (List Nat))
  | string (val_str : Option (Bool × List Nat))

/-- The method `Inet6::make_from_item(item)`: `none` when it returns true, the
sixteen bytes of `m_buffer` when it returns false.  The second component of a
string says that its character set is `my_charset_bin`; the warnings pushed on
failure are not modelled. -/
def Inet6.make_from_item : Item → Option (List Nat)
  | Item.inet6 none => none
  | Item.inet6 (some tmp) => some tmp
  | Item.string none => none
  | Item.string (some (is_binary, str)) =>
    if ¬ is_binary then Inet6.str_to_ipv6 str
    else if str.length ≠ IN6_ADDR_SIZE then none
    else some str

/-- The method `Item_func_is_ipv4_compat::val_int`. -/
def Item_func_is_ipv4_compat.val_int (arg : Item) : Int :=
  match Inet6.make_from_item arg with
  | none => 0
  | some ip6 => if Inet6.is_v4compat ip6 then 1 else 0

/-- The method `Item_func_is_ipv4_mapped::val_int`. -/
def Item_func_is_ipv4_mapped.val_int (arg : Item) : Int :=
  match Inet6.make_from_item arg with
  | none => 0
  | some ip6 => if Inet6.is_v4mapped ip6 then 1 else 0

/-! ## What `Inet6::to_string` returns -/

/-- Step 3 of `Inet6::to_string` once more, with all that a call shows: the
text written, the value returned (`p - dst`, plus the value returned by
`Inet4::to_string` in the IPv4 branch) and whether the loop was left by the
`break` taken when fewer than 5 bytes are free.  `none` reports that the fuel
ran out. -/
def Inet6.to_string_loop_trace (m_buffer ipv6_words : List Nat) (gap : Region) (dstsize : Nat) :
    Nat → Int → List Nat → Option (List Nat × Nat × Bool)
  | 0, i, p => if i < (IN6_ADDR_NUM_WORDS : Int) then none else some (p, p.length, false)
  | fuel + 1, i, p =>
    if ¬ i < (IN6_ADDR_NUM_WORDS : Int) then some (p, p.length, false)
    else if dstsize - p.length < 5 then some (p, p.length, true)
    else if i = gap.pos then
      let p := if i = 0 then p ++ [58] else p
      let p := p ++ [58]
      Inet6.to_string_loop_trace m_buffer ipv6_words gap dstsize fuel
        (i + (gap.length - 1) + 1) p
    else if i = 6 ∧ gap.pos = 0 ∧
        (gap.length = 6 ∨ (gap.length = 5 ∧ ipv6_words.getD 5 0 = 0xffff)) then
      some (p ++ Inet4.to_string ((m_buffer.drop 12).take 4) (dstsize - p.length),
        p.length + (Inet4.to_string ((m_buffer.drop 12).take 4) (dstsize - p.length)).length,
        false)
    else
      let p := p ++ sprintf_x (ipv6_words.getD i.toNat 0)
      let p := if i + 1 ≠ (IN6_ADDR_NUM_WORDS : Int) then p ++ [58] else p
      Inet6.to_string_loop_trace m_buffer ipv6_words gap dstsize fuel (i + 1) p

/-- The method `Inet6::to_string(dst, dstsize)` with the text written, the
value returned and whether the `break` was taken. -/
def Inet6.to_string_trace (m_buffer : List Nat) (dstsize : Nat) :
    Option (List Nat × Nat × Bool) :=
  let ipv6_words := Inet6.ipv6_words m_buffer
  Inet6.to_string_loop_trace m_buffer ipv6_words (Inet6.find_gap ipv6_words) dstsize
    IN6_ADDR_NUM_WORDS 0 []

/-! ## Vocabulary of the statements about letter case -/

/-- The lowercase form of the ASCII letters `A`..`F`; other bytes are kept. -/
def lower_hex_letter (c : Nat) : Nat := if 65 ≤ c ∧ c ≤ 70 then c + 32 else c

/-! ## `IS_IPV4` and `IS_IPV6` -/

/-- The method `Item_func_is_ipv4::val_int`: the argument is the value of
`args[0]` as a string (`none` for SQL NULL). -/
def Item_func_is_ipv4.val_int (arg : Option (List Nat)) : Int :=
  match arg with
  | none => 0
  | some s => if (Inet4.str_to_ipv4 s).isSome then 1 else 0

/-- The method `Item_func_is_ipv6::val_int`: the argument is the value of
`args[0]` as a string (`none` for SQL NULL). -/
def Item_func_is_ipv6.val_int (arg : Option (List Nat)) : Int :=
  match arg with
  | none => 0
  | some s => if (Inet6.str_to_ipv6 s).isSome then 1 else 0

/-! ## The buffer accesses and the assertion of `Inet6::str_to_ipv6` -/

/-- What the instrumented `Inet6::str_to_ipv6` records: the two stores of a
group at `dst[0]` and `dst[1]`; the copy of four bytes to `dst`; one iteration
of the fix-up loop, which reads and clears `gap_ptr[bytes_to_move - i]` (`src`)
and writes `ipv6_bytes_end[-i]` (`trg`); an evaluation of
`DBUG_ASSERT(group_value <= 0xffff)`.  Offsets are relative to `m_buffer`;
those of the fix-up loop are integers, as the source computes them with `int`
arithmetic. -/
inductive Inet6.Event where
  | store_group (dst group_value : Nat)
  | store_ipv4 (dst : Nat)
  | move (src trg : Int)
  | assert_group_value (group_value : Nat)
  deriving DecidableEq

/-- The offsets of `m_buffer` that an event reads or writes. -/
def Inet6.Event.offsets : Inet6.Event → List Int
  | Inet6.Event.store_group dst _ => [(dst : Int), (dst : Int) + 1]
  | Inet6.Event.store_ipv4 dst => [(dst : Int), (dst : Int) + 1, (dst : Int) + 2, (dst : Int) + 3]
  | Inet6.Event.move src trg => [trg, src]
  | Inet6.Event.assert_group_value _ => []

/-- The loop `while (p < str_end && *p)` of `Inet6::str_to_ipv6` once more,
with the events of the run besides the state in which the loop is left
(`none` is `return true`). -/
def Inet6.scan_trace : List Nat → List Nat → Nat → Option Nat → List Nat → Nat → Nat →
    List Inet6.Event × Option Inet6.Scan
  | [], m_buffer, dst, gap_ptr, _, chars_in_group, group_value =>
    ([], some ⟨m_buffer, dst, gap_ptr, chars_in_group, group_value⟩)
  | c :: p, m_buffer, dst, gap_ptr, group_start, chars_in_group, group_value =>
    if c = 0 then ([], some ⟨m_buffer, dst, gap_ptr, chars_in_group, group_value⟩)
    else if c = 58 then
      if chars_in_group = 0 then
        if gap_ptr.isSome then ([], none)
        else Inet6.scan_trace p m_buffer dst (some dst) p chars_in_group group_value
      else if p.head? = some 0 ∨ p = [] then ([], none)
      else if dst + 2 > IN6_ADDR_SIZE then ([], none)
      else
        (Inet6.Event.store_group dst group_value ::
            (Inet6.scan_trace p (Inet6.store_group m_buffer dst group_value) (dst + 2) gap_ptr
              p 0 0).1,
          (Inet6.scan_trace p (Inet6.store_group m_buffer dst group_value) (dst + 2) gap_ptr
            p 0 0).2)
    else if c = 46 then
      if dst + IN_ADDR_SIZE > IN6_ADDR_SIZE then ([], none)
      else
        match Inet4.str_to_ipv4 group_start with
        | none => ([], none)
        | some ipv4 =>
          ([Inet6.Event.store_ipv4 dst],
            some ⟨Inet6.store_ipv4 m_buffer dst ipv4, dst + IN_ADDR_SIZE, gap_ptr, 0,
              group_value⟩)
    else
      match strchr HEX_DIGITS (my_tolower c) with
      | none => ([], none)
      | some hdp =>
        if chars_in_group ≥ 4 then ([], none)
        else
          (Inet6.Event.assert_group_value ((group_value <<< 4) ||| hdp) ::
              (Inet6.scan_trace p m_buffer dst gap_ptr group_start (chars_in_group + 1)
                ((group_value <<< 4) ||| hdp)).1,
            (Inet6.scan_trace p m_buffer dst gap_ptr group_start (chars_in_group + 1)
              ((group_value <<< 4) ||| hdp)).2)

/-- The events of the code of `Inet6::str_to_ipv6` after the scanning loop:
the commit of a pending group and the iterations `i = 1 .. bytes_to_move` of
the fix-up loop, with `bytes_to_move = (int) (dst - gap_ptr)`. -/
def Inet6.str_to_ipv6_end_trace (st : Inet6.Scan) : List Inet6.Event :=
  if st.chars_in_group > 0 ∧ st.dst + 2 > IN6_ADDR_SIZE then []
  else
    let commit :=
      if st.chars_in_group > 0 then [Inet6.Event.store_group st.dst st.group_value] else []
    let dst := if st.chars_in_group > 0 then st.dst + 2 else st.dst
    match st.gap_ptr with
    | some gap_ptr =>
      if dst = IN6_ADDR_SIZE then commit
      else
        let bytes_to_move : Int := (dst : Int) - (gap_ptr : Int)
        commit ++ (List.range bytes_to_move.toNat).map fun (k : Nat) =>
          Inet6.Event.move ((gap_ptr : Int) + (bytes_to_move - ((k : Int) + 1)))
            ((IN6_ADDR_SIZE : Int) - ((k : Int) + 1))
    | none => commit

/-- The method `Inet6::str_to_ipv6(str, str_length, cs)` with the events of
the call besides its result. -/
def Inet6.str_to_ipv6_trace (str : List Nat) : List Inet6.Event × Option (List Nat) :=
  if str.length < 2 then ([], none)
  else if str.length > IN6_ADDR_MAX_CHAR_LENGTH then ([], none)
  else
    let m_buffer := List.replicate IN6_ADDR_SIZE 0
    if str.head? = some 58 ∧ (str.drop 1).head? ≠ some 58 then ([], none)
    else
      let p := if str.head? = some 58 then str.drop 1 else str
      match Inet6.scan_trace p m_buffer 0 none p 0 0 with
      | (events, none) => (events, none)
      | (events, some st) => (events ++ Inet6.str_to_ipv6_end_trace st, Inet6.str_to_ipv6_end st)

/-- The values of `group_value` that an event asserts to be at most `0xffff`
or commits to the buffer. -/
def Inet6.Event.group_values : Inet6.Event → List Nat
  | Inet6.Event.store_group _ group_value => [group_value]
  | Inet6.Event.store_ipv4 _ => []
  | Inet6.Event.move _ _ => []
  | Inet6.Event.assert_group_value group_value => [group_value]

/-! ## Theorems about `Inet4::str_to_ipv4` and `Inet4::to_string` -/

theorem dec_acc_nil (v : Nat) : dec_acc v [] = v := rfl

theorem dec_acc_cons (v d : Nat) (g : List Nat) :
    dec_acc v (d :: g) = dec_acc (v * 10 + (d - 48)) g := rfl

theorem dec_acc_ge (g : List Nat) : ∀ v, v ≤ dec_acc v g := by
  induction g with
  | nil => intro v; exact Nat.le_refl v
  | cons d g ih =>
    intro v
    rw [dec_acc_cons]
    exact Nat.le_trans (by omega) (ih _)

theorem my_isdigit_iff (c : Nat) : my_isdigit c = true ↔ 48 ≤ c ∧ c ≤ 57 := by
  simp [my_isdigit]

/-- Scanning a run of digits that fits the group accumulates its value. -/
theorem Inet4.scan_digits (g : List Nat) (hg : ∀ d ∈ g, 48 ≤ d ∧ d ≤ 57) (tail bytes : List Nat)
    (dc : Nat) : ∀ (bv cig c : Nat), cig + g.length ≤ 3 → dec_acc bv g ≤ 255 →
    Inet4.scan (g ++ tail) bytes bv cig dc c =
      Inet4.scan tail bytes (dec_acc bv g) (cig + g.length) dc (g.getLastD c) := by
  induction g with
  | nil => intro bv cig c _ _; simp [dec_acc_nil]
  | cons d g ih =>
    intro bv cig c hlen hval
    have hd := hg d (List.mem_cons_self _ _)
    have hdig : my_isdigit d = true := (my_isdigit_iff d).2 hd
    have hd0 : d ≠ 0 := by omega
    rw [dec_acc_cons] at hval
    have hle := dec_acc_ge g (bv * 10 + (d - 48))
    simp only [List.length_cons] at hlen
    have h1 : ¬ (cig + 1 > 3) := by omega
    have h2 : ¬ (bv * 10 + (d - 48) > 255) := by omega
    rw [List.cons_append, Inet4.scan]
    simp only [hd0, hdig, h1, h2, if_false, if_true]
    rw [ih (fun x hx => hg x (List.mem_cons_of_mem _ hx)) _ _ _ (by omega) hval, dec_acc_cons]
    congr 1
    · simp only [List.length_cons]; omega
    · cases g with
      | nil => rfl
      | cons a t => simp [List.getLastD]

/-- A dot after a non-empty group stores the byte and starts the next group. -/
theorem Inet4.scan_dot (tail bytes : List Nat) (bv cig dc c : Nat) (hcig : cig ≠ 0)
    (hdc : dc + 1 ≤ 3) :
    Inet4.scan (46 :: tail) bytes bv cig dc c =
      Inet4.scan tail (bytes.set dc (bv % 256)) 0 0 (dc + 1) 46 := by
  have h1 : ¬ (dc + 1 > 3) := by omega
  rw [Inet4.scan]
  simp [my_isdigit, hcig, h1]

/-- What a successful scan of a text without NUL bytes has read: a run of
digits, then either the end of the text or a dot and the rest. -/
theorem Inet4.scan_shape (s : List Nat) (h0 : 0 ∉ s) :
    ∀ (bytes : List Nat) (bv cig dc c : Nat) (st : Inet4.Scan), bv ≤ 255 → cig ≤ 3 →
    Inet4.scan s bytes bv cig dc c = some st →
    ∃ g tail, s = g ++ tail ∧ (∀ d ∈ g, 48 ≤ d ∧ d ≤ 57) ∧ cig + g.length ≤ 3 ∧
      dec_acc bv g ≤ 255 ∧
      ((tail = [] ∧ st = ⟨bytes, dec_acc bv g, dc, g.getLastD c⟩) ∨
       (∃ s', tail = 46 :: s' ∧ 1 ≤ cig + g.length ∧ dc + 1 ≤ 3 ∧
          Inet4.scan s' (bytes.set dc (dec_acc bv g % 256)) 0 0 (dc + 1) 46 = some st)) := by
  induction s with
  | nil =>
    intro bytes bv cig dc c st hbv hcig h
    simp only [Inet4.scan, Option.some.injEq] at h
    exact ⟨[], [], rfl, by simp, by simpa using hcig, by simpa [dec_acc_nil] using hbv,
      Or.inl ⟨rfl, by rw [← h]; rfl⟩⟩
  | cons ch p ih =>
    intro bytes bv cig dc c st hbv hcig h
    have hch : ch ≠ 0 := fun e => h0 (e ▸ List.mem_cons_self _ _)
    have hp : 0 ∉ p := fun e => h0 (List.mem_cons_of_mem _ e)
    rw [Inet4.scan] at h
    simp only [hch, if_false] at h
    by_cases hdig : my_isdigit ch = true
    · simp only [hdig, if_true] at h
      by_cases h1 : cig + 1 > 3
      · simp [h1] at h
      · by_cases h2 : bv * 10 + (ch - 48) > 255
        · simp [h1, h2] at h
        · simp only [h1, h2, if_false] at h
          obtain ⟨g, tail, hs, hg, hlen, hval, hcase⟩ := ih hp _ _ _ _ _ _ (by omega) (by omega) h
          refine ⟨ch :: g, tail, by simp [hs], ?_, by simp only [List.length_cons]; omega,
            by rw [dec_acc_cons]; exact hval, ?_⟩
          · intro d hd
            rcases List.mem_cons.1 hd with rfl | hd
            · exact (my_isdigit_iff _).1 hdig
            · exact hg d hd
          · rcases hcase with ⟨ht, hst⟩ | ⟨s', ht, hc1, hc2, hsc⟩
            · left
              refine ⟨ht, ?_⟩
              rw [hst, dec_acc_cons]
              cases g with
              | nil => rfl
              | cons a t => simp [List.getLastD]
            · right
              refine ⟨s', ht, by simp only [List.length_cons]; omega, hc2, ?_⟩
              rw [dec_acc_cons]; exact hsc
    · simp only [hdig] at h
      by_cases h46 : ch = 46
      · subst h46
        by_cases hc0 : cig = 0
        · simp [hc0] at h
        · by_cases hd3 : dc + 1 > 3
          · simp [hc0, hd3] at h
          · simp only [hc0, hd3, if_false, if_true] at h
            refine ⟨[], 46 :: p, rfl, by simp, by simpa using hcig, ?_, Or.inr ⟨p, rfl, ?_, ?_, ?_⟩⟩
            · rw [dec_acc_nil]; exact hbv
            · simp; omega
            · omega
            · rw [dec_acc_nil]; exact h
      · simp [h46] at h

theorem getLastD_mem_of_ne_nil (g : List Nat) (c : Nat) (h : g ≠ []) : g.getLastD c ∈ g := by
  cases g with
  | nil => exact absurd rfl h
  | cons a t =>
    simp only [List.getLastD]
    exact List.getLast_mem _

theorem IsDecGroup.dec_ne_nil {g : List Nat} (h : IsDecGroup g) : g ≠ [] := by
  intro e; subst e; exact absurd h.1 (by simp)

/-- The strict decoder accepts four groups joined by three dots and returns
their values. -/
theorem Inet4.str_to_ipv4_groups (g0 g1 g2 g3 : List Nat) (h0 : IsDecGroup g0)
    (h1 : IsDecGroup g1) (h2 : IsDecGroup g2) (h3 : IsDecGroup g3) :
    Inet4.str_to_ipv4 (g0 ++ 46 :: (g1 ++ 46 :: (g2 ++ 46 :: g3))) =
      some [dec_value g0, dec_value g1, dec_value g2, dec_value g3] := by
  obtain ⟨a0, b0, d0, v0⟩ := h0
  obtain ⟨a1, b1, d1, v1⟩ := h1
  obtain ⟨a2, b2, d2, v2⟩ := h2
  obtain ⟨a3, b3, d3, v3⟩ := h3
  have hl1 : ¬ (g0 ++ 46 :: (g1 ++ 46 :: (g2 ++ 46 :: g3))).length < 7 := by
    simp only [List.length_append, List.length_cons]; omega
  have hl2 : ¬ (g0 ++ 46 :: (g1 ++ 46 :: (g2 ++ 46 :: g3))).length > 15 := by
    simp only [List.length_append, List.length_cons]; omega
  have hsc : Inet4.scan (g0 ++ 46 :: (g1 ++ 46 :: (g2 ++ 46 :: g3))) [0, 0, 0, 0] 0 0 0 0 =
      some ⟨[dec_value g0, dec_value g1, dec_value g2, 0], dec_value g3, 3, g3.getLastD 46⟩ := by
    rw [Inet4.scan_digits g0 d0 _ _ _ _ _ _ (by omega) v0,
      Inet4.scan_dot _ _ _ _ _ _ (by omega) (by omega),
      Inet4.scan_digits g1 d1 _ _ _ _ _ _ (by omega) v1,
      Inet4.scan_dot _ _ _ _ _ _ (by omega) (by omega),
      Inet4.scan_digits g2 d2 _ _ _ _ _ _ (by omega) v2,
      Inet4.scan_dot _ _ _ _ _ _ (by omega) (by omega)]
    have := Inet4.scan_digits g3 d3 [] [dec_value g0, dec_value g1, dec_value g2, 0] 3 0 0 46
      (by omega) v3
    rw [List.append_nil] at this
    have e0 : dec_acc 0 g0 % 256 = dec_value g0 := Nat.mod_eq_of_lt (by unfold dec_value at v0; omega)
    have e1 : dec_acc 0 g1 % 256 = dec_value g1 := Nat.mod_eq_of_lt (by unfold dec_value at v1; omega)
    have e2 : dec_acc 0 g2 % 256 = dec_value g2 := Nat.mod_eq_of_lt (by unfold dec_value at v2; omega)
    simp only [e0, e1, e2, List.set_cons_zero, List.set_cons_succ]
    rw [this]
    simp [Inet4.scan, dec_value]
  have hc : g3.getLastD 46 ≠ 46 := by
    have hm := getLastD_mem_of_ne_nil g3 46 (by intro e; subst e; simp at a3)
    have := d3 _ hm
    omega
  have e3 : dec_value g3 % 256 = dec_value g3 := Nat.mod_eq_of_lt (by omega)
  unfold Inet4.str_to_ipv4
  simp only [hl1, hl2, if_false, hsc, hc, e3]
  simp

/-- A text without NUL bytes that the strict decoder accepts is four groups
joined by three dots, and the result is the list of their values. -/
theorem Inet4.str_to_ipv4_inv (s : List Nat) (hz : 0 ∉ s) (r : List Nat)
    (h : Inet4.str_to_ipv4 s = some r) :
    ∃ g0 g1 g2 g3, IsDecGroup g0 ∧ IsDecGroup g1 ∧ IsDecGroup g2 ∧ IsDecGroup g3 ∧
      s = g0 ++ 46 :: (g1 ++ 46 :: (g2 ++ 46 :: g3)) ∧
      r = [dec_value g0, dec_value g1, dec_value g2, dec_value g3] := by
  unfold Inet4.str_to_ipv4 at h
  split at h
  · exact absurd h (by simp)
  split at h
  · exact absurd h (by simp)
  split at h
  · exact absurd h (by simp)
  rename_i st hst
  split at h
  · exact absurd h (by simp)
  rename_i hc
  split at h
  · exact absurd h (by simp)
  rename_i hdc
  simp only [ne_eq, Decidable.not_not] at hdc
  simp only [Option.some.injEq] at h
  -- first group
  obtain ⟨g0, t0, hs0, hd0, hl0, hv0, hcase⟩ :=
    Inet4.scan_shape s hz _ _ _ _ _ _ (by omega) (by omega) hst
  rcases hcase with ⟨_, hst0⟩ | ⟨s1, ht0, hn0, _, hsc1⟩
  · rw [hst0] at hdc; simp at hdc
  have hz1 : 0 ∉ s1 := by
    intro hm; apply hz; rw [hs0, ht0]; simp [hm]
  obtain ⟨g1, t1, hs1, hd1, hl1, hv1, hcase⟩ :=
    Inet4.scan_shape s1 hz1 _ _ _ _ _ _ (by omega) (by omega) hsc1
  rcases hcase with ⟨_, hst1⟩ | ⟨s2, ht1, hn1, _, hsc2⟩
  · rw [hst1] at hdc; simp at hdc
  have hz2 : 0 ∉ s2 := by
    intro hm; apply hz1; rw [hs1, ht1]; simp [hm]
  obtain ⟨g2, t2, hs2, hd2, hl2, hv2, hcase⟩ :=
    Inet4.scan_shape s2 hz2 _ _ _ _ _ _ (by omega) (by omega) hsc2
  rcases hcase with ⟨_, hst2⟩ | ⟨s3, ht2, hn2, _, hsc3⟩
  · rw [hst2] at hdc; simp at hdc
  have hz3 : 0 ∉ s3 := by
    intro hm; apply hz2; rw [hs2, ht2]; simp [hm]
  obtain ⟨g3, t3, hs3, hd3, hl3, hv3, hcase⟩ :=
    Inet4.scan_shape s3 hz3 _ _ _ _ _ _ (by omega) (by omega) hsc3
  rcases hcase with ⟨ht3, hst3⟩ | ⟨s4, _, _, hbad, _⟩
  swap
  · omega
  have hg3 : g3 ≠ [] := by
    intro e; subst e; rw [hst3] at hc; simp [List.getLastD] at hc
  have hn3 : 1 ≤ g3.length := by
    cases g3 with
    | nil => exact absurd rfl hg3
    | cons a t => simp
  refine ⟨g0, g1, g2, g3, ⟨by omega, by omega, hd0, hv0⟩, ⟨by omega, by omega, hd1, hv1⟩,
    ⟨by omega, by omega, hd2, hv2⟩, ⟨hn3, by omega, hd3, hv3⟩, ?_, ?_⟩
  · rw [hs0, ht0, hs1, ht1, hs2, ht2, hs3, ht3, List.append_nil]
  · have e0 : dec_acc 0 g0 % 256 = dec_value g0 := Nat.mod_eq_of_lt (by omega)
    have e1 : dec_acc 0 g1 % 256 = dec_value g1 := Nat.mod_eq_of_lt (by omega)
    have e2 : dec_acc 0 g2 % 256 = dec_value g2 := Nat.mod_eq_of_lt (by omega)
    have e3 : dec_acc 0 g3 % 256 = dec_value g3 := Nat.mod_eq_of_lt (by omega)
    rw [← h, hst3]
    simp [e0, e1, e2, e3]

/-- The text `%d` writes for a byte is a group whose value is the byte. -/
theorem sprintf_d_byte : ∀ x < 256, IsDecGroup (sprintf_d x) ∧ dec_value (sprintf_d x) = x := by
  decide

/-- A byte that is neither NUL, a digit nor a dot, met before any NUL byte,
makes the scan fail. -/
theorem Inet4.scan_invalid (pre post : List Nat) (x : Nat) (hpre : 0 ∉ pre) (hx : x ≠ 0)
    (hnd : ¬ (48 ≤ x ∧ x ≤ 57)) (hdot : x ≠ 46) :
    ∀ (bytes : List Nat) (bv cig dc c : Nat),
    Inet4.scan (pre ++ x :: post) bytes bv cig dc c = none := by
  induction pre with
  | nil =>
    intro bytes bv cig dc c
    have hd : my_isdigit x = false := by
      rw [← Bool.not_eq_true, my_isdigit_iff]; exact hnd
    simp [Inet4.scan, hx, hd, hdot]
  | cons ch p ih =>
    intro bytes bv cig dc c
    have hch : ch ≠ 0 := fun e => hpre (e ▸ List.mem_cons_self _ _)
    have hp : 0 ∉ p := fun e => hpre (List.mem_cons_of_mem _ e)
    rw [List.cons_append, Inet4.scan]
    simp only [hch, if_false, ih hp]
    split_ifs <;> rfl

theorem Inet4.str_to_ipv4_invalid (pre post : List Nat) (x : Nat) (hpre : 0 ∉ pre) (hx : x ≠ 0)
    (hnd : ¬ (48 ≤ x ∧ x ≤ 57)) (hdot : x ≠ 46) :
    Inet4.str_to_ipv4 (pre ++ x :: post) = none := by
  unfold Inet4.str_to_ipv4
  rw [Inet4.scan_invalid pre post x hpre hx hnd hdot]
  split_ifs <;> rfl

theorem Inet4.to_string_eq (b0 b1 b2 b3 n : Nat) (h0 : b0 < 256) (h1 : b1 < 256) (h2 : b2 < 256)
    (h3 : b3 < 256) (hn : 16 ≤ n) :
    Inet4.to_string [b0, b1, b2, b3] n =
      sprintf_d b0 ++ 46 :: (sprintf_d b1 ++ 46 :: (sprintf_d b2 ++ 46 :: sprintf_d b3)) := by
  have l0 := (sprintf_d_byte b0 h0).1.2.1
  have l1 := (sprintf_d_byte b1 h1).1.2.1
  have l2 := (sprintf_d_byte b2 h2).1.2.1
  have l3 := (sprintf_d_byte b3 h3).1.2.1
  simp only [Inet4.to_string, my_snprintf_ipv4, List.getD_cons_zero, List.getD_cons_succ]
  rw [List.take_of_length_le]
  · simp
  · simp only [List.length_append, List.length_cons]; omega

theorem Inet4.roundtrip4 (b0 b1 b2 b3 n : Nat) (h0 : b0 < 256) (h1 : b1 < 256) (h2 : b2 < 256)
    (h3 : b3 < 256) (hn : 16 ≤ n) :
    Inet4.str_to_ipv4 (Inet4.to_string [b0, b1, b2, b3] n) = some [b0, b1, b2, b3] := by
  rw [Inet4.to_string_eq b0 b1 b2 b3 n h0 h1 h2 h3 hn,
    Inet4.str_to_ipv4_groups _ _ _ _ (sprintf_d_byte b0 h0).1 (sprintf_d_byte b1 h1).1
      (sprintf_d_byte b2 h2).1 (sprintf_d_byte b3 h3).1,
    (sprintf_d_byte b0 h0).2, (sprintf_d_byte b1 h1).2, (sprintf_d_byte b2 h2).2,
    (sprintf_d_byte b3 h3).2]

theorem IsInet4.eq_list4 {b : List Nat} (h : IsInet4 b) :
    ∃ b0 b1 b2 b3, b = [b0, b1, b2, b3] ∧ b0 < 256 ∧ b1 < 256 ∧ b2 < 256 ∧ b3 < 256 := by
  obtain ⟨hl, hb⟩ := h
  match b, hl with
  | [b0, b1, b2, b3], _ =>
    exact ⟨b0, b1, b2, b3, rfl, hb _ (by simp), hb _ (by simp), hb _ (by simp), hb _ (by simp)⟩

/-! ## Hex digits and the conversion `%x` -/

theorem shl4_or (a d : Nat) (hd : d < 16) : (a <<< 4) ||| d = a * 16 + d := by
  have h := Nat.mul_add_lt_is_or (i := 4) (b := d) (by simpa using hd) a
  rw [Nat.shiftLeft_eq, Nat.mul_comm]
  simp only [Nat.reducePow] at h ⊢
  rw [← h]

theorem shr8_mod (v : Nat) : (v >>> 8) % 256 = v / 256 % 256 := by
  rw [Nat.shiftRight_eq_div_pow]

theorem hex_acc_nil (v : Nat) : hex_acc v [] = v := rfl

theorem hex_acc_cons (v c : Nat) (g : List Nat) :
    hex_acc v (c :: g) = hex_acc (v * 16 + hex_digit_value c) g := rfl

/-- What `strchr(HEX_DIGITS, my_tolower(c))` finds for a hex digit. -/
theorem strchr_hex_digit (c : Nat) (h : is_hex_digit c) :
    strchr HEX_DIGITS (my_tolower c) = some (hex_digit_value c) ∧ hex_digit_value c < 16 ∧
      c ≠ 0 ∧ c ≠ 58 ∧ c ≠ 46 := by
  have hc : c < 103 := by
    rcases h with h | h | h <;> omega
  have key : ∀ c < 103, is_hex_digit c →
      strchr HEX_DIGITS (my_tolower c) = some (hex_digit_value c) ∧ hex_digit_value c < 16 ∧
        c ≠ 0 ∧ c ≠ 58 ∧ c ≠ 46 := by decide
  exact key c hc h

theorem lower_hex_digit_spec : ∀ d < 16, is_hex_digit (lower_hex_digit d) ∧
    hex_digit_value (lower_hex_digit d) = d ∧
    ((48 ≤ lower_hex_digit d ∧ lower_hex_digit d ≤ 57) ∨
      (97 ≤ lower_hex_digit d ∧ lower_hex_digit d ≤ 102)) ∧
    (lower_hex_digit d = 48 → d = 0) := by
  decide

/-- The fuel of `sprintf_digits` does not matter once it covers the digits. -/
theorem sprintf_digits_fuel (base : Nat) (digit : Nat → Nat) :
    ∀ (k fuel n : Nat) (acc : List Nat), n < base ^ (k + 1) → k + 1 ≤ fuel →
    sprintf_digits base digit fuel n acc = sprintf_digits base digit (k + 1) n acc := by
  intro k
  induction k with
  | zero =>
    intro fuel n acc hn hf
    obtain ⟨f, rfl⟩ : ∃ f, fuel = f + 1 := ⟨fuel - 1, by omega⟩
    have hb : n < base := by simpa using hn
    simp [sprintf_digits, hb]
  | succ k ih =>
    intro fuel n acc hn hf
    obtain ⟨f, rfl⟩ : ∃ f, fuel = f + 1 := ⟨fuel - 1, by omega⟩
    rw [sprintf_digits, sprintf_digits]
    by_cases hb : n < base
    · simp [hb]
    · simp only [hb, if_false]
      have hpos : 0 < base := by
        rcases Nat.eq_zero_or_pos base with h0 | h0
        · subst h0; simp at hn
        · exact h0
      have hdiv : n / base < base ^ (k + 1) := by
        rw [Nat.div_lt_iff_lt_mul hpos]
        calc n < base ^ (k + 1 + 1) := hn
          _ = base ^ (k + 1) * base := by rw [Nat.pow_succ]
      rw [ih f (n / base) _ hdiv (by omega)]

/-- The text `%x` writes for a 16-bit word, by number of digits. -/
theorem sprintf_x_cases (w : Nat) (hw : w < 65536) :
    sprintf_x w =
      if w < 16 then [lower_hex_digit w]
      else if w < 256 then [lower_hex_digit (w / 16), lower_hex_digit (w % 16)]
      else if w < 4096 then
        [lower_hex_digit (w / 256), lower_hex_digit (w / 16 % 16), lower_hex_digit (w % 16)]
      else [lower_hex_digit (w / 4096), lower_hex_digit (w / 256 % 16),
        lower_hex_digit (w / 16 % 16), lower_hex_digit (w % 16)] := by
  unfold sprintf_x
  by_cases h1 : w < 16
  · rw [sprintf_digits_fuel 16 _ 0 (w + 1) w [] (by simpa using h1) (by omega)]
    simp [sprintf_digits, h1]
  by_cases h2 : w < 256
  · rw [sprintf_digits_fuel 16 _ 1 (w + 1) w [] (by simpa using h2) (by omega)]
    have : w / 16 < 16 := by omega
    simp [sprintf_digits, h1, h2, this]
  by_cases h3 : w < 4096
  · rw [sprintf_digits_fuel 16 _ 2 (w + 1) w [] (by simpa using h3) (by omega)]
    have a1 : w / 16 / 16 < 16 := by omega
    have a2 : ¬ w / 16 < 16 := by omega
    have a3 : w / 16 / 16 = w / 256 := by omega
    have a4 : w / 256 < 16 := by omega
    simp [sprintf_digits, h1, h2, h3, a2, a3, a4]
  · rw [sprintf_digits_fuel 16 _ 3 (w + 1) w [] (by simpa using hw) (by omega)]
    have a1 : ¬ w / 16 / 16 < 16 := by omega
    have a2 : ¬ w / 16 < 16 := by omega
    have a3 : w / 16 / 16 = w / 256 := by omega
    have a4 : w / 16 / 16 / 16 < 16 := by omega
    have a5 : w / 256 / 16 = w / 4096 := by omega
    have a6 : ¬ w / 256 < 16 := by omega
    have a7 : w / 4096 < 16 := by omega
    simp [sprintf_digits, h1, h2, h3, a2, a3, a5, a6, a7]

/-- The text `%x` writes for a 16-bit word is a hex group of lowercase digits
whose value is the word, without a leading zero unless the word is zero. -/
theorem sprintf_x_spec (w : Nat) (hw : w < 65536) :
    IsHexGroup (sprintf_x w) ∧ hex_value (sprintf_x w) = w ∧
      (∀ c ∈ sprintf_x w, (48 ≤ c ∧ c ≤ 57) ∨ (97 ≤ c ∧ c ≤ 102)) ∧
      (w ≠ 0 → (sprintf_x w).head? ≠ some 48) := by
  have d0 := lower_hex_digit_spec (w % 16) (by omega)
  rw [sprintf_x_cases w hw]
  by_cases h1 : w < 16
  · have e := lower_hex_digit_spec w h1
    have e' : w % 16 = w := by omega
    simp only [h1, if_true]
    refine ⟨⟨by simp, by simp, by simpa using e.1⟩, by simp [hex_value, hex_acc, e.2.1],
      by simpa using e.2.2.1, ?_⟩
    intro hne hh
    simp at hh
    exact hne (e.2.2.2 hh)
  by_cases h2 : w < 256
  · have e := lower_hex_digit_spec (w / 16) (by omega)
    simp only [h1, h2, if_true, if_false]
    refine ⟨⟨by simp, by simp, by simpa using ⟨e.1, d0.1⟩⟩,
      by simp [hex_value, hex_acc, e.2.1, d0.2.1]; omega,
      by simpa using ⟨e.2.2.1, d0.2.2.1⟩, ?_⟩
    intro _ hh
    simp at hh
    have := e.2.2.2 hh
    omega
  by_cases h3 : w < 4096
  · have e := lower_hex_digit_spec (w / 256) (by omega)
    have f := lower_hex_digit_spec (w / 16 % 16) (by omega)
    simp only [h1, h2, h3, if_true, if_false]
    refine ⟨⟨by simp, by simp, by simpa using ⟨e.1, f.1, d0.1⟩⟩,
      by simp [hex_value, hex_acc, e.2.1, f.2.1, d0.2.1]; omega,
      by simpa using ⟨e.2.2.1, f.2.2.1, d0.2.2.1⟩, ?_⟩
    intro _ hh
    simp at hh
    have := e.2.2.2 hh
    omega
  · have e := lower_hex_digit_spec (w / 4096) (by omega)
    have f := lower_hex_digit_spec (w / 256 % 16) (by omega)
    have g := lower_hex_digit_spec (w / 16 % 16) (by omega)
    simp only [h1, h2, h3, if_false]
    refine ⟨⟨by simp, by simp, by simpa using ⟨e.1, f.1, g.1, d0.1⟩⟩,
      by simp [hex_value, hex_acc, e.2.1, f.2.1, g.2.1, d0.2.1]; omega,
      by simpa using ⟨e.2.2.1, f.2.2.1, g.2.2.1, d0.2.2.1⟩, ?_⟩
    intro _ hh
    simp at hh
    have := e.2.2.2 hh
    omega

/-! ## Step 2 of `Inet6::to_string`: the gap -/

theorem Inet6.find_gap_zero_patterns : ∀ pt ∈ Inet6.zero_patterns 8,
    ((∀ w ∈ pt, w ≠ 0) ∧ Inet6.find_gap pt = ⟨-1, -1⟩) ∨
    (Inet6.find_gap pt =
        ⟨((Inet6.find_gap pt).pos.toNat : Int), ((Inet6.find_gap pt).length.toNat : Int)⟩ ∧
      IsLeftmostLongestZeroRun pt (Inet6.find_gap pt).pos.toNat
        (Inet6.find_gap pt).length.toNat) := by
  decide!

theorem Inet6.nz_lt_two (w : Nat) : Inet6.nz w < 2 := by
  unfold Inet6.nz; split <;> omega

theorem Inet6.nz_eq_zero (w : Nat) : Inet6.nz w = 0 ↔ w = 0 := by
  unfold Inet6.nz; split <;> simp [*]

theorem Inet6.mem_zero_patterns : ∀ (n : Nat) (l : List Nat), l.length = n →
    (∀ x ∈ l, x < 2) → l ∈ Inet6.zero_patterns n := by
  intro n
  induction n with
  | zero =>
    intro l hl _
    have : l = [] := List.length_eq_zero.1 hl
    subst this
    simp [Inet6.zero_patterns]
  | succ n ih =>
    intro l hl hx
    match l, hl with
    | a :: t, hl =>
      have ht : t ∈ Inet6.zero_patterns n :=
        ih t (by simpa using hl) (fun x hm => hx x (List.mem_cons_of_mem _ hm))
      have ha : a < 2 := hx a (List.mem_cons_self _ _)
      have ha2 : a = 0 ∨ a = 1 := by omega
      simp only [Inet6.zero_patterns, List.mem_append, List.mem_map]
      rcases ha2 with rfl | rfl
      · exact Or.inl ⟨t, ht, rfl⟩
      · exact Or.inr ⟨t, ht, rfl⟩

theorem Inet6.map_nz_mem_zero_patterns (ws : List Nat) (h : ws.length = 8) :
    ws.map Inet6.nz ∈ Inet6.zero_patterns 8 := by
  apply Inet6.mem_zero_patterns
  · simpa using h
  · intro x hx
    obtain ⟨w, _, rfl⟩ := List.mem_map.1 hx
    exact Inet6.nz_lt_two w

theorem Inet6.gap_step_nz (st : Region × Region) (i w : Nat) :
    Inet6.gap_step st (i, Inet6.nz w) = Inet6.gap_step st (i, w) := by
  unfold Inet6.gap_step
  by_cases h : w = 0
  · subst h; rfl
  · have h1 : Inet6.nz w ≠ 0 := fun e => h ((Inet6.nz_eq_zero w).1 e)
    simp only [h, h1, ne_eq, not_false_eq_true, if_true]

theorem Inet6.find_gap_map_nz (ws : List Nat) :
    Inet6.find_gap (ws.map Inet6.nz) = Inet6.find_gap ws := by
  unfold Inet6.find_gap
  rw [List.enum_map, List.foldl_map]
  have : (fun (x : Region × Region) (y : Nat × Nat) =>
      Inet6.gap_step x (Prod.map id Inet6.nz y)) = Inet6.gap_step := by
    funext x y
    obtain ⟨i, w⟩ := y
    exact Inet6.gap_step_nz x i w
  rw [this]

theorem IsZeroRun.map_nz_iff (ws : List Nat) (p l : Nat) :
    IsZeroRun (ws.map Inet6.nz) p l ↔ IsZeroRun ws p l := by
  unfold IsZeroRun
  have hg : ∀ j, (ws.map Inet6.nz).getD j 1 = 0 ↔ ws.getD j 1 = 0 := by
    intro j
    have : (ws.map Inet6.nz).getD j (Inet6.nz 1) = Inet6.nz (ws.getD j 1) := List.getD_map ws 1 Inet6.nz
    rw [show (1 : Nat) = Inet6.nz 1 from rfl, this, Inet6.nz_eq_zero]
    rfl
  simp only [List.length_map, hg]

theorem IsLeftmostLongestZeroRun.map_nz_run (ws : List Nat) (p l : Nat) :
    IsLeftmostLongestZeroRun (ws.map Inet6.nz) p l ↔ IsLeftmostLongestZeroRun ws p l := by
  unfold IsLeftmostLongestZeroRun
  simp only [IsZeroRun.map_nz_iff]

/-- Step 2 of `Inet6::to_string` finds no gap when no word is zero, and the
leftmost longest run of zero words otherwise. -/
theorem Inet6.find_gap_spec (ws : List Nat) (h : ws.length = 8) :
    ((∀ w ∈ ws, w ≠ 0) ∧ Inet6.find_gap ws = ⟨-1, -1⟩) ∨
    (∃ pos len : Nat, Inet6.find_gap ws = ⟨(pos : Int), (len : Int)⟩ ∧
      IsLeftmostLongestZeroRun ws pos len) := by
  have key := Inet6.find_gap_zero_patterns _ (Inet6.map_nz_mem_zero_patterns ws h)
  rw [Inet6.find_gap_map_nz] at key
  rcases key with ⟨h1, h2⟩ | ⟨h1, h2⟩
  · left
    refine ⟨fun w hw e => ?_, h2⟩
    exact h1 (Inet6.nz w) (List.mem_map_of_mem _ hw) ((Inet6.nz_eq_zero w).2 e)
  · right
    exact ⟨_, _, h1, (IsLeftmostLongestZeroRun.map_nz_run ws _ _).1 h2⟩

/-! ## Step 3 of `Inet6::to_string`: the text -/

theorem IN6_ADDR_NUM_WORDS_eq : IN6_ADDR_NUM_WORDS = 8 := rfl

theorem IN6_ADDR_NUM_WORDS_cast : (IN6_ADDR_NUM_WORDS : Int) = 8 := rfl

/-- The loop of step 3 stops once all eight words are done. -/
theorem Inet6.to_string_loop_done (b ws : List Nat) (gap : Region) (n fuel : Nat) (i : Int)
    (p : List Nat) (h : 8 ≤ i) : Inet6.to_string_loop b ws gap n fuel i p = some p := by
  have h1 : ¬ i < (IN6_ADDR_NUM_WORDS : Int) := by rw [IN6_ADDR_NUM_WORDS_cast]; omega
  cases fuel with
  | zero => rw [Inet6.to_string_loop, if_neg h1]
  | succ f => rw [Inet6.to_string_loop, if_pos h1]

/-- An iteration of the loop of step 3 on a word outside the gap and not at the
IPv4 tail, with room in the buffer. -/
theorem Inet6.to_string_loop_word (b ws : List Nat) (gap : Region) (n fuel k : Nat)
    (p : List Nat) (hk : k < 8) (hp : p.length + 5 ≤ n) (hg : (k : Int) ≠ gap.pos)
    (hv : ¬ (k = 6 ∧ gap.pos = 0 ∧
      (gap.length = 6 ∨ (gap.length = 5 ∧ ws.getD 5 0 = 0xffff)))) :
    Inet6.to_string_loop b ws gap n (fuel + 1) (k : Int) p =
      Inet6.to_string_loop b ws gap n fuel ((k + 1 : Nat) : Int)
        (p ++ sprintf_x (ws.getD k 0) ++ (if k + 1 ≠ IN6_ADDR_NUM_WORDS then [58] else [])) := by
  have h1 : ¬ ¬ (k : Int) < (IN6_ADDR_NUM_WORDS : Int) := by
    rw [IN6_ADDR_NUM_WORDS_cast]; omega
  have h2 : ¬ (n - p.length < 5) := by omega
  have h3 : ¬ ((k : Int) = 6 ∧ gap.pos = 0 ∧
      (gap.length = 6 ∨ (gap.length = 5 ∧ ws.getD 5 0 = 0xffff))) := by
    intro ⟨e, r⟩
    exact hv ⟨by omega, r⟩
  rw [Inet6.to_string_loop, if_neg h1, if_neg h2, if_neg hg, if_neg h3, Int.toNat_ofNat]
  have h4 : ((k + 1 : Nat) : Int) = (k : Int) + 1 := by push_cast; rfl
  rw [h4]
  dsimp only
  by_cases h8 : k + 1 = IN6_ADDR_NUM_WORDS
  · have h9 : ¬ (k : Int) + 1 ≠ (IN6_ADDR_NUM_WORDS : Int) := by
      rw [IN6_ADDR_NUM_WORDS_cast]; rw [IN6_ADDR_NUM_WORDS_eq] at h8; omega
    rw [if_neg h9, if_neg (not_not.2 h8), List.append_nil]
  · have h9 : (k : Int) + 1 ≠ (IN6_ADDR_NUM_WORDS : Int) := by
      rw [IN6_ADDR_NUM_WORDS_cast]; rw [IN6_ADDR_NUM_WORDS_eq] at h8; omega
    rw [if_pos h9, if_pos h8]

/-- The iteration of the loop of step 3 at the gap. -/
theorem Inet6.to_string_loop_gap (b ws : List Nat) (n fuel k len : Nat)
    (p : List Nat) (hk : k < 8) (hp : p.length + 5 ≤ n) :
    Inet6.to_string_loop b ws ⟨(k : Int), (len : Int)⟩ n (fuel + 1) (k : Int) p =
      Inet6.to_string_loop b ws ⟨(k : Int), (len : Int)⟩ n fuel ((k + len : Nat) : Int)
        (p ++ (if k = 0 then [58, 58] else [58])) := by
  have h1 : ¬ ¬ (k : Int) < (IN6_ADDR_NUM_WORDS : Int) := by
    rw [IN6_ADDR_NUM_WORDS_cast]; omega
  have h2 : ¬ (n - p.length < 5) := by omega
  have h3 : (k : Int) + ((len : Int) - 1) + 1 = ((k + len : Nat) : Int) := by
    push_cast; omega
  rw [Inet6.to_string_loop, if_neg h1, if_neg h2, if_pos rfl]
  simp only [h3]
  by_cases h0 : k = 0
  · subst h0
    rw [if_pos rfl, if_pos (by rfl)]
    simp
  · have : ¬ (k : Int) = 0 := by omega
    rw [if_neg h0, if_neg this]

/-- The iteration of the loop of step 3 at the IPv4 tail. -/
theorem Inet6.to_string_loop_ipv4 (b ws : List Nat) (gap : Region) (n fuel : Nat)
    (p : List Nat) (hp : p.length + 5 ≤ n) (hg : gap.pos = 0)
    (hv : gap.length = 6 ∨ (gap.length = 5 ∧ ws.getD 5 0 = 0xffff)) :
    Inet6.to_string_loop b ws gap n (fuel + 1) 6 p =
      some (p ++ Inet4.to_string ((b.drop 12).take 4) (n - p.length)) := by
  have h1 : ¬ ¬ (6 : Int) < (IN6_ADDR_NUM_WORDS : Int) := by
    rw [IN6_ADDR_NUM_WORDS_cast]; omega
  have h2 : ¬ (n - p.length < 5) := by omega
  have h3 : ¬ (6 : Int) = gap.pos := by rw [hg]; omega
  rw [Inet6.to_string_loop, if_neg h1, if_neg h2, if_neg h3, if_pos ⟨rfl, hg, hv⟩]

theorem Inet6.words_text_length (ws : List Nat) (hw : ∀ j, (sprintf_x (ws.getD j 0)).length ≤ 4) :
    ∀ m k, (Inet6.words_text ws k m).length ≤ 5 * m := by
  intro m
  induction m with
  | zero => intro k; simp [Inet6.words_text]
  | succ m ih =>
    intro k
    have := ih (k + 1)
    have := hw k
    simp only [Inet6.words_text, List.length_append]
    split <;> simp only [List.length_cons, List.length_nil] <;> omega

/-- The iterations of the loop of step 3 over `m` words from index `k`, none of
them in the gap or at the IPv4 tail, with room in the buffer. -/
theorem Inet6.to_string_loop_words (b ws : List Nat) (gap : Region) (n : Nat)
    (hw : ∀ j, (sprintf_x (ws.getD j 0)).length ≤ 4) :
    ∀ (m k fuel : Nat) (p : List Nat), k + m ≤ 8 → p.length + 5 * m ≤ n →
    (∀ j, k ≤ j → j < k + m → (j : Int) ≠ gap.pos ∧ ¬ (j = 6 ∧ gap.pos = 0 ∧
      (gap.length = 6 ∨ (gap.length = 5 ∧ ws.getD 5 0 = 0xffff)))) →
    Inet6.to_string_loop b ws gap n (fuel + m) (k : Int) p =
      Inet6.to_string_loop b ws gap n fuel ((k + m : Nat) : Int)
        (p ++ Inet6.words_text ws k m) := by
  intro m
  induction m with
  | zero => intro k fuel p _ _ _; simp [Inet6.words_text]
  | succ m ih =>
    intro k fuel p hk hp hj
    have h1 := hj k (Nat.le_refl k) (by omega)
    have hlen := hw k
    rw [show fuel + (m + 1) = (fuel + m) + 1 by omega,
      Inet6.to_string_loop_word b ws gap n (fuel + m) k p (by omega) (by omega) h1.1 h1.2,
      ih (k + 1) fuel _ (by omega) ?_ (fun j hj1 hj2 => hj j (by omega) (by omega))]
    · rw [show k + 1 + m = k + (m + 1) by omega]
      simp only [Inet6.words_text, List.append_assoc]
    · simp only [List.length_append]
      split <;> simp only [List.length_cons, List.length_nil] <;> omega
theorem IsInet6.eq_list16 {b : List Nat} (h : IsInet6 b) :
    ∃ b0 b1 b2 b3 b4 b5 b6 b7 b8 b9 b10 b11 b12 b13 b14 b15,
      b = [b0, b1, b2, b3, b4, b5, b6, b7, b8, b9, b10, b11, b12, b13, b14, b15] ∧
      b0 < 256 ∧ b1 < 256 ∧ b2 < 256 ∧ b3 < 256 ∧ b4 < 256 ∧ b5 < 256 ∧ b6 < 256 ∧ b7 < 256 ∧
      b8 < 256 ∧ b9 < 256 ∧ b10 < 256 ∧ b11 < 256 ∧ b12 < 256 ∧ b13 < 256 ∧ b14 < 256 ∧
      b15 < 256 := by
  obtain ⟨hl, hb⟩ := h
  match b, hl with
  | [b0, b1, b2, b3, b4, b5, b6, b7, b8, b9, b10, b11, b12, b13, b14, b15], _ =>
    exact ⟨b0, b1, b2, b3, b4, b5, b6, b7, b8, b9, b10, b11, b12, b13, b14, b15, rfl,
      hb _ (by simp), hb _ (by simp), hb _ (by simp), hb _ (by simp), hb _ (by simp),
      hb _ (by simp), hb _ (by simp), hb _ (by simp), hb _ (by simp), hb _ (by simp),
      hb _ (by simp), hb _ (by simp), hb _ (by simp), hb _ (by simp), hb _ (by simp),
      hb _ (by simp)⟩

theorem Inet6.ipv6_words_length (b : List Nat) : (Inet6.ipv6_words b).length = 8 := by
  simp [Inet6.ipv6_words, IN6_ADDR_NUM_WORDS, IN6_ADDR_SIZE]

theorem Inet6.ipv6_words_lt (b : List Nat) (j : Nat) : (Inet6.ipv6_words b).getD j 0 < 65536 := by
  rw [List.getD_eq_getElem?_getD]
  cases h : (Inet6.ipv6_words b)[j]? with
  | none => simp
  | some w =>
    have hm : w ∈ Inet6.ipv6_words b := List.getElem?_mem h
    simp only [Inet6.ipv6_words, List.mem_map] at hm
    obtain ⟨i, _, rfl⟩ := hm
    simp only [Option.getD_some]
    omega

theorem Inet6.ipv6_words_eq (b0 b1 b2 b3 b4 b5 b6 b7 b8 b9 b10 b11 b12 b13 b14 b15 : Nat)
    (h0 : b0 < 256) (h1 : b1 < 256) (h2 : b2 < 256) (h3 : b3 < 256) (h4 : b4 < 256)
    (h5 : b5 < 256) (h6 : b6 < 256) (h7 : b7 < 256) (h8 : b8 < 256) (h9 : b9 < 256)
    (h10 : b10 < 256) (h11 : b11 < 256) (h12 : b12 < 256) (h13 : b13 < 256) (h14 : b14 < 256)
    (h15 : b15 < 256) :
    Inet6.ipv6_words [b0, b1, b2, b3, b4, b5, b6, b7, b8, b9, b10, b11, b12, b13, b14, b15] =
      [b0 * 256 + b1, b2 * 256 + b3, b4 * 256 + b5, b6 * 256 + b7, b8 * 256 + b9,
        b10 * 256 + b11, b12 * 256 + b13, b14 * 256 + b15] := by
  have e : ∀ x y : Nat, x < 256 → y < 256 → (x <<< 8 + y) % 65536 = x * 256 + y := by
    intro x y hx hy
    rw [Nat.shiftLeft_eq]
    simp only [Nat.reducePow]
    omega
  have hr : List.range 8 = [0, 1, 2, 3, 4, 5, 6, 7] := by decide
  simp only [Inet6.ipv6_words, IN6_ADDR_NUM_WORDS, IN6_ADDR_SIZE, Nat.reduceDiv, hr, List.map_cons,
    List.map_nil, Nat.reduceMul, Nat.reduceAdd, List.getD_cons_zero, List.getD_cons_succ,
    e _ _ h0 h1, e _ _ h2 h3, e _ _ h4 h5, e _ _ h6 h7, e _ _ h8 h9, e _ _ h10 h11,
    e _ _ h12 h13, e _ _ h14 h15]

theorem Inet6.words_text_all (ws : List Nat) (h : ws.length = 8) :
    Inet6.words_text ws 0 8 = join_colon (ws.map sprintf_x) := by
  match ws, h with
  | [a, b, c, d, e, f, g, i], _ =>
    simp [Inet6.words_text, join_colon, IN6_ADDR_NUM_WORDS_eq]

theorem Inet6.words_text_gap (ws : List Nat) (h : ws.length = 8) (pos len : Nat) (hl : 1 ≤ len)
    (hp : pos + len ≤ 8) :
    Inet6.words_text ws 0 pos ++ (if pos = 0 then [58, 58] else [58]) ++
      Inet6.words_text ws (pos + len) (8 - (pos + len)) = Inet6.gap_text ws pos len := by
  match ws, h with
  | [a, b, c, d, e, f, g, i], _ =>
    have hpos : pos ≤ 7 := by omega
    have hlen : len ≤ 8 := by omega
    interval_cases pos <;> interval_cases len <;>
      simp [Inet6.words_text, Inet6.gap_text, join_colon, IN6_ADDR_NUM_WORDS_eq] at hp ⊢

theorem Inet6.sprintf_x_word_length (b : List Nat) (j : Nat) :
    (sprintf_x ((Inet6.ipv6_words b).getD j 0)).length ≤ 4 :=
  (sprintf_x_spec _ (Inet6.ipv6_words_lt b j)).1.2.1

theorem Inet6.to_string_unfold (b : List Nat) (n : Nat) :
    Inet6.to_string b n =
      Inet6.to_string_loop b (Inet6.ipv6_words b) (Inet6.find_gap (Inet6.ipv6_words b)) n 8
        ((0 : Nat) : Int) [] := rfl

/-- Without a gap, `Inet6::to_string` writes the eight words joined by colons. -/
theorem Inet6.to_string_no_gap (b : List Nat) (n : Nat) (hn : 46 ≤ n)
    (hg : Inet6.find_gap (Inet6.ipv6_words b) = ⟨-1, -1⟩) :
    Inet6.to_string b n = some (join_colon ((Inet6.ipv6_words b).map sprintf_x)) := by
  rw [Inet6.to_string_unfold, hg]
  have h := Inet6.to_string_loop_words b (Inet6.ipv6_words b) ⟨-1, -1⟩ n
    (Inet6.sprintf_x_word_length b) 8 0 0 [] (by omega) (by simp; omega)
    (fun j _ _ => ⟨by simp only; omega, by simp⟩)
  simp only [Nat.zero_add, List.nil_append] at h
  rw [h, Inet6.to_string_loop_done _ _ _ _ _ _ _ (by simp),
    Inet6.words_text_all _ (Inet6.ipv6_words_length b)]

/-- With a gap that does not start an IPv4 tail, `Inet6::to_string` writes the
words before the gap, two colons and the words after the gap. -/
theorem Inet6.to_string_gap (b : List Nat) (n : Nat) (hn : 46 ≤ n) (pos len : Nat)
    (hl : 1 ≤ len) (hp : pos + len ≤ 8)
    (hg : Inet6.find_gap (Inet6.ipv6_words b) = ⟨(pos : Int), (len : Int)⟩)
    (hv : ¬ (pos = 0 ∧ (len = 6 ∨ (len = 5 ∧ (Inet6.ipv6_words b).getD 5 0 = 0xffff)))) :
    Inet6.to_string b n = some (Inet6.gap_text (Inet6.ipv6_words b) pos len) := by
  rw [Inet6.to_string_unfold, hg]
  have hw := Inet6.sprintf_x_word_length b
  have hv6 : ∀ j : Nat, ¬ (j = 6 ∧ (pos : Int) = 0 ∧ ((len : Int) = 6 ∨
      ((len : Int) = 5 ∧ (Inet6.ipv6_words b).getD 5 0 = 0xffff))) := by
    rintro j ⟨_, h0, h1⟩
    apply hv
    refine ⟨by omega, ?_⟩
    rcases h1 with h1 | ⟨h1, h2⟩
    · left; omega
    · right; exact ⟨by omega, h2⟩
  have hl1 := Inet6.words_text_length (Inet6.ipv6_words b) hw pos 0
  -- the words before the gap
  have s1 := Inet6.to_string_loop_words b (Inet6.ipv6_words b) ⟨(pos : Int), (len : Int)⟩ n hw
    pos 0 (8 - pos) [] (by omega) (by simp; omega)
    (fun j _ hj => ⟨by simp only; omega, hv6 j⟩)
  rw [show 8 - pos + pos = 8 by omega] at s1
  simp only [Nat.zero_add, List.nil_append] at s1
  rw [s1]
  -- the gap
  have s2 := Inet6.to_string_loop_gap b (Inet6.ipv6_words b) n (7 - pos) pos len
    (Inet6.words_text (Inet6.ipv6_words b) 0 pos) (by omega) (by omega)
  rw [show 7 - pos + 1 = 8 - pos by omega] at s2
  rw [s2]
  -- the words after the gap
  have s3 := Inet6.to_string_loop_words b (Inet6.ipv6_words b) ⟨(pos : Int), (len : Int)⟩ n hw
    (8 - (pos + len)) (pos + len) (len - 1)
    (Inet6.words_text (Inet6.ipv6_words b) 0 pos ++ (if pos = 0 then [58, 58] else [58]))
    (by omega) (by simp only [List.length_append]; split <;> simp <;> omega)
    (fun j hj _ => ⟨by simp only; omega, hv6 j⟩)
  rw [show len - 1 + (8 - (pos + len)) = 7 - pos by omega] at s3
  rw [s3, Inet6.to_string_loop_done _ _ _ _ _ _ _ (by push_cast; omega),
    Inet6.words_text_gap _ (Inet6.ipv6_words_length b) pos len hl hp]

theorem IsInet6.tail {b : List Nat} (h : IsInet6 b) :
    ∃ c0 c1 c2 c3, b.drop 12 = [c0, c1, c2, c3] ∧ c0 < 256 ∧ c1 < 256 ∧ c2 < 256 ∧ c3 < 256 := by
  obtain ⟨b0, b1, b2, b3, b4, b5, b6, b7, b8, b9, b10, b11, b12, b13, b14, b15, rfl, _, _, _, _,
    _, _, _, _, _, _, _, _, h12, h13, h14, h15⟩ := h.eq_list16
  exact ⟨b12, b13, b14, b15, rfl, h12, h13, h14, h15⟩

theorem Inet6.ipv4_tail_text (b : List Nat) (hb : IsInet6 b) (m : Nat) (hm : 16 ≤ m) :
    Inet4.to_string ((b.drop 12).take 4) m = Inet4.to_string (b.drop 12) INET_ADDRSTRLEN := by
  obtain ⟨c0, c1, c2, c3, e, h0, h1, h2, h3⟩ := hb.tail
  rw [e]
  simp only [List.take, Inet4.to_string_eq c0 c1 c2 c3 m h0 h1 h2 h3 hm,
    Inet4.to_string_eq c0 c1 c2 c3 INET_ADDRSTRLEN h0 h1 h2 h3 (by decide)]

/-- With a gap over words 0..5, `Inet6::to_string` writes two colons and the
last four bytes in dotted-quad form. -/
theorem Inet6.to_string_v4compat (b : List Nat) (hb : IsInet6 b) (n : Nat) (hn : 46 ≤ n)
    (hg : Inet6.find_gap (Inet6.ipv6_words b) = ⟨0, 6⟩) :
    Inet6.to_string b n = some (58 :: 58 :: Inet4.to_string (b.drop 12) INET_ADDRSTRLEN) := by
  rw [Inet6.to_string_unfold, hg]
  have s2 : Inet6.to_string_loop b (Inet6.ipv6_words b) ⟨0, 6⟩ n 8 ((0 : Nat) : Int) [] =
      Inet6.to_string_loop b (Inet6.ipv6_words b) ⟨0, 6⟩ n 7 6 [58, 58] :=
    Inet6.to_string_loop_gap b (Inet6.ipv6_words b) n 7 0 6 [] (by omega) (by simp; omega)
  rw [s2, Inet6.to_string_loop_ipv4 b _ _ n 6 [58, 58] (by simp; omega) rfl (Or.inl rfl),
    Inet6.ipv4_tail_text b hb _ (by simp; omega)]
  rfl

/-- With a gap over words 0..4 and word 5 equal to `ffff`, `Inet6::to_string`
writes `::ffff:` and the last four bytes in dotted-quad form. -/
theorem Inet6.to_string_v4mapped (b : List Nat) (hb : IsInet6 b) (n : Nat) (hn : 46 ≤ n)
    (hg : Inet6.find_gap (Inet6.ipv6_words b) = ⟨0, 5⟩)
    (h5 : (Inet6.ipv6_words b).getD 5 0 = 0xffff) :
    Inet6.to_string b n =
      some (58 :: 58 :: (sprintf_x 0xffff ++ 58 ::
        Inet4.to_string (b.drop 12) INET_ADDRSTRLEN)) := by
  rw [Inet6.to_string_unfold, hg]
  have s2 : Inet6.to_string_loop b (Inet6.ipv6_words b) ⟨0, 5⟩ n 8 ((0 : Nat) : Int) [] =
      Inet6.to_string_loop b (Inet6.ipv6_words b) ⟨0, 5⟩ n 7 5 [58, 58] :=
    Inet6.to_string_loop_gap b (Inet6.ipv6_words b) n 7 0 5 [] (by omega) (by simp; omega)
  have s3 : Inet6.to_string_loop b (Inet6.ipv6_words b) ⟨0, 5⟩ n 7 5 [58, 58] =
      Inet6.to_string_loop b (Inet6.ipv6_words b) ⟨0, 5⟩ n 6 6
        ([58, 58] ++ sprintf_x ((Inet6.ipv6_words b).getD 5 0) ++ [58]) :=
    Inet6.to_string_loop_word b (Inet6.ipv6_words b) ⟨0, 5⟩ n 6 5 [58, 58] (by omega)
      (by simp; omega) (by simp) (by simp)
  have hx : (sprintf_x 0xffff).length = 4 := by decide
  have hlen : ([58, 58] ++ sprintf_x 0xffff ++ [58]).length = 7 := by
    simp only [List.length_append, hx]; rfl
  rw [s2, s3, h5, Inet6.to_string_loop_ipv4 b _ _ n 5 _ (by rw [hlen]; omega) rfl
      (Or.inr ⟨rfl, h5⟩),
    Inet6.ipv4_tail_text b hb _ (by rw [hlen]; omega)]
  simp

/-! ## The text written by `Inet6::to_string` -/

theorem IsLeftmostLongestZeroRun.unique {ws : List Nat} {p l p1 l1 : Nat}
    (h : IsLeftmostLongestZeroRun ws p l) (h1 : IsLeftmostLongestZeroRun ws p1 l1) :
    p = p1 ∧ l = l1 := by
  have a := h.2 p1 l1 h1.1
  have b := h1.2 p l h.1
  have e : l = l1 := by omega
  exact ⟨by have := a.2 e.symm; have := b.2 e; omega, e⟩

theorem IsZeroRun.exists_zero {ws : List Nat} {p l : Nat} (h : IsZeroRun ws p l) :
    ∃ w ∈ ws, w = 0 := by
  obtain ⟨h1, h2, h3⟩ := h
  have h0 := h3 0 (by omega)
  rw [Nat.add_zero, List.getD_eq_getElem?_getD, List.getElem?_eq_getElem (by omega)] at h0
  exact ⟨ws[p], List.getElem_mem _, by simpa using h0⟩

theorem Inet6.find_gap_of_run (ws : List Nat) (h : ws.length = 8) (pos len : Nat)
    (hr : IsLeftmostLongestZeroRun ws pos len) :
    Inet6.find_gap ws = ⟨(pos : Int), (len : Int)⟩ := by
  rcases Inet6.find_gap_spec ws h with ⟨h1, _⟩ | ⟨p, l, hg, hl⟩
  · obtain ⟨w, hw, e⟩ := hr.1.exists_zero
    exact absurd e (h1 w hw)
  · obtain ⟨e1, e2⟩ := hr.unique hl
    rw [hg, e1, e2]

theorem Inet6.find_gap_of_no_zero (ws : List Nat) (h : ws.length = 8) (hz : ∀ w ∈ ws, w ≠ 0) :
    Inet6.find_gap ws = ⟨-1, -1⟩ := by
  rcases Inet6.find_gap_spec ws h with ⟨_, h2⟩ | ⟨p, l, _, hl⟩
  · exact h2
  · obtain ⟨w, hw, e⟩ := hl.1.exists_zero
    exact absurd e (hz w hw)

theorem Inet6.exists_run_of_zero (ws : List Nat) (h : ws.length = 8) (hz : ∃ w ∈ ws, w = 0) :
    ∃ pos len, IsLeftmostLongestZeroRun ws pos len := by
  rcases Inet6.find_gap_spec ws h with ⟨h1, _⟩ | ⟨p, l, _, hl⟩
  · obtain ⟨w, hw, e⟩ := hz
    exact absurd e (h1 w hw)
  · exact ⟨p, l, hl⟩

theorem Inet6.tail_runs_zero_patterns : ∀ pt ∈ Inet6.zero_patterns 8,
    (IsLeftmostLongestZeroRun pt 0 6 ↔ ((∀ i < 6, pt.getD i 1 = 0) ∧ pt.getD 6 1 ≠ 0)) ∧
    (IsLeftmostLongestZeroRun pt 0 5 ↔ ((∀ i < 5, pt.getD i 1 = 0) ∧ pt.getD 5 1 ≠ 0)) := by
  decide!

theorem Inet6.getD_map_nz (ws : List Nat) (j : Nat) :
    (ws.map Inet6.nz).getD j 1 = 0 ↔ ws.getD j 1 = 0 := by
  have : (ws.map Inet6.nz).getD j (Inet6.nz 1) = Inet6.nz (ws.getD j 1) :=
    List.getD_map ws 1 Inet6.nz
  rw [show (1 : Nat) = Inet6.nz 1 from rfl, this, Inet6.nz_eq_zero]
  rfl

/-- The gap is words 0..5 exactly when these are zero and word 6 is not; it is
words 0..4 exactly when these are zero and word 5 is not. -/
theorem Inet6.tail_runs (ws : List Nat) (h : ws.length = 8) :
    (IsLeftmostLongestZeroRun ws 0 6 ↔ ((∀ i < 6, ws.getD i 1 = 0) ∧ ws.getD 6 1 ≠ 0)) ∧
    (IsLeftmostLongestZeroRun ws 0 5 ↔ ((∀ i < 5, ws.getD i 1 = 0) ∧ ws.getD 5 1 ≠ 0)) := by
  have key := Inet6.tail_runs_zero_patterns _ (Inet6.map_nz_mem_zero_patterns ws h)
  simp only [IsLeftmostLongestZeroRun.map_nz_run, Inet6.getD_map_nz, ne_eq] at key
  exact key

theorem getD_default_irrel (ws : List Nat) (j : Nat) (hj : j < ws.length) (d e : Nat) :
    ws.getD j d = ws.getD j e := by
  rw [List.getD_eq_getElem?_getD, List.getD_eq_getElem?_getD, List.getElem?_eq_getElem hj]
  rfl

/-- The IPv4-tail condition on the words, in terms of the gap. -/
theorem Inet6.ipv4_tail_words_iff (ws : List Nat) (h : ws.length = 8) :
    Inet6.ipv4_tail_words ws ↔
      (IsLeftmostLongestZeroRun ws 0 6 ∨
        (IsLeftmostLongestZeroRun ws 0 5 ∧ ws.getD 5 0 = 0xffff)) := by
  obtain ⟨t6, t5⟩ := Inet6.tail_runs ws h
  have e6 := getD_default_irrel ws 6 (by omega) 0 1
  have e5 := getD_default_irrel ws 5 (by omega) 0 1
  unfold Inet6.ipv4_tail_words
  rw [t6, t5, e6]
  constructor
  · rintro (a | ⟨a, b⟩)
    · exact Or.inl a
    · exact Or.inr ⟨⟨a, by rw [← e5, b]; decide⟩, b⟩
  · rintro (a | ⟨⟨a, _⟩, b⟩)
    · exact Or.inl a
    · exact Or.inr ⟨a, b⟩

/-- The text `Inet6::to_string` writes when the IPv4-tail condition holds. -/
theorem Inet6.to_string_tail (b : List Nat) (hb : IsInet6 b) (n : Nat) (hn : 46 ≤ n)
    (ht : Inet6.ipv4_tail_words (Inet6.ipv6_words b)) :
    Inet6.to_string b n = some (58 :: 58 ::
      ((if (Inet6.ipv6_words b).getD 5 0 = 0xffff then sprintf_x 0xffff ++ [58] else []) ++
        Inet4.to_string (b.drop 12) INET_ADDRSTRLEN)) := by
  have hlen := Inet6.ipv6_words_length b
  rcases (Inet6.ipv4_tail_words_iff _ hlen).1 ht with h6 | ⟨h5, hf⟩
  · have h50 : (Inet6.ipv6_words b).getD 5 1 = 0 := by
      have := h6.1.2.2 5 (by omega)
      simpa using this
    have h5 : ¬ (Inet6.ipv6_words b).getD 5 0 = 0xffff := by
      rw [getD_default_irrel _ 5 (by omega) 0 1, h50]; decide
    rw [Inet6.to_string_v4compat b hb n hn (Inet6.find_gap_of_run _ hlen 0 6 h6), if_neg h5]
    rfl
  · rw [Inet6.to_string_v4mapped b hb n hn (Inet6.find_gap_of_run _ hlen 0 5 h5) hf, if_pos hf]
    simp

/-- The text `Inet6::to_string` writes when the IPv4-tail condition fails. -/
theorem Inet6.to_string_plain (b : List Nat) (n : Nat) (hn : 46 ≤ n)
    (ht : ¬ Inet6.ipv4_tail_words (Inet6.ipv6_words b)) :
    ((∀ w ∈ Inet6.ipv6_words b, w ≠ 0) →
      Inet6.to_string b n = some (join_colon ((Inet6.ipv6_words b).map sprintf_x))) ∧
    (∀ pos len, IsLeftmostLongestZeroRun (Inet6.ipv6_words b) pos len →
      Inet6.to_string b n = some (Inet6.gap_text (Inet6.ipv6_words b) pos len)) := by
  have hlen := Inet6.ipv6_words_length b
  refine ⟨fun hz => Inet6.to_string_no_gap b n hn (Inet6.find_gap_of_no_zero _ hlen hz),
    fun pos len hr => ?_⟩
  have hb := hr.1.2.1
  apply Inet6.to_string_gap b n hn pos len hr.1.1 (by omega) (Inet6.find_gap_of_run _ hlen _ _ hr)
  rintro ⟨rfl, h6 | ⟨h5, hf⟩⟩
  · subst h6
    exact ht ((Inet6.ipv4_tail_words_iff _ hlen).2 (Or.inl hr))
  · subst h5
    exact ht ((Inet6.ipv4_tail_words_iff _ hlen).2 (Or.inr ⟨hr, hf⟩))

theorem join_colon_cons_cons (g g1 : List Nat) (gs : List (List Nat)) :
    join_colon (g :: g1 :: gs) = g ++ 58 :: join_colon (g1 :: gs) := rfl

theorem join_colon_mem (gs : List (List Nat)) (x : Nat) (hx : x ∈ join_colon gs) :
    x = 58 ∨ ∃ g ∈ gs, x ∈ g := by
  induction gs with
  | nil => simp [join_colon] at hx
  | cons g t ih =>
    cases t with
    | nil =>
      simp only [join_colon] at hx
      exact Or.inr ⟨g, by simp, hx⟩
    | cons g1 t1 =>
      rw [join_colon_cons_cons, List.mem_append, List.mem_cons] at hx
      rcases hx with h | h | h
      · exact Or.inr ⟨g, by simp, h⟩
      · exact Or.inl h
      · rcases ih h with h | ⟨g2, hg2, h2⟩
        · exact Or.inl h
        · exact Or.inr ⟨g2, List.mem_cons_of_mem _ hg2, h2⟩

theorem Inet6.mem_ipv6_words_lt (b : List Nat) (w : Nat) (hw : w ∈ Inet6.ipv6_words b) :
    w < 65536 := by
  simp only [Inet6.ipv6_words, List.mem_map] at hw
  obtain ⟨i, _, rfl⟩ := hw
  omega

/-- The bytes of the hex text of words are lowercase hex digits. -/
theorem Inet6.mem_map_sprintf_x (ws : List Nat) (hw : ∀ w ∈ ws, w < 65536) (g : List Nat)
    (hg : g ∈ ws.map sprintf_x) :
    IsHexGroup g ∧ ∀ c ∈ g, (48 ≤ c ∧ c ≤ 57) ∨ (97 ≤ c ∧ c ≤ 102) := by
  obtain ⟨w, hm, rfl⟩ := List.mem_map.1 hg
  have := sprintf_x_spec w (hw w hm)
  exact ⟨this.1, this.2.2.1⟩

theorem Inet6.no_dot_join (ws : List Nat) (hw : ∀ w ∈ ws, w < 65536) :
    46 ∉ join_colon (ws.map sprintf_x) := by
  intro h
  rcases join_colon_mem _ _ h with h | ⟨g, hg, hx⟩
  · omega
  · have := (Inet6.mem_map_sprintf_x ws hw g hg).2 46 hx
    omega

theorem Inet6.no_dot_gap_text (ws : List Nat) (hw : ∀ w ∈ ws, w < 65536) (pos len : Nat) :
    46 ∉ Inet6.gap_text ws pos len := by
  intro h
  simp only [Inet6.gap_text, List.mem_append, List.mem_cons] at h
  rcases h with h | h | h | h
  · exact Inet6.no_dot_join (ws.take pos) (fun w hm => hw w (List.mem_of_mem_take hm)) h
  · omega
  · omega
  · exact Inet6.no_dot_join (ws.drop (pos + len)) (fun w hm => hw w (List.mem_of_mem_drop hm)) h

theorem Inet6.dot_mem_ipv4_text (b : List Nat) (hb : IsInet6 b) :
    46 ∈ Inet4.to_string (b.drop 12) INET_ADDRSTRLEN := by
  obtain ⟨c0, c1, c2, c3, e, h0, h1, h2, h3⟩ := hb.tail
  rw [e, Inet4.to_string_eq c0 c1 c2 c3 INET_ADDRSTRLEN h0 h1 h2 h3 (by decide)]
  simp

/-- With a buffer of at least 46 bytes, `Inet6::to_string` ends its text with
the dotted quad exactly under the IPv4-tail condition on the words. -/
theorem Inet6.prints_ipv4_tail_iff (b : List Nat) (hb : IsInet6 b) (n : Nat) (hn : 46 ≤ n) :
    Inet6.prints_ipv4_tail b n ↔ Inet6.ipv4_tail_words (Inet6.ipv6_words b) := by
  constructor
  · rintro ⟨t, ht, hs⟩
    by_contra hc
    have hdot : 46 ∈ t := hs.subset (Inet6.dot_mem_ipv4_text b hb)
    obtain ⟨p1, p2⟩ := Inet6.to_string_plain b n hn hc
    by_cases hz : ∀ w ∈ Inet6.ipv6_words b, w ≠ 0
    · rw [p1 hz] at ht
      cases ht
      exact Inet6.no_dot_join _ (Inet6.mem_ipv6_words_lt b) hdot
    · have hz1 : ∃ w ∈ Inet6.ipv6_words b, w = 0 := by
        by_contra hne
        exact hz (fun w hw e => hne ⟨w, hw, e⟩)
      obtain ⟨pos, len, hr⟩ := Inet6.exists_run_of_zero _ (Inet6.ipv6_words_length b) hz1
      rw [p2 pos len hr] at ht
      cases ht
      exact Inet6.no_dot_gap_text _ (Inet6.mem_ipv6_words_lt b) pos len hdot
  · intro ht
    refine ⟨_, Inet6.to_string_tail b hb n hn ht, ?_⟩
    refine ⟨58 :: 58 :: (if (Inet6.ipv6_words b).getD 5 0 = 0xffff then sprintf_x 0xffff ++ [58]
      else []), ?_⟩
    simp

theorem word_eq_zero_iff (x y : Nat) : x * 256 + y = 0 ↔ x = 0 ∧ y = 0 := by omega

theorem word_eq_ffff_iff (x y : Nat) (_hx : x < 256) (hy : y < 256) :
    x * 256 + y = 65535 ↔ x = 255 ∧ y = 255 := by omega

/-- The IPv4-tail condition on the words, in terms of the bytes. -/
theorem Inet6.ipv4_tail_words_bytes (b : List Nat) (hb : IsInet6 b) :
    Inet6.ipv4_tail_words (Inet6.ipv6_words b) ↔
      ((Inet6.is_v4compat b ∧ (b.getD 12 0 ≠ 0 ∨ b.getD 13 0 ≠ 0)) ∨ Inet6.is_v4mapped b) := by
  obtain ⟨b0, b1, b2, b3, b4, b5, b6, b7, b8, b9, b10, b11, b12, b13, b14, b15, rfl, h0, h1, h2,
    h3, h4, h5, h6, h7, h8, h9, h10, h11, h12, h13, h14, h15⟩ := hb.eq_list16
  rw [Inet6.ipv6_words_eq b0 b1 b2 b3 b4 b5 b6 b7 b8 b9 b10 b11 b12 b13 b14 b15 h0 h1 h2 h3 h4 h5
    h6 h7 h8 h9 h10 h11 h12 h13 h14 h15]
  simp only [Inet6.ipv4_tail_words, Inet6.is_v4compat, Inet6.is_v4mapped, Nat.forall_lt_succ,
    Nat.exists_lt_succ, Nat.not_lt_zero, false_implies, implies_true, true_and, false_and,
    exists_const, false_or, List.getD_cons_zero, List.getD_cons_succ, Nat.reduceAdd, ne_eq,
    List.cons.injEq, and_true, word_eq_zero_iff, word_eq_ffff_iff b10 b11 h10 h11, and_assoc]
  constructor
  · intro h
    rcases h with h | h
    · obtain ⟨a0, a1, a2, a3, a4, a5, a6, a7, a8, a9, a10, a11, a12⟩ := h
      have c : ¬ b12 = 0 ∨ ¬ b13 = 0 := by
        by_cases c12 : b12 = 0
        · exact Or.inr (fun c13 => a12 ⟨c12, c13⟩)
        · exact Or.inl c12
      refine Or.inl ⟨a0, a1, a2, a3, a4, a5, a6, a7, a8, a9, a10, a11, ?_, ?_, c⟩
      · exact Or.inl (Or.inl c)
      · rintro ⟨_, _, _, _, _, _, _, _, _, _, _, _, e12, e13, _⟩
        rcases c with c | c
        · exact c e12
        · exact c e13
    · exact Or.inr h
  · intro h
    rcases h with h | h
    · obtain ⟨a0, a1, a2, a3, a4, a5, a6, a7, a8, a9, a10, a11, _, _, c⟩ := h
      refine Or.inl ⟨a0, a1, a2, a3, a4, a5, a6, a7, a8, a9, a10, a11, ?_⟩
      rintro ⟨e12, e13⟩
      rcases c with c | c
      · exact c e12
      · exact c e13
    · exact Or.inr h

theorem count_double_colon_cons (c : Nat) (rest : List Nat) :
    count_double_colon (c :: rest) =
      (if c = 58 ∧ rest.head? = some 58 then 1 else 0) + count_double_colon rest := rfl

theorem count_double_colon_append_of_no_colon (g rest : List Nat) (hg : ∀ c ∈ g, c ≠ 58) :
    count_double_colon (g ++ rest) = count_double_colon rest := by
  induction g with
  | nil => rfl
  | cons c g ih =>
    have hc : c ≠ 58 := hg c (List.mem_cons_self _ _)
    rw [List.cons_append, count_double_colon_cons, ih (fun x hx => hg x (List.mem_cons_of_mem _ hx))]
    simp [hc]

theorem count_double_colon_colon (rest : List Nat) (h : rest.head? ≠ some 58) :
    count_double_colon (58 :: rest) = count_double_colon rest := by
  rw [count_double_colon_cons]
  simp [h]

theorem head?_append_of_ne_nil (g rest : List Nat) (h : g ≠ []) :
    (g ++ rest).head? = g.head? := by
  cases g with
  | nil => exact absurd rfl h
  | cons a t => rfl

theorem head?_ne_colon (g : List Nat) (hg : ∀ c ∈ g, c ≠ 58) : g.head? ≠ some 58 := by
  cases g with
  | nil => simp
  | cons a t =>
    have := hg a (List.mem_cons_self _ _)
    simpa using this

theorem join_colon_head (g : List Nat) (gs : List (List Nat)) (rest : List Nat) (hg : g ≠ []) :
    (join_colon (g :: gs) ++ rest).head? = g.head? := by
  cases gs with
  | nil => simp only [join_colon]; exact head?_append_of_ne_nil g rest hg
  | cons g1 t =>
    rw [join_colon_cons_cons, List.append_assoc]
    exact head?_append_of_ne_nil g _ hg

theorem join_colon_head_ne_colon (gs : List (List Nat)) (rest : List Nat)
    (hgs : ∀ g ∈ gs, g ≠ [] ∧ ∀ c ∈ g, c ≠ 58) (hr : rest.head? ≠ some 58) :
    (join_colon gs ++ rest).head? ≠ some 58 := by
  cases gs with
  | nil => simpa [join_colon] using hr
  | cons g t =>
    have hg := hgs g (List.mem_cons_self _ _)
    rw [join_colon_head g t rest hg.1]
    exact head?_ne_colon g hg.2

/-- Groups without colons joined by single colons add no double colon. -/
theorem count_double_colon_join_append (gs : List (List Nat)) (rest : List Nat)
    (hgs : ∀ g ∈ gs, g ≠ [] ∧ ∀ c ∈ g, c ≠ 58) :
    count_double_colon (join_colon gs ++ rest) = count_double_colon rest := by
  induction gs with
  | nil => rfl
  | cons g t ih =>
    have hg := hgs g (List.mem_cons_self _ _)
    have ht : ∀ g ∈ t, g ≠ [] ∧ ∀ c ∈ g, c ≠ 58 := fun x hx => hgs x (List.mem_cons_of_mem _ hx)
    cases t with
    | nil =>
      simp only [join_colon]
      exact count_double_colon_append_of_no_colon g rest hg.2
    | cons g1 t1 =>
      rw [join_colon_cons_cons, List.append_assoc, count_double_colon_append_of_no_colon g _ hg.2,
        List.cons_append, count_double_colon_colon, ih ht]
      rw [join_colon_head g1 t1 rest (ht g1 (List.mem_cons_self _ _)).1]
      exact head?_ne_colon g1 (ht g1 (List.mem_cons_self _ _)).2

theorem count_double_colon_join (gs : List (List Nat))
    (hgs : ∀ g ∈ gs, g ≠ [] ∧ ∀ c ∈ g, c ≠ 58) : count_double_colon (join_colon gs) = 0 := by
  have := count_double_colon_join_append gs [] hgs
  rw [List.append_nil] at this
  rw [this]; rfl

theorem count_double_colon_gap (A B : List (List Nat))
    (hA : ∀ g ∈ A, g ≠ [] ∧ ∀ c ∈ g, c ≠ 58) (hB : ∀ g ∈ B, g ≠ [] ∧ ∀ c ∈ g, c ≠ 58) :
    count_double_colon (join_colon A ++ 58 :: 58 :: join_colon B) = 1 := by
  have hB0 := join_colon_head_ne_colon B [] hB (by simp)
  rw [List.append_nil] at hB0
  rw [count_double_colon_join_append A _ hA, count_double_colon_cons,
    count_double_colon_colon _ hB0, count_double_colon_join B hB]
  simp

theorem count_double_colon_le_append (pre rest : List Nat) :
    count_double_colon rest ≤ count_double_colon (pre ++ rest) := by
  induction pre with
  | nil => exact Nat.le_refl _
  | cons c t ih =>
    rw [List.cons_append, count_double_colon_cons]
    omega

/-- A text in which three colons follow each other has at least two double colons. -/
theorem count_double_colon_of_triple (t : List Nat) (h : [58, 58, 58] <:+: t) :
    2 ≤ count_double_colon t := by
  obtain ⟨pre, post, rfl⟩ := h
  have h1 := count_double_colon_le_append pre ([58, 58, 58] ++ post)
  have h2 : 2 ≤ count_double_colon ([58, 58, 58] ++ post) := by
    simp only [List.cons_append, List.nil_append, count_double_colon_cons, List.head?_cons]
    simp only [and_self, if_true]
    omega
  rw [List.append_assoc]
  omega

theorem Inet6.hex_groups_no_colon (ws : List Nat) (hw : ∀ w ∈ ws, w < 65536) :
    ∀ g ∈ ws.map sprintf_x, g ≠ [] ∧ ∀ c ∈ g, c ≠ 58 := by
  intro g hg
  obtain ⟨h1, h2⟩ := Inet6.mem_map_sprintf_x ws hw g hg
  refine ⟨?_, fun c hc => ?_⟩
  · intro e; subst e; exact absurd h1.1 (by simp)
  · have := h2 c hc; omega

theorem Inet4.to_string_no_colon (c0 c1 c2 c3 : Nat) (h0 : c0 < 256) (h1 : c1 < 256)
    (h2 : c2 < 256) (h3 : c3 < 256) :
    ∀ c ∈ Inet4.to_string [c0, c1, c2, c3] INET_ADDRSTRLEN, c ≠ 58 := by
  rw [Inet4.to_string_eq c0 c1 c2 c3 INET_ADDRSTRLEN h0 h1 h2 h3 (by decide)]
  have d0 := (sprintf_d_byte c0 h0).1.2.2.1
  have d1 := (sprintf_d_byte c1 h1).1.2.2.1
  have d2 := (sprintf_d_byte c2 h2).1.2.2.1
  have d3 := (sprintf_d_byte c3 h3).1.2.2.1
  intro c hc
  simp only [List.mem_append, List.mem_cons] at hc
  rcases hc with h | h | h | h | h | h | h
  · have := d0 c h; omega
  · omega
  · have := d1 c h; omega
  · omega
  · have := d2 c h; omega
  · omega
  · have := d3 c h; omega

/-- The number of double colons in the text written by `Inet6::to_string`. -/
theorem Inet6.to_string_count_double_colon (b : List Nat) (hb : IsInet6 b) (n : Nat)
    (hn : 46 ≤ n) :
    ∃ t, Inet6.to_string b n = some t ∧
      count_double_colon t = (if ∃ w ∈ Inet6.ipv6_words b, w = 0 then 1 else 0) := by
  have hlen := Inet6.ipv6_words_length b
  have hlt := Inet6.mem_ipv6_words_lt b
  by_cases ht : Inet6.ipv4_tail_words (Inet6.ipv6_words b)
  · refine ⟨_, Inet6.to_string_tail b hb n hn ht, ?_⟩
    have hz : ∃ w ∈ Inet6.ipv6_words b, w = 0 := by
      have h0 : (Inet6.ipv6_words b).getD 0 1 = 0 := by
        rcases ht with h | h
        · exact h.1 0 (by omega)
        · exact h.1 0 (by omega)
      rw [List.getD_eq_getElem?_getD, List.getElem?_eq_getElem (by omega)] at h0
      exact ⟨_, List.getElem_mem _, by simpa using h0⟩
    obtain ⟨c0, c1, c2, c3, e, h0, h1, h2, h3⟩ := hb.tail
    have hv := Inet4.to_string_no_colon c0 c1 c2 c3 h0 h1 h2 h3
    have hv0 : count_double_colon (Inet4.to_string [c0, c1, c2, c3] INET_ADDRSTRLEN) = 0 := by
      have := count_double_colon_append_of_no_colon _ [] hv
      rw [List.append_nil] at this
      rw [this]; rfl
    have hx : ∀ c ∈ sprintf_x 0xffff, c ≠ 58 := by decide
    rw [if_pos hz, e, count_double_colon_cons]
    split
    · rw [count_double_colon_colon, List.append_assoc, count_double_colon_append_of_no_colon _ _ hx,
        List.cons_append, List.nil_append, count_double_colon_colon _ (head?_ne_colon _ hv), hv0]
      · simp
      · rw [List.append_assoc]
        have : sprintf_x 0xffff ≠ [] := by decide
        rw [head?_append_of_ne_nil _ _ this]
        exact head?_ne_colon _ hx
    · rw [List.nil_append, count_double_colon_colon _ (head?_ne_colon _ hv), hv0]
      simp
  · obtain ⟨p1, p2⟩ := Inet6.to_string_plain b n hn ht
    by_cases hz : ∃ w ∈ Inet6.ipv6_words b, w = 0
    · obtain ⟨pos, len, hr⟩ := Inet6.exists_run_of_zero _ hlen hz
      refine ⟨_, p2 pos len hr, ?_⟩
      rw [if_pos hz, Inet6.gap_text]
      exact count_double_colon_gap _ _
        (Inet6.hex_groups_no_colon _ (fun w hm => hlt w (List.mem_of_mem_take hm)))
        (Inet6.hex_groups_no_colon _ (fun w hm => hlt w (List.mem_of_mem_drop hm)))
    · have hz1 : ∀ w ∈ Inet6.ipv6_words b, w ≠ 0 := fun w hw e => hz ⟨w, hw, e⟩
      refine ⟨_, p1 hz1, ?_⟩
      rw [if_neg hz]
      exact count_double_colon_join _ (Inet6.hex_groups_no_colon _ hlt)

/-- The loop of step 3 returns when the fuel covers the words left. -/
theorem Inet6.to_string_loop_isSome (b ws : List Nat) (gap : Region) (n : Nat)
    (hg : gap.pos < 0 ∨ 1 ≤ gap.length) :
    ∀ (fuel : Nat) (i : Int) (p : List Nat), 0 ≤ i → 8 ≤ i + fuel →
      (Inet6.to_string_loop b ws gap n fuel i p).isSome = true := by
  intro fuel
  induction fuel with
  | zero =>
    intro i p _ h
    rw [Inet6.to_string_loop_done b ws gap n 0 i p (by simpa using h)]
    rfl
  | succ fuel ih =>
    intro i p h0 h
    rw [Inet6.to_string_loop]
    split
    · rfl
    · split
      · rfl
      · split
        · rename_i hi
          have hl : 1 ≤ gap.length := by
            rcases hg with hg | hg
            · omega
            · exact hg
          apply ih
          · omega
          · push_cast at h
            omega
        · split
          · rfl
          · apply ih
            · omega
            · push_cast at h
              omega

/-- The method `Inet6::to_string` returns for every value and buffer size:
eight units of fuel are enough. -/
theorem Inet6.to_string_isSome (b : List Nat) (n : Nat) :
    (Inet6.to_string b n).isSome = true := by
  rw [Inet6.to_string_unfold]
  apply Inet6.to_string_loop_isSome
  · rcases Inet6.find_gap_spec _ (Inet6.ipv6_words_length b) with ⟨_, h⟩ | ⟨pos, len, h, hr⟩
    · rw [h]; left; decide
    · rw [h]; right
      have := hr.1.1
      simp only
      omega
  · simp
  · simp

/-! ## The decoder `Inet6::str_to_ipv6` on well-formed texts -/

theorem IN6_ADDR_SIZE_eq : IN6_ADDR_SIZE = 16 := rfl

theorem IN_ADDR_SIZE_eq : IN_ADDR_SIZE = 4 := rfl

/-- Scanning a run of hex digits that fits the group accumulates its value. -/
theorem Inet6.scan_hex (g : List Nat) (hg : ∀ c ∈ g, is_hex_digit c) (tail buf : List Nat)
    (dst : Nat) (gap : Option Nat) (gs : List Nat) :
    ∀ (cig gv : Nat), cig + g.length ≤ 4 →
    Inet6.scan (g ++ tail) buf dst gap gs cig gv =
      Inet6.scan tail buf dst gap gs (cig + g.length) (hex_acc gv g) := by
  induction g with
  | nil => intro cig gv _; rfl
  | cons c g ih =>
    intro cig gv hlen
    obtain ⟨h1, h2, h3, h4, h5⟩ := strchr_hex_digit c (hg c (List.mem_cons_self _ _))
    simp only [List.length_cons] at hlen
    have h6 : ¬ cig ≥ 4 := by omega
    rw [List.cons_append, Inet6.scan]
    simp only [h3, h4, h5, if_false, h1, h6, shl4_or gv _ h2]
    rw [ih (fun x hx => hg x (List.mem_cons_of_mem _ hx)) _ _ (by omega), hex_acc_cons]
    congr 1
    simp only [List.length_cons]; omega

/-- A colon after a non-empty group, not at the end of the text, commits the group. -/
theorem Inet6.scan_colon_store (tail buf : List Nat) (dst : Nat) (gap : Option Nat)
    (gs : List Nat) (cig gv : Nat) (hcig : cig ≠ 0) (ht : tail ≠ [])
    (ht0 : tail.head? ≠ some 0) :
    Inet6.scan (58 :: tail) buf dst gap gs cig gv =
      if dst + 2 > 16 then none
      else Inet6.scan tail (Inet6.store_group buf dst gv) (dst + 2) gap tail 0 0 := by
  have h : ¬ (tail.head? = some 0 ∨ tail = []) := by
    rintro (h | h)
    · exact ht0 h
    · exact ht h
  rw [Inet6.scan]
  simp only [hcig, h, if_false, IN6_ADDR_SIZE_eq]
  simp

/-- A colon with no group before it records the gap. -/
theorem Inet6.scan_colon_gap (tail buf : List Nat) (dst : Nat) (gs : List Nat) (gv : Nat) :
    Inet6.scan (58 :: tail) buf dst none gs 0 gv =
      Inet6.scan tail buf dst (some dst) tail 0 gv := by
  rw [Inet6.scan]
  simp

/-- A second colon with no group before it is an error. -/
theorem Inet6.scan_colon_gap_twice (tail buf : List Nat) (dst g : Nat) (gs : List Nat)
    (gv : Nat) : Inet6.scan (58 :: tail) buf dst (some g) gs 0 gv = none := by
  rw [Inet6.scan]
  simp

/-- A dot hands the text from the start of the group to `Inet4::str_to_ipv4`,
and its four bytes are stored when it accepts. -/
theorem Inet6.scan_dot_some (tail buf : List Nat) (dst : Nat) (gap : Option Nat) (gs : List Nat)
    (cig gv : Nat) (ipv4 : List Nat) (h4 : Inet4.str_to_ipv4 gs = some ipv4)
    (hdst : dst + 4 ≤ 16) :
    Inet6.scan (46 :: tail) buf dst gap gs cig gv =
      some ⟨Inet6.store_ipv4 buf dst ipv4, dst + 4, gap, 0, gv⟩ := by
  have h : ¬ dst + IN_ADDR_SIZE > IN6_ADDR_SIZE := by
    rw [IN6_ADDR_SIZE_eq, IN_ADDR_SIZE_eq]; omega
  rw [Inet6.scan]
  simp only [h, h4, if_false, IN_ADDR_SIZE_eq]
  simp [IN6_ADDR_SIZE_eq, hdst]

/-- A dot makes the scan fail when `Inet4::str_to_ipv4` rejects the text from
the start of the group. -/
theorem Inet6.scan_dot_none (tail buf : List Nat) (dst : Nat) (gap : Option Nat) (gs : List Nat)
    (cig gv : Nat) (h4 : Inet4.str_to_ipv4 gs = none) :
    Inet6.scan (46 :: tail) buf dst gap gs cig gv = none := by
  rw [Inet6.scan]
  simp only [h4]
  simp

theorem groups_colon_cons (g : List Nat) (gs : List (List Nat)) :
    groups_colon (g :: gs) = g ++ 58 :: groups_colon gs := rfl

theorem IsHexGroup.hex_ne_nil {g : List Nat} (h : IsHexGroup g) : g ≠ [] := by
  intro e; subst e; exact absurd h.1 (by simp)

theorem IsHexGroup.head_ne_zero {g : List Nat} (h : IsHexGroup g) (rest : List Nat) :
    (g ++ rest).head? ≠ some 0 := by
  cases g with
  | nil => exact absurd rfl h.hex_ne_nil
  | cons a t =>
    have := (strchr_hex_digit a (h.2.2 a (List.mem_cons_self _ _))).2.2.1
    simpa using this

/-- Scanning groups that are each followed by a colon commits them one after
the other, or fails when the buffer is full. -/
theorem Inet6.scan_groups (rest : List Nat) (hr : rest ≠ []) (hr0 : rest.head? ≠ some 0)
    (gap : Option Nat) :
    ∀ (A : List (List Nat)), (∀ g ∈ A, IsHexGroup g) → ∀ (buf : List Nat) (dst : Nat)
      (gs : List Nat), dst ≤ 16 →
    Inet6.scan (groups_colon A ++ rest) buf dst gap gs 0 0 =
      if dst + 2 * A.length ≤ 16 then
        Inet6.scan rest (Inet6.store_groups buf dst (A.map hex_value)) (dst + 2 * A.length) gap
          (if A = [] then gs else rest) 0 0
      else none := by
  intro A
  induction A with
  | nil =>
    intro _ buf dst gs h
    simp [groups_colon, Inet6.store_groups, h]
  | cons g A ih =>
    intro hA buf dst gs hdst
    have hg := hA g (List.mem_cons_self _ _)
    have hA1 : ∀ g ∈ A, IsHexGroup g := fun x hx => hA x (List.mem_cons_of_mem _ hx)
    have ht : groups_colon A ++ rest ≠ [] := by
      intro e
      exact hr (List.append_eq_nil.1 e).2
    have ht0 : (groups_colon A ++ rest).head? ≠ some 0 := by
      cases A with
      | nil => simpa [groups_colon] using hr0
      | cons g1 A1 =>
        rw [groups_colon_cons, List.append_assoc]
        exact (hA1 g1 (List.mem_cons_self _ _)).head_ne_zero _
    rw [groups_colon_cons, List.append_assoc, List.cons_append,
      Inet6.scan_hex g hg.2.2 _ _ _ _ _ 0 0 (by have := hg.2.1; omega),
      Inet6.scan_colon_store _ _ _ _ _ _ _ (by have := hg.1; omega) ht ht0]
    simp only [List.length_cons, List.map_cons, Inet6.store_groups]
    by_cases h1 : dst + 2 > 16
    · have h2 : ¬ dst + 2 * (A.length + 1) ≤ 16 := by omega
      simp [h1, h2]
    · rw [if_neg h1, ih hA1 _ _ _ (by omega)]
      by_cases h2 : dst + 2 * (A.length + 1) ≤ 16
      · have h3 : dst + 2 + 2 * A.length ≤ 16 := by omega
        have h4 : dst + 2 + 2 * A.length = dst + 2 * (A.length + 1) := by omega
        simp only [h2, h3, h4, if_true, hex_value]
        congr 1
        split
        · next e => subst e; rfl
        · rfl
      · have h3 : ¬ dst + 2 + 2 * A.length ≤ 16 := by omega
        simp [h2, h3]

theorem hex_acc_lt (g : List Nat) (hg : ∀ c ∈ g, is_hex_digit c) :
    ∀ v, hex_acc v g < (v + 1) * 16 ^ g.length := by
  induction g with
  | nil => intro v; simp [hex_acc]
  | cons c g ih =>
    intro v
    have hd := (strchr_hex_digit c (hg c (List.mem_cons_self _ _))).2.1
    have h1 := ih (fun x hx => hg x (List.mem_cons_of_mem _ hx)) (v * 16 + hex_digit_value c)
    have h2 : (v * 16 + hex_digit_value c + 1) * 16 ^ g.length ≤
        ((v + 1) * 16) * 16 ^ g.length := Nat.mul_le_mul_right _ (by omega)
    rw [hex_acc_cons, List.length_cons, Nat.pow_succ, Nat.mul_comm (16 ^ g.length) 16,
      ← Nat.mul_assoc]
    omega

theorem IsHexGroup.value_lt {g : List Nat} (h : IsHexGroup g) : hex_value g < 65536 := by
  have h1 := hex_acc_lt g h.2.2 0
  have h2 : 16 ^ g.length ≤ 16 ^ 4 := Nat.pow_le_pow_right (by omega) h.2.1
  unfold hex_value
  simp only [Nat.zero_add, Nat.one_mul] at h1
  have : (16 : Nat) ^ 4 = 65536 := by norm_num
  omega

theorem set_append_replicate_zero (w : List Nat) (k a : Nat) :
    (w ++ List.replicate (k + 1) 0).set w.length a = (w ++ [a]) ++ List.replicate k 0 := by
  induction w with
  | nil => simp [List.replicate_succ]
  | cons x w ih => simp only [List.cons_append, List.length_cons, List.set_cons_succ, ih]

/-- Committing a group at the end of the written part of the buffer appends
its two bytes. -/
theorem Inet6.store_group_append (w : List Nat) (k v : Nat) (hv : v < 65536) :
    Inet6.store_group (w ++ List.replicate (k + 2) 0) w.length v =
      (w ++ [v / 256, v % 256]) ++ List.replicate k 0 := by
  have e : (v >>> 8) % 256 = v / 256 := by
    rw [Nat.shiftRight_eq_div_pow]
    simp only [Nat.reducePow]
    omega
  unfold Inet6.store_group
  rw [e, set_append_replicate_zero w (k + 1) (v / 256)]
  have := set_append_replicate_zero (w ++ [v / 256]) k (v % 256)
  simp only [List.length_append, List.length_singleton] at this
  rw [this]
  simp

theorem word_bytes_cons (w : Nat) (ws : List Nat) :
    word_bytes (w :: ws) = w / 256 :: w % 256 :: word_bytes ws := rfl

theorem word_bytes_length (ws : List Nat) : (word_bytes ws).length = 2 * ws.length := by
  induction ws with
  | nil => rfl
  | cons w ws ih => simp only [word_bytes_cons, List.length_cons, ih]; omega

theorem word_bytes_append (xs ys : List Nat) :
    word_bytes (xs ++ ys) = word_bytes xs ++ word_bytes ys := by
  induction xs with
  | nil => rfl
  | cons w xs ih => simp only [List.cons_append, word_bytes_cons, ih]

theorem word_bytes_replicate_zero (n : Nat) :
    word_bytes (List.replicate n 0) = List.replicate (2 * n) 0 := by
  induction n with
  | zero => rfl
  | succ n ih =>
    rw [List.replicate_succ, word_bytes_cons, ih, show 2 * (n + 1) = 2 * n + 1 + 1 by omega,
      List.replicate_succ, List.replicate_succ]

/-- Committing groups at the end of the written part of the buffer appends
their bytes. -/
theorem Inet6.store_groups_append (vs : List Nat) (hv : ∀ v ∈ vs, v < 65536) :
    ∀ (w : List Nat) (k : Nat),
    Inet6.store_groups (w ++ List.replicate (2 * vs.length + k) 0) w.length vs =
      (w ++ word_bytes vs) ++ List.replicate k 0 := by
  induction vs with
  | nil => intro w k; simp [Inet6.store_groups, word_bytes]
  | cons v vs ih =>
    intro w k
    have h1 := hv v (List.mem_cons_self _ _)
    have h2 := ih (fun x hx => hv x (List.mem_cons_of_mem _ hx)) (w ++ [v / 256, v % 256]) k
    simp only [List.length_append, List.length_cons, List.length_nil] at h2
    rw [Inet6.store_groups, show 2 * (v :: vs).length + k = (2 * vs.length + k) + 2 by
      simp only [List.length_cons]; omega, Inet6.store_group_append w _ v h1, h2, word_bytes_cons]
    simp

/-- Storing an IPv4 address at the end of the written part of the buffer
appends its four bytes. -/
theorem Inet6.store_ipv4_append (w : List Nat) (k q0 q1 q2 q3 : Nat) :
    Inet6.store_ipv4 (w ++ List.replicate (k + 4) 0) w.length [q0, q1, q2, q3] =
      (w ++ [q0, q1, q2, q3]) ++ List.replicate k 0 := by
  unfold Inet6.store_ipv4
  simp only [List.getD_cons_zero, List.getD_cons_succ]
  rw [set_append_replicate_zero w (k + 3) q0]
  have h1 := set_append_replicate_zero (w ++ [q0]) (k + 2) q1
  have h2 := set_append_replicate_zero (w ++ [q0] ++ [q1]) (k + 1) q2
  have h3 := set_append_replicate_zero (w ++ [q0] ++ [q1] ++ [q2]) k q3
  simp only [List.length_append, List.length_singleton] at h1 h2 h3
  rw [h1, h2, h3]
  simp

theorem move_gap_step (X Y : List Nat) (a k : Nat) :
    ((X ++ a :: (List.replicate k 0 ++ 0 :: Y)).set (X.length + 1 + k)
      ((X ++ a :: (List.replicate k 0 ++ 0 :: Y)).getD X.length 0)).set X.length 0 =
      X ++ 0 :: (List.replicate k 0 ++ a :: Y) := by
  induction X with
  | nil =>
    have h : ∀ (k : Nat) (Z : List Nat), (List.replicate k 0 ++ 0 :: Z).set k a =
        List.replicate k 0 ++ a :: Z := by
      intro k
      induction k with
      | zero => intro Z; rfl
      | succ k ih => intro Z; simp only [List.replicate_succ, List.cons_append,
          List.set_cons_succ, ih]
    simp only [List.nil_append, List.length_nil, List.getD_cons_zero, Nat.zero_add]
    rw [show 1 + k = k + 1 by omega, List.set_cons_succ, h k Y, List.set_cons_zero]
  | cons x X ih =>
    simp only [List.cons_append, List.length_cons, List.getD_cons_succ]
    rw [show X.length + 1 + 1 + k = (X.length + 1 + k) + 1 by omega, List.set_cons_succ,
      List.set_cons_succ, ih]

/-- The gap loop moves the bytes written after the gap to the end of the
buffer and leaves zeros in between. -/
theorem Inet6.move_gap_spec (w : List Nat) (gap : Nat) (hg : gap ≤ w.length)
    (hw : w.length < 16) :
    ∀ (count j : Nat), j + count = w.length - gap →
    Inet6.move_gap gap (w.length - gap) count (j + 1)
        (w.take (w.length - j) ++ List.replicate (16 - w.length) 0 ++ w.drop (w.length - j)) =
      w.take gap ++ List.replicate (16 - w.length) 0 ++ w.drop gap := by
  intro count
  induction count with
  | zero =>
    intro j hj
    have : w.length - j = gap := by omega
    rw [Inet6.move_gap, this]
  | succ count ih =>
    intro j hj
    have hlt : w.length - (j + 1) < w.length := by omega
    have e1 : w.take (w.length - j) = w.take (w.length - (j + 1)) ++ [w[w.length - (j + 1)]] := by
      rw [show w.length - j = (w.length - (j + 1)) + 1 by omega, List.take_succ,
        List.getElem?_eq_getElem hlt]
      rfl
    have e2 : w.drop (w.length - (j + 1)) = w[w.length - (j + 1)] :: w.drop (w.length - j) := by
      rw [List.drop_eq_getElem_cons hlt, show w.length - (j + 1) + 1 = w.length - j by omega]
    have e3 : List.replicate (16 - w.length) (0 : Nat) =
        List.replicate (15 - w.length) 0 ++ [0] := by
      rw [show 16 - w.length = (15 - w.length) + 1 by omega, List.replicate_succ']
    have hX : (w.take (w.length - (j + 1))).length = w.length - (j + 1) := by
      rw [List.length_take]; omega
    have step := move_gap_step (w.take (w.length - (j + 1))) (w.drop (w.length - j))
      w[w.length - (j + 1)] (15 - w.length)
    rw [hX] at step
    rw [Inet6.move_gap, ← ih (j + 1) (by omega), IN6_ADDR_SIZE_eq]
    congr 1
    rw [show 16 - (j + 1) = w.length - (j + 1) + 1 + (15 - w.length) by omega,
      show gap + (w.length - gap - (j + 1)) = w.length - (j + 1) by omega]
    rw [e1, e3, e2]
    simp only [List.append_assoc, List.singleton_append, List.cons_append, List.nil_append]
      at step ⊢
    rw [step]
    congr 1
    rw [← List.cons_append, ← List.replicate_succ, List.replicate_succ']
    simp

theorem groups_colon_length (A : List (List Nat)) (hA : ∀ g ∈ A, IsHexGroup g) :
    2 * A.length ≤ (groups_colon A).length ∧ (groups_colon A).length ≤ 5 * A.length := by
  induction A with
  | nil => simp [groups_colon]
  | cons g A ih =>
    have hg := hA g (List.mem_cons_self _ _)
    have := ih (fun x hx => hA x (List.mem_cons_of_mem _ hx))
    have h1 := hg.1
    have h2 := hg.2.1
    simp only [groups_colon_cons, List.length_append, List.length_cons]
    omega

theorem groups_colon_head (A : List (List Nat)) (hA : ∀ g ∈ A, IsHexGroup g) (rest : List Nat)
    (hr : rest.head? ≠ some 58) : (groups_colon A ++ rest).head? ≠ some 58 := by
  cases A with
  | nil => simpa [groups_colon] using hr
  | cons g A =>
    have hg := hA g (List.mem_cons_self _ _)
    cases g with
    | nil => exact absurd rfl hg.hex_ne_nil
    | cons a t =>
      have := (strchr_hex_digit a (hg.2.2 a (List.mem_cons_self _ _))).2.2.2.1
      simpa [groups_colon] using this

theorem IsHexGroup.head_ne_colon {g : List Nat} (h : IsHexGroup g) : g.head? ≠ some 58 := by
  cases g with
  | nil => exact absurd rfl h.hex_ne_nil
  | cons a t =>
    have := (strchr_hex_digit a (h.2.2 a (List.mem_cons_self _ _))).2.2.2.1
    simpa using this

theorem join_colon_append_singleton (A : List (List Nat)) (g : List Nat) :
    join_colon (A ++ [g]) = groups_colon A ++ g := by
  induction A with
  | nil => rfl
  | cons a A ih =>
    cases A with
    | nil => simp [join_colon, groups_colon]
    | cons a1 A1 =>
      rw [List.cons_append, List.cons_append, join_colon_cons_cons, ← List.cons_append, ih]
      simp [groups_colon]

theorem join_colon_append_colon (A : List (List Nat)) (hA : A ≠ []) (rest : List Nat) :
    join_colon A ++ 58 :: rest = groups_colon A ++ rest := by
  induction A with
  | nil => exact absurd rfl hA
  | cons a A ih =>
    cases A with
    | nil => simp [join_colon, groups_colon]
    | cons a1 A1 =>
      rw [join_colon_cons_cons, List.append_assoc, List.cons_append, ih (by simp)]
      simp [groups_colon]

theorem hex_values_lt (A : List (List Nat)) (hA : ∀ g ∈ A, IsHexGroup g) :
    ∀ v ∈ A.map hex_value, v < 65536 := by
  intro v hv
  obtain ⟨g, hg, rfl⟩ := List.mem_map.1 hv
  exact (hA g hg).value_lt

/-- The scan of groups followed by colons, from the start of the buffer. -/
theorem Inet6.scan_groups_from (A : List (List Nat)) (hA : ∀ g ∈ A, IsHexGroup g)
    (rest : List Nat) (hr : rest ≠ []) (hr0 : rest.head? ≠ some 0) (w : List Nat)
    (gap : Option Nat) (gs : List Nat) (h : w.length + 2 * A.length ≤ 16) :
    Inet6.scan (groups_colon A ++ rest) (w ++ List.replicate (16 - w.length) 0) w.length gap
        gs 0 0 =
      Inet6.scan rest
        ((w ++ word_bytes (A.map hex_value)) ++
          List.replicate (16 - (w.length + 2 * A.length)) 0)
        (w.length + 2 * A.length) gap (if A = [] then gs else rest) 0 0 := by
  rw [Inet6.scan_groups rest hr hr0 gap A hA _ _ _ (by omega), if_pos h]
  have e := Inet6.store_groups_append (A.map hex_value) (hex_values_lt A hA) w
    (16 - (w.length + 2 * A.length))
  rw [List.length_map, show 2 * A.length + (16 - (w.length + 2 * A.length)) = 16 - w.length by
    omega] at e
  rw [e]

/-- The scan of a last group, up to the end of the text. -/
theorem Inet6.scan_last_group (g : List Nat) (hg : IsHexGroup g) (buf : List Nat) (dst : Nat)
    (gap : Option Nat) (gs : List Nat) :
    Inet6.scan g buf dst gap gs 0 0 = some ⟨buf, dst, gap, g.length, hex_value g⟩ := by
  have := Inet6.scan_hex g hg.2.2 [] buf dst gap gs 0 0 (by have := hg.2.1; omega)
  rw [List.append_nil] at this
  rw [this, Inet6.scan]
  simp [hex_value]

theorem Inet6.str_to_ipv6_unfold (s : List Nat) (h1 : 2 ≤ s.length) (h2 : s.length ≤ 39)
    (hh : s.head? ≠ some 58) (st : Inet6.Scan)
    (hs : Inet6.scan s (List.replicate 16 0) 0 none s 0 0 = some st) :
    Inet6.str_to_ipv6 s = Inet6.str_to_ipv6_end st := by
  have a1 : ¬ s.length < 2 := by omega
  have a2 : ¬ s.length > IN6_ADDR_MAX_CHAR_LENGTH := by
    show ¬ s.length > 39
    omega
  unfold Inet6.str_to_ipv6
  simp only [a1, a2, hh, if_false, false_and, IN6_ADDR_SIZE_eq, hs]

theorem Inet6.str_to_ipv6_unfold_none (s : List Nat) (hh : s.head? ≠ some 58)
    (hs : Inet6.scan s (List.replicate 16 0) 0 none s 0 0 = none) :
    Inet6.str_to_ipv6 s = none := by
  unfold Inet6.str_to_ipv6
  simp only [hh, if_false, false_and, IN6_ADDR_SIZE_eq, hs]
  split_ifs <;> rfl

theorem Inet6.str_to_ipv6_unfold_colon (t : List Nat) (h2 : t.length ≤ 37) (st : Inet6.Scan)
    (hs : Inet6.scan t (List.replicate 16 0) 0 (some 0) t 0 0 = some st) :
    Inet6.str_to_ipv6 (58 :: 58 :: t) = Inet6.str_to_ipv6_end st := by
  have a1 : ¬ (58 :: 58 :: t).length < 2 := by simp
  have a2 : ¬ (58 :: 58 :: t).length > IN6_ADDR_MAX_CHAR_LENGTH := by
    show ¬ (58 :: 58 :: t).length > 39
    simp only [List.length_cons]; omega
  unfold Inet6.str_to_ipv6
  simp only [a1, a2, if_false, IN6_ADDR_SIZE_eq, List.head?_cons, List.drop_succ_cons,
    List.drop_zero, ne_eq, not_true_eq_false, and_false, if_true, Inet6.scan_colon_gap, hs]

/-- The end of `Inet6::str_to_ipv6` without a gap: the buffer must be full
after the commit of the last group. -/
theorem Inet6.str_to_ipv6_end_no_gap (w : List Nat) (cig gv : Nat) (hc : 0 < cig)
    (hv : gv < 65536) (hw : w.length ≤ 16) :
    Inet6.str_to_ipv6_end ⟨w ++ List.replicate (16 - w.length) 0, w.length, none, cig, gv⟩ =
      if w.length = 14 then some (w ++ [gv / 256, gv % 256]) else none := by
  unfold Inet6.str_to_ipv6_end
  simp only [hc, true_and, if_true, IN6_ADDR_SIZE_eq]
  by_cases h1 : w.length + 2 > 16
  · have : ¬ w.length = 14 := by omega
    simp [h1, this]
  · by_cases h2 : w.length = 14
    · have e := Inet6.store_group_append w 0 gv hv
      rw [h2] at e ⊢
      simp only [Nat.zero_add, List.replicate, List.append_nil] at e
      simp [e]
    · have : w.length + 2 < 16 := by omega
      simp [h1, h2, this]

theorem Inet6.move_gap_all (w : List Nat) (gap : Nat) (hg : gap ≤ w.length)
    (hw : w.length < 16) (n : Nat) (hn : n = w.length) :
    Inet6.move_gap gap (n - gap) (n - gap) 1 (w ++ List.replicate (16 - n) 0) =
      w.take gap ++ List.replicate (16 - n) 0 ++ w.drop gap := by
  subst hn
  have m := Inet6.move_gap_spec w gap hg hw (w.length - gap) 0 (by omega)
  rw [Nat.sub_zero, List.take_length, List.drop_length, List.append_nil, Nat.zero_add] at m
  exact m

/-- The end of `Inet6::str_to_ipv6` with a gap: the bytes written after the gap
are moved to the end of the buffer. -/
theorem Inet6.str_to_ipv6_end_gap (w : List Nat) (gap cig gv : Nat) (hv : gv < 65536)
    (hg : gap ≤ w.length) (hw : w.length + (if cig > 0 then 2 else 0) < 16) :
    Inet6.str_to_ipv6_end ⟨w ++ List.replicate (16 - w.length) 0, w.length, some gap, cig, gv⟩ =
      some ((w ++ if cig > 0 then [gv / 256, gv % 256] else []).take gap ++
        List.replicate (16 - (w.length + (if cig > 0 then 2 else 0))) 0 ++
        (w ++ if cig > 0 then [gv / 256, gv % 256] else []).drop gap) := by
  unfold Inet6.str_to_ipv6_end
  by_cases hc : cig > 0
  · simp only [hc, if_true] at hw ⊢
    have h1 : ¬ (True ∧ w.length + 2 > IN6_ADDR_SIZE) := by
      rw [IN6_ADDR_SIZE_eq]; omega
    have h2 : ¬ w.length + 2 = IN6_ADDR_SIZE := by
      rw [IN6_ADDR_SIZE_eq]; omega
    have e := Inet6.store_group_append w (14 - w.length) gv hv
    rw [show 14 - w.length + 2 = 16 - w.length by omega] at e
    have m := Inet6.move_gap_all (w ++ [gv / 256, gv % 256]) gap
      (by simp only [List.length_append]; omega) (by simp only [List.length_append]; simpa using hw)
      (w.length + 2) (by simp)
    rw [show 16 - (w.length + 2) = 14 - w.length by omega] at m ⊢
    simp only [h1, h2, if_false, e]
    rw [m]
  · simp only [hc, if_false, Nat.add_zero, List.append_nil, false_and] at hw ⊢
    have h2 : ¬ w.length = IN6_ADDR_SIZE := by
      rw [IN6_ADDR_SIZE_eq]; omega
    have m := Inet6.move_gap_all w gap hg hw w.length rfl
    simp only [h2, if_false]
    rw [m]

theorem Inet6.str_to_ipv6_short (s : List Nat) (h : s.length < 2 ∨ 39 < s.length) :
    Inet6.str_to_ipv6 s = none := by
  unfold Inet6.str_to_ipv6
  rcases h with h | h
  · simp [h]
  · have : s.length > IN6_ADDR_MAX_CHAR_LENGTH := h
    simp [this]

/-- Groups joined by single colons, without a gap, are accepted exactly when
there are eight of them, and the result is the bytes of their values. -/
theorem Inet6.str_to_ipv6_groups (A : List (List Nat)) (g : List Nat)
    (hA : ∀ x ∈ A, IsHexGroup x) (hg : IsHexGroup g) :
    Inet6.str_to_ipv6 (groups_colon A ++ g) =
      if A.length = 7 then some (word_bytes ((A ++ [g]).map hex_value)) else none := by
  have hh : (groups_colon A ++ g).head? ≠ some 58 := groups_colon_head A hA g hg.head_ne_colon
  have hl := groups_colon_length A hA
  have hg1 := hg.1
  have hg2 := hg.2.1
  have hlen : (groups_colon A ++ g).length = (groups_colon A).length + g.length :=
    List.length_append _ _
  by_cases hb : (groups_colon A ++ g).length < 2 ∨ 39 < (groups_colon A ++ g).length
  · have h7 : ¬ A.length = 7 := by omega
    rw [Inet6.str_to_ipv6_short _ hb, if_neg h7]
  have hb1 : 2 ≤ (groups_colon A ++ g).length := by omega
  have hb2 : (groups_colon A ++ g).length ≤ 39 := by omega
  by_cases h16 : 2 * A.length ≤ 16
  · have hs := Inet6.scan_groups_from A hA g hg.hex_ne_nil (hg.head_ne_zero []
      |> fun h => by simpa using h) [] none (groups_colon A ++ g) (by simpa using h16)
    simp only [List.nil_append, List.length_nil, Nat.zero_add, Nat.sub_zero] at hs
    rw [Inet6.scan_last_group g hg] at hs
    have hwl : (word_bytes (A.map hex_value)).length = 2 * A.length := by
      rw [word_bytes_length, List.length_map]
    rw [← hwl] at hs
    rw [Inet6.str_to_ipv6_unfold _ hb1 hb2 hh _ hs,
      Inet6.str_to_ipv6_end_no_gap _ _ _ (by omega) hg.value_lt (by omega), hwl]
    by_cases h7 : A.length = 7
    · rw [if_pos (by omega), if_pos h7, List.map_append, word_bytes_append]
      rfl
    · rw [if_neg (by omega), if_neg h7]
  · have h7 : ¬ A.length = 7 := by omega
    rw [if_neg h7]
    apply Inet6.str_to_ipv6_unfold_none _ hh
    rw [Inet6.scan_groups g hg.hex_ne_nil (hg.head_ne_zero [] |> fun h => by simpa using h) none A hA
      _ _ _ (by omega)]
    simp only [Nat.zero_add, h16, if_false]

/-- The scan of the groups after the gap, up to the end of the text. -/
theorem Inet6.scan_after_gap (B : List (List Nat)) (hB : ∀ x ∈ B, IsHexGroup x) (w : List Nat)
    (h : w.length + 2 * B.length ≤ 16) :
    ∃ w1 cig gv, gv < 65536 ∧
      (∀ (gap : Option Nat) (gs : List Nat),
        Inet6.scan (join_colon B) (w ++ List.replicate (16 - w.length) 0) w.length gap gs 0 0 =
          some ⟨w1 ++ List.replicate (16 - w1.length) 0, w1.length, gap, cig, gv⟩) ∧
      w1.length + (if cig > 0 then 2 else 0) = w.length + 2 * B.length ∧
      w1 ++ (if cig > 0 then [gv / 256, gv % 256] else []) =
        w ++ word_bytes (B.map hex_value) ∧ w.length ≤ w1.length := by
  rcases List.eq_nil_or_concat B with rfl | ⟨B1, g, rfl⟩
  · refine ⟨w, 0, 0, by omega, fun gap gs => ?_, by simp, by simp [word_bytes], Nat.le_refl _⟩
    simp [join_colon, Inet6.scan]
  · have hg : IsHexGroup g := hB g (by simp)
    have hB1 : ∀ x ∈ B1, IsHexGroup x := fun x hx => hB x (by simp [hx])
    have hlen : w.length + 2 * B1.length ≤ 16 := by
      simp only [List.concat_eq_append, List.length_append, List.length_singleton] at h; omega
    have hwl : (w ++ word_bytes (B1.map hex_value)).length = w.length + 2 * B1.length := by
      rw [List.length_append, word_bytes_length, List.length_map]
    have hgl := hg.1
    refine ⟨w ++ word_bytes (B1.map hex_value), g.length, hex_value g, hg.value_lt,
      fun gap gs => ?_, ?_, ?_, by rw [hwl]; omega⟩
    · have hs := Inet6.scan_groups_from B1 hB1 g hg.hex_ne_nil (hg.head_ne_zero []
        |> fun h => by simpa using h) w gap gs hlen
      rw [Inet6.scan_last_group g hg] at hs
      rw [List.concat_eq_append, join_colon_append_singleton, hs, hwl]
    · rw [hwl, if_pos (by omega)]
      simp only [List.concat_eq_append, List.length_append, List.length_singleton]; omega
    · rw [if_pos (by omega), List.concat_eq_append, List.map_append, word_bytes_append,
        List.append_assoc]
      rfl

theorem take_drop_append_left (a b : List Nat) : (a ++ b).take a.length = a ∧
    (a ++ b).drop a.length = b := by
  simp

theorem join_colon_length (B : List (List Nat)) (hB : ∀ x ∈ B, IsHexGroup x) :
    (join_colon B).length ≤ 5 * B.length := by
  rcases List.eq_nil_or_concat B with rfl | ⟨B1, g, rfl⟩
  · simp [join_colon]
  · have := groups_colon_length B1 (fun x hx => hB x (by simp [hx]))
    have := (hB g (by simp)).2.1
    rw [List.concat_eq_append, join_colon_append_singleton]
    simp only [List.length_append, List.length_singleton]
    omega

/-- Groups around a gap are accepted when they are at most seven, and the gap
is filled with zero bytes. -/
theorem Inet6.str_to_ipv6_gap (A B : List (List Nat)) (hA : ∀ x ∈ A, IsHexGroup x)
    (hB : ∀ x ∈ B, IsHexGroup x) (h : A.length + B.length ≤ 7) :
    Inet6.str_to_ipv6 (join_colon A ++ 58 :: 58 :: join_colon B) =
      some (word_bytes (A.map hex_value) ++
        List.replicate (2 * (8 - (A.length + B.length))) 0 ++
        word_bytes (B.map hex_value)) := by
  have hwl : (word_bytes (A.map hex_value)).length = 2 * A.length := by
    rw [word_bytes_length, List.length_map]
  have hBl := join_colon_length B hB
  obtain ⟨wA, hwA⟩ : ∃ x, x = word_bytes (A.map hex_value) := ⟨_, rfl⟩
  rw [← hwA] at hwl ⊢
  obtain ⟨w1, cig, gv, hv, hs, hl1, hw1, hle⟩ :=
    Inet6.scan_after_gap B hB wA (by rw [hwl]; omega)
  have hfin := Inet6.str_to_ipv6_end_gap w1 wA.length cig gv hv hle (by omega)
  rw [hw1, hl1, (take_drop_append_left _ _).1, (take_drop_append_left _ _).2, hwl,
    show 16 - (2 * A.length + 2 * B.length) = 2 * (8 - (A.length + B.length)) by omega] at hfin
  rw [← hfin]
  by_cases hAe : A = []
  · subst hAe
    have e : wA = [] := by rw [hwA]; rfl
    subst e
    simp only [join_colon, List.nil_append]
    apply Inet6.str_to_ipv6_unfold_colon _ (by simp only [List.length_nil] at h; omega)
    have := hs (some 0) (join_colon B)
    simpa using this
  · rw [join_colon_append_colon _ hAe]
    have hAl := groups_colon_length _ hA
    have hApos : 0 < A.length := List.length_pos.2 hAe
    have hsA := Inet6.scan_groups_from A hA (58 :: join_colon B) (by simp) (by simp)
      [] none (groups_colon A ++ 58 :: join_colon B)
      (by simp only [List.length_nil]; omega)
    simp only [List.nil_append, List.length_nil, Nat.zero_add, Nat.sub_zero, hAe, if_false]
      at hsA
    rw [Inet6.scan_colon_gap, ← hwA, ← hwl, hs, hwl] at hsA
    apply Inet6.str_to_ipv6_unfold _ _ _ _ _ hsA
    · simp only [List.length_append, List.length_cons]; omega
    · simp only [List.length_append, List.length_cons]; omega
    · cases A with
      | nil => exact absurd rfl hAe
      | cons a0 A0 =>
        rw [groups_colon_cons, List.append_assoc]
        have h0 := hA a0 (List.mem_cons_self _ _)
        rw [head?_append_of_ne_nil _ _ h0.hex_ne_nil]
        exact h0.head_ne_colon

theorem Inet4.scan_length (s : List Nat) :
    ∀ (bytes : List Nat) (bv cig dc c : Nat) (st : Inet4.Scan),
    Inet4.scan s bytes bv cig dc c = some st → st.ipv4_bytes.length = bytes.length := by
  induction s with
  | nil =>
    intro bytes bv cig dc c st h
    simp only [Inet4.scan, Option.some.injEq] at h
    rw [← h]
  | cons ch p ih =>
    intro bytes bv cig dc c st h
    rw [Inet4.scan] at h
    split at h
    · simp only [Option.some.injEq] at h
      rw [← h]
    · split at h
      · split at h
        · exact absurd h (by simp)
        · split at h
          · exact absurd h (by simp)
          · exact ih _ _ _ _ _ _ h
      · split at h
        · split at h
          · exact absurd h (by simp)
          · split at h
            · exact absurd h (by simp)
            · rw [ih _ _ _ _ _ _ h, List.length_set]
        · exact absurd h (by simp)

/-- The result of `Inet4::str_to_ipv4` has four bytes. -/
theorem Inet4.str_to_ipv4_length (s q : List Nat) (h : Inet4.str_to_ipv4 s = some q) :
    q.length = 4 := by
  unfold Inet4.str_to_ipv4 at h
  split at h
  · exact absurd h (by simp)
  split at h
  · exact absurd h (by simp)
  split at h
  · exact absurd h (by simp)
  rename_i st hst
  split at h
  · exact absurd h (by simp)
  split at h
  · exact absurd h (by simp)
  simp only [Option.some.injEq] at h
  rw [← h, List.length_set, Inet4.scan_length _ _ _ _ _ _ _ hst]
  rfl

theorem is_hex_digit_of_digit (c : Nat) (h : 48 ≤ c ∧ c ≤ 57) : is_hex_digit c := Or.inl h

/-- After a gap at the start and at most five groups, a dotted quad accepted
by `Inet4::str_to_ipv4` fills the last four bytes. -/
theorem Inet6.str_to_ipv6_ipv4_tail (A : List (List Nat)) (hA : ∀ x ∈ A, IsHexGroup x)
    (g0 rest q : List Nat) (hg0 : ∀ c ∈ g0, 48 ≤ c ∧ c ≤ 57) (hl0 : g0.length ≤ 4)
    (hq : Inet4.str_to_ipv4 (g0 ++ 46 :: rest) = some q) (hA5 : A.length ≤ 5)
    (hlen : (groups_colon A ++ (g0 ++ 46 :: rest)).length ≤ 37) :
    Inet6.str_to_ipv6 (58 :: 58 :: (groups_colon A ++ (g0 ++ 46 :: rest))) =
      some (List.replicate (12 - 2 * A.length) 0 ++ (word_bytes (A.map hex_value) ++ q)) := by
  have hwl : (word_bytes (A.map hex_value)).length = 2 * A.length := by
    rw [word_bytes_length, List.length_map]
  have hql := Inet4.str_to_ipv4_length _ _ hq
  obtain ⟨q0, q1, q2, q3, rfl⟩ : ∃ q0 q1 q2 q3, q = [q0, q1, q2, q3] := by
    match q, hql with
    | [q0, q1, q2, q3], _ => exact ⟨q0, q1, q2, q3, rfl⟩
  have hd : g0 ++ 46 :: rest ≠ [] := by simp
  have hd0 : (g0 ++ 46 :: rest).head? ≠ some 0 := by
    cases g0 with
    | nil => simp
    | cons a t =>
      have := hg0 a (List.mem_cons_self _ _)
      simp only [List.cons_append, List.head?_cons, ne_eq, Option.some.injEq]
      omega
  have hgs : (if A = [] then groups_colon A ++ (g0 ++ 46 :: rest) else g0 ++ 46 :: rest) =
      g0 ++ 46 :: rest := by
    split
    · next e => subst e; rfl
    · rfl
  have hs := Inet6.scan_groups_from A hA (g0 ++ 46 :: rest) hd hd0 [] (some 0)
    (groups_colon A ++ (g0 ++ 46 :: rest)) (by simp only [List.length_nil]; omega)
  simp only [List.nil_append, List.length_nil, Nat.zero_add, Nat.sub_zero] at hs
  rw [hgs, Inet6.scan_hex g0 (fun c hc => is_hex_digit_of_digit c (hg0 c hc)) _ _ _ _ _ 0 0
      (by omega),
    Inet6.scan_dot_some _ _ _ _ _ _ _ _ hq (by omega), ← hwl,
    show 16 - (word_bytes (A.map hex_value)).length =
      (12 - (word_bytes (A.map hex_value)).length) + 4 by omega,
    Inet6.store_ipv4_append] at hs
  have hwq : (word_bytes (A.map hex_value) ++ [q0, q1, q2, q3]).length =
      (word_bytes (A.map hex_value)).length + 4 := by simp
  have hv : hex_acc 0 g0 < 65536 := by
    have h1 := hex_acc_lt g0 (fun c hc => is_hex_digit_of_digit c (hg0 c hc)) 0
    have h2 : 16 ^ g0.length ≤ 16 ^ 4 := Nat.pow_le_pow_right (by omega) hl0
    simp only [Nat.zero_add, Nat.one_mul] at h1
    have : (16 : Nat) ^ 4 = 65536 := by norm_num
    omega
  have hfin := Inet6.str_to_ipv6_end_gap (word_bytes (A.map hex_value) ++ [q0, q1, q2, q3]) 0 0
    (hex_acc 0 g0) hv (by omega) (by rw [hwq]; simp only [gt_iff_lt, Nat.lt_irrefl, if_false]; omega)
  simp only [gt_iff_lt, Nat.lt_irrefl, if_false, List.append_nil, List.take_zero, List.drop_zero,
    List.nil_append, Nat.add_zero] at hfin
  rw [show 12 - (word_bytes (A.map hex_value)).length =
      16 - ((word_bytes (A.map hex_value)).length + 4) by omega, ← hwq] at hs
  rw [Inet6.str_to_ipv6_unfold_colon _ hlen _ hs, hfin, hwq, hwl,
    show 16 - (2 * A.length + 4) = 12 - 2 * A.length by omega]

/-! ## Encoding then decoding an IPv6 address -/

theorem map_hex_value_sprintf_x (ws : List Nat) (hw : ∀ w ∈ ws, w < 65536) :
    (ws.map sprintf_x).map hex_value = ws := by
  rw [List.map_map]
  conv_rhs => rw [← List.map_id ws]
  apply List.map_congr_left
  intro w hm
  exact (sprintf_x_spec w (hw w hm)).2.1

theorem hex_groups_sprintf_x (ws : List Nat) (hw : ∀ w ∈ ws, w < 65536) :
    ∀ g ∈ ws.map sprintf_x, IsHexGroup g :=
  fun g hg => (Inet6.mem_map_sprintf_x ws hw g hg).1

/-- The words of a 16-byte value give back its bytes. -/
theorem Inet6.word_bytes_ipv6_words (b : List Nat) (hb : IsInet6 b) :
    word_bytes (Inet6.ipv6_words b) = b := by
  obtain ⟨b0, b1, b2, b3, b4, b5, b6, b7, b8, b9, b10, b11, b12, b13, b14, b15, rfl, h0, h1, h2,
    h3, h4, h5, h6, h7, h8, h9, h10, h11, h12, h13, h14, h15⟩ := hb.eq_list16
  have e : ∀ x y : Nat, x < 256 → y < 256 → (x * 256 + y) / 256 = x ∧ (x * 256 + y) % 256 = y := by
    intro x y hx hy
    omega
  rw [Inet6.ipv6_words_eq b0 b1 b2 b3 b4 b5 b6 b7 b8 b9 b10 b11 b12 b13 b14 b15 h0 h1 h2 h3 h4 h5
    h6 h7 h8 h9 h10 h11 h12 h13 h14 h15]
  simp only [word_bytes, e _ _ h0 h1, e _ _ h2 h3, e _ _ h4 h5, e _ _ h6 h7, e _ _ h8 h9,
    e _ _ h10 h11, e _ _ h12 h13, e _ _ h14 h15]

/-- The words of a zero run are zero. -/
theorem IsZeroRun.split {ws : List Nat} {pos len : Nat} (h : IsZeroRun ws pos len) :
    ws = ws.take pos ++ List.replicate len 0 ++ ws.drop (pos + len) := by
  obtain ⟨_, h2, h3⟩ := h
  have e : (ws.drop pos).take len = List.replicate len 0 := by
    rw [List.eq_replicate_iff]
    refine ⟨by rw [List.length_take, List.length_drop]; omega, fun x hx => ?_⟩
    obtain ⟨i, hi, rfl⟩ := List.mem_iff_getElem.1 hx
    rw [List.length_take, List.length_drop] at hi
    have h0 := h3 i (by omega)
    rw [List.getD_eq_getElem?_getD, List.getElem?_eq_getElem (by omega)] at h0
    simp only [List.getElem_take, List.getElem_drop]
    simpa using h0
  have s1 := (List.take_append_drop pos ws).symm
  have s2 := (List.take_append_drop len (ws.drop pos)).symm
  rw [e, List.drop_drop] at s2
  rw [List.append_assoc, ← s2]
  exact s1

/-- Decoding the text `Inet6::to_string` writes without an IPv4 tail and
without a gap. -/
theorem Inet6.roundtrip_no_gap (ws : List Nat) (hl : ws.length = 8) (hw : ∀ w ∈ ws, w < 65536) :
    Inet6.str_to_ipv6 (join_colon (ws.map sprintf_x)) = some (word_bytes ws) := by
  have hsplit : ws = ws.take 7 ++ [ws.getD 7 0] := by
    match ws, hl with
    | [a, b, c, d, e, f, g, i], _ => rfl
  have hlast : ws.getD 7 0 ∈ ws := by
    match ws, hl with
    | [a, b, c, d, e, f, g, i], _ => simp
  have h7 : (ws.take 7).length = 7 := by rw [List.length_take]; omega
  have hw7 : ∀ w ∈ ws.take 7, w < 65536 := fun w hm => hw w (List.mem_of_mem_take hm)
  have key := Inet6.str_to_ipv6_groups ((ws.take 7).map sprintf_x) (sprintf_x (ws.getD 7 0))
    (hex_groups_sprintf_x _ hw7) (sprintf_x_spec _ (hw _ hlast)).1
  rw [List.length_map, h7, if_pos rfl, ← join_colon_append_singleton, List.map_append,
    map_hex_value_sprintf_x _ hw7] at key
  simp only [List.map_cons, List.map_nil, (sprintf_x_spec _ (hw _ hlast)).2.1] at key
  rw [← hsplit] at key
  rw [← key]
  congr 2
  conv_lhs => rw [hsplit]
  rw [List.map_append]
  rfl

/-- Decoding the text `Inet6::to_string` writes around a gap. -/
theorem Inet6.roundtrip_gap (ws : List Nat) (hl : ws.length = 8) (hw : ∀ w ∈ ws, w < 65536)
    (pos len : Nat) (hr : IsZeroRun ws pos len) :
    Inet6.str_to_ipv6 (Inet6.gap_text ws pos len) = some (word_bytes ws) := by
  have h1 := hr.1
  have h2 := hr.2.1
  have hwA : ∀ w ∈ ws.take pos, w < 65536 := fun w hm => hw w (List.mem_of_mem_take hm)
  have hwB : ∀ w ∈ ws.drop (pos + len), w < 65536 := fun w hm => hw w (List.mem_of_mem_drop hm)
  have lA : (ws.take pos).length = pos := by rw [List.length_take]; omega
  have lB : (ws.drop (pos + len)).length = 8 - (pos + len) := by rw [List.length_drop, hl]
  have key := Inet6.str_to_ipv6_gap ((ws.take pos).map sprintf_x)
    ((ws.drop (pos + len)).map sprintf_x) (hex_groups_sprintf_x _ hwA)
    (hex_groups_sprintf_x _ hwB) (by rw [List.length_map, List.length_map, lA, lB]; omega)
  rw [map_hex_value_sprintf_x _ hwA, map_hex_value_sprintf_x _ hwB, List.length_map,
    List.length_map, lA, lB, show 2 * (8 - (pos + (8 - (pos + len)))) = 2 * len by omega,
    ← word_bytes_replicate_zero, ← word_bytes_append, ← word_bytes_append, ← hr.split] at key
  exact key

theorem IsDecGroup.digits {g : List Nat} (h : IsDecGroup g) : ∀ c ∈ g, 48 ≤ c ∧ c ≤ 57 := h.2.2.1

/-- Decoding the text `Inet6::to_string` writes with an IPv4 tail. -/
theorem Inet6.roundtrip_tail (b : List Nat) (hb : IsInet6 b)
    (ht : Inet6.ipv4_tail_words (Inet6.ipv6_words b)) :
    Inet6.str_to_ipv6 (58 :: 58 ::
      ((if (Inet6.ipv6_words b).getD 5 0 = 0xffff then sprintf_x 0xffff ++ [58] else []) ++
        Inet4.to_string (b.drop 12) INET_ADDRSTRLEN)) = some b := by
  obtain ⟨b0, b1, b2, b3, b4, b5, b6, b7, b8, b9, b10, b11, b12, b13, b14, b15, rfl, h0, h1, h2,
    h3, h4, h5, h6, h7, h8, h9, h10, h11, h12, h13, h14, h15⟩ := hb.eq_list16
  rw [Inet6.ipv6_words_eq b0 b1 b2 b3 b4 b5 b6 b7 b8 b9 b10 b11 b12 b13 b14 b15 h0 h1 h2 h3 h4 h5
    h6 h7 h8 h9 h10 h11 h12 h13 h14 h15] at ht ⊢
  have g12 := sprintf_d_byte b12 h12
  have g13 := sprintf_d_byte b13 h13
  have g14 := sprintf_d_byte b14 h14
  have g15 := sprintf_d_byte b15 h15
  have hq := Inet4.str_to_ipv4_groups _ _ _ _ g12.1 g13.1 g14.1 g15.1
  rw [g12.2, g13.2, g14.2, g15.2] at hq
  have hv4 : Inet4.to_string (List.drop 12 [b0, b1, b2, b3, b4, b5, b6, b7, b8, b9, b10, b11,
      b12, b13, b14, b15]) INET_ADDRSTRLEN =
      sprintf_d b12 ++ 46 :: (sprintf_d b13 ++ 46 :: (sprintf_d b14 ++ 46 :: sprintf_d b15)) :=
    Inet4.to_string_eq b12 b13 b14 b15 INET_ADDRSTRLEN h12 h13 h14 h15 (by decide)
  have l12 := g12.1.2.1
  have l13 := g13.1.2.1
  have l14 := g14.1.2.1
  have l15 := g15.1.2.1
  rw [hv4]
  simp only [List.getD_cons_zero, List.getD_cons_succ]
  simp only [Inet6.ipv4_tail_words, Nat.forall_lt_succ, Nat.not_lt_zero, false_implies,
    implies_true, true_and, List.getD_cons_zero, List.getD_cons_succ, ne_eq] at ht
  rcases ht with ht | ⟨ht, z5⟩
  · have e5 : ¬ b10 * 256 + b11 = 0xffff := by omega
    rw [if_neg e5, List.nil_append]
    have key := Inet6.str_to_ipv6_ipv4_tail [] (by simp) (sprintf_d b12)
      (sprintf_d b13 ++ 46 :: (sprintf_d b14 ++ 46 :: sprintf_d b15)) [b12, b13, b14, b15]
      g12.1.digits (by omega) hq (by simp) (by
        simp only [groups_colon, List.nil_append, List.length_append, List.length_cons,
          List.length_nil]
        omega)
    simp only [groups_colon, List.nil_append] at key
    rw [key]
    have : b0 = 0 ∧ b1 = 0 ∧ b2 = 0 ∧ b3 = 0 ∧ b4 = 0 ∧ b5 = 0 ∧ b6 = 0 ∧ b7 = 0 ∧ b8 = 0 ∧
        b9 = 0 ∧ b10 = 0 ∧ b11 = 0 := by omega
    obtain ⟨rfl, rfl, rfl, rfl, rfl, rfl, rfl, rfl, rfl, rfl, rfl, rfl⟩ := this
    rfl
  · rw [if_pos z5]
    have gx : IsHexGroup (sprintf_x 0xffff) ∧ hex_value (sprintf_x 0xffff) = 0xffff := by decide
    have lx : (sprintf_x 0xffff).length = 4 := by decide
    have key := Inet6.str_to_ipv6_ipv4_tail [sprintf_x 0xffff] (by simpa using gx.1)
      (sprintf_d b12) (sprintf_d b13 ++ 46 :: (sprintf_d b14 ++ 46 :: sprintf_d b15))
      [b12, b13, b14, b15] g12.1.digits (by omega) hq (by simp) (by
        simp only [groups_colon, List.nil_append, List.length_append, List.length_cons, lx,
          List.length_nil]
        omega)
    simp only [groups_colon, List.map_cons, List.map_nil, gx.2, word_bytes, List.length_cons,
      List.length_nil, List.append_assoc, List.singleton_append, List.nil_append,
      List.cons_append] at key
    simp only [List.append_assoc, List.singleton_append]
    rw [key]
    have : b0 = 0 ∧ b1 = 0 ∧ b2 = 0 ∧ b3 = 0 ∧ b4 = 0 ∧ b5 = 0 ∧ b6 = 0 ∧ b7 = 0 ∧ b8 = 0 ∧
        b9 = 0 ∧ b10 = 255 ∧ b11 = 255 := by omega
    obtain ⟨rfl, rfl, rfl, rfl, rfl, rfl, rfl, rfl, rfl, rfl, rfl, rfl⟩ := this
    rfl

/-- With a buffer of at least 46 bytes, `Inet6::to_string` writes a text that
`Inet6::str_to_ipv6` decodes to the value encoded. -/
theorem Inet6.roundtrip16 (b : List Nat) (hb : IsInet6 b) (n : Nat) (hn : 46 ≤ n) :
    ∃ t, Inet6.to_string b n = some t ∧ Inet6.str_to_ipv6 t = some b := by
  have hlen := Inet6.ipv6_words_length b
  have hlt := Inet6.mem_ipv6_words_lt b
  have hwb := Inet6.word_bytes_ipv6_words b hb
  by_cases ht : Inet6.ipv4_tail_words (Inet6.ipv6_words b)
  · exact ⟨_, Inet6.to_string_tail b hb n hn ht, Inet6.roundtrip_tail b hb ht⟩
  · obtain ⟨p1, p2⟩ := Inet6.to_string_plain b n hn ht
    by_cases hz : ∃ w ∈ Inet6.ipv6_words b, w = 0
    · obtain ⟨pos, len, hr⟩ := Inet6.exists_run_of_zero _ hlen hz
      refine ⟨_, p2 pos len hr, ?_⟩
      rw [Inet6.roundtrip_gap _ hlen hlt pos len hr.1, hwb]
    · have hz1 : ∀ w ∈ Inet6.ipv6_words b, w ≠ 0 := fun w hw e => hz ⟨w, hw, e⟩
      refine ⟨_, p1 hz1, ?_⟩
      rw [Inet6.roundtrip_no_gap _ hlen hlt, hwb]

/-! ## The decoders return well-formed values -/

theorem IsByteList.set {l : List Nat} (h : IsByteList l) (i a : Nat) (ha : a < 256) :
    IsByteList (l.set i a) := by
  intro x hx
  rcases List.mem_or_eq_of_mem_set hx with h1 | h1
  · exact h x h1
  · rw [h1]; exact ha

theorem IsByteList.getD {l : List Nat} (h : IsByteList l) (i : Nat) : l.getD i 0 < 256 := by
  rw [List.getD_eq_getElem?_getD]
  cases e : l[i]? with
  | none => simp
  | some x => exact h x (List.getElem?_mem e)

theorem Inet6.store_group_bytes {l : List Nat} (h : IsByteList l) (dst gv : Nat) :
    IsByteList (Inet6.store_group l dst gv) :=
  (h.set _ _ (Nat.mod_lt _ (by omega))).set _ _ (Nat.mod_lt _ (by omega))

theorem Inet6.store_group_length (l : List Nat) (dst gv : Nat) :
    (Inet6.store_group l dst gv).length = l.length := by
  simp [Inet6.store_group]

theorem Inet6.store_ipv4_bytes {l q : List Nat} (h : IsByteList l) (hq : IsByteList q)
    (dst : Nat) : IsByteList (Inet6.store_ipv4 l dst q) :=
  (((h.set _ _ (hq.getD 0)).set _ _ (hq.getD 1)).set _ _ (hq.getD 2)).set _ _ (hq.getD 3)

theorem Inet6.store_ipv4_length (l q : List Nat) (dst : Nat) :
    (Inet6.store_ipv4 l dst q).length = l.length := by
  simp [Inet6.store_ipv4]

theorem Inet4.scan_bytes (s : List Nat) :
    ∀ (bytes : List Nat) (bv cig dc c : Nat) (st : Inet4.Scan), IsByteList bytes →
    Inet4.scan s bytes bv cig dc c = some st → IsByteList st.ipv4_bytes := by
  induction s with
  | nil =>
    intro bytes bv cig dc c st hb h
    simp only [Inet4.scan, Option.some.injEq] at h
    rw [← h]; exact hb
  | cons ch p ih =>
    intro bytes bv cig dc c st hb h
    rw [Inet4.scan] at h
    split at h
    · simp only [Option.some.injEq] at h
      rw [← h]; exact hb
    · split at h
      · split at h
        · exact absurd h (by simp)
        · split at h
          · exact absurd h (by simp)
          · exact ih _ _ _ _ _ _ hb h
      · split at h
        · split at h
          · exact absurd h (by simp)
          · split at h
            · exact absurd h (by simp)
            · exact ih _ _ _ _ _ _ (hb.set _ _ (Nat.mod_lt _ (by omega))) h
        · exact absurd h (by simp)

/-- The result of `Inet4::str_to_ipv4` is a 4-byte value. -/
theorem Inet4.str_to_ipv4_isInet4 (s q : List Nat) (h : Inet4.str_to_ipv4 s = some q) :
    IsInet4 q := by
  refine ⟨Inet4.str_to_ipv4_length s q h, ?_⟩
  unfold Inet4.str_to_ipv4 at h
  split at h
  · exact absurd h (by simp)
  split at h
  · exact absurd h (by simp)
  split at h
  · exact absurd h (by simp)
  rename_i st hst
  split at h
  · exact absurd h (by simp)
  split at h
  · exact absurd h (by simp)
  simp only [Option.some.injEq] at h
  rw [← h]
  have h0 : IsByteList [0, 0, 0, 0] := by intro x hx; simp at hx; omega
  exact (Inet4.scan_bytes _ _ _ _ _ _ _ h0 hst).set _ _ (Nat.mod_lt _ (by omega))

theorem Inet6.scan_buffer_inv (s : List Nat) :
    ∀ (buf : List Nat) (dst : Nat) (gap : Option Nat) (gs : List Nat) (cig gv : Nat)
      (st : Inet6.Scan), IsByteList buf →
    Inet6.scan s buf dst gap gs cig gv = some st →
      IsByteList st.m_buffer ∧ st.m_buffer.length = buf.length := by
  induction s with
  | nil =>
    intro buf dst gap gs cig gv st hb h
    simp only [Inet6.scan, Option.some.injEq] at h
    rw [← h]; exact ⟨hb, rfl⟩
  | cons ch p ih =>
    intro buf dst gap gs cig gv st hb h
    rw [Inet6.scan] at h
    split at h
    · simp only [Option.some.injEq] at h
      rw [← h]; exact ⟨hb, rfl⟩
    · split at h
      · split at h
        · split at h
          · exact absurd h (by simp)
          · exact ih _ _ _ _ _ _ _ hb h
        · split at h
          · exact absurd h (by simp)
          · split at h
            · exact absurd h (by simp)
            · have := ih _ _ _ _ _ _ _ (Inet6.store_group_bytes hb dst gv) h
              rw [Inet6.store_group_length] at this
              exact this
      · split at h
        · split at h
          · exact absurd h (by simp)
          · split at h
            · exact absurd h (by simp)
            · rename_i ipv4 h4
              simp only [Option.some.injEq] at h
              rw [← h]
              exact ⟨Inet6.store_ipv4_bytes hb (Inet4.str_to_ipv4_isInet4 _ _ h4).2 dst,
                Inet6.store_ipv4_length _ _ _⟩
        · split at h
          · exact absurd h (by simp)
          · split at h
            · exact absurd h (by simp)
            · exact ih _ _ _ _ _ _ _ hb h

theorem Inet6.move_gap_inv (gap btm : Nat) :
    ∀ (count i : Nat) (buf : List Nat), IsByteList buf →
      IsByteList (Inet6.move_gap gap btm count i buf) ∧
        (Inet6.move_gap gap btm count i buf).length = buf.length := by
  intro count
  induction count with
  | zero => intro i buf hb; exact ⟨hb, rfl⟩
  | succ count ih =>
    intro i buf hb
    rw [Inet6.move_gap]
    have hs : IsByteList ((buf.set (IN6_ADDR_SIZE - i) (buf.getD (gap + (btm - i)) 0)).set
        (gap + (btm - i)) 0) :=
      (hb.set (IN6_ADDR_SIZE - i) (buf.getD (gap + (btm - i)) 0) (hb.getD _)).set
        (gap + (btm - i)) 0 (by omega)
    have := ih (i + 1) _ hs
    simpa using this

theorem Inet6.str_to_ipv6_end_inv (st : Inet6.Scan) (b : List Nat)
    (i1 : IsByteList st.m_buffer) (i2 : st.m_buffer.length = 16)
    (h : Inet6.str_to_ipv6_end st = some b) : IsInet6 b := by
  unfold Inet6.str_to_ipv6_end at h
  have hm : IsByteList (if st.chars_in_group > 0 then
      Inet6.store_group st.m_buffer st.dst st.group_value else st.m_buffer) ∧
      (if st.chars_in_group > 0 then
        Inet6.store_group st.m_buffer st.dst st.group_value else st.m_buffer).length = 16 := by
    split
    · exact ⟨Inet6.store_group_bytes i1 _ _, by rw [Inet6.store_group_length]; exact i2⟩
    · exact ⟨i1, i2⟩
  generalize (if st.chars_in_group > 0 then
      Inet6.store_group st.m_buffer st.dst st.group_value else st.m_buffer) = m at h hm
  generalize (if st.chars_in_group > 0 then st.dst + 2 else st.dst) = d at h
  by_cases c1 : st.chars_in_group > 0 ∧ st.dst + 2 > IN6_ADDR_SIZE
  · rw [if_pos c1] at h
    exact absurd h (by simp)
  · rw [if_neg c1] at h
    cases hg : st.gap_ptr with
    | none =>
      simp only [hg] at h
      by_cases c2 : d < IN6_ADDR_SIZE
      · rw [if_pos c2] at h
        exact absurd h (by simp)
      · rw [if_neg c2, Option.some.injEq] at h
        rw [← h]
        exact ⟨hm.2, hm.1⟩
    | some g =>
      simp only [hg] at h
      by_cases c2 : d = IN6_ADDR_SIZE
      · rw [if_pos c2] at h
        exact absurd h (by simp)
      · rw [if_neg c2, Option.some.injEq] at h
        rw [← h]
        have := Inet6.move_gap_inv g (d - g) (d - g) 1 m hm.1
        exact ⟨by rw [this.2]; exact hm.2, this.1⟩

/-- The result of `Inet6::str_to_ipv6` is a 16-byte value. -/
theorem Inet6.str_to_ipv6_isInet6 (s b : List Nat) (h : Inet6.str_to_ipv6 s = some b) :
    IsInet6 b := by
  have h0 : IsByteList (List.replicate IN6_ADDR_SIZE 0) := by
    intro x hx
    rw [List.mem_replicate] at hx
    omega
  unfold Inet6.str_to_ipv6 at h
  split at h
  · exact absurd h (by simp)
  split at h
  · exact absurd h (by simp)
  simp only at h
  split at h
  · exact absurd h (by simp)
  split at h
  · exact absurd h (by simp)
  rename_i st hst
  obtain ⟨i1, i2⟩ := Inet6.scan_buffer_inv _ _ _ _ _ _ _ _ h0 hst
  rw [List.length_replicate] at i2
  exact Inet6.str_to_ipv6_end_inv st b i1 i2 h

/-! ## Facts about the texts written by `Inet6::to_string` -/

/-- The strict IPv4 decoder rejects a text without NUL bytes that contains a colon. -/
theorem Inet4.str_to_ipv4_of_colon (t : List Nat) (hc : 58 ∈ t) (h0 : 0 ∉ t) :
    Inet4.str_to_ipv4 t = none := by
  obtain ⟨pre, post, rfl⟩ := List.append_of_mem hc
  exact Inet4.str_to_ipv4_invalid pre post 58 (fun h => h0 (List.mem_append_left _ h)) (by omega)
    (by omega) (by omega)

theorem Inet4.to_string_bytes (b : List Nat) (hb : IsInet6 b) :
    ∀ c ∈ Inet4.to_string (b.drop 12) INET_ADDRSTRLEN, (48 ≤ c ∧ c ≤ 57) ∨ c = 46 := by
  obtain ⟨c0, c1, c2, c3, e, h0, h1, h2, h3⟩ := hb.tail
  rw [e, Inet4.to_string_eq c0 c1 c2 c3 INET_ADDRSTRLEN h0 h1 h2 h3 (by decide)]
  have d0 := (sprintf_d_byte c0 h0).1.2.2.1
  have d1 := (sprintf_d_byte c1 h1).1.2.2.1
  have d2 := (sprintf_d_byte c2 h2).1.2.2.1
  have d3 := (sprintf_d_byte c3 h3).1.2.2.1
  intro c hc
  simp only [List.mem_append, List.mem_cons] at hc
  rcases hc with h | h | h | h | h | h | h
  · exact Or.inl (d0 c h)
  · exact Or.inr h
  · exact Or.inl (d1 c h)
  · exact Or.inr h
  · exact Or.inl (d2 c h)
  · exact Or.inr h
  · exact Or.inl (d3 c h)

theorem Inet6.join_hex_no_nul (ws : List Nat) (hw : ∀ w ∈ ws, w < 65536) :
    0 ∉ join_colon (ws.map sprintf_x) := by
  intro h
  rcases join_colon_mem _ _ h with h | ⟨g, hg, hx⟩
  · omega
  · have := (Inet6.mem_map_sprintf_x ws hw g hg).2 0 hx
    omega

/-- The text written by `Inet6::to_string` contains a colon and no NUL byte. -/
theorem Inet6.to_string_colon_no_nul (b : List Nat) (hb : IsInet6 b) (n : Nat) (hn : 46 ≤ n)
    (t : List Nat) (h : Inet6.to_string b n = some t) : 58 ∈ t ∧ 0 ∉ t := by
  have hlen := Inet6.ipv6_words_length b
  have hlt := Inet6.mem_ipv6_words_lt b
  by_cases ht : Inet6.ipv4_tail_words (Inet6.ipv6_words b)
  · rw [Inet6.to_string_tail b hb n hn ht, Option.some.injEq] at h
    rw [← h]
    refine ⟨by simp, ?_⟩
    have hx : ∀ c ∈ sprintf_x 0xffff, c ≠ 0 := by decide
    intro hm
    simp only [List.mem_cons, List.mem_append] at hm
    rcases hm with hm | hm | hm | hm
    · omega
    · omega
    · split at hm
      · simp only [List.mem_append, List.mem_singleton] at hm
        rcases hm with hm | hm
        · exact hx 0 hm rfl
        · omega
      · simp at hm
    · have := Inet4.to_string_bytes b hb 0 hm
      omega
  · obtain ⟨p1, p2⟩ := Inet6.to_string_plain b n hn ht
    by_cases hz : ∃ w ∈ Inet6.ipv6_words b, w = 0
    · obtain ⟨pos, len, hr⟩ := Inet6.exists_run_of_zero _ hlen hz
      rw [p2 pos len hr, Option.some.injEq] at h
      rw [← h]
      refine ⟨by simp [Inet6.gap_text], ?_⟩
      intro hm
      simp only [Inet6.gap_text, List.mem_append, List.mem_cons] at hm
      rcases hm with hm | hm | hm | hm
      · exact Inet6.join_hex_no_nul _ (fun w hw => hlt w (List.mem_of_mem_take hw)) hm
      · omega
      · omega
      · exact Inet6.join_hex_no_nul _ (fun w hw => hlt w (List.mem_of_mem_drop hw)) hm
    · have hz1 : ∀ w ∈ Inet6.ipv6_words b, w ≠ 0 := fun w hw e => hz ⟨w, hw, e⟩
      rw [p1 hz1, Option.some.injEq] at h
      rw [← h]
      refine ⟨?_, Inet6.join_hex_no_nul _ hlt⟩
      match hw : Inet6.ipv6_words b, hlen with
      | [a, b1, c, d, e, f, g, i], _ => simp [join_colon]

theorem word_bytes_getD (ws : List Nat) :
    ∀ i, i < ws.length → (word_bytes ws).getD (2 * i) 0 = ws.getD i 0 / 256 ∧
      (word_bytes ws).getD (2 * i + 1) 0 = ws.getD i 0 % 256 := by
  induction ws with
  | nil => intro i hi; simp at hi
  | cons w ws ih =>
    intro i hi
    cases i with
    | zero => simp [word_bytes]
    | succ i =>
      have := ih i (by simpa using hi)
      rw [word_bytes_cons, show 2 * (i + 1) = 2 * i + 1 + 1 by omega]
      simp only [List.getD_cons_succ]
      exact this

/-! ## Rejections by `Inet6::str_to_ipv6` and IPv4 tails -/

/-- A non-zero byte that is not a hex digit is not found in `HEX_DIGITS`. -/
theorem strchr_not_hex (x : Nat) (hx : ¬ is_hex_digit x) (h0 : x ≠ 0) :
    strchr HEX_DIGITS (my_tolower x) = none := by
  by_cases hc : x < 103
  · have key : ∀ c < 103, ¬ is_hex_digit c → c ≠ 0 →
        strchr HEX_DIGITS (my_tolower c) = none := by decide
    exact key x hc hx h0
  · have e : my_tolower x = x := by
      unfold my_tolower
      rw [if_neg]
      omega
    rw [e]
    simp only [strchr, HEX_DIGITS]
    repeat rw [if_neg (by omega)]
    rfl

/-- The scanning loop of `Inet6::str_to_ipv6` fails on a text with a non-zero
byte that is no hex digit, colon or dot, when no zero byte stands before it. -/
theorem Inet6.scan_invalid_byte (x : Nat) (post : List Nat) (hx0 : x ≠ 0) (hxc : x ≠ 58)
    (hxd : x ≠ 46) (hxh : ¬ is_hex_digit x) :
    ∀ (pre : List Nat), 0 ∉ pre → ∀ (buf : List Nat) (dst : Nat) (gap : Option Nat)
      (gs : List Nat) (cig gv : Nat), (∃ gpre, gs = gpre ++ x :: post ∧ 0 ∉ gpre) →
    Inet6.scan (pre ++ x :: post) buf dst gap gs cig gv = none := by
  intro pre
  induction pre with
  | nil =>
    intro _ buf dst gap gs cig gv _
    rw [List.nil_append, Inet6.scan, if_neg hx0, if_neg hxc, if_neg hxd]
    simp only [strchr_not_hex x hxh hx0]
  | cons c pre ih =>
    intro h0 buf dst gap gs cig gv hgs
    have hc0 : c ≠ 0 := fun h => h0 (by rw [h]; exact List.mem_cons_self _ _)
    have hp0 : 0 ∉ pre := fun h => h0 (List.mem_cons_of_mem _ h)
    have h4 : Inet4.str_to_ipv4 gs = none := by
      obtain ⟨gpre, rfl, hg0⟩ := hgs
      exact Inet4.str_to_ipv4_invalid gpre post x hg0 hx0
        (fun h => hxh (Or.inl h)) hxd
    have hnew : ∃ gpre, pre ++ x :: post = gpre ++ x :: post ∧ 0 ∉ gpre := ⟨pre, rfl, hp0⟩
    rw [List.cons_append, Inet6.scan, if_neg hc0]
    simp only [h4]
    split_ifs
    all_goals first
      | rfl
      | exact ih hp0 _ _ _ _ _ _ hnew
      | exact ih hp0 _ _ _ _ _ _ hgs
      | skip
    all_goals
      split
      · rfl
      · first
        | rfl
        | exact ih hp0 _ _ _ _ _ _ hgs

/-- The decoder fails when its scanning loop does. -/
theorem Inet6.str_to_ipv6_of_scan_none (s : List Nat)
    (hs : Inet6.scan (if s.head? = some 58 then s.drop 1 else s) (List.replicate IN6_ADDR_SIZE 0)
      0 none (if s.head? = some 58 then s.drop 1 else s) 0 0 = none) :
    Inet6.str_to_ipv6 s = none := by
  unfold Inet6.str_to_ipv6
  dsimp only
  rw [hs]
  split_ifs <;> rfl

/-- The decoder `Inet6::str_to_ipv6` fails on such a text. -/
theorem Inet6.str_to_ipv6_invalid_byte (pre post : List Nat) (x : Nat) (hpre : 0 ∉ pre)
    (hx0 : x ≠ 0) (hxc : x ≠ 58) (hxd : x ≠ 46) (hxh : ¬ is_hex_digit x) :
    Inet6.str_to_ipv6 (pre ++ x :: post) = none := by
  apply Inet6.str_to_ipv6_of_scan_none
  by_cases hh : (pre ++ x :: post).head? = some 58
  · rw [if_pos hh]
    cases pre with
    | nil => simp at hh; exact absurd hh hxc
    | cons c pre1 =>
      have hp0 : 0 ∉ pre1 := fun h => hpre (List.mem_cons_of_mem _ h)
      rw [List.cons_append, List.drop_one, List.tail_cons]
      exact Inet6.scan_invalid_byte x post hx0 hxc hxd hxh pre1 hp0 _ _ _ _ _ _
        ⟨pre1, rfl, hp0⟩
  · rw [if_neg hh]
    exact Inet6.scan_invalid_byte x post hx0 hxc hxd hxh pre hpre _ _ _ _ _ _
      ⟨pre, rfl, hpre⟩

/-- A text with a double colon contains a colon. -/
theorem count_double_colon_pos_mem (t : List Nat) (h : 1 ≤ count_double_colon t) : 58 ∈ t := by
  induction t with
  | nil => simp [count_double_colon] at h
  | cons c t ih =>
    rw [count_double_colon_cons] at h
    by_cases hc : c = 58
    · rw [hc]; exact List.mem_cons_self _ _
    · rw [if_neg (fun hh => hc hh.1)] at h
      exact List.mem_cons_of_mem _ (ih (by omega))

/-- The scanning loop of `Inet6::str_to_ipv6` fails on a text without zero
bytes when two colons that close an empty group are ahead, or one is ahead and
a gap is already recorded.  Such a colon is the second colon of a double colon
or, when no character of a group has been read, the colon at `p`. -/
theorem Inet6.scan_two_gaps :
    ∀ (rest buf : List Nat) (dst : Nat) (gap : Option Nat) (gs : List Nat) (cig gv : Nat),
    0 ∉ gs → (∀ c ∈ rest, c ∈ gs) →
    2 ≤ count_double_colon rest + (if cig = 0 ∧ rest.head? = some 58 then 1 else 0) +
      (if gap.isSome then 1 else 0) →
    Inet6.scan rest buf dst gap gs cig gv = none := by
  intro rest
  induction rest with
  | nil =>
    intro buf dst gap gs cig gv _ _ h
    simp only [count_double_colon, List.head?_nil] at h
    rw [if_neg (by simp)] at h
    split at h <;> omega
  | cons c p ih =>
    intro buf dst gap gs cig gv h0 hsub h
    have hc0 : c ≠ 0 := fun e => h0 (e ▸ hsub c (List.mem_cons_self _ _))
    have hp0 : 0 ∉ p := fun e => h0 (hsub 0 (List.mem_cons_of_mem _ e))
    have hpsub : ∀ x ∈ p, x ∈ gs := fun x hx => hsub x (List.mem_cons_of_mem _ hx)
    rw [count_double_colon_cons, List.head?_cons] at h
    rw [Inet6.scan, if_neg hc0]
    by_cases hc : c = 58
    · rw [if_pos hc]
      by_cases hcig : cig = 0
      · rw [if_pos hcig]
        cases gap with
        | some g => rfl
        | none =>
          rw [if_neg (by simp)]
          apply ih _ _ _ _ _ _ hp0 (fun x hx => hx)
          by_cases hp : p.head? = some 58 <;> simp [hc, hcig, hp] at h ⊢
          omega
      · rw [if_neg hcig]
        split_ifs
        · rfl
        · rfl
        · apply ih _ _ _ _ _ _ hp0 (fun x hx => hx)
          by_cases hp : p.head? = some 58 <;> simp [hc, hcig, hp] at h ⊢ <;> omega
    · rw [if_neg hc]
      have h1 : 2 ≤ count_double_colon p + (if gap.isSome then 1 else 0) := by
        simp [hc] at h ⊢
        omega
      by_cases hd : c = 46
      · rw [if_pos hd]
        have h58 : 58 ∈ gs := by
          apply hpsub
          apply count_double_colon_pos_mem
          split at h1 <;> omega
        rw [Inet4.str_to_ipv4_of_colon gs h58 h0]
        split_ifs <;> rfl
      · rw [if_neg hd]
        split
        · rfl
        · split_ifs
          · rfl
          · apply ih _ _ _ _ _ _ h0 hpsub
            rw [if_neg (by omega)]
            omega

/-- A double colon at a position of a text. -/
theorem count_double_colon_at (t : List Nat) :
    ∀ i : Nat, [58, 58] <+: t.drop i → 1 ≤ count_double_colon t := by
  induction t with
  | nil => intro i h; simp at h
  | cons c t ih =>
    intro i h
    rw [count_double_colon_cons]
    cases i with
    | zero =>
      rw [List.drop_zero] at h
      obtain ⟨r, hr⟩ := h
      simp only [List.cons_append, List.nil_append, List.cons.injEq] at hr
      obtain ⟨rfl, rfl⟩ := hr
      simp
    | succ i =>
      rw [List.drop_succ_cons] at h
      have := ih i h
      omega

/-- Double colons at two positions of a text. -/
theorem count_double_colon_two (t : List Nat) :
    ∀ i j : Nat, i < j → [58, 58] <+: t.drop i → [58, 58] <+: t.drop j →
      2 ≤ count_double_colon t := by
  induction t with
  | nil => intro i j _ h; simp at h
  | cons c t ih =>
    intro i j hij hi hj
    rw [count_double_colon_cons]
    obtain ⟨j, rfl⟩ : ∃ k, j = k + 1 := ⟨j - 1, by omega⟩
    rw [List.drop_succ_cons] at hj
    cases i with
    | zero =>
      rw [List.drop_zero] at hi
      obtain ⟨r, hr⟩ := hi
      simp only [List.cons_append, List.nil_append, List.cons.injEq] at hr
      obtain ⟨rfl, rfl⟩ := hr
      have := count_double_colon_at _ j hj
      simp
      omega
    | succ i =>
      rw [List.drop_succ_cons] at hi
      have := ih i j (by omega) hi hj
      omega

/-- The decoder `Inet6::str_to_ipv6` fails on a text without zero bytes that
has two double colons. -/
theorem Inet6.str_to_ipv6_two_gaps (s : List Nat) (h0 : 0 ∉ s)
    (h2 : 2 ≤ count_double_colon s) : Inet6.str_to_ipv6 s = none := by
  apply Inet6.str_to_ipv6_of_scan_none
  by_cases hh : s.head? = some 58
  · rw [if_pos hh]
    cases s with
    | nil => simp at hh
    | cons c p =>
      simp only [List.head?_cons, Option.some.injEq] at hh
      subst hh
      rw [List.drop_one, List.tail_cons]
      have hp0 : 0 ∉ p := fun e => h0 (List.mem_cons_of_mem _ e)
      apply Inet6.scan_two_gaps _ _ _ _ _ _ _ hp0 (fun x hx => hx)
      rw [count_double_colon_cons] at h2
      by_cases hp : p.head? = some 58
      · rw [if_pos ⟨rfl, hp⟩]
        simp
        split at h2 <;> omega
      · rw [if_neg (fun hh => hp hh.2)] at h2
        simp
        omega
  · rw [if_neg hh]
    apply Inet6.scan_two_gaps _ _ _ _ _ _ _ h0 (fun x hx => hx)
    omega

/-- The decoder fails when its scanning loop does after a leading double
colon. -/
theorem Inet6.str_to_ipv6_unfold_colon_none (t : List Nat)
    (hs : Inet6.scan t (List.replicate 16 0) 0 (some 0) t 0 0 = none) :
    Inet6.str_to_ipv6 (58 :: 58 :: t) = none := by
  apply Inet6.str_to_ipv6_of_scan_none
  rw [if_pos (by simp), List.drop_one, List.tail_cons, IN6_ADDR_SIZE_eq, Inet6.scan_colon_gap]
  exact hs

/-- With a gap recorded, the code after the scanning loop fails when the
groups fill the buffer or overflow it. -/
theorem Inet6.str_to_ipv6_end_gap_full (buf : List Nat) (dst gap cig gv : Nat) (hd : dst ≤ 16)
    (h : 16 ≤ dst + (if cig > 0 then 2 else 0)) :
    Inet6.str_to_ipv6_end ⟨buf, dst, some gap, cig, gv⟩ = none := by
  unfold Inet6.str_to_ipv6_end
  simp only [IN6_ADDR_SIZE_eq]
  by_cases hc : cig > 0
  · rw [if_pos hc] at h
    by_cases h2 : dst + 2 > 16
    · rw [if_pos ⟨hc, h2⟩]
    · rw [if_neg (fun hh => h2 hh.2)]
      simp only [hc, if_true]
      rw [if_pos (by omega)]
  · rw [if_neg hc] at h
    rw [if_neg (fun hh => hc hh.1)]
    simp only [hc, if_false]
    rw [if_pos (by omega)]

/-- The scanning loop over groups joined by colons either fails or leaves a
state that accounts for two bytes a group. -/
theorem Inet6.scan_join (B : List (List Nat)) (hB : ∀ x ∈ B, IsHexGroup x) (buf : List Nat)
    (dst : Nat) (gap : Option Nat) (gs : List Nat) (hd : dst ≤ 16) :
    Inet6.scan (join_colon B) buf dst gap gs 0 0 = none ∨
    ∃ buf1 dst1 cig gv, Inet6.scan (join_colon B) buf dst gap gs 0 0 =
        some ⟨buf1, dst1, gap, cig, gv⟩ ∧
      dst1 + (if cig > 0 then 2 else 0) = dst + 2 * B.length ∧ dst1 ≤ 16 := by
  rcases List.eq_nil_or_concat B with rfl | ⟨B1, g, rfl⟩
  · right
    exact ⟨buf, dst, 0, 0, rfl, by simp, hd⟩
  · have hg : IsHexGroup g := hB g (by simp)
    have hB1 : ∀ x ∈ B1, IsHexGroup x := fun x hx => hB x (by simp [hx])
    have hr0 : g.head? ≠ some 0 := by
      have := hg.head_ne_zero []
      rwa [List.append_nil] at this
    rw [List.concat_eq_append, join_colon_append_singleton,
      Inet6.scan_groups g hg.hex_ne_nil hr0 gap B1 hB1 buf dst gs hd]
    by_cases h : dst + 2 * B1.length ≤ 16
    · rw [if_pos h, Inet6.scan_last_group g hg]
      right
      refine ⟨_, _, _, _, rfl, ?_, h⟩
      rw [if_pos (by have := hg.1; omega)]
      simp only [List.length_append, List.length_singleton]
      omega
    · rw [if_neg h]
      left
      rfl

/-- A text with a double colon and eight groups or more is rejected. -/
theorem Inet6.str_to_ipv6_gap_full (A B : List (List Nat)) (hA : ∀ x ∈ A, IsHexGroup x)
    (hB : ∀ x ∈ B, IsHexGroup x) (h : 8 ≤ A.length + B.length) :
    Inet6.str_to_ipv6 (join_colon A ++ 58 :: 58 :: join_colon B) = none := by
  by_cases hlen : 39 < (join_colon A ++ 58 :: 58 :: join_colon B).length
  · exact Inet6.str_to_ipv6_short _ (Or.inr hlen)
  by_cases hA0 : A = []
  · subst hA0
    simp only [join_colon, List.nil_append, List.length_cons] at hlen ⊢
    rcases Inet6.scan_join B hB (List.replicate 16 0) 0 (some 0) (join_colon B) (by omega) with
      hn | ⟨buf1, dst1, cig, gv, hs, hsum, hd1⟩
    · exact Inet6.str_to_ipv6_unfold_colon_none _ hn
    · rw [Inet6.str_to_ipv6_unfold_colon _ (by omega) _ hs]
      apply Inet6.str_to_ipv6_end_gap_full _ _ _ _ _ hd1
      simp only [List.length_nil] at h
      omega
  · rw [join_colon_append_colon A hA0] at hlen ⊢
    have hhead : (groups_colon A ++ 58 :: join_colon B).head? ≠ some 58 := by
      cases A with
      | nil => exact absurd rfl hA0
      | cons a A1 =>
        rw [groups_colon_cons, List.append_assoc]
        have ha := (hA a (by simp)).head_ne_colon
        cases a with
        | nil => exact absurd rfl (hA [] (by simp)).hex_ne_nil
        | cons c a1 => simpa using ha
    have hsc := Inet6.scan_groups (58 :: join_colon B) (by simp) (by simp) none A hA
      (List.replicate 16 0) 0 (groups_colon A ++ 58 :: join_colon B) (by omega)
    by_cases h16 : 0 + 2 * A.length ≤ 16
    · rw [if_pos h16, Inet6.scan_colon_gap] at hsc
      rcases Inet6.scan_join B hB (Inet6.store_groups (List.replicate 16 0) 0 (A.map hex_value))
          (0 + 2 * A.length) (some (0 + 2 * A.length)) (join_colon B) h16 with
        hn | ⟨buf1, dst1, cig, gv, hs, hsum, hd1⟩
      · rw [hn] at hsc
        exact Inet6.str_to_ipv6_unfold_none _ hhead hsc
      · rw [hs] at hsc
        have hl2 : 2 ≤ (groups_colon A ++ 58 :: join_colon B).length := by
          have := (groups_colon_length A hA).1
          have : 1 ≤ A.length := by
            cases A with
            | nil => exact absurd rfl hA0
            | cons a A1 => simp
          simp only [List.length_append, List.length_cons]
          omega
        rw [Inet6.str_to_ipv6_unfold _ hl2 (by omega) hhead _ hsc]
        apply Inet6.str_to_ipv6_end_gap_full _ _ _ _ _ hd1
        omega
    · rw [if_neg h16] at hsc
      exact Inet6.str_to_ipv6_unfold_none _ hhead hsc

/-- A text accepted by `Inet4::str_to_ipv4` has between 7 and 15 bytes. -/
theorem Inet4.str_to_ipv4_bounds (s q : List Nat) (h : Inet4.str_to_ipv4 s = some q) :
    7 ≤ s.length ∧ s.length ≤ 15 := by
  unfold Inet4.str_to_ipv4 at h
  split_ifs at h with h1 h2
  omega

/-- A scan of `Inet4::str_to_ipv4` that counts a dot has read a run of digits
and a dot. -/
theorem Inet4.scan_first_group (s : List Nat) :
    ∀ (bytes : List Nat) (bv cig dc c : Nat) (st : Inet4.Scan),
    Inet4.scan s bytes bv cig dc c = some st → st.dot_count ≠ dc →
    ∃ g rest, s = g ++ 46 :: rest ∧ (∀ d ∈ g, 48 ≤ d ∧ d ≤ 57) ∧ g.length ≤ 3 - cig := by
  induction s with
  | nil =>
    intro bytes bv cig dc c st h hdc
    simp only [Inet4.scan, Option.some.injEq] at h
    rw [← h] at hdc
    exact absurd rfl hdc
  | cons ch p ih =>
    intro bytes bv cig dc c st h hdc
    rw [Inet4.scan] at h
    by_cases hch : ch = 0
    · rw [if_pos hch, Option.some.injEq] at h
      rw [← h] at hdc
      exact absurd rfl hdc
    · rw [if_neg hch] at h
      by_cases hdig : my_isdigit ch = true
      · rw [if_pos hdig] at h
        split_ifs at h with h1 h2
        obtain ⟨g, rest, hs, hg, hlen⟩ := ih _ _ _ _ _ _ h hdc
        refine ⟨ch :: g, rest, by rw [hs]; rfl, ?_, by simp only [List.length_cons]; omega⟩
        intro d hd
        rcases List.mem_cons.1 hd with rfl | hd
        · exact (my_isdigit_iff _).1 hdig
        · exact hg d hd
      · rw [if_neg hdig] at h
        split_ifs at h with h1 h2 h3
        exact ⟨[], p, by rw [h1]; rfl, by simp, by simp⟩

/-- A text accepted by `Inet4::str_to_ipv4` starts with one to three digits
and a dot. -/
theorem Inet4.str_to_ipv4_first_group (s q : List Nat) (h : Inet4.str_to_ipv4 s = some q) :
    ∃ g rest, s = g ++ 46 :: rest ∧ (∀ d ∈ g, 48 ≤ d ∧ d ≤ 57) ∧ g.length ≤ 3 := by
  unfold Inet4.str_to_ipv4 at h
  split_ifs at h with h1 h2
  split at h
  · exact absurd h (by simp)
  · rename_i st hst
    split_ifs at h with h3 h4
    obtain ⟨g, rest, hs, hg, hlen⟩ := Inet4.scan_first_group s _ _ _ _ _ st hst (by omega)
    exact ⟨g, rest, hs, hg, by omega⟩

/-! ## Theorems about `INET_ATON` -/

theorem to_longlong_of_lt (u : Nat) (h : u < 2 ^ 63) : to_longlong u = (u : Int) := by
  unfold to_longlong
  have e : u % 2 ^ 64 = u := Nat.mod_eq_of_lt (by omega)
  rw [e, if_pos h]

theorem to_ulonglong_to_longlong (u : Nat) : to_ulonglong (to_longlong u) = u % 2 ^ 64 := by
  unfold to_ulonglong to_longlong
  split_ifs <;> omega

theorem to_ulonglong_natCast (u : Nat) (h : u < 2 ^ 64) : to_ulonglong (u : Int) = u := by
  unfold to_ulonglong
  omega

theorem getLastD_cons_eq (c d : Nat) (p : List Nat) : (d :: p).getLastD c = p.getLastD d := by
  cases p with
  | nil => rfl
  | cons a t => simp [List.getLastD]

/-- The loop of `Item_func_inet_aton::val_int` accumulates the value of a run
of digits that stays below 256. -/
theorem Item_func_inet_aton.scan_run (g : List Nat) (hg : ∀ d ∈ g, 48 ≤ d ∧ d ≤ 57)
    (tail : List Nat) (r dc : Nat) : ∀ (br c : Nat), dec_acc br g ≤ 255 →
    Item_func_inet_aton.scan (g ++ tail) br r dc c =
      Item_func_inet_aton.scan tail (dec_acc br g) r dc (g.getLastD c) := by
  induction g with
  | nil => intro br c _; rfl
  | cons d g ih =>
    intro br c hval
    have hd := hg d (List.mem_cons_self _ _)
    rw [dec_acc_cons] at hval
    have hle := dec_acc_ge g (br * 10 + (d - 48))
    rw [List.cons_append, Item_func_inet_aton.scan, if_pos hd, if_neg (by omega),
      ih (fun x hx => hg x (List.mem_cons_of_mem _ hx)) _ _ hval, dec_acc_cons,
      getLastD_cons_eq]

/-- A dot shifts the byte of the group read into `result`. -/
theorem Item_func_inet_aton.scan_sep (tail : List Nat) (br r dc c : Nat) :
    Item_func_inet_aton.scan (46 :: tail) br r dc c =
      Item_func_inet_aton.scan tail 0 ((r * 256 + br) % 2 ^ 64) (dc + 1) 46 := by
  rw [Item_func_inet_aton.scan, if_neg (by omega), if_pos rfl, Nat.shiftLeft_eq]

/-- The last byte read by the loop. -/
theorem Item_func_inet_aton.scan_last (s : List Nat) :
    ∀ (br r dc c : Nat) (st : Item_func_inet_aton.Scan),
    Item_func_inet_aton.scan s br r dc c = some st → st.c = s.getLastD c := by
  induction s with
  | nil =>
    intro br r dc c st h
    simp only [Item_func_inet_aton.scan, Option.some.injEq] at h
    rw [← h]; rfl
  | cons ch p ih =>
    intro br r dc c st h
    rw [Item_func_inet_aton.scan] at h
    rw [getLastD_cons_eq]
    split_ifs at h with h1 h2 h3
    · exact ih _ _ _ _ _ h
    · subst h3; exact ih _ _ _ _ _ h

theorem dot_split_digit (c : Nat) (s : List Nat) (h : c ≠ 46) :
    dot_split (c :: s) = (c :: (dot_split s).1, (dot_split s).2) := by
  rw [dot_split, if_neg h]

theorem dot_split_dot (s : List Nat) :
    dot_split (46 :: s) = ([], (dot_split s).1 :: (dot_split s).2) := by
  rw [dot_split, if_pos rfl]

/-- The loop of `Item_func_inet_aton::val_int` runs to the end of the text
exactly when every group is a run of digits whose value, for the first group
continued from `byte_result`, is at most 255. -/
theorem Item_func_inet_aton.scan_isSome_iff (s : List Nat) :
    ∀ (br r dc c : Nat), br ≤ 255 →
    ((Item_func_inet_aton.scan s br r dc c).isSome ↔
      (∀ d ∈ (dot_split s).1, 48 ≤ d ∧ d ≤ 57) ∧ dec_acc br (dot_split s).1 ≤ 255 ∧
        ∀ g ∈ (dot_split s).2, IsDecRun g) := by
  induction s with
  | nil =>
    intro br r dc c hbr
    simp [Item_func_inet_aton.scan, dot_split, dec_acc_nil, hbr]
  | cons ch p ih =>
    intro br r dc c hbr
    rw [Item_func_inet_aton.scan]
    by_cases hd : 48 ≤ ch ∧ ch ≤ 57
    · rw [if_pos hd, dot_split_digit ch p (by omega)]
      simp only [List.mem_cons, forall_eq_or_imp, dec_acc_cons]
      by_cases h2 : br * 10 + (ch - 48) > 255
      · rw [if_pos h2]
        have hle := dec_acc_ge (dot_split p).1 (br * 10 + (ch - 48))
        constructor
        · intro h; exact absurd h (by simp)
        · rintro ⟨_, hv, _⟩; omega
      · rw [if_neg h2, ih _ r dc ch (by omega)]
        constructor
        · rintro ⟨h1, h3, h4⟩; exact ⟨⟨hd, h1⟩, h3, h4⟩
        · rintro ⟨⟨_, h1⟩, h3, h4⟩; exact ⟨h1, h3, h4⟩
    · rw [if_neg hd]
      by_cases h46 : ch = 46
      · subst h46
        rw [if_pos rfl, dot_split_dot, ih 0 _ _ _ (by omega)]
        simp only [List.mem_cons, forall_eq_or_imp, dec_acc_nil, IsDecRun, dec_value,
          List.not_mem_nil, false_imp_iff, forall_const, implies_true, true_and]
        constructor
        · rintro ⟨h1, h3, h4⟩; exact ⟨hbr, ⟨h1, h3⟩, h4⟩
        · rintro ⟨_, ⟨h1, h3⟩, h4⟩; exact ⟨h1, h3, h4⟩
      · rw [if_neg h46, dot_split_digit ch p h46]
        constructor
        · intro h; exact absurd h (by simp)
        · rintro ⟨h1, _⟩; exact absurd (h1 ch (List.mem_cons_self _ _)) hd

theorem getLastD_ne_iff (s : List Nat) (c : Nat) :
    s.getLastD c ≠ c ↔ s ≠ [] ∧ s.getLast? ≠ some c := by
  rw [List.getLastD_eq_getLast?]
  cases h : s.getLast? with
  | none =>
    rw [List.getLast?_eq_none_iff] at h
    simp [h]
  | some x =>
    have : s ≠ [] := by
      intro e; rw [e] at h; simp at h
    simp [this]

theorem Item_func_inet_aton.val_int_of_scan_none (s : List Nat)
    (hsc : Item_func_inet_aton.scan s 0 0 0 46 = none) :
    Item_func_inet_aton.val_int (some s) = none := by
  simp only [Item_func_inet_aton.val_int, hsc]

/-- The value returned by `INET_ATON` in terms of the state in which its loop
ends. -/
theorem Item_func_inet_aton.val_int_of_scan (s : List Nat) (st : Item_func_inet_aton.Scan)
    (hsc : Item_func_inet_aton.scan s 0 0 0 46 = some st) :
    Item_func_inet_aton.val_int (some s) =
      if st.c ≠ 46 then
        some (to_longlong (((if st.dot_count = 1 then st.result * 256 % 2 ^ 64 * 256 % 2 ^ 64
          else if st.dot_count = 2 then st.result * 256 % 2 ^ 64 else st.result) * 256 +
            st.byte_result) % 2 ^ 64))
      else none := by
  simp only [Item_func_inet_aton.val_int, hsc, Nat.shiftLeft_eq]

/-- The function `INET_ATON` returns a value exactly for the non-empty texts
that do not end in a dot and whose groups are runs of digits of value at most
255. -/
theorem Item_func_inet_aton.val_int_isSome_iff (s : List Nat) :
    (Item_func_inet_aton.val_int (some s)).isSome ↔
      s ≠ [] ∧ s.getLast? ≠ some 46 ∧ ∀ g ∈ dot_groups s, IsDecRun g := by
  have hiff := Item_func_inet_aton.scan_isSome_iff s 0 0 0 46 (by omega)
  have hg : (∀ g ∈ dot_groups s, IsDecRun g) ↔
      (∀ d ∈ (dot_split s).1, 48 ≤ d ∧ d ≤ 57) ∧ dec_acc 0 (dot_split s).1 ≤ 255 ∧
        ∀ g ∈ (dot_split s).2, IsDecRun g := by
    simp only [dot_groups, List.mem_cons, forall_eq_or_imp, IsDecRun, dec_value, and_assoc]
  rw [hg, ← hiff, ← and_assoc, ← getLastD_ne_iff]
  cases hsc : Item_func_inet_aton.scan s 0 0 0 46 with
  | none =>
    rw [Item_func_inet_aton.val_int_of_scan_none s hsc]
    simp
  | some st =>
    have hl := Item_func_inet_aton.scan_last s _ _ _ _ _ hsc
    rw [Item_func_inet_aton.val_int_of_scan s st hsc, ← hl]
    by_cases hc : st.c = 46
    · simp [hc]
    · simp [hc]

/-- The loop keeps `byte_result` below 256 and `result` below `256 ^ dot_count`,
and counts the dots of the text. -/
theorem Item_func_inet_aton.scan_bound (s : List Nat) :
    ∀ (br r dc c : Nat) (st : Item_func_inet_aton.Scan), br ≤ 255 → r < 256 ^ dc →
    Item_func_inet_aton.scan s br r dc c = some st →
    st.byte_result ≤ 255 ∧ st.result < 256 ^ st.dot_count ∧
      st.dot_count = dc + s.count 46 := by
  induction s with
  | nil =>
    intro br r dc c st hbr hr h
    simp only [Item_func_inet_aton.scan, Option.some.injEq] at h
    rw [← h]
    exact ⟨hbr, hr, by simp⟩
  | cons ch p ih =>
    intro br r dc c st hbr hr h
    rw [Item_func_inet_aton.scan] at h
    split_ifs at h with h1 h2 h3
    · obtain ⟨a, b, e⟩ := ih _ _ _ _ _ (by omega) hr h
      refine ⟨a, b, ?_⟩
      rw [e, List.count_cons_of_ne (by omega)]
    · have hr2 : ((r <<< 8) + br) % 2 ^ 64 < 256 ^ (dc + 1) := by
        rw [Nat.shiftLeft_eq, Nat.pow_succ]
        have := Nat.mod_le (r * 2 ^ 8 + br) (2 ^ 64)
        omega
      obtain ⟨a, b, e⟩ := ih _ _ _ _ _ (by omega) hr2 h
      refine ⟨a, b, ?_⟩
      rw [e, h3, List.count_cons_self]
      omega

/-- On a text with at most three dots `INET_ATON` returns a 32-bit value. -/
theorem Item_func_inet_aton.val_int_lt (s : List Nat) (v : Int) (hdots : s.count 46 ≤ 3)
    (h : Item_func_inet_aton.val_int (some s) = some v) : 0 ≤ v ∧ v ≤ 4294967295 := by
  cases hsc : Item_func_inet_aton.scan s 0 0 0 46 with
  | none =>
    rw [Item_func_inet_aton.val_int_of_scan_none s hsc] at h
    exact absurd h (by simp)
  | some st =>
    rw [Item_func_inet_aton.val_int_of_scan s st hsc] at h
    obtain ⟨hb, hr, hdc⟩ := Item_func_inet_aton.scan_bound s _ _ _ _ _ (by omega) (by simp) hsc
    split_ifs at h with h1 h2 h3
    · rw [h2] at hr
      simp only [Option.some.injEq] at h
      rw [← h, to_longlong_of_lt _ (by omega)]
      omega
    · rw [h3] at hr
      simp only [Option.some.injEq] at h
      rw [← h, to_longlong_of_lt _ (by omega)]
      omega
    · have hcases : st.dot_count = 0 ∨ st.dot_count = 3 := by omega
      simp only [Option.some.injEq] at h
      rcases hcases with e | e
      · rw [e] at hr
        rw [← h, to_longlong_of_lt _ (by omega)]
        omega
      · rw [e] at hr
        rw [← h, to_longlong_of_lt _ (by omega)]
        omega

/-- The loop over a last group. -/
theorem Item_func_inet_aton.scan_end (g : List Nat) (hg : IsDecRun g) (r dc c : Nat) :
    Item_func_inet_aton.scan g 0 r dc c = some ⟨dec_value g, r, dc, g.getLastD c⟩ := by
  have h := Item_func_inet_aton.scan_run g hg.1 [] r dc 0 c hg.2
  rw [List.append_nil] at h
  rw [h]
  rfl

/-- The loop over a group and the dot after it. -/
theorem Item_func_inet_aton.scan_group (g : List Nat) (hg : IsDecRun g) (tail : List Nat)
    (r dc c : Nat) :
    Item_func_inet_aton.scan (g ++ 46 :: tail) 0 r dc c =
      Item_func_inet_aton.scan tail 0 ((r * 256 + dec_value g) % 2 ^ 64) (dc + 1) 46 := by
  rw [Item_func_inet_aton.scan_run g hg.1 _ r dc 0 c hg.2, Item_func_inet_aton.scan_sep]
  rfl

theorem IsDecRun.last_ne_dot {g : List Nat} (hg : IsDecRun g) (hne : g ≠ []) (c : Nat) :
    g.getLastD c ≠ 46 := by
  have := hg.1 _ (getLastD_mem_of_ne_nil g c hne)
  omega

/-- The values `INET_ATON` returns for one to four groups; only the last group
has to be non-empty. -/
theorem Item_func_inet_aton.val_int_forms (a b c d : List Nat) (ha : IsDecRun a)
    (hb : IsDecRun b) (hc : IsDecRun c) (hd : IsDecRun d) :
    (a ≠ [] → Item_func_inet_aton.val_int (some a) = some ((dec_value a : Nat) : Int)) ∧
    (b ≠ [] → Item_func_inet_aton.val_int (some (a ++ 46 :: b)) =
      some ((dec_value a * 2 ^ 24 + dec_value b : Nat) : Int)) ∧
    (c ≠ [] → Item_func_inet_aton.val_int (some (a ++ 46 :: (b ++ 46 :: c))) =
      some ((dec_value a * 2 ^ 24 + dec_value b * 2 ^ 16 + dec_value c : Nat) : Int)) ∧
    (d ≠ [] → Item_func_inet_aton.val_int (some (a ++ 46 :: (b ++ 46 :: (c ++ 46 :: d)))) =
      some ((dec_value a * 2 ^ 24 + dec_value b * 2 ^ 16 + dec_value c * 2 ^ 8 + dec_value d :
        Nat) : Int)) := by
  have va := ha.2
  have vb := hb.2
  have vc := hc.2
  have vd := hd.2
  refine ⟨fun hne => ?_, fun hne => ?_, fun hne => ?_, fun hne => ?_⟩
  · rw [Item_func_inet_aton.val_int_of_scan _ _ (Item_func_inet_aton.scan_end a ha 0 0 46)]
    dsimp only
    rw [if_pos (ha.last_ne_dot hne 46), if_neg (by omega), if_neg (by omega),
      ← to_longlong_of_lt _ (by omega)]
    congr 2
    omega
  · have hs : Item_func_inet_aton.scan (a ++ 46 :: b) 0 0 0 46 =
        some ⟨dec_value b, (0 * 256 + dec_value a) % 2 ^ 64, 0 + 1, b.getLastD 46⟩ := by
      rw [Item_func_inet_aton.scan_group a ha, Item_func_inet_aton.scan_end b hb]
    rw [Item_func_inet_aton.val_int_of_scan _ _ hs]
    dsimp only
    rw [if_pos (hb.last_ne_dot hne 46), if_pos (by omega), ← to_longlong_of_lt _ (by omega)]
    congr 2
    omega
  · have hs : Item_func_inet_aton.scan (a ++ 46 :: (b ++ 46 :: c)) 0 0 0 46 =
        some ⟨dec_value c, ((0 * 256 + dec_value a) % 2 ^ 64 * 256 + dec_value b) % 2 ^ 64,
          0 + 1 + 1, c.getLastD 46⟩ := by
      rw [Item_func_inet_aton.scan_group a ha, Item_func_inet_aton.scan_group b hb,
        Item_func_inet_aton.scan_end c hc]
    rw [Item_func_inet_aton.val_int_of_scan _ _ hs]
    dsimp only
    rw [if_pos (hc.last_ne_dot hne 46), if_neg (by omega), if_pos (by omega),
      ← to_longlong_of_lt _ (by omega)]
    congr 2
    omega
  · have hs : Item_func_inet_aton.scan (a ++ 46 :: (b ++ 46 :: (c ++ 46 :: d))) 0 0 0 46 =
        some ⟨dec_value d, (((0 * 256 + dec_value a) % 2 ^ 64 * 256 + dec_value b) % 2 ^ 64 * 256 +
          dec_value c) % 2 ^ 64, 0 + 1 + 1 + 1, d.getLastD 46⟩ := by
      rw [Item_func_inet_aton.scan_group a ha, Item_func_inet_aton.scan_group b hb,
        Item_func_inet_aton.scan_group c hc, Item_func_inet_aton.scan_end d hd]
    rw [Item_func_inet_aton.val_int_of_scan _ _ hs]
    dsimp only
    rw [if_pos (hd.last_ne_dot hne 46), if_neg (by omega), if_neg (by omega),
      ← to_longlong_of_lt _ (by omega)]
    congr 2
    omega

/-! ## Theorems about `INET_NTOA` -/

/-- What one iteration of the loop of `Item_func_inet_ntoa::val_str` appends
for a byte: its decimal text, and a dot unless `p = buf`. -/
theorem Item_func_inet_ntoa.append_octet_eq (str buf : List Nat) (p : Nat)
    (hc : buf.getD p 0 < 256) :
    Item_func_inet_ntoa.append_octet str buf p =
      str ++ (sprintf_d (buf.getD p 0) ++ if p = 0 then [] else [46]) := by
  have key0 : ∀ c < 256, Item_func_inet_ntoa.append_octet [] [c] 0 = sprintf_d c := by decide
  have key1 : ∀ c < 256, Item_func_inet_ntoa.append_octet [] [0, c] 1 = sprintf_d c ++ [46] := by
    decide
  by_cases hp : p = 0
  · rw [if_pos hp, List.append_nil, ← key0 _ hc]
    subst hp
    simp [Item_func_inet_ntoa.append_octet]
  · rw [if_neg hp, ← key1 _ hc]
    have hp1 : ¬ p ≤ 0 := by omega
    simp [Item_func_inet_ntoa.append_octet, hp1]

/-- The text `INET_NTOA` returns: null above `0xffffffff`, else the four bytes
of the value in decimal, the most significant first. -/
theorem Item_func_inet_ntoa.val_str_eq (v : Int) :
    Item_func_inet_ntoa.val_str (some v) =
      if to_ulonglong v > 0xffffffff then none
      else some (sprintf_d (to_ulonglong v / 16777216 % 256) ++ 46 ::
        (sprintf_d (to_ulonglong v / 65536 % 256) ++ 46 ::
          (sprintf_d (to_ulonglong v / 256 % 256) ++ 46 ::
            sprintf_d (to_ulonglong v % 256)))) := by
  unfold Item_func_inet_ntoa.val_str
  dsimp only
  split_ifs with h
  · rfl
  · simp only [Item_func_inet_ntoa.loop, int4store]
    rw [Item_func_inet_ntoa.append_octet_eq _ _ 3 (by simp only [List.getD_cons_succ, List.getD_cons_zero]; omega),
      Item_func_inet_ntoa.append_octet_eq _ _ 2 (by simp only [List.getD_cons_succ, List.getD_cons_zero]; omega),
      Item_func_inet_ntoa.append_octet_eq _ _ 1 (by simp only [List.getD_cons_succ, List.getD_cons_zero]; omega),
      Item_func_inet_ntoa.append_octet_eq _ _ 0 (by simp only [List.getD_cons_zero]; omega)]
    simp only [List.getD_cons_succ, List.getD_cons_zero]
    simp

/-- The text `%d` writes for a byte is a decimal integer without leading
zeros. -/
theorem sprintf_d_canonical : ∀ x < 256, IsCanonicalOctet (sprintf_d x) := by
  decide

theorem dec_acc_lower (g : List Nat) : ∀ v, v * 10 ^ g.length ≤ dec_acc v g := by
  induction g with
  | nil => intro v; simp [dec_acc_nil]
  | cons d g ih =>
    intro v
    rw [dec_acc_cons, List.length_cons, Nat.pow_succ]
    have h1 := ih (v * 10 + (d - 48))
    have h2 : v * (10 ^ g.length * 10) ≤ (v * 10 + (d - 48)) * 10 ^ g.length := by
      rw [Nat.add_mul]
      have : v * (10 ^ g.length * 10) = v * 10 * 10 ^ g.length := by ring
      omega
    omega

/-- A decimal integer in 0..255 without leading zeros has at most three
digits. -/
theorem IsCanonicalOctet.length_le {g : List Nat} (h : IsCanonicalOctet g) : g.length ≤ 3 := by
  obtain ⟨hne, ⟨hdig, hval⟩, hz⟩ := h
  by_contra hlen
  cases g with
  | nil => exact hne rfl
  | cons d t =>
    have hd := hdig d (List.mem_cons_self _ _)
    have hd48 : d ≠ 48 := by
      intro e
      have := hz (by rw [e]; rfl)
      rw [this] at hlen
      simp at hlen
    unfold dec_value at hval
    rw [dec_acc_cons] at hval
    have h1 := dec_acc_lower t (0 * 10 + (d - 48))
    have h2 : 10 ^ 3 ≤ 10 ^ t.length :=
      Nat.pow_le_pow_right (by omega) (by simp only [List.length_cons] at hlen; omega)
    have h3 : 1 * 10 ^ t.length ≤ (0 * 10 + (d - 48)) * 10 ^ t.length :=
      Nat.mul_le_mul_right _ (by omega)
    omega

/-- The texts of one digit are the texts `%d` writes for their values. -/
theorem canonical_digits1 : ∀ a < 10,
    (IsCanonicalOctet [48 + a] → [48 + a] = sprintf_d (dec_value [48 + a])) := by
  decide

/-- The texts of two digits that are decimal integers without leading zeros
are the texts `%d` writes for their values. -/
theorem canonical_digits2 : ∀ a < 10, ∀ b < 10,
    (IsCanonicalOctet [48 + a, 48 + b] →
      [48 + a, 48 + b] = sprintf_d (dec_value [48 + a, 48 + b])) := by
  decide

/-- The texts of three digits that are decimal integers in 0..255 without
leading zeros are the texts `%d` writes for their values. -/
theorem canonical_digits3 : ∀ a < 10, ∀ b < 10, ∀ c < 10,
    (IsCanonicalOctet [48 + a, 48 + b, 48 + c] →
      [48 + a, 48 + b, 48 + c] = sprintf_d (dec_value [48 + a, 48 + b, 48 + c])) := by
  decide!

/-- A decimal integer in 0..255 without leading zeros is the text `%d` writes
for its value. -/
theorem IsCanonicalOctet.eq_sprintf_d {g : List Nat} (h : IsCanonicalOctet g) :
    g = sprintf_d (dec_value g) := by
  have hlen := h.length_le
  have hdig := h.2.1.1
  have hne := h.1
  have digit : ∀ x, 48 ≤ x ∧ x ≤ 57 → ∃ a, a < 10 ∧ x = 48 + a := fun x hx =>
    ⟨x - 48, by omega, by omega⟩
  match g, h, hlen, hdig, hne with
  | [], _, _, _, hne => exact absurd rfl hne
  | [x], h, _, hdig, _ =>
    obtain ⟨a, ha, rfl⟩ := digit x (hdig x (by simp))
    exact canonical_digits1 a ha h
  | [x, y], h, _, hdig, _ =>
    obtain ⟨a, ha, rfl⟩ := digit x (hdig x (by simp))
    obtain ⟨b, hb, rfl⟩ := digit y (hdig y (by simp))
    exact canonical_digits2 a ha b hb h
  | [x, y, z], h, _, hdig, _ =>
    obtain ⟨a, ha, rfl⟩ := digit x (hdig x (by simp))
    obtain ⟨b, hb, rfl⟩ := digit y (hdig y (by simp))
    obtain ⟨c, hc, rfl⟩ := digit z (hdig z (by simp))
    exact canonical_digits3 a ha b hb c hc h
  | _ :: _ :: _ :: _ :: _, _, hlen, _, _ =>
    simp only [List.length_cons] at hlen
    omega

/-- The composition of `INET_NTOA` with `INET_ATON` on four groups. -/
theorem Item_func_inet_ntoa.val_str_val_int4 (a b c d : List Nat) (ha : IsDecRun a)
    (hb : IsDecRun b) (hc : IsDecRun c) (hd : IsDecRun d) (hne : d ≠ []) :
    Item_func_inet_ntoa.val_str
        (Item_func_inet_aton.val_int (some (a ++ 46 :: (b ++ 46 :: (c ++ 46 :: d))))) =
      some (sprintf_d (dec_value a) ++ 46 :: (sprintf_d (dec_value b) ++ 46 ::
        (sprintf_d (dec_value c) ++ 46 :: sprintf_d (dec_value d)))) := by
  have va := ha.2
  have vb := hb.2
  have vc := hc.2
  have vd := hd.2
  rw [(Item_func_inet_aton.val_int_forms a b c d ha hb hc hd).2.2.2 hne,
    Item_func_inet_ntoa.val_str_eq, to_ulonglong_natCast _ (by omega), if_neg (by omega)]
  have e3 : (dec_value a * 2 ^ 24 + dec_value b * 2 ^ 16 + dec_value c * 2 ^ 8 + dec_value d) /
      16777216 % 256 = dec_value a := by omega
  have e2 : (dec_value a * 2 ^ 24 + dec_value b * 2 ^ 16 + dec_value c * 2 ^ 8 + dec_value d) /
      65536 % 256 = dec_value b := by omega
  have e1 : (dec_value a * 2 ^ 24 + dec_value b * 2 ^ 16 + dec_value c * 2 ^ 8 + dec_value d) /
      256 % 256 = dec_value c := by omega
  have e0 : (dec_value a * 2 ^ 24 + dec_value b * 2 ^ 16 + dec_value c * 2 ^ 8 + dec_value d) %
      256 = dec_value d := by omega
  rw [e3, e2, e1, e0]

/-- The composition of `INET_NTOA` with `INET_ATON` on three groups. -/
theorem Item_func_inet_ntoa.val_str_val_int3 (a b c : List Nat) (ha : IsDecRun a)
    (hb : IsDecRun b) (hc : IsDecRun c) (hne : c ≠ []) :
    Item_func_inet_ntoa.val_str
        (Item_func_inet_aton.val_int (some (a ++ 46 :: (b ++ 46 :: c)))) =
      some (sprintf_d (dec_value a) ++ 46 :: (sprintf_d (dec_value b) ++ 46 ::
        (sprintf_d 0 ++ 46 :: sprintf_d (dec_value c)))) := by
  have va := ha.2
  have vb := hb.2
  have vc := hc.2
  rw [(Item_func_inet_aton.val_int_forms a b c c ha hb hc hc).2.2.1 hne,
    Item_func_inet_ntoa.val_str_eq, to_ulonglong_natCast _ (by omega), if_neg (by omega)]
  have e3 : (dec_value a * 2 ^ 24 + dec_value b * 2 ^ 16 + dec_value c) / 16777216 % 256 =
      dec_value a := by omega
  have e2 : (dec_value a * 2 ^ 24 + dec_value b * 2 ^ 16 + dec_value c) / 65536 % 256 =
      dec_value b := by omega
  have e1 : (dec_value a * 2 ^ 24 + dec_value b * 2 ^ 16 + dec_value c) / 256 % 256 = 0 := by
    omega
  have e0 : (dec_value a * 2 ^ 24 + dec_value b * 2 ^ 16 + dec_value c) % 256 = dec_value c := by
    omega
  rw [e3, e2, e1, e0]

/-- The texts that `INET_NTOA` gives back unchanged after `INET_ATON` are the
four decimal integers in 0..255 without leading zeros joined by dots. -/
theorem Item_func_inet_ntoa.val_str_val_int_iff (s : List Nat) :
    Item_func_inet_ntoa.val_str (Item_func_inet_aton.val_int (some s)) = some s ↔
      ∃ a b c d, IsCanonicalOctet a ∧ IsCanonicalOctet b ∧ IsCanonicalOctet c ∧
        IsCanonicalOctet d ∧ s = a ++ 46 :: (b ++ 46 :: (c ++ 46 :: d)) := by
  constructor
  · intro h
    cases hv : Item_func_inet_aton.val_int (some s) with
    | none => rw [hv] at h; exact absurd h (by simp [Item_func_inet_ntoa.val_str])
    | some v =>
      rw [hv, Item_func_inet_ntoa.val_str_eq] at h
      split_ifs at h with h1
      simp only [Option.some.injEq] at h
      exact ⟨_, _, _, _, sprintf_d_canonical _ (Nat.mod_lt _ (by omega)),
        sprintf_d_canonical _ (Nat.mod_lt _ (by omega)),
        sprintf_d_canonical _ (Nat.mod_lt _ (by omega)),
        sprintf_d_canonical _ (Nat.mod_lt _ (by omega)), h.symm⟩
  · rintro ⟨a, b, c, d, ha, hb, hc, hd, rfl⟩
    rw [Item_func_inet_ntoa.val_str_val_int4 a b c d ha.2.1 hb.2.1 hc.2.1 hd.2.1 hd.1,
      ← ha.eq_sprintf_d, ← hb.eq_sprintf_d, ← hc.eq_sprintf_d, ← hd.eq_sprintf_d]

theorem count_dot_digits (g : List Nat) (hg : ∀ d ∈ g, 48 ≤ d ∧ d ≤ 57) : g.count 46 = 0 := by
  rw [List.count_eq_zero]
  intro h
  have := hg 46 h
  omega

theorem count_dot_sprintf_d (x : Nat) (hx : x < 256) : (sprintf_d x).count 46 = 0 :=
  count_dot_digits _ (sprintf_d_byte x hx).1.2.2.1

/-- The text returned for three groups has three dots: it is not the text
given. -/
theorem Item_func_inet_ntoa.val_str_val_int3_ne (a b c : List Nat) (ha : IsDecRun a)
    (hb : IsDecRun b) (hc : IsDecRun c) :
    sprintf_d (dec_value a) ++ 46 :: (sprintf_d (dec_value b) ++ 46 ::
        (sprintf_d 0 ++ 46 :: sprintf_d (dec_value c))) ≠ a ++ 46 :: (b ++ 46 :: c) := by
  intro h
  have h1 := congrArg (List.count 46) h
  simp only [List.count_append, List.count_cons_self,
    count_dot_sprintf_d _ (Nat.lt_succ_of_le ha.2), count_dot_sprintf_d _ (Nat.lt_succ_of_le hb.2),
    count_dot_sprintf_d _ (Nat.lt_succ_of_le hc.2), count_dot_sprintf_d 0 (by omega),
    count_dot_digits a ha.1, count_dot_digits b hb.1, count_dot_digits c hc.1] at h1
  omega

/-! ## Colons at the ends of a text and letter case in `Inet6::str_to_ipv6` -/

/-- A text that starts with a single colon is rejected. -/
theorem Inet6.str_to_ipv6_leading_colon (x : Nat) (t : List Nat) (hx : x ≠ 58) :
    Inet6.str_to_ipv6 (58 :: x :: t) = none := by
  unfold Inet6.str_to_ipv6
  have h : (58 :: x :: t).head? = some 58 ∧ ((58 :: x :: t).drop 1).head? ≠ some 58 := by
    refine ⟨rfl, ?_⟩
    simp only [List.drop_succ_cons, List.drop_zero, List.head?_cons, ne_eq, Option.some.injEq]
    exact hx
  dsimp only
  rw [if_pos h]
  split_ifs <;> rfl

theorem getLast?_cons_of_ne_nil (c : Nat) (l : List Nat) (h : l ≠ []) :
    (c :: l).getLast? = l.getLast? := by
  cases l with
  | nil => exact absurd rfl h
  | cons a t => rw [List.getLast?_cons_cons]

/-- The scanning loop fails on a text without zero bytes that ends in a colon
which closes a group. -/
theorem Inet6.scan_trailing_colon :
    ∀ (pre buf : List Nat) (dst : Nat) (gap : Option Nat) (gs : List Nat) (cig gv : Nat),
    0 ∉ gs → (∀ c ∈ pre, c ∈ gs) → 58 ∈ gs → pre.getLast? ≠ some 58 → (pre = [] → cig ≠ 0) →
    Inet6.scan (pre ++ [58]) buf dst gap gs cig gv = none := by
  intro pre
  induction pre with
  | nil =>
    intro buf dst gap gs cig gv _ _ _ _ hcig
    rw [List.nil_append, Inet6.scan, if_neg (by omega), if_pos rfl, if_neg (hcig rfl),
      if_pos (Or.inr rfl)]
  | cons c pre ih =>
    intro buf dst gap gs cig gv h0 hsub h58 hlast _
    have hc0 : c ≠ 0 := fun e => h0 (e ▸ hsub c (List.mem_cons_self _ _))
    have hp0 : 0 ∉ pre ++ [58] := by
      intro h
      rcases List.mem_append.1 h with h | h
      · exact h0 (hsub 0 (List.mem_cons_of_mem _ h))
      · simp at h
    have hlast1 : pre ≠ [] → pre.getLast? ≠ some 58 := fun hne => by
      rw [← getLast?_cons_of_ne_nil c pre hne]; exact hlast
    rw [List.cons_append, Inet6.scan, if_neg hc0]
    by_cases hc : c = 58
    · have hne : pre ≠ [] := by
        intro e
        rw [e, hc] at hlast
        exact hlast rfl
      have hrec : ∀ (buf : List Nat) (dst : Nat) (gap : Option Nat) (cig gv : Nat),
          Inet6.scan (pre ++ [58]) buf dst gap (pre ++ [58]) cig gv = none := fun _ _ _ _ _ =>
        ih _ _ _ _ _ _ hp0 (fun x hx => List.mem_append_left _ hx) (by simp) (hlast1 hne)
          (fun e => absurd e hne)
      rw [if_pos hc]
      split_ifs
      all_goals first
        | rfl
        | exact hrec _ _ _ _ _
    · rw [if_neg hc]
      by_cases hd : c = 46
      · rw [if_pos hd, Inet4.str_to_ipv4_of_colon gs h58 h0]
        split_ifs <;> rfl
      · rw [if_neg hd]
        split
        · rfl
        · split_ifs
          · rfl
          · apply ih _ _ _ _ _ _ h0 (fun x hx => hsub x (List.mem_cons_of_mem _ hx)) h58
            · by_cases hne : pre = []
              · rw [hne]; simp
              · exact hlast1 hne
            · intro _; omega

/-- A text without zero bytes that ends in a colon not preceded by a colon is
rejected. -/
theorem Inet6.str_to_ipv6_trailing_colon (pre : List Nat) (h0 : 0 ∉ pre)
    (hl : pre.getLast? ≠ some 58) : Inet6.str_to_ipv6 (pre ++ [58]) = none := by
  cases pre with
  | nil => exact Inet6.str_to_ipv6_short _ (Or.inl (by simp))
  | cons c pre1 =>
    have hs0 : 0 ∉ c :: pre1 ++ [58] := by
      intro h
      rcases List.mem_append.1 h with h | h
      · exact h0 h
      · simp at h
    apply Inet6.str_to_ipv6_of_scan_none
    by_cases hc : c = 58
    · subst hc
      have hne : pre1 ≠ [] := by
        intro e
        rw [e] at hl
        exact hl rfl
      rw [if_pos (by rfl), List.cons_append, List.drop_one, List.tail_cons]
      exact Inet6.scan_trailing_colon pre1 _ _ _ _ _ _
        (fun h => hs0 (List.mem_cons_of_mem _ h)) (fun x hx => List.mem_append_left _ hx)
        (by simp) (by rw [← getLast?_cons_of_ne_nil 58 pre1 hne]; exact hl)
        (fun e => absurd e hne)
    · rw [if_neg (by simpa using hc)]
      exact Inet6.scan_trailing_colon (c :: pre1) _ _ _ _ _ _ hs0
        (fun x hx => List.mem_append_left _ hx) (by simp) hl (fun e => by simp at e)

theorem lower_hex_letter_cases (c : Nat) :
    (65 ≤ c ∧ c ≤ 70 ∧ lower_hex_letter c = c + 32) ∨
      (¬ (65 ≤ c ∧ c ≤ 70) ∧ lower_hex_letter c = c) := by
  unfold lower_hex_letter
  by_cases h : 65 ≤ c ∧ c ≤ 70
  · left; rw [if_pos h]; exact ⟨h.1, h.2, rfl⟩
  · right; rw [if_neg h]; exact ⟨h, rfl⟩

/-- The scanning loop of `Inet4::str_to_ipv4` does not see the case of the
letters `A`..`F`: it rejects them in either case. -/
theorem Inet4.scan_lower4 (s : List Nat) :
    ∀ (bytes : List Nat) (bv cig dc c : Nat),
    Inet4.scan (s.map lower_hex_letter) bytes bv cig dc c = Inet4.scan s bytes bv cig dc c := by
  induction s with
  | nil => intro bytes bv cig dc c; rfl
  | cons ch p ih =>
    intro bytes bv cig dc c
    rw [List.map_cons, Inet4.scan, Inet4.scan]
    rcases lower_hex_letter_cases ch with ⟨h1, h2, e⟩ | ⟨_, e⟩
    · rw [e]
      have d1 : my_isdigit (ch + 32) = false := by
        rw [← Bool.not_eq_true, my_isdigit_iff]; omega
      have d2 : my_isdigit ch = false := by
        rw [← Bool.not_eq_true, my_isdigit_iff]; omega
      have n1 : ch + 32 ≠ 0 := by omega
      have n2 : ch ≠ 0 := by omega
      have n3 : ch + 32 ≠ 46 := by omega
      have n4 : ch ≠ 46 := by omega
      simp only [n1, n2, n3, n4, d1, d2, Bool.false_eq_true, if_false]
    · rw [e]
      simp only [ih]

/-- The decoder `Inet4::str_to_ipv4` does not see the case of the letters
`A`..`F`. -/
theorem Inet4.str_to_ipv4_lower (s : List Nat) :
    Inet4.str_to_ipv4 (s.map lower_hex_letter) = Inet4.str_to_ipv4 s := by
  unfold Inet4.str_to_ipv4
  rw [List.length_map, Inet4.scan_lower4]

theorem head?_map_lower (p : List Nat) (x : Nat) (hx : ¬ (97 ≤ x ∧ x ≤ 102))
    (hx2 : ¬ (65 ≤ x ∧ x ≤ 70)) :
    (p.map lower_hex_letter).head? = some x ↔ p.head? = some x := by
  cases p with
  | nil => simp
  | cons a t =>
    simp only [List.map_cons, List.head?_cons, Option.some.injEq]
    rcases lower_hex_letter_cases a with ⟨h1, h2, e⟩ | ⟨_, e⟩
    · rw [e]; omega
    · rw [e]

/-- The scanning loop of `Inet6::str_to_ipv6` reads the letters `A`..`F` as
their lowercase forms. -/
theorem Inet6.scan_lower6 (rest : List Nat) :
    ∀ (buf : List Nat) (dst : Nat) (gap : Option Nat) (gs : List Nat) (cig gv : Nat),
    Inet6.scan (rest.map lower_hex_letter) buf dst gap (gs.map lower_hex_letter) cig gv =
      Inet6.scan rest buf dst gap gs cig gv := by
  induction rest with
  | nil => intro buf dst gap gs cig gv; rfl
  | cons ch p ih =>
    intro buf dst gap gs cig gv
    rw [List.map_cons, Inet6.scan, Inet6.scan]
    rcases lower_hex_letter_cases ch with ⟨h1, h2, e⟩ | ⟨_, e⟩
    · have t1 : my_tolower (ch + 32) = ch + 32 := by
        unfold my_tolower; rw [if_neg (by omega)]
      have t2 : my_tolower ch = ch + 32 := by
        unfold my_tolower; rw [if_pos (by omega)]
      rw [e, if_neg (by omega), if_neg (by omega), if_neg (by omega), if_neg (by omega),
        if_neg (by omega), if_neg (by omega), t1, t2]
      simp only [ih]
    · have hh : ((p.map lower_hex_letter).head? = some 0 ∨ p.map lower_hex_letter = []) ↔
          (p.head? = some 0 ∨ p = []) := by
        rw [head?_map_lower p 0 (by omega) (by omega), List.map_eq_nil_iff]
      rw [e]
      simp only [hh, ih, Inet4.str_to_ipv4_lower]

/-- The decoder `Inet6::str_to_ipv6` reads the letters `A`..`F` as their
lowercase forms. -/
theorem Inet6.str_to_ipv6_lower (s : List Nat) :
    Inet6.str_to_ipv6 (s.map lower_hex_letter) = Inet6.str_to_ipv6 s := by
  unfold Inet6.str_to_ipv6
  have h1 : (s.map lower_hex_letter).head? = some 58 ↔ s.head? = some 58 :=
    head?_map_lower s 58 (by omega) (by omega)
  have h2 : ((s.drop 1).map lower_hex_letter).head? = some 58 ↔ (s.drop 1).head? = some 58 :=
    head?_map_lower _ 58 (by omega) (by omega)
  simp only [List.length_map, h1, h2, ne_eq, ← List.map_drop]
  by_cases hh : s.head? = some 58
  · simp only [hh, if_true, Inet6.scan_lower6]
  · simp only [hh, if_false, Inet6.scan_lower6]

/-! ## Theorems about `Inet6::cmp` -/

theorem memcmp_zero (s1 s2 : List Nat) : memcmp s1 s2 0 = 0 := by
  cases s1 <;> cases s2 <;> rfl

theorem memcmp_cons (a b : Nat) (s1 s2 : List Nat) (n : Nat) :
    memcmp (a :: s1) (b :: s2) (n + 1) =
      if a ≠ b then (a : Int) - (b : Int) else memcmp s1 s2 n := by
  rw [memcmp]

theorem memcmp_nil_left (s2 : List Nat) (n : Nat) : memcmp [] s2 n = 0 := by
  cases n <;> rfl

theorem memcmp_nil_right (s1 : List Nat) (n : Nat) : memcmp s1 [] n = 0 := by
  cases s1 <;> cases n <;> rfl

/-- Swapping the arguments of `memcmp` changes the sign of the result. -/
theorem memcmp_swap : ∀ (n : Nat) (s1 s2 : List Nat), memcmp s2 s1 n = - memcmp s1 s2 n := by
  intro n
  induction n with
  | zero => intro s1 s2; rw [memcmp_zero, memcmp_zero]; rfl
  | succ n ih =>
    intro s1 s2
    cases s1 with
    | nil => rw [memcmp_nil_left, memcmp_nil_right]; rfl
    | cons a t1 =>
      cases s2 with
      | nil => rw [memcmp_nil_left, memcmp_nil_right]; rfl
      | cons b t2 =>
        rw [memcmp_cons, memcmp_cons, ih t1 t2]
        by_cases h : a = b
        · rw [if_neg (by simpa using h.symm), if_neg (by simpa using h)]
        · rw [if_pos (fun e => h e.symm), if_pos h]
          omega

/-- The result of `memcmp` is zero exactly when the first `n` bytes agree. -/
theorem memcmp_eq_zero_iff : ∀ (n : Nat) (s1 s2 : List Nat), n ≤ s1.length → n ≤ s2.length →
    (memcmp s1 s2 n = 0 ↔ s1.take n = s2.take n) := by
  intro n
  induction n with
  | zero => intro s1 s2 _ _; rw [memcmp_zero]; simp
  | succ n ih =>
    intro s1 s2 h1 h2
    cases s1 with
    | nil => simp at h1
    | cons a t1 =>
      cases s2 with
      | nil => simp at h2
      | cons b t2 =>
        simp only [List.length_cons] at h1 h2
        rw [memcmp_cons, List.take_succ_cons, List.take_succ_cons, List.cons.injEq]
        by_cases h : a = b
        · rw [if_neg (by simpa using h), ih t1 t2 (by omega) (by omega)]
          simp [h]
        · rw [if_pos h]
          constructor
          · intro e; exact absurd (by omega) h
          · intro e; exact absurd e.1 h

/-- The result of `memcmp` is negative exactly when, at the first of the `n`
positions where the bytes differ, the byte on the left is the smaller. -/
theorem memcmp_neg_iff : ∀ (n : Nat) (s1 s2 : List Nat), n ≤ s1.length → n ≤ s2.length →
    (memcmp s1 s2 n < 0 ↔
      ∃ i, i < n ∧ (∀ j, j < i → s1.getD j 0 = s2.getD j 0) ∧ s1.getD i 0 < s2.getD i 0) := by
  intro n
  induction n with
  | zero =>
    intro s1 s2 _ _
    rw [memcmp_zero]
    constructor
    · intro h; exact absurd h (by omega)
    · rintro ⟨i, hi, _⟩; exact absurd hi (by omega)
  | succ n ih =>
    intro s1 s2 h1 h2
    cases s1 with
    | nil => simp at h1
    | cons a t1 =>
      cases s2 with
      | nil => simp at h2
      | cons b t2 =>
        simp only [List.length_cons] at h1 h2
        rw [memcmp_cons]
        by_cases h : a = b
        · rw [if_neg (by simpa using h), ih t1 t2 (by omega) (by omega)]
          constructor
          · rintro ⟨i, hi, hj, hlt⟩
            refine ⟨i + 1, by omega, ?_, by simpa using hlt⟩
            intro j hj1
            cases j with
            | zero => simpa using h
            | succ j => simpa using hj j (by omega)
          · rintro ⟨i, hi, hj, hlt⟩
            cases i with
            | zero =>
              simp only [List.getD_cons_zero] at hlt
              omega
            | succ i =>
              refine ⟨i, by omega, ?_, by simpa using hlt⟩
              intro j hj1
              simpa using hj (j + 1) (by omega)
        · rw [if_pos h]
          constructor
          · intro e
            exact ⟨0, by omega, fun j hj => absurd hj (by omega), by
              simp only [List.getD_cons_zero]; omega⟩
          · rintro ⟨i, hi, hj, hlt⟩
            cases i with
            | zero =>
              simp only [List.getD_cons_zero] at hlt
              omega
            | succ i =>
              have := hj 0 (by omega)
              simp only [List.getD_cons_zero] at this
              exact absurd this h

/-- The order given by the sign of `memcmp` is transitive. -/
theorem memcmp_trans : ∀ (n : Nat) (s1 s2 s3 : List Nat), memcmp s1 s2 n < 0 →
    memcmp s2 s3 n < 0 → memcmp s1 s3 n < 0 := by
  intro n
  induction n with
  | zero => intro s1 s2 s3 h; rw [memcmp_zero] at h; exact absurd h (by omega)
  | succ n ih =>
    intro s1 s2 s3 h12 h23
    cases s1 with
    | nil => rw [memcmp_nil_left] at h12; exact absurd h12 (by omega)
    | cons a t1 =>
      cases s2 with
      | nil => rw [memcmp_nil_right] at h12; exact absurd h12 (by omega)
      | cons b t2 =>
        cases s3 with
        | nil => rw [memcmp_nil_right] at h23; exact absurd h23 (by omega)
        | cons c t3 =>
          rw [memcmp_cons] at h12 h23 ⊢
          by_cases hab : a = b
          · rw [if_neg (by simpa using hab)] at h12
            by_cases hbc : b = c
            · rw [if_neg (by simpa using hbc)] at h23
              rw [if_neg (by simpa using hab.trans hbc)]
              exact ih t1 t2 t3 h12 h23
            · rw [if_pos hbc] at h23
              rw [if_pos (by omega)]
              omega
          · rw [if_pos hab] at h12
            by_cases hbc : b = c
            · rw [if_pos (by omega)]
              omega
            · rw [if_pos hbc] at h23
              rw [if_pos (by omega)]
              omega

/-! ## Theorems about the predicates on items -/

/-- The model of `IN6_IS_ADDR_V4COMPAT` in terms of the last 32 bits read
big-endian. -/
theorem Inet6.is_v4compat_iff (v : List Nat) (hv : IsInet6 v) :
    Inet6.is_v4compat v ↔ (∀ i < 12, v.getD i 0 = 0) ∧
      1 < v.getD 12 0 * 2 ^ 24 + v.getD 13 0 * 2 ^ 16 + v.getD 14 0 * 2 ^ 8 + v.getD 15 0 := by
  obtain ⟨b0, b1, b2, b3, b4, b5, b6, b7, b8, b9, b10, b11, b12, b13, b14, b15, rfl, -, -, -, -,
    -, -, -, -, -, -, -, -, h12, h13, h14, h15⟩ := hv.eq_list16
  unfold Inet6.is_v4compat
  constructor
  · rintro ⟨hz, ⟨i, hi, hne⟩, hl⟩
    refine ⟨hz, ?_⟩
    have z0 := hz 0 (by omega)
    have z1 := hz 1 (by omega)
    have z2 := hz 2 (by omega)
    have z3 := hz 3 (by omega)
    have z4 := hz 4 (by omega)
    have z5 := hz 5 (by omega)
    have z6 := hz 6 (by omega)
    have z7 := hz 7 (by omega)
    have z8 := hz 8 (by omega)
    have z9 := hz 9 (by omega)
    have z10 := hz 10 (by omega)
    have z11 := hz 11 (by omega)
    simp only [List.getD_cons_zero, List.getD_cons_succ] at z0 z1 z2 z3 z4 z5 z6 z7 z8 z9 z10 z11
    subst z0 z1 z2 z3 z4 z5 z6 z7 z8 z9 z10 z11
    simp only [List.getD_cons_zero, List.getD_cons_succ]
    by_contra hle
    have e12 : b12 = 0 := by omega
    have e13 : b13 = 0 := by omega
    have e14 : b14 = 0 := by omega
    have e15 : b15 = 0 ∨ b15 = 1 := by omega
    subst e12 e13 e14
    rcases e15 with e | e
    · subst e
      interval_cases i <;> simp at hne
    · subst e
      exact hl rfl
  · rintro ⟨hz, hgt⟩
    simp only [List.getD_cons_zero, List.getD_cons_succ] at hgt
    refine ⟨hz, ?_, ?_⟩
    · by_contra hall
      have a0 : b12 = 0 := by
        by_contra h; exact hall ⟨0, by omega, by simpa using h⟩
      have a1 : b13 = 0 := by
        by_contra h; exact hall ⟨1, by omega, by simpa using h⟩
      have a2 : b14 = 0 := by
        by_contra h; exact hall ⟨2, by omega, by simpa using h⟩
      have a3 : b15 = 0 := by
        by_contra h; exact hall ⟨3, by omega, by simpa using h⟩
      omega
    · intro e
      simp only [List.cons.injEq] at e
      omega

/-- On a string that is not binary `Inet6::make_from_item` is the decoder of
texts. -/
theorem Inet6.make_from_item_text (s : List Nat) :
    Inet6.make_from_item (Item.string (some (false, s))) = Inet6.str_to_ipv6 s := by
  simp [Inet6.make_from_item]

/-- The function `IS_IPV4_COMPAT` on a text. -/
theorem Item_func_is_ipv4_compat.val_int_compat_text (s : List Nat) :
    (Item_func_is_ipv4_compat.val_int (Item.string (some (false, s))) = 1 ↔
      ∃ v, Inet6.str_to_ipv6 s = some v ∧ Inet6.is_v4compat v) ∧
    (Item_func_is_ipv4_compat.val_int (Item.string (some (false, s))) = 0 ↔
      ¬ ∃ v, Inet6.str_to_ipv6 s = some v ∧ Inet6.is_v4compat v) := by
  unfold Item_func_is_ipv4_compat.val_int
  rw [Inet6.make_from_item_text]
  cases h : Inet6.str_to_ipv6 s with
  | none => simp
  | some v =>
    by_cases hc : Inet6.is_v4compat v
    · simp [hc]
    · simp [hc]

/-- The function `IS_IPV4_MAPPED` on a text. -/
theorem Item_func_is_ipv4_mapped.val_int_mapped_text (s : List Nat) :
    (Item_func_is_ipv4_mapped.val_int (Item.string (some (false, s))) = 1 ↔
      ∃ v, Inet6.str_to_ipv6 s = some v ∧ Inet6.is_v4mapped v) ∧
    (Item_func_is_ipv4_mapped.val_int (Item.string (some (false, s))) = 0 ↔
      ¬ ∃ v, Inet6.str_to_ipv6 s = some v ∧ Inet6.is_v4mapped v) := by
  unfold Item_func_is_ipv4_mapped.val_int
  rw [Inet6.make_from_item_text]
  cases h : Inet6.str_to_ipv6 s with
  | none => simp
  | some v =>
    by_cases hc : Inet6.is_v4mapped v
    · simp [hc]
    · simp [hc]

/-! ## Theorems about what `Inet6::to_string` returns -/

/-- The text of the instrumented loop is the text of the loop. -/
theorem Inet6.to_string_loop_trace_text (b ws : List Nat) (gap : Region) (n : Nat) :
    ∀ (fuel : Nat) (i : Int) (p : List Nat),
    (Inet6.to_string_loop_trace b ws gap n fuel i p).map (fun r => r.1) =
      Inet6.to_string_loop b ws gap n fuel i p := by
  intro fuel
  induction fuel with
  | zero =>
    intro i p
    simp only [Inet6.to_string_loop_trace, Inet6.to_string_loop]
    split_ifs <;> rfl
  | succ fuel ih =>
    intro i p
    simp only [Inet6.to_string_loop_trace, Inet6.to_string_loop]
    split_ifs
    all_goals first
      | rfl
      | exact ih _ _

/-- The value returned is the length of the text, and when the loop is left by
`break` fewer than 5 bytes of the buffer are free after the text. -/
theorem Inet6.to_string_loop_trace_spec (b ws : List Nat) (gap : Region) (n : Nat) :
    ∀ (fuel : Nat) (i : Int) (p t : List Nat) (len : Nat) (brk : Bool),
    Inet6.to_string_loop_trace b ws gap n fuel i p = some (t, len, brk) →
    len = t.length ∧ (brk = true → n - t.length < 5) := by
  intro fuel
  induction fuel with
  | zero =>
    intro i p t len brk h
    simp only [Inet6.to_string_loop_trace] at h
    split_ifs at h
    simp only [Option.some.injEq, Prod.mk.injEq] at h
    obtain ⟨rfl, rfl, rfl⟩ := h
    exact ⟨rfl, fun e => absurd e (by simp)⟩
  | succ fuel ih =>
    intro i p t len brk h
    simp only [Inet6.to_string_loop_trace] at h
    split_ifs at h with h1 h2
    all_goals first
      | exact ih _ _ _ _ _ h
      | (simp only [Option.some.injEq, Prod.mk.injEq] at h
         obtain ⟨rfl, rfl, rfl⟩ := h
         first
           | exact ⟨rfl, fun _ => h2⟩
           | exact ⟨rfl, fun e => Bool.noConfusion e⟩
           | exact ⟨by rw [List.length_append], fun e => Bool.noConfusion e⟩)

/-- The text of the instrumented method is the text of the method. -/
theorem Inet6.to_string_trace_text (b : List Nat) (n : Nat) :
    (Inet6.to_string_trace b n).map (fun r => r.1) = Inet6.to_string b n :=
  Inet6.to_string_loop_trace_text b _ _ n _ _ _

/-- With a buffer of at least 46 bytes, `Inet6::to_string` is never short of
space, returns the length of the text, and the text has 2 to 39 bytes. -/
theorem Inet6.to_string_trace_spec (b : List Nat) (hb : IsInet6 b) (n : Nat) (hn : 46 ≤ n) :
    ∃ t, Inet6.to_string_trace b n = some (t, t.length, false) ∧
      Inet6.to_string b n = some t ∧ 2 ≤ t.length ∧ t.length ≤ 39 := by
  obtain ⟨t, ht, hdec⟩ := Inet6.roundtrip16 b hb n hn
  have hlen : 2 ≤ t.length ∧ t.length ≤ 39 := by
    by_contra hc
    rw [Inet6.str_to_ipv6_short t (by omega)] at hdec
    exact absurd hdec (by simp)
  have htext := Inet6.to_string_trace_text b n
  rw [ht] at htext
  cases htr : Inet6.to_string_trace b n with
  | none => rw [htr] at htext; exact absurd htext (by simp)
  | some r =>
    obtain ⟨t1, len, brk⟩ := r
    rw [htr] at htext
    simp only [Option.map_some', Option.some.injEq] at htext
    subst htext
    obtain ⟨hl, hbrk⟩ := Inet6.to_string_loop_trace_spec b _ _ n _ _ _ _ _ _ htr
    refine ⟨t1, ?_, ht, hlen.1, hlen.2⟩
    subst hl
    cases brk with
    | false => rfl
    | true =>
      have := hbrk rfl
      omega

/-! ## The strict decoder against the other decoders -/

theorem IsDecGroup.isDecRun {g : List Nat} (h : IsDecGroup g) : IsDecRun g := ⟨h.2.2.1, h.2.2.2⟩

/-- A text that `Inet4::str_to_ipv4` accepts is rejected by
`Inet6::str_to_ipv6`: the dotted quad fills four bytes of sixteen. -/
theorem Inet6.str_to_ipv6_of_ipv4 (s q : List Nat) (h : Inet4.str_to_ipv4 s = some q) :
    Inet6.str_to_ipv6 s = none := by
  have hb := Inet4.str_to_ipv4_bounds s q h
  obtain ⟨g, rest, hs, hg, hl⟩ := Inet4.str_to_ipv4_first_group s q h
  have hhead : s.head? ≠ some 58 := by
    rw [hs]
    cases g with
    | nil => simp
    | cons c t =>
      have := hg c (List.mem_cons_self _ _)
      simp only [List.cons_append, List.head?_cons, ne_eq, Option.some.injEq]
      omega
  have hsc : Inet6.scan s (List.replicate 16 0) 0 none s 0 0 =
      some ⟨Inet6.store_ipv4 (List.replicate 16 0) 0 q, 0 + 4, none, 0, hex_acc 0 g⟩ := by
    conv_lhs => arg 1; rw [hs]
    rw [Inet6.scan_hex g (fun c hc => is_hex_digit_of_digit c (hg c hc)) _ _ _ _ _ 0 0
      (by omega), Inet6.scan_dot_some _ _ _ _ _ _ _ q h (by omega)]
  rw [Inet6.str_to_ipv6_unfold s (by omega) (by omega) hhead _ hsc]
  simp [Inet6.str_to_ipv6_end, IN6_ADDR_SIZE_eq]

/-- A text without zero bytes that `Inet4::str_to_ipv4` accepts is accepted by
`INET_ATON` with the value of the four bytes read big-endian. -/
theorem Item_func_inet_aton.val_int_of_ipv4 (s q : List Nat) (h0 : 0 ∉ s)
    (h : Inet4.str_to_ipv4 s = some q) :
    ∃ a b c d, q = [a, b, c, d] ∧ Item_func_inet_aton.val_int (some s) =
      some ((a * 2 ^ 24 + b * 2 ^ 16 + c * 2 ^ 8 + d : Nat) : Int) := by
  obtain ⟨g0, g1, g2, g3, d0, d1, d2, d3, rfl, rfl⟩ := Inet4.str_to_ipv4_inv s h0 q h
  exact ⟨_, _, _, _, rfl,
    (Item_func_inet_aton.val_int_forms g0 g1 g2 g3 d0.isDecRun d1.isDecRun d2.isDecRun
      d3.isDecRun).2.2.2 d3.dec_ne_nil⟩

/-- The function `INET_ATON` gives back every value from the text that
`INET_NTOA` returns for it. -/
theorem Item_func_inet_aton.val_int_val_str (n : Nat) (hn : n ≤ 0xffffffff) :
    ∃ t, Item_func_inet_ntoa.val_str (some (n : Int)) = some t ∧
      Item_func_inet_aton.val_int (some t) = some (n : Int) := by
  have b3 : n / 16777216 % 256 < 256 := Nat.mod_lt _ (by omega)
  have b2 : n / 65536 % 256 < 256 := Nat.mod_lt _ (by omega)
  have b1 : n / 256 % 256 < 256 := Nat.mod_lt _ (by omega)
  have b0 : n % 256 < 256 := Nat.mod_lt _ (by omega)
  refine ⟨_, by rw [Item_func_inet_ntoa.val_str_eq, to_ulonglong_natCast n (by omega),
    if_neg (by omega)], ?_⟩
  rw [(Item_func_inet_aton.val_int_forms _ _ _ _ (sprintf_d_byte _ b3).1.isDecRun
    (sprintf_d_byte _ b2).1.isDecRun (sprintf_d_byte _ b1).1.isDecRun
    (sprintf_d_byte _ b0).1.isDecRun).2.2.2 (sprintf_d_byte _ b0).1.dec_ne_nil,
    (sprintf_d_byte _ b3).2, (sprintf_d_byte _ b2).2, (sprintf_d_byte _ b1).2,
    (sprintf_d_byte _ b0).2]
  congr 2
  omega

theorem dot_groups_cons_dot (s : List Nat) : dot_groups (46 :: s) = [] :: dot_groups s := by
  unfold dot_groups
  rw [dot_split_dot]

theorem dot_groups_cons_digit (c : Nat) (s : List Nat) (h : c ≠ 46) :
    dot_groups (c :: s) = (c :: (dot_split s).1) :: (dot_split s).2 := by
  unfold dot_groups
  rw [dot_split_digit c s h]

/-- The bytes of the groups of a text are its bytes other than the dots. -/
theorem mem_dot_groups_iff (s : List Nat) (x : Nat) :
    (∃ g ∈ dot_groups s, x ∈ g) ↔ x ∈ s ∧ x ≠ 46 := by
  induction s with
  | nil => simp [dot_groups, dot_split]
  | cons c s ih =>
    by_cases hc : c = 46
    · subst hc
      rw [dot_groups_cons_dot]
      simp only [List.mem_cons, exists_eq_or_imp, List.not_mem_nil, false_or]
      rw [ih]
      constructor
      · rintro ⟨h1, h2⟩; exact ⟨Or.inr h1, h2⟩
      · rintro ⟨h1 | h1, h2⟩
        · exact absurd h1 h2
        · exact ⟨h1, h2⟩
    · rw [dot_groups_cons_digit c s hc]
      have ih' : (x ∈ (dot_split s).1 ∨ ∃ g ∈ (dot_split s).2, x ∈ g) ↔ x ∈ s ∧ x ≠ 46 := by
        rw [← ih]
        simp [dot_groups]
      simp only [List.mem_cons, exists_eq_or_imp]
      constructor
      · rintro ((h | h) | h)
        · exact ⟨Or.inl h, by omega⟩
        · exact ⟨Or.inr (ih'.1 (Or.inl h)).1, (ih'.1 (Or.inl h)).2⟩
        · exact ⟨Or.inr (ih'.1 (Or.inr h)).1, (ih'.1 (Or.inr h)).2⟩
      · rintro ⟨h | h, h2⟩
        · exact Or.inl (Or.inl h)
        · rcases ih'.2 ⟨h, h2⟩ with h3 | h3
          · exact Or.inl (Or.inr h3)
          · exact Or.inr h3

/-- The function `INET_ATON` returns null exactly for the empty text, the
texts that end in a dot, the texts with a byte that is neither a digit nor a
dot, and the texts with a group of digits of value above 255. -/
theorem Item_func_inet_aton.val_int_eq_none_iff (s : List Nat) :
    Item_func_inet_aton.val_int (some s) = none ↔
      s = [] ∨ s.getLast? = some 46 ∨ (∃ c ∈ s, ¬ (48 ≤ c ∧ c ≤ 57) ∧ c ≠ 46) ∨
        (∃ g ∈ dot_groups s, (∀ c ∈ g, 48 ≤ c ∧ c ≤ 57) ∧ 255 < dec_value g) := by
  have hiff := Item_func_inet_aton.val_int_isSome_iff s
  have hnone : Item_func_inet_aton.val_int (some s) = none ↔
      ¬ (Item_func_inet_aton.val_int (some s)).isSome = true := by
    cases Item_func_inet_aton.val_int (some s) <;> simp
  rw [hnone, hiff]
  constructor
  · intro h
    by_cases h1 : s = []
    · exact Or.inl h1
    by_cases h2 : s.getLast? = some 46
    · exact Or.inr (Or.inl h2)
    right; right
    have h3 : ¬ ∀ g ∈ dot_groups s, IsDecRun g := fun h3 => h ⟨h1, h2, h3⟩
    simp only [not_forall] at h3
    obtain ⟨g, hg, hbad⟩ := h3
    by_cases hd : ∀ c ∈ g, 48 ≤ c ∧ c ≤ 57
    · right
      refine ⟨g, hg, hd, ?_⟩
      by_contra hle
      exact hbad ⟨hd, by omega⟩
    · left
      simp only [not_forall] at hd
      obtain ⟨c, hc, hnd⟩ := hd
      have hm := (mem_dot_groups_iff s c).1 ⟨g, hg, hc⟩
      exact ⟨c, hm.1, hnd, hm.2⟩
  · rintro (h | h | ⟨c, hc, hnd, h46⟩ | ⟨g, hg, hd, hv⟩) ⟨h1, h2, h3⟩
    · exact h1 h
    · exact h2 h
    · obtain ⟨g, hg, hcg⟩ := (mem_dot_groups_iff s c).2 ⟨hc, h46⟩
      exact hnd ((h3 g hg).1 c hcg)
    · have := (h3 g hg).2
      omega

/-- An empty group counts as 0: a leading dot and two consecutive dots are
read as if a `0` stood in the empty place. -/
theorem Item_func_inet_aton.val_int_empty_group (a b : List Nat) (ha : IsDecRun a)
    (hb : IsDecRun b) (hb0 : b ≠ []) :
    Item_func_inet_aton.val_int (some (46 :: b)) =
      Item_func_inet_aton.val_int (some (48 :: 46 :: b)) ∧
    Item_func_inet_aton.val_int (some (a ++ 46 :: 46 :: b)) =
      Item_func_inet_aton.val_int (some (a ++ 46 :: 48 :: 46 :: b)) := by
  have e : IsDecRun [] := by decide
  have z : IsDecRun [48] := by decide
  have v0 : dec_value [] = dec_value [48] := by decide
  constructor
  · have h1 := (Item_func_inet_aton.val_int_forms [] b b b e hb hb hb).2.1 hb0
    have h2 := (Item_func_inet_aton.val_int_forms [48] b b b z hb hb hb).2.1 hb0
    rw [List.nil_append] at h1
    rw [h1, v0]
    exact h2.symm
  · have h1 := (Item_func_inet_aton.val_int_forms a [] b b ha e hb hb).2.2.1 hb0
    have h2 := (Item_func_inet_aton.val_int_forms a [48] b b ha z hb hb).2.2.1 hb0
    rw [List.nil_append] at h1
    rw [h1, v0]
    exact h2.symm

/-- No value is both IPv4-compatible and IPv4-mapped: byte 10 is zero in the
one and `0xff` in the other. -/
theorem Inet6.not_v4compat_and_v4mapped (v : List Nat) :
    ¬ (Inet6.is_v4compat v ∧ Inet6.is_v4mapped v) := by
  rintro ⟨hc, hm⟩
  have h1 := hc.1 10 (by omega)
  have h2 := hm.2.1
  rw [h1] at h2
  exact absurd h2 (by decide)

/-- The functions `IS_IPV4_COMPAT` and `IS_IPV4_MAPPED` never both return 1. -/
theorem Item_func_is_ipv4_compat.not_both (arg : Item) :
    ¬ (Item_func_is_ipv4_compat.val_int arg = 1 ∧ Item_func_is_ipv4_mapped.val_int arg = 1) := by
  unfold Item_func_is_ipv4_compat.val_int Item_func_is_ipv4_mapped.val_int
  cases h : Inet6.make_from_item arg with
  | none => simp
  | some v =>
    rintro ⟨h1, h2⟩
    simp only at h1 h2
    split_ifs at h1 h2 with hc hm
    · exact Inet6.not_v4compat_and_v4mapped v ⟨hc, hm⟩
    all_goals omega

/-! ## The buffer accesses and the assertion of `Inet6::str_to_ipv6` -/

/-- The state of the instrumented loop is the state of the loop. -/
theorem Inet6.scan_trace_result (s : List Nat) :
    ∀ (buf : List Nat) (dst : Nat) (gap : Option Nat) (gs : List Nat) (cig gv : Nat),
    (Inet6.scan_trace s buf dst gap gs cig gv).2 = Inet6.scan s buf dst gap gs cig gv := by
  induction s with
  | nil => intro buf dst gap gs cig gv; rfl
  | cons c p ih =>
    intro buf dst gap gs cig gv
    rw [Inet6.scan_trace, Inet6.scan]
    split_ifs
    all_goals first
      | rfl
      | exact ih _ _ _ _ _ _
      | (split <;> first
          | rfl
          | exact ih _ _ _ _ _ _)

/-- The result of the instrumented decoder is the result of the decoder. -/
theorem Inet6.str_to_ipv6_trace_result (s : List Nat) :
    (Inet6.str_to_ipv6_trace s).2 = Inet6.str_to_ipv6 s := by
  unfold Inet6.str_to_ipv6_trace Inet6.str_to_ipv6
  by_cases h1 : s.length < 2
  · rw [if_pos h1, if_pos h1]
  rw [if_neg h1, if_neg h1]
  by_cases h2 : s.length > IN6_ADDR_MAX_CHAR_LENGTH
  · rw [if_pos h2, if_pos h2]
  rw [if_neg h2, if_neg h2]
  dsimp only
  by_cases h3 : s.head? = some 58 ∧ (s.drop 1).head? ≠ some 58
  · rw [if_pos h3, if_pos h3]
  rw [if_neg h3, if_neg h3]
  generalize (if s.head? = some 58 then s.drop 1 else s) = p
  rw [← Inet6.scan_trace_result]
  cases hr : Inet6.scan_trace p (List.replicate IN6_ADDR_SIZE 0) 0 none p 0 0 with
  | mk events r =>
    cases r with
    | none => rfl
    | some st => rfl

/-- Every store of the scanning loop is inside the buffer, and the loop keeps
`gap_ptr <= dst <= ipv6_bytes_end`. -/
theorem Inet6.scan_trace_bounds (s : List Nat) :
    ∀ (buf : List Nat) (dst : Nat) (gap : Option Nat) (gs : List Nat) (cig gv : Nat),
    dst ≤ 16 → (∀ g, gap = some g → g ≤ dst) →
    (∀ e ∈ (Inet6.scan_trace s buf dst gap gs cig gv).1, ∀ o ∈ e.offsets, 0 ≤ o ∧ o < 16) ∧
    (∀ st, (Inet6.scan_trace s buf dst gap gs cig gv).2 = some st →
      st.dst ≤ 16 ∧ ∀ g, st.gap_ptr = some g → g ≤ st.dst) := by
  induction s with
  | nil =>
    intro buf dst gap gs cig gv hd hg
    simp only [Inet6.scan_trace, List.not_mem_nil, false_imp_iff, implies_true, true_and,
      Option.some.injEq]
    rintro st rfl
    exact ⟨hd, hg⟩
  | cons c p ih =>
    intro buf dst gap gs cig gv hd hg
    have stop : (∀ e ∈ ([] : List Inet6.Event), ∀ o ∈ e.offsets, 0 ≤ o ∧ o < 16) ∧
        (∀ st, (some ⟨buf, dst, gap, cig, gv⟩ : Option Inet6.Scan) = some st →
          st.dst ≤ 16 ∧ ∀ g, st.gap_ptr = some g → g ≤ st.dst) := by
      refine ⟨fun e he => absurd he (List.not_mem_nil _), ?_⟩
      intro st h
      simp only [Option.some.injEq] at h
      subst h
      exact ⟨hd, hg⟩
    have fail : (∀ e ∈ ([] : List Inet6.Event), ∀ o ∈ e.offsets, 0 ≤ o ∧ o < 16) ∧
        (∀ st, (none : Option Inet6.Scan) = some st →
          st.dst ≤ 16 ∧ ∀ g, st.gap_ptr = some g → g ≤ st.dst) :=
      ⟨fun e he => absurd he (List.not_mem_nil _), fun st h => absurd h (by simp)⟩
    rw [Inet6.scan_trace]
    simp only [IN6_ADDR_SIZE_eq, IN_ADDR_SIZE_eq]
    by_cases h0 : c = 0
    · rw [if_pos h0]; exact stop
    rw [if_neg h0]
    by_cases h58 : c = 58
    · rw [if_pos h58]
      by_cases hc : cig = 0
      · rw [if_pos hc]
        cases gap with
        | some g => rw [if_pos (by rfl)]; exact fail
        | none =>
          rw [if_neg (by simp)]
          exact ih _ _ _ _ _ _ hd (fun g hg => by
            simp only [Option.some.injEq] at hg; omega)
      · rw [if_neg hc]
        by_cases hp : p.head? = some 0 ∨ p = []
        · rw [if_pos hp]; exact fail
        rw [if_neg hp]
        by_cases h2 : dst + 2 > 16
        · rw [if_pos h2]; exact fail
        rw [if_neg h2]
        obtain ⟨i1, i2⟩ := ih (Inet6.store_group buf dst gv) (dst + 2) gap p 0 0 (by omega)
          (fun g hgg => by have := hg g hgg; omega)
        refine ⟨?_, i2⟩
        intro e he
        rcases List.mem_cons.1 he with rfl | he
        · intro o ho
          simp only [Inet6.Event.offsets, List.mem_cons, List.mem_singleton,
            List.not_mem_nil, or_false] at ho
          omega
        · exact i1 e he
    rw [if_neg h58]
    by_cases h46 : c = 46
    · rw [if_pos h46]
      by_cases h4 : dst + 4 > 16
      · rw [if_pos h4]; exact fail
      rw [if_neg h4]
      cases Inet4.str_to_ipv4 gs with
      | none => exact fail
      | some q =>
        refine ⟨?_, ?_⟩
        · intro e he o ho
          simp only [List.mem_singleton] at he
          subst he
          simp only [Inet6.Event.offsets, List.mem_cons, List.mem_singleton,
            List.not_mem_nil, or_false] at ho
          omega
        · intro st h
          simp only [Option.some.injEq] at h
          subst h
          exact ⟨by simp only; omega, fun g hgg => by have := hg g hgg; simp only; omega⟩
    rw [if_neg h46]
    cases strchr HEX_DIGITS (my_tolower c) with
    | none => exact fail
    | some hdp =>
      simp only
      by_cases hc4 : cig ≥ 4
      · rw [if_pos hc4]; exact fail
      rw [if_neg hc4]
      obtain ⟨i1, i2⟩ := ih buf dst gap gs (cig + 1) ((gv <<< 4) ||| hdp) hd hg
      refine ⟨?_, i2⟩
      intro e he
      rcases List.mem_cons.1 he with rfl | he
      · intro o ho
        simp [Inet6.Event.offsets] at ho
      · exact i1 e he

/-- Every store after the loop and every access of the fix-up loop is inside
the buffer. -/
theorem Inet6.str_to_ipv6_end_trace_bounds (st : Inet6.Scan) (hd : st.dst ≤ 16)
    (hg : ∀ g, st.gap_ptr = some g → g ≤ st.dst) :
    ∀ e ∈ Inet6.str_to_ipv6_end_trace st, ∀ o ∈ e.offsets, 0 ≤ o ∧ o < 16 := by
  obtain ⟨buf, dst, gap, cig, gv⟩ := st
  simp only at hd hg
  unfold Inet6.str_to_ipv6_end_trace
  simp only [IN6_ADDR_SIZE_eq]
  by_cases h1 : cig > 0 ∧ dst + 2 > 16
  · rw [if_pos h1]
    intro e he
    exact absurd he (List.not_mem_nil _)
  rw [if_neg h1]
  have hcommit : ∀ e ∈ (if cig > 0 then [Inet6.Event.store_group dst gv] else []),
      ∀ o ∈ e.offsets, 0 ≤ o ∧ o < 16 := by
    intro e he o ho
    split_ifs at he with hc
    · simp only [List.mem_singleton] at he
      subst he
      simp only [Inet6.Event.offsets, List.mem_cons, List.mem_singleton, List.not_mem_nil,
        or_false] at ho
      omega
    · exact absurd he (List.not_mem_nil _)
  cases gap with
  | none => exact hcommit
  | some g =>
    have hgd := hg g rfl
    simp only
    by_cases h16 : (if cig > 0 then dst + 2 else dst) = 16
    · rw [if_pos h16]; exact hcommit
    rw [if_neg h16]
    intro e he
    rcases List.mem_append.1 he with he | he
    · exact hcommit e he
    · obtain ⟨k, hk, rfl⟩ := List.mem_map.1 he
      rw [List.mem_range] at hk
      intro o ho
      simp only [Inet6.Event.offsets, List.mem_cons, List.mem_singleton, List.not_mem_nil,
        or_false] at ho
      split_ifs at hk h16 ho <;> omega

/-- A property of all events of the scanning loop and of the code after it is
a property of all events of `Inet6::str_to_ipv6`. -/
theorem Inet6.str_to_ipv6_trace_events (s : List Nat) (ok : Inet6.Event → Prop)
    (hscan : ∀ p, ∀ e ∈ (Inet6.scan_trace p (List.replicate IN6_ADDR_SIZE 0) 0 none p 0 0).1,
      ok e)
    (hend : ∀ p st, (Inet6.scan_trace p (List.replicate IN6_ADDR_SIZE 0) 0 none p 0 0).2 =
      some st → ∀ e ∈ Inet6.str_to_ipv6_end_trace st, ok e) :
    ∀ e ∈ (Inet6.str_to_ipv6_trace s).1, ok e := by
  unfold Inet6.str_to_ipv6_trace
  by_cases h1 : s.length < 2
  · rw [if_pos h1]; intro e he; exact absurd he (List.not_mem_nil _)
  rw [if_neg h1]
  by_cases h2 : s.length > IN6_ADDR_MAX_CHAR_LENGTH
  · rw [if_pos h2]; intro e he; exact absurd he (List.not_mem_nil _)
  rw [if_neg h2]
  dsimp only
  by_cases h3 : s.head? = some 58 ∧ (s.drop 1).head? ≠ some 58
  · rw [if_pos h3]; intro e he; exact absurd he (List.not_mem_nil _)
  rw [if_neg h3]
  generalize (if s.head? = some 58 then s.drop 1 else s) = p
  have h1 := hscan p
  have h2 := hend p
  cases hr : Inet6.scan_trace p (List.replicate IN6_ADDR_SIZE 0) 0 none p 0 0 with
  | mk events r =>
    rw [hr] at h1 h2
    cases r with
    | none => exact h1
    | some st =>
      intro e he
      rcases List.mem_append.1 he with he | he
      · exact h1 e he
      · exact h2 st rfl e he

/-- Every access of `Inet6::str_to_ipv6` to its buffer is inside the buffer. -/
theorem Inet6.str_to_ipv6_trace_bounds (s : List Nat) :
    ∀ e ∈ (Inet6.str_to_ipv6_trace s).1, ∀ o ∈ e.offsets, 0 ≤ o ∧ o < 16 := by
  apply Inet6.str_to_ipv6_trace_events s (fun e => ∀ o ∈ e.offsets, 0 ≤ o ∧ o < 16)
  · intro p
    exact (Inet6.scan_trace_bounds p _ 0 none p 0 0 (by omega) (fun g hg => by simp at hg)).1
  · intro p st hst
    obtain ⟨hd, hg⟩ := (Inet6.scan_trace_bounds p _ 0 none p 0 0 (by omega)
      (fun g hg => by simp at hg)).2 st hst
    exact Inet6.str_to_ipv6_end_trace_bounds st hd hg

/-- What `strchr` finds in `HEX_DIGITS` for a non-zero byte is the offset of a
digit, below 16. -/
theorem strchr_hex_lt (c hdp : Nat) (hc : c ≠ 0)
    (h : strchr HEX_DIGITS (my_tolower c) = some hdp) : hdp < 16 := by
  by_cases hx : is_hex_digit c
  · have := strchr_hex_digit c hx
    rw [this.1, Option.some.injEq] at h
    omega
  · rw [strchr_not_hex c hx hc] at h
    exact absurd h (by simp)

/-- The value of a group stays below `16 ^ chars_in_group`: every value
asserted or committed by the scanning loop is at most `0xffff`, and so is the
value of a group pending when the loop is left. -/
theorem Inet6.scan_trace_group_value (s : List Nat) :
    ∀ (buf : List Nat) (dst : Nat) (gap : Option Nat) (gs : List Nat) (cig gv : Nat),
    cig ≤ 4 → gv < 16 ^ cig →
    (∀ e ∈ (Inet6.scan_trace s buf dst gap gs cig gv).1, ∀ v ∈ e.group_values, v ≤ 0xffff) ∧
    (∀ st, (Inet6.scan_trace s buf dst gap gs cig gv).2 = some st →
      st.chars_in_group > 0 → st.group_value ≤ 0xffff) := by
  induction s with
  | nil =>
    intro buf dst gap gs cig gv hc hv
    have h16 : 16 ^ cig ≤ 16 ^ 4 := Nat.pow_le_pow_right (by omega) hc
    simp only [Inet6.scan_trace, List.not_mem_nil, false_imp_iff, implies_true, true_and,
      Option.some.injEq]
    rintro st rfl _
    simp only
    omega
  | cons c p ih =>
    intro buf dst gap gs cig gv hc hv
    have h16 : 16 ^ cig ≤ 16 ^ 4 := Nat.pow_le_pow_right (by omega) hc
    have stop : (∀ e ∈ ([] : List Inet6.Event), ∀ v ∈ e.group_values, v ≤ 0xffff) ∧
        (∀ st, (some ⟨buf, dst, gap, cig, gv⟩ : Option Inet6.Scan) = some st →
          st.chars_in_group > 0 → st.group_value ≤ 0xffff) := by
      refine ⟨fun e he => absurd he (List.not_mem_nil _), ?_⟩
      intro st h _
      simp only [Option.some.injEq] at h
      subst h
      simp only
      omega
    have fail : (∀ e ∈ ([] : List Inet6.Event), ∀ v ∈ e.group_values, v ≤ 0xffff) ∧
        (∀ st, (none : Option Inet6.Scan) = some st →
          st.chars_in_group > 0 → st.group_value ≤ 0xffff) :=
      ⟨fun e he => absurd he (List.not_mem_nil _), fun st h => absurd h (by simp)⟩
    rw [Inet6.scan_trace]
    by_cases h0 : c = 0
    · rw [if_pos h0]; exact stop
    rw [if_neg h0]
    by_cases h58 : c = 58
    · rw [if_pos h58]
      by_cases hcz : cig = 0
      · rw [if_pos hcz]
        cases gap with
        | some g => rw [if_pos (by rfl)]; exact fail
        | none =>
          rw [if_neg (by simp)]
          exact ih _ _ _ _ _ _ hc hv
      · rw [if_neg hcz]
        by_cases hp : p.head? = some 0 ∨ p = []
        · rw [if_pos hp]; exact fail
        rw [if_neg hp]
        by_cases h2 : dst + 2 > IN6_ADDR_SIZE
        · rw [if_pos h2]; exact fail
        rw [if_neg h2]
        obtain ⟨i1, i2⟩ := ih (Inet6.store_group buf dst gv) (dst + 2) gap p 0 0 (by omega)
          (by simp)
        refine ⟨?_, i2⟩
        intro e he
        rcases List.mem_cons.1 he with rfl | he
        · intro v hvm
          simp only [Inet6.Event.group_values, List.mem_singleton] at hvm
          omega
        · exact i1 e he
    rw [if_neg h58]
    by_cases h46 : c = 46
    · rw [if_pos h46]
      by_cases h4 : dst + IN_ADDR_SIZE > IN6_ADDR_SIZE
      · rw [if_pos h4]; exact fail
      rw [if_neg h4]
      cases Inet4.str_to_ipv4 gs with
      | none => exact fail
      | some q =>
        refine ⟨?_, ?_⟩
        · intro e he v hvm
          simp only [List.mem_singleton] at he
          subst he
          simp [Inet6.Event.group_values] at hvm
        · intro st h hpos
          simp only [Option.some.injEq] at h
          subst h
          simp only at hpos
          omega
    rw [if_neg h46]
    cases hs : strchr HEX_DIGITS (my_tolower c) with
    | none => exact fail
    | some hdp =>
      simp only
      by_cases hc4 : cig ≥ 4
      · rw [if_pos hc4]; exact fail
      rw [if_neg hc4]
      have hlt := strchr_hex_lt c hdp h0 hs
      have hnew : (gv <<< 4) ||| hdp < 16 ^ (cig + 1) := by
        rw [shl4_or gv hdp hlt, Nat.pow_succ]
        omega
      have h16' : 16 ^ (cig + 1) ≤ 16 ^ 4 := Nat.pow_le_pow_right (by omega) (by omega)
      obtain ⟨i1, i2⟩ := ih buf dst gap gs (cig + 1) ((gv <<< 4) ||| hdp) (by omega) hnew
      refine ⟨?_, i2⟩
      intro e he
      rcases List.mem_cons.1 he with rfl | he
      · intro v hvm
        simp only [Inet6.Event.group_values, List.mem_singleton] at hvm
        omega
      · exact i1 e he

/-- The code after the loop commits a pending group only. -/
theorem Inet6.str_to_ipv6_end_trace_group_value (st : Inet6.Scan)
    (hst : st.chars_in_group > 0 → st.group_value ≤ 0xffff) :
    ∀ e ∈ Inet6.str_to_ipv6_end_trace st, ∀ v ∈ e.group_values, v ≤ 0xffff := by
  obtain ⟨buf, dst, gap, cig, gv⟩ := st
  simp only at hst
  unfold Inet6.str_to_ipv6_end_trace
  simp only
  by_cases h1 : cig > 0 ∧ dst + 2 > IN6_ADDR_SIZE
  · rw [if_pos h1]
    intro e he
    exact absurd he (List.not_mem_nil _)
  rw [if_neg h1]
  have hcommit : ∀ e ∈ (if cig > 0 then [Inet6.Event.store_group dst gv] else []),
      ∀ v ∈ e.group_values, v ≤ 0xffff := by
    intro e he v hvm
    split_ifs at he with hc
    · simp only [List.mem_singleton] at he
      subst he
      simp only [Inet6.Event.group_values, List.mem_singleton] at hvm
      have := hst hc
      omega
    · exact absurd he (List.not_mem_nil _)
  cases gap with
  | none => exact hcommit
  | some g =>
    simp only
    by_cases h16 : (if cig > 0 then dst + 2 else dst) = IN6_ADDR_SIZE
    · rw [if_pos h16]; exact hcommit
    rw [if_neg h16]
    intro e he
    rcases List.mem_append.1 he with he | he
    · exact hcommit e he
    · obtain ⟨k, _, rfl⟩ := List.mem_map.1 he
      intro v hvm
      simp [Inet6.Event.group_values] at hvm

/-- Every value of `group_value` asserted or committed by
`Inet6::str_to_ipv6` is at most `0xffff`. -/
theorem Inet6.str_to_ipv6_trace_group_value (s : List Nat) :
    ∀ e ∈ (Inet6.str_to_ipv6_trace s).1, ∀ v ∈ e.group_values, v ≤ 0xffff := by
  apply Inet6.str_to_ipv6_trace_events s (fun e => ∀ v ∈ e.group_values, v ≤ 0xffff)
  · intro p
    exact (Inet6.scan_trace_group_value p _ 0 none p 0 0 (by omega) (by simp)).1
  · intro p st hst
    exact Inet6.str_to_ipv6_end_trace_group_value st
      ((Inet6.scan_trace_group_value p _ 0 none p 0 0 (by omega) (by simp)).2 st hst)

/-! ## The dotted tail of an IPv6 text as two hex groups -/

/-- The scanning loop of `Inet4::str_to_ipv4` stops at a zero byte. -/
theorem Inet4.scan_nul (w v : List Nat) :
    ∀ (bytes : List Nat) (bv cig dc c : Nat),
    Inet4.scan (w ++ 0 :: v) bytes bv cig dc c = Inet4.scan w bytes bv cig dc c := by
  induction w with
  | nil =>
    intro bytes bv cig dc c
    simp [Inet4.scan]
  | cons ch p ih =>
    intro bytes bv cig dc c
    rw [List.cons_append, Inet4.scan, Inet4.scan]
    simp only [ih]

/-- A text is its bytes before the first zero byte followed by the rest. -/
theorem exists_nul_split (s : List Nat) :
    ∃ w v, s = w ++ v ∧ 0 ∉ w ∧ (v = [] ∨ ∃ v1, v = 0 :: v1) := by
  induction s with
  | nil => exact ⟨[], [], rfl, by simp, Or.inl rfl⟩
  | cons c s ih =>
    by_cases hc : c = 0
    · exact ⟨[], c :: s, rfl, by simp, Or.inr ⟨s, by rw [hc]⟩⟩
    · obtain ⟨w, v, hs, hw, hv⟩ := ih
      refine ⟨c :: w, v, by rw [hs]; rfl, ?_, hv⟩
      intro h
      rcases List.mem_cons.1 h with h | h
      · exact hc h.symm
      · exact hw h

/-- What the scanning loop of `Inet4::str_to_ipv4` has read when it ends after
three dots and a digit on a text without zero bytes: four groups. -/
theorem Inet4.scan_inv4 (s : List Nat) (hz : 0 ∉ s) (st : Inet4.Scan)
    (hst : Inet4.scan s [0, 0, 0, 0] 0 0 0 0 = some st) (hc : st.c ≠ 46)
    (hdc : st.dot_count = 3) :
    ∃ g0 g1 g2 g3, IsDecGroup g0 ∧ IsDecGroup g1 ∧ IsDecGroup g2 ∧ IsDecGroup g3 ∧
      s = g0 ++ 46 :: (g1 ++ 46 :: (g2 ++ 46 :: g3)) ∧
      st.ipv4_bytes.set 3 (st.byte_value % 256) =
        [dec_value g0, dec_value g1, dec_value g2, dec_value g3] := by
  obtain ⟨g0, t0, hs0, hd0, hl0, hv0, hcase⟩ :=
    Inet4.scan_shape s hz _ _ _ _ _ _ (by omega) (by omega) hst
  rcases hcase with ⟨_, hst0⟩ | ⟨s1, ht0, hn0, _, hsc1⟩
  · rw [hst0] at hdc; simp at hdc
  have hz1 : 0 ∉ s1 := by
    intro hm; apply hz; rw [hs0, ht0]; simp [hm]
  obtain ⟨g1, t1, hs1, hd1, hl1, hv1, hcase⟩ :=
    Inet4.scan_shape s1 hz1 _ _ _ _ _ _ (by omega) (by omega) hsc1
  rcases hcase with ⟨_, hst1⟩ | ⟨s2, ht1, hn1, _, hsc2⟩
  · rw [hst1] at hdc; simp at hdc
  have hz2 : 0 ∉ s2 := by
    intro hm; apply hz1; rw [hs1, ht1]; simp [hm]
  obtain ⟨g2, t2, hs2, hd2, hl2, hv2, hcase⟩ :=
    Inet4.scan_shape s2 hz2 _ _ _ _ _ _ (by omega) (by omega) hsc2
  rcases hcase with ⟨_, hst2⟩ | ⟨s3, ht2, hn2, _, hsc3⟩
  · rw [hst2] at hdc; simp at hdc
  have hz3 : 0 ∉ s3 := by
    intro hm; apply hz2; rw [hs2, ht2]; simp [hm]
  obtain ⟨g3, t3, hs3, hd3, hl3, hv3, hcase⟩ :=
    Inet4.scan_shape s3 hz3 _ _ _ _ _ _ (by omega) (by omega) hsc3
  rcases hcase with ⟨ht3, hst3⟩ | ⟨s4, _, _, hbad, _⟩
  swap
  · omega
  have hg3 : g3 ≠ [] := by
    intro e; subst e; rw [hst3] at hc; simp [List.getLastD] at hc
  have hn3 : 1 ≤ g3.length := by
    cases g3 with
    | nil => exact absurd rfl hg3
    | cons a t => simp
  refine ⟨g0, g1, g2, g3, ⟨by omega, by omega, hd0, hv0⟩, ⟨by omega, by omega, hd1, hv1⟩,
    ⟨by omega, by omega, hd2, hv2⟩, ⟨hn3, by omega, hd3, hv3⟩, ?_, ?_⟩
  · rw [hs0, ht0, hs1, ht1, hs2, ht2, hs3, ht3, List.append_nil]
  · have e0 : dec_acc 0 g0 % 256 = dec_value g0 := Nat.mod_eq_of_lt (by omega)
    have e1 : dec_acc 0 g1 % 256 = dec_value g1 := Nat.mod_eq_of_lt (by omega)
    have e2 : dec_acc 0 g2 % 256 = dec_value g2 := Nat.mod_eq_of_lt (by omega)
    have e3 : dec_acc 0 g3 % 256 = dec_value g3 := Nat.mod_eq_of_lt (by omega)
    rw [hst3]
    simp [e0, e1, e2, e3]

/-- A text that `Inet4::str_to_ipv4` accepts is four groups joined by dots,
followed by nothing or by a zero byte and any bytes. -/
theorem Inet4.str_to_ipv4_prefix (s q : List Nat) (h : Inet4.str_to_ipv4 s = some q) :
    ∃ w v g0 g1 g2 g3, s = w ++ v ∧ (v = [] ∨ ∃ v1, v = 0 :: v1) ∧
      IsDecGroup g0 ∧ IsDecGroup g1 ∧ IsDecGroup g2 ∧ IsDecGroup g3 ∧
      w = g0 ++ 46 :: (g1 ++ 46 :: (g2 ++ 46 :: g3)) ∧
      q = [dec_value g0, dec_value g1, dec_value g2, dec_value g3] := by
  obtain ⟨w, v, hs, hw, hv⟩ := exists_nul_split s
  have hscan : ∀ (bytes : List Nat) (bv cig dc c : Nat),
      Inet4.scan s bytes bv cig dc c = Inet4.scan w bytes bv cig dc c := by
    intro bytes bv cig dc c
    rcases hv with rfl | ⟨v1, rfl⟩
    · rw [hs, List.append_nil]
    · rw [hs, Inet4.scan_nul]
  unfold Inet4.str_to_ipv4 at h
  rw [hscan] at h
  split_ifs at h with h1 h2
  split at h
  · exact absurd h (by simp)
  · rename_i st hst
    split_ifs at h with h3 h4
    simp only [ne_eq, Decidable.not_not] at h4
    simp only [Option.some.injEq] at h
    obtain ⟨g0, g1, g2, g3, d0, d1, d2, d3, e, hq⟩ := Inet4.scan_inv4 w hw st hst h3 h4
    exact ⟨w, v, g0, g1, g2, g3, hs, hv, d0, d1, d2, d3, e, by rw [← h, hq]⟩

/-- Four groups joined by dots, followed by nothing or by a zero byte and any
bytes, are accepted by `Inet4::str_to_ipv4` when the text has at most 15
bytes. -/
theorem Inet4.str_to_ipv4_of_prefix (g0 g1 g2 g3 v : List Nat) (d0 : IsDecGroup g0)
    (d1 : IsDecGroup g1) (d2 : IsDecGroup g2) (d3 : IsDecGroup g3)
    (hv : v = [] ∨ ∃ v1, v = 0 :: v1)
    (hlen : (g0 ++ 46 :: (g1 ++ 46 :: (g2 ++ 46 :: g3)) ++ v).length ≤ 15) :
    Inet4.str_to_ipv4 (g0 ++ 46 :: (g1 ++ 46 :: (g2 ++ 46 :: g3)) ++ v) =
      some [dec_value g0, dec_value g1, dec_value g2, dec_value g3] := by
  have hgr := Inet4.str_to_ipv4_groups g0 g1 g2 g3 d0 d1 d2 d3
  have hscan : ∀ (bytes : List Nat) (bv cig dc c : Nat),
      Inet4.scan (g0 ++ 46 :: (g1 ++ 46 :: (g2 ++ 46 :: g3)) ++ v) bytes bv cig dc c =
        Inet4.scan (g0 ++ 46 :: (g1 ++ 46 :: (g2 ++ 46 :: g3))) bytes bv cig dc c := by
    intro bytes bv cig dc c
    rcases hv with rfl | ⟨v1, rfl⟩
    · rw [List.append_nil]
    · rw [Inet4.scan_nul]
  have hl7 : 7 ≤ (g0 ++ 46 :: (g1 ++ 46 :: (g2 ++ 46 :: g3))).length := by
    have := d0.1
    have := d1.1
    have := d2.1
    have := d3.1
    simp only [List.length_append, List.length_cons]
    omega
  have hl15 : (g0 ++ 46 :: (g1 ++ 46 :: (g2 ++ 46 :: g3))).length ≤ 15 := by
    rw [List.length_append] at hlen
    omega
  unfold Inet4.str_to_ipv4 at hgr ⊢
  rw [if_neg (by omega), if_neg (by omega)] at hgr
  rw [if_neg (by rw [List.length_append]; omega), if_neg (by omega), hscan]
  exact hgr

/-- A group of one digit has a value below 10. -/
theorem IsDecGroup.two_digits {g : List Nat} (h : IsDecGroup g) (hv : 10 ≤ dec_value g) :
    2 ≤ g.length := by
  by_contra hl
  have h1 := h.1
  match g, h, hv, hl, h1 with
  | [x], h, hv, _, _ =>
    have := h.2.2.1 x (by simp)
    simp only [dec_value, dec_acc, List.foldl] at hv
    omega
  | [], _, _, _, h1 => simp at h1
  | _ :: _ :: _, _, _, hl, _ => simp at hl

/-- The hex text of the word of two bytes is not longer than the two groups
that give the bytes in decimal, with their dot. -/
theorem sprintf_x_length_le (g0 g1 : List Nat) (d0 : IsDecGroup g0) (d1 : IsDecGroup g1) :
    (sprintf_x (dec_value g0 * 256 + dec_value g1)).length ≤ g0.length + g1.length + 1 := by
  have v0 := d0.2.2.2
  have v1 := d1.2.2.2
  have l0 := d0.1
  have l1 := d1.1
  rw [sprintf_x_cases _ (by omega)]
  split_ifs with h1 h2 h3
  · simp only [List.length_cons, List.length_nil]; omega
  · simp only [List.length_cons, List.length_nil]; omega
  · simp only [List.length_cons, List.length_nil]; omega
  · have := d0.two_digits (by omega)
    simp only [List.length_cons, List.length_nil]; omega


/-- A text with a colon before its end that `Inet4::str_to_ipv4` accepts is
accepted with the same bytes when what follows the colon is replaced by a text
that is not longer: the decoder stopped at a zero byte before the colon. -/
theorem Inet4.str_to_ipv4_swap_after_colon (U d r q : List Nat) (hU : 58 ∈ U)
    (hlen : r.length ≤ d.length) (h : Inet4.str_to_ipv4 (U ++ d) = some q) :
    Inet4.str_to_ipv4 (U ++ r) = some q := by
  have hb := Inet4.str_to_ipv4_bounds _ _ h
  obtain ⟨w, v, g0, g1, g2, g3, hs, hv, d0, d1, d2, d3, hw, hq⟩ := Inet4.str_to_ipv4_prefix _ _ h
  have hw58 : 58 ∉ w := by
    intro hm
    rw [hw] at hm
    have c0 := d0.2.2.1 58
    have c1 := d1.2.2.1 58
    have c2 := d2.2.2.1 58
    have c3 := d3.2.2.1 58
    simp only [List.mem_append, List.mem_cons] at hm
    rcases hm with hm | hm | hm | hm | hm | hm | hm
    · have := c0 hm; omega
    · omega
    · have := c1 hm; omega
    · omega
    · have := c2 hm; omega
    · omega
    · have := c3 hm; omega
  rcases List.append_eq_append_iff.1 hs with ⟨a1, hwU, _⟩ | ⟨c1, hUw, hvd⟩
  · exact absurd (by rw [hwU]; exact List.mem_append_left _ hU) hw58
  cases c1 with
  | nil =>
    rw [List.append_nil] at hUw
    exact absurd (hUw ▸ hU) hw58
  | cons x a2 =>
    rcases hv with hv | ⟨v1, hv⟩
    · rw [hv] at hvd; simp at hvd
    rw [hv, List.cons_append] at hvd
    have hx : x = 0 := (List.cons.inj hvd).1.symm
    subst hx
    have e : U ++ r = g0 ++ 46 :: (g1 ++ 46 :: (g2 ++ 46 :: g3)) ++ 0 :: (a2 ++ r) := by
      rw [hUw, hw, List.append_assoc, List.cons_append]
    rw [e, hq]
    apply Inet4.str_to_ipv4_of_prefix g0 g1 g2 g3 _ d0 d1 d2 d3 (Or.inr ⟨_, rfl⟩)
    rw [← e]
    simp only [List.length_append] at hb ⊢
    omega

/-- The end of `Inet6::str_to_ipv6` with a pending group is the end after the
commit of the group. -/
theorem Inet6.str_to_ipv6_end_commit (buf : List Nat) (dst : Nat) (gap : Option Nat)
    (cig gv gv1 : Nat) (hc : 0 < cig) (hdst : dst + 2 ≤ 16) :
    Inet6.str_to_ipv6_end ⟨buf, dst, gap, cig, gv⟩ =
      Inet6.str_to_ipv6_end ⟨Inet6.store_group buf dst gv, dst + 2, gap, 0, gv1⟩ := by
  unfold Inet6.str_to_ipv6_end
  simp only [IN6_ADDR_SIZE_eq, gt_iff_lt, hc, true_and, if_true, Nat.lt_irrefl, false_and,
    if_false, show ¬ (16 < dst + 2) by omega]

/-- Two group commits of the words of four bytes are the copy of the four
bytes. -/
theorem Inet6.store_group_twice (buf : List Nat) (dst a b c e : Nat) (ha : a < 256)
    (hb : b < 256) (hc : c < 256) (he : e < 256) :
    Inet6.store_group (Inet6.store_group buf dst (a * 256 + b)) (dst + 2) (c * 256 + e) =
      Inet6.store_ipv4 buf dst [a, b, c, e] := by
  have e1 : ((a * 256 + b) >>> 8) % 256 = a := by
    rw [Nat.shiftRight_eq_div_pow]; omega
  have e2 : (a * 256 + b) % 256 = b := by omega
  have e3 : ((c * 256 + e) >>> 8) % 256 = c := by
    rw [Nat.shiftRight_eq_div_pow]; omega
  have e4 : (c * 256 + e) % 256 = e := by omega
  unfold Inet6.store_group Inet6.store_ipv4
  rw [e1, e2, e3, e4]
  rfl

/-- From the start of a group, the scan of a dotted tail and the end of
`Inet6::str_to_ipv6` give what the scan of the two hex groups of the same four
bytes and the end give. -/
theorem Inet6.scan_dotted_tail_base (g0 g1 g2 g3 v : List Nat) (d0 : IsDecGroup g0)
    (d1 : IsDecGroup g1) (d2 : IsDecGroup g2) (d3 : IsDecGroup g3)
    (hq : Inet4.str_to_ipv4 (g0 ++ 46 :: (g1 ++ 46 :: (g2 ++ 46 :: g3)) ++ v) =
      some [dec_value g0, dec_value g1, dec_value g2, dec_value g3])
    (buf : List Nat) (dst : Nat) (gap : Option Nat) (res : List Nat)
    (h : (Inet6.scan (g0 ++ 46 :: (g1 ++ 46 :: (g2 ++ 46 :: g3)) ++ v) buf dst gap
        (g0 ++ 46 :: (g1 ++ 46 :: (g2 ++ 46 :: g3)) ++ v) 0 0).bind Inet6.str_to_ipv6_end =
          some res) :
    (Inet6.scan (sprintf_x (dec_value g0 * 256 + dec_value g1) ++
        58 :: sprintf_x (dec_value g2 * 256 + dec_value g3)) buf dst gap
      (sprintf_x (dec_value g0 * 256 + dec_value g1) ++
        58 :: sprintf_x (dec_value g2 * 256 + dec_value g3)) 0 0).bind Inet6.str_to_ipv6_end =
          some res := by
  have v0 := d0.2.2.2
  have v1 := d1.2.2.2
  have v2 := d2.2.2.2
  have v3 := d3.2.2.2
  obtain ⟨x1, y1, _, _⟩ := sprintf_x_spec (dec_value g0 * 256 + dec_value g1) (by omega)
  obtain ⟨x2, y2, _, _⟩ := sprintf_x_spec (dec_value g2 * 256 + dec_value g3) (by omega)
  have hne : sprintf_x (dec_value g2 * 256 + dec_value g3) ≠ [] := by
    intro e; have := x2.1; rw [e] at this; simp at this
  have hh0 : (sprintf_x (dec_value g2 * 256 + dec_value g3)).head? ≠ some 0 := by
    intro e
    have hm := List.mem_of_mem_head? e
    have := (strchr_hex_digit 0 (x2.2.2 0 hm)).2.2.1
    exact this rfl
  have hdst : dst + 4 ≤ 16 := by
    by_contra hcon
    rw [List.append_assoc, List.cons_append,
      Inet6.scan_hex g0 (fun c hc => is_hex_digit_of_digit c (d0.2.2.1 c hc)) _ _ _ _ _ 0 0
        (by have := d0.2.1; omega), Inet6.scan] at h
    simp [IN_ADDR_SIZE_eq, IN6_ADDR_SIZE_eq, show 16 < dst + 4 by omega] at h
  have hl1 := x1.1
  have hl2 := x2.1
  have hq2 : Inet4.str_to_ipv4 (g0 ++ 46 :: (g1 ++ 46 :: (g2 ++ 46 :: g3) ++ v)) =
      some [dec_value g0, dec_value g1, dec_value g2, dec_value g3] := by
    rw [← hq]
    simp only [List.append_assoc, List.cons_append]
  rw [Inet6.scan_hex _ x1.2.2 _ _ _ _ _ 0 0 (by have := x1.2.1; omega),
    Inet6.scan_colon_store _ _ _ _ _ _ _ (by omega) hne hh0, if_neg (by omega),
    Inet6.scan_last_group _ x2, Option.some_bind,
    Inet6.str_to_ipv6_end_commit _ _ _ _ _ (hex_acc 0 g0) (by omega) (by omega)]
  rw [List.append_assoc, List.cons_append,
    Inet6.scan_hex g0 (fun c hc => is_hex_digit_of_digit c (d0.2.2.1 c hc)) _ _ _ _ _ 0 0
      (by have := d0.2.1; omega),
    Inet6.scan_dot_some _ _ _ _ _ _ _ _ hq2 hdst, Option.some_bind] at h
  rw [← h]
  have e1 : hex_acc 0 (sprintf_x (dec_value g0 * 256 + dec_value g1)) =
      dec_value g0 * 256 + dec_value g1 := y1
  rw [e1, y2, Inet6.store_group_twice _ _ _ _ _ _ (by omega) (by omega) (by omega) (by omega)]

/-- A prefix that ends in a colon is scanned in the same way before a dotted
tail and before the two hex groups of the same four bytes. -/
theorem Inet6.scan_dotted_tail (d r : List Nat) (hlen : r.length ≤ d.length)
    (hd0 : d ≠ [] ∧ d.head? ≠ some 0) (hr0 : r ≠ [] ∧ r.head? ≠ some 0)
    (hbase : ∀ (buf : List Nat) (dst : Nat) (gap : Option Nat) (res : List Nat),
      (Inet6.scan d buf dst gap d 0 0).bind Inet6.str_to_ipv6_end = some res →
      (Inet6.scan r buf dst gap r 0 0).bind Inet6.str_to_ipv6_end = some res) :
    ∀ (P : List Nat), P.getLast? = some 58 → ∀ (G buf : List Nat) (dst : Nat) (gap : Option Nat)
      (cig gv : Nat), (cig = 0 → gv = 0) → ∀ (res : List Nat),
      (Inet6.scan (P ++ d) buf dst gap (G ++ (P ++ d)) cig gv).bind Inet6.str_to_ipv6_end =
        some res →
      (Inet6.scan (P ++ r) buf dst gap (G ++ (P ++ r)) cig gv).bind Inet6.str_to_ipv6_end =
        some res := by
  intro P
  induction P with
  | nil => intro h; simp at h
  | cons c P1 ih =>
    intro hlast G buf dst gap cig gv hinv res h
    have hP1 : (P1 = [] ∧ c = 58) ∨ (P1 ≠ [] ∧ P1.getLast? = some 58) := by
      cases P1 with
      | nil =>
        left
        simp only [List.getLast?_singleton, Option.some.injEq] at hlast
        exact ⟨rfl, hlast⟩
      | cons x t =>
        right
        rw [List.getLast?_cons_cons] at hlast
        exact ⟨by simp, hlast⟩
    have next : ∀ (buf1 : List Nat) (dst1 : Nat) (gap1 : Option Nat),
        (Inet6.scan (P1 ++ d) buf1 dst1 gap1 (P1 ++ d) 0 0).bind Inet6.str_to_ipv6_end =
          some res →
        (Inet6.scan (P1 ++ r) buf1 dst1 gap1 (P1 ++ r) 0 0).bind Inet6.str_to_ipv6_end =
          some res := by
      intro buf1 dst1 gap1 h1
      rcases hP1 with ⟨e, _⟩ | ⟨_, hl⟩
      · subst e
        exact hbase _ _ _ _ h1
      · exact ih hl [] buf1 dst1 gap1 0 0 (fun _ => rfl) res h1
    have hhead : ((P1 ++ d).head? = some 0 ∨ P1 ++ d = []) ↔
        ((P1 ++ r).head? = some 0 ∨ P1 ++ r = []) := by
      cases P1 with
      | nil =>
        simp only [List.nil_append]
        constructor
        · rintro (h1 | h1)
          · exact absurd h1 hd0.2
          · exact absurd h1 hd0.1
        · rintro (h1 | h1)
          · exact absurd h1 hr0.2
          · exact absurd h1 hr0.1
      | cons x t => simp
    simp only [List.cons_append] at h ⊢
    rw [Inet6.scan] at h ⊢
    by_cases c0 : c = 0
    · rw [if_pos c0] at h ⊢
      exact h
    rw [if_neg c0] at h ⊢
    by_cases c58 : c = 58
    · rw [if_pos c58] at h ⊢
      by_cases hc : cig = 0
      · rw [if_pos hc] at h ⊢
        have hg := hinv hc
        subst hc
        subst hg
        by_cases hgap : gap.isSome = true
        · rw [if_pos hgap] at h ⊢
          exact h
        · rw [if_neg hgap] at h ⊢
          exact next _ _ _ h
      · rw [if_neg hc] at h ⊢
        by_cases hh : (P1 ++ d).head? = some 0 ∨ P1 ++ d = []
        · rw [if_pos hh] at h
          exact absurd h (by simp)
        · rw [if_neg hh] at h
          rw [if_neg (fun x => hh (hhead.2 x))]
          by_cases hdst : dst + 2 > IN6_ADDR_SIZE
          · rw [if_pos hdst] at h ⊢
            exact h
          · rw [if_neg hdst] at h ⊢
            exact next _ _ _ h
    rw [if_neg c58] at h ⊢
    have hP1b : P1.getLast? = some 58 := by
      rcases hP1 with ⟨_, e⟩ | ⟨_, hl⟩
      · exact absurd e c58
      · exact hl
    by_cases c46 : c = 46
    · rw [if_pos c46] at h ⊢
      by_cases hdst : dst + IN_ADDR_SIZE > IN6_ADDR_SIZE
      · rw [if_pos hdst] at h ⊢
        exact h
      · rw [if_neg hdst] at h ⊢
        have hU : 58 ∈ G ++ c :: P1 := by
          have := List.mem_of_mem_getLast? hP1b
          simp [this]
        have e1 : G ++ c :: (P1 ++ d) = (G ++ c :: P1) ++ d := by simp
        have e2 : G ++ c :: (P1 ++ r) = (G ++ c :: P1) ++ r := by simp
        cases h4 : Inet4.str_to_ipv4 (G ++ c :: (P1 ++ d)) with
        | none =>
          rw [h4] at h
          exact absurd h (by simp)
        | some q =>
          rw [h4] at h
          rw [e1] at h4
          rw [e2, Inet4.str_to_ipv4_swap_after_colon _ d r q hU hlen h4]
          exact h
    rw [if_neg c46] at h ⊢
    cases hx : strchr HEX_DIGITS (my_tolower c) with
    | none =>
      rw [hx] at h
      exact absurd h (by simp)
    | some hdp =>
      rw [hx] at h
      simp only [] at h ⊢
      by_cases h4 : cig ≥ 4
      · rw [if_pos h4] at h ⊢
        exact h
      · rw [if_neg h4] at h ⊢
        have e1 : G ++ c :: (P1 ++ d) = (G ++ [c]) ++ (P1 ++ d) := by simp
        have e2 : G ++ c :: (P1 ++ r) = (G ++ [c]) ++ (P1 ++ r) := by simp
        rw [e1] at h
        rw [e2]
        exact ih hP1b (G ++ [c]) buf dst gap (cig + 1) _ (fun x => absurd x (by omega)) res h


/-- The method `Inet6::str_to_ipv6` on a text of 2 to 39 bytes that does not
start with a single colon: the scanning loop followed by the end code. -/
theorem Inet6.str_to_ipv6_eq_bind (s : List Nat) (h1 : 2 ≤ s.length) (h2 : s.length ≤ 39)
    (h3 : ¬ (s.head? = some 58 ∧ (s.drop 1).head? ≠ some 58)) :
    Inet6.str_to_ipv6 s =
      (Inet6.scan (if s.head? = some 58 then s.drop 1 else s) (List.replicate 16 0) 0 none
        (if s.head? = some 58 then s.drop 1 else s) 0 0).bind Inet6.str_to_ipv6_end := by
  have a1 : ¬ s.length < 2 := by omega
  have a2 : ¬ s.length > IN6_ADDR_MAX_CHAR_LENGTH := by
    show ¬ s.length > 39
    omega
  unfold Inet6.str_to_ipv6
  simp only [a1, a2, h3, if_false, IN6_ADDR_SIZE_eq]
  cases Inet6.scan (if s.head? = some 58 then s.drop 1 else s) (List.replicate 16 0) 0 none
    (if s.head? = some 58 then s.drop 1 else s) 0 0 <;> rfl

/-- The dotted tail counts as two hex groups: after a prefix that is empty or
ends in a colon, a dotted tail and the two hex groups of its four bytes give
the same sixteen bytes. -/
theorem Inet6.str_to_ipv6_dotted_tail (P d : List Nat) (a b c e : Nat)
    (hd : Inet4.str_to_ipv4 d = some [a, b, c, e]) (hP : P = [] ∨ P.getLast? = some 58)
    (res : List Nat) (h : Inet6.str_to_ipv6 (P ++ d) = some res) :
    Inet6.str_to_ipv6 (P ++ (sprintf_x (a * 256 + b) ++ 58 :: sprintf_x (c * 256 + e))) =
      some res := by
  rcases hP with hP | hP
  · subst hP
    rw [List.nil_append, Inet6.str_to_ipv6_of_ipv4 d _ hd] at h
    exact absurd h (by simp)
  obtain ⟨w, v, g0, g1, g2, g3, hs, hv, d0, d1, d2, d3, hw, hq⟩ := Inet4.str_to_ipv4_prefix _ _ hd
  simp only [List.cons.injEq, and_true] at hq
  obtain ⟨rfl, rfl, rfl, rfl⟩ := hq
  subst hw
  subst hs
  have v0 := d0.2.2.2
  have v1 := d1.2.2.2
  have v2 := d2.2.2.2
  have v3 := d3.2.2.2
  obtain ⟨x1, _, _, _⟩ := sprintf_x_spec (dec_value g0 * 256 + dec_value g1) (by omega)
  obtain ⟨x2, _, _, _⟩ := sprintf_x_spec (dec_value g2 * 256 + dec_value g3) (by omega)
  generalize hr : sprintf_x (dec_value g0 * 256 + dec_value g1) ++
    58 :: sprintf_x (dec_value g2 * 256 + dec_value g3) = r
  generalize hdd : g0 ++ 46 :: (g1 ++ 46 :: (g2 ++ 46 :: g3)) ++ v = d at h hd
  have hlen : r.length ≤ d.length := by
    have l1 := sprintf_x_length_le g0 g1 d0 d1
    have l2 := sprintf_x_length_le g2 g3 d2 d3
    rw [← hr, ← hdd]
    simp only [List.length_append, List.length_cons]
    omega
  have hr3 : 3 ≤ r.length := by
    have := x1.1
    have := x2.1
    rw [← hr]
    simp only [List.length_append, List.length_cons]
    omega
  have hd0 : d ≠ [] ∧ d.head? ≠ some 0 ∧ d.head? ≠ some 58 := by
    have hl := d0.1
    rw [← hdd]
    cases g0 with
    | nil => simp at hl
    | cons x t =>
      have := d0.2.2.1 x (List.mem_cons_self _ _)
      simp only [List.cons_append, List.head?_cons, ne_eq, Option.some.injEq]
      exact ⟨by simp, by omega, by omega⟩
  have hr0 : r ≠ [] ∧ r.head? ≠ some 0 := by
    have hl := x1.1
    rw [← hr]
    cases hsx : sprintf_x (dec_value g0 * 256 + dec_value g1) with
    | nil => rw [hsx] at hl; simp at hl
    | cons x t =>
      have hx := (strchr_hex_digit x (x1.2.2 x (by rw [hsx]; exact List.mem_cons_self _ _))).2.2.1
      simp only [List.cons_append, List.head?_cons, ne_eq, Option.some.injEq]
      exact ⟨by simp, hx⟩
  have hbase : ∀ (buf : List Nat) (dst : Nat) (gap : Option Nat) (res : List Nat),
      (Inet6.scan d buf dst gap d 0 0).bind Inet6.str_to_ipv6_end = some res →
      (Inet6.scan r buf dst gap r 0 0).bind Inet6.str_to_ipv6_end = some res := by
    intro buf dst gap res1 h1
    rw [← hr]
    rw [← hdd] at h1 hd
    exact Inet6.scan_dotted_tail_base g0 g1 g2 g3 v d0 d1 d2 d3 hd buf dst gap res1 h1
  have hscan := Inet6.scan_dotted_tail d r hlen ⟨hd0.1, hd0.2.1⟩ hr0 hbase
  have hb : 2 ≤ (P ++ d).length ∧ (P ++ d).length ≤ 39 := by
    by_contra hcon
    rw [Inet6.str_to_ipv6_short _ (by omega)] at h
    exact absurd h (by simp)
  have hb2 : 2 ≤ (P ++ r).length ∧ (P ++ r).length ≤ 39 := by
    simp only [List.length_append] at hb ⊢
    omega
  cases P with
  | nil => simp at hP
  | cons p P1 =>
    by_cases hp : p = 58
    · subst hp
      cases P1 with
      | nil =>
        cases d with
        | nil => exact absurd rfl hd0.1
        | cons x t =>
          rw [show [58] ++ x :: t = 58 :: x :: t by rfl,
            Inet6.str_to_ipv6_leading_colon x t
              (fun e => hd0.2.2 (by rw [e]; rfl))] at h
          exact absurd h (by simp)
      | cons y P2 =>
        rw [List.getLast?_cons_cons] at hP
        by_cases hy : y = 58
        · have h3 : ∀ (x : List Nat), ¬ ((58 :: y :: P2 ++ x).head? = some 58 ∧
              ((58 :: y :: P2 ++ x).drop 1).head? ≠ some 58) := by
            intro x
            simp [hy]
          rw [Inet6.str_to_ipv6_eq_bind _ hb.1 hb.2 (h3 d)] at h
          rw [Inet6.str_to_ipv6_eq_bind _ hb2.1 hb2.2 (h3 r)]
          simp only [List.cons_append, List.head?_cons, if_true, List.drop_succ_cons,
            List.drop_zero] at h ⊢
          exact hscan (y :: P2) hP [] _ _ _ 0 0 (fun _ => rfl) res h
        · rw [show 58 :: y :: P2 ++ d = 58 :: y :: (P2 ++ d) by rfl,
            Inet6.str_to_ipv6_leading_colon y _ hy] at h
          exact absurd h (by simp)
    · have h3 : ∀ (x : List Nat), ¬ ((p :: P1 ++ x).head? = some 58 ∧
          ((p :: P1 ++ x).drop 1).head? ≠ some 58) := by
        intro x
        simp [hp]
      rw [Inet6.str_to_ipv6_eq_bind _ hb.1 hb.2 (h3 d)] at h
      rw [Inet6.str_to_ipv6_eq_bind _ hb2.1 hb2.2 (h3 r)]
      have e : ∀ (x : List Nat), (if (p :: P1 ++ x).head? = some 58 then (p :: P1 ++ x).drop 1
          else p :: P1 ++ x) = p :: P1 ++ x := by
        intro x
        rw [if_neg (by simp [hp])]
      rw [e] at h ⊢
      exact hscan (p :: P1) hP [] _ _ _ 0 0 (fun _ => rfl) res h

/-! ## The two texts with a dotted tail that `Inet6::to_string` writes -/

/-- The IPv4-tail condition on eight words, read with the words themselves. -/
theorem Inet6.ipv4_tail_words_default (ws : List Nat) (h : ws.length = 8) :
    Inet6.ipv4_tail_words ws ↔
      (((∀ i < 6, ws.getD i 0 = 0) ∧ ws.getD 6 0 ≠ 0) ∨
        ((∀ i < 5, ws.getD i 0 = 0) ∧ ws.getD 5 0 = 0xffff)) := by
  unfold Inet6.ipv4_tail_words
  have e : ∀ i < 8, ws.getD i 1 = ws.getD i 0 := fun i hi =>
    getD_default_irrel ws i (by omega) 1 0
  constructor
  · rintro (⟨h1, h2⟩ | ⟨h1, h2⟩)
    · exact Or.inl ⟨fun i hi => by rw [← e i (by omega)]; exact h1 i hi, h2⟩
    · exact Or.inr ⟨fun i hi => by rw [← e i (by omega)]; exact h1 i hi, h2⟩
  · rintro (⟨h1, h2⟩ | ⟨h1, h2⟩)
    · exact Or.inl ⟨fun i hi => by rw [e i (by omega)]; exact h1 i hi, h2⟩
    · exact Or.inr ⟨fun i hi => by rw [e i (by omega)]; exact h1 i hi, h2⟩

/-- With words 0..5 zero and word 6 not, the gap of `Inet6::to_string` is
words 0..5, the text is two colons and the dotted quad, and the length returned
is the length of this text. -/
theorem Inet6.to_string_trace_compat (b : List Nat) (hb : IsInet6 b) (n : Nat) (hn : 46 ≤ n)
    (h : (∀ i < 6, (Inet6.ipv6_words b).getD i 0 = 0) ∧ (Inet6.ipv6_words b).getD 6 0 ≠ 0) :
    Inet6.find_gap (Inet6.ipv6_words b) = ⟨0, 6⟩ ∧
    Inet6.to_string b n = some (58 :: 58 :: Inet4.to_string (b.drop 12) INET_ADDRSTRLEN) ∧
    Inet6.to_string_trace b n = some (58 :: 58 :: Inet4.to_string (b.drop 12) INET_ADDRSTRLEN,
      (58 :: 58 :: Inet4.to_string (b.drop 12) INET_ADDRSTRLEN).length, false) := by
  have hl := Inet6.ipv6_words_length b
  have e : ∀ i < 8, (Inet6.ipv6_words b).getD i 1 = (Inet6.ipv6_words b).getD i 0 :=
    fun i hi => getD_default_irrel _ i (by omega) 1 0
  have hrun : IsLeftmostLongestZeroRun (Inet6.ipv6_words b) 0 6 :=
    (Inet6.tail_runs _ hl).1.2
      ⟨fun i hi => by rw [e i (by omega)]; exact h.1 i hi, by rw [e 6 (by omega)]; exact h.2⟩
  have hg : Inet6.find_gap (Inet6.ipv6_words b) = ⟨0, 6⟩ :=
    Inet6.find_gap_of_run _ hl 0 6 hrun
  have ht := Inet6.to_string_v4compat b hb n hn hg
  obtain ⟨t, h1, h2, _⟩ := Inet6.to_string_trace_spec b hb n hn
  rw [ht] at h2
  have e2 := Option.some.inj h2
  subst e2
  exact ⟨hg, ht, h1⟩

/-- With words 0..4 zero and word 5 equal to `ffff`, the gap of
`Inet6::to_string` is words 0..4, the text is `::ffff:` and the dotted quad, and
the length returned is the length of this text. -/
theorem Inet6.to_string_trace_mapped (b : List Nat) (hb : IsInet6 b) (n : Nat) (hn : 46 ≤ n)
    (h : (∀ i < 5, (Inet6.ipv6_words b).getD i 0 = 0) ∧ (Inet6.ipv6_words b).getD 5 0 = 0xffff) :
    Inet6.find_gap (Inet6.ipv6_words b) = ⟨0, 5⟩ ∧
    Inet6.to_string b n =
      some (58 :: 58 :: (sprintf_x 0xffff ++ 58 :: Inet4.to_string (b.drop 12) INET_ADDRSTRLEN)) ∧
    Inet6.to_string_trace b n =
      some (58 :: 58 :: (sprintf_x 0xffff ++ 58 :: Inet4.to_string (b.drop 12) INET_ADDRSTRLEN),
        (58 :: 58 :: (sprintf_x 0xffff ++
          58 :: Inet4.to_string (b.drop 12) INET_ADDRSTRLEN)).length, false) := by
  have hl := Inet6.ipv6_words_length b
  have e : ∀ i < 8, (Inet6.ipv6_words b).getD i 1 = (Inet6.ipv6_words b).getD i 0 :=
    fun i hi => getD_default_irrel _ i (by omega) 1 0
  have hrun : IsLeftmostLongestZeroRun (Inet6.ipv6_words b) 0 5 :=
    (Inet6.tail_runs _ hl).2.2
      ⟨fun i hi => by rw [e i (by omega)]; exact h.1 i hi,
        by rw [e 5 (by omega), h.2]; decide⟩
  have hg : Inet6.find_gap (Inet6.ipv6_words b) = ⟨0, 5⟩ :=
    Inet6.find_gap_of_run _ hl 0 5 hrun
  have ht := Inet6.to_string_v4mapped b hb n hn hg h.2
  obtain ⟨t, h1, h2, _⟩ := Inet6.to_string_trace_spec b hb n hn
  rw [ht] at h2
  have e2 := Option.some.inj h2
  subst e2
  exact ⟨hg, ht, h1⟩

/-! ## The claims of the specification -/

/-- C1: for every 16-byte value `b`, `Inet6::to_string` with a buffer of at
least 46 bytes writes a text, and `Inet6::str_to_ipv6` applied to that text
succeeds and returns exactly `b`. -/
theorem C1_inet6_to_string_then_str_to_ipv6 (b : List Nat) (hb : IsInet6 b) (dstsize : Nat)
    (hn : 46 ≤ dstsize) :
    ∃ t, Inet6.to_string b dstsize = some t ∧ Inet6.str_to_ipv6 t = some b :=
  Inet6.roundtrip16 b hb dstsize hn

/-- C1 at the address `2001:db8::1:0:0:1` and a buffer of 46 bytes. -/
theorem C1_witness :
    IsInet6 [32, 1, 13, 184, 0, 0, 0, 0, 0, 1, 0, 0, 0, 0, 0, 1] ∧ 46 ≤ 46 ∧
      ∃ t, Inet6.to_string [32, 1, 13, 184, 0, 0, 0, 0, 0, 1, 0, 0, 0, 0, 0, 1] 46 = some t ∧
        Inet6.str_to_ipv6 t = some [32, 1, 13, 184, 0, 0, 0, 0, 0, 1, 0, 0, 0, 0, 0, 1] :=
  ⟨by decide, by decide,
    C1_inet6_to_string_then_str_to_ipv6 [32, 1, 13, 184, 0, 0, 0, 0, 0, 1, 0, 0, 0, 0, 0, 1]
      (by decide) 46 (by decide)⟩

/-- C2: for every 4-byte value `b`, `Inet4::str_to_ipv4` applied to the text
written by `Inet4::to_string` into a buffer of at least 16 bytes succeeds and
returns exactly `b`. -/
theorem C2_ipv4_to_string_then_str_to_ipv4 (b : List Nat) (hb : IsInet4 b) (dstsize : Nat)
    (hn : 16 ≤ dstsize) :
    Inet4.str_to_ipv4 (Inet4.to_string b dstsize) = some b := by
  obtain ⟨b0, b1, b2, b3, rfl, h0, h1, h2, h3⟩ := hb.eq_list4
  exact Inet4.roundtrip4 b0 b1 b2 b3 dstsize h0 h1 h2 h3 hn

/-- C2 at the address `192.0.2.128` and a buffer of 16 bytes. -/
theorem C2_witness :
    IsInet4 [192, 0, 2, 128] ∧ 16 ≤ 16 ∧
      Inet4.str_to_ipv4 (Inet4.to_string [192, 0, 2, 128] 16) = some [192, 0, 2, 128] :=
  ⟨by decide, by decide, C2_ipv4_to_string_then_str_to_ipv4 [192, 0, 2, 128] (by decide) 16
    (by decide)⟩

/-- C3 as stated fails: the address `::0.0.1.2` is IPv4-compatible, and
`Inet6::to_string` writes `::102` for it, without a dotted quad. -/
theorem C3_counterexample :
    IsInet6 [0, 0, 0, 0, 0, 0, 0, 0, 0, 0, 0, 0, 0, 0, 1, 2] ∧
      Inet6.is_v4compat [0, 0, 0, 0, 0, 0, 0, 0, 0, 0, 0, 0, 0, 0, 1, 2] ∧
      Inet6.to_string [0, 0, 0, 0, 0, 0, 0, 0, 0, 0, 0, 0, 0, 0, 1, 2] 46 = some (str "::102") ∧
      ¬ (Inet6.prints_ipv4_tail [0, 0, 0, 0, 0, 0, 0, 0, 0, 0, 0, 0, 0, 0, 1, 2] 46 ↔
        (Inet6.is_v4compat [0, 0, 0, 0, 0, 0, 0, 0, 0, 0, 0, 0, 0, 0, 1, 2] ∨
          Inet6.is_v4mapped [0, 0, 0, 0, 0, 0, 0, 0, 0, 0, 0, 0, 0, 0, 1, 2])) := by
  decide

/-- C3, amended: for every 16-byte value `v` and a buffer of at least 46 bytes,
`Inet6::to_string` prints the last 32 bits in dotted-quad form if and only if
`v` is IPv4-mapped, or `v` is IPv4-compatible and bytes 12 and 13 are not both
zero. -/
theorem C3_dotted_tail_iff (v : List Nat) (hv : IsInet6 v) (dstsize : Nat) (hn : 46 ≤ dstsize) :
    Inet6.prints_ipv4_tail v dstsize ↔
      ((Inet6.is_v4compat v ∧ (v.getD 12 0 ≠ 0 ∨ v.getD 13 0 ≠ 0)) ∨ Inet6.is_v4mapped v) := by
  rw [Inet6.prints_ipv4_tail_iff v hv dstsize hn, Inet6.ipv4_tail_words_bytes v hv]

/-- C3, amended, at the IPv4-mapped address `::ffff:192.0.2.128`. -/
theorem C3_witness :
    IsInet6 [0, 0, 0, 0, 0, 0, 0, 0, 0, 0, 255, 255, 192, 0, 2, 128] ∧ 46 ≤ 46 ∧
    (Inet6.prints_ipv4_tail [0, 0, 0, 0, 0, 0, 0, 0, 0, 0, 255, 255, 192, 0, 2, 128] 46 ↔
      ((Inet6.is_v4compat [0, 0, 0, 0, 0, 0, 0, 0, 0, 0, 255, 255, 192, 0, 2, 128] ∧
          (([0, 0, 0, 0, 0, 0, 0, 0, 0, 0, 255, 255, 192, 0, 2, 128] : List Nat).getD 12 0 ≠ 0 ∨
            ([0, 0, 0, 0, 0, 0, 0, 0, 0, 0, 255, 255, 192, 0, 2, 128] : List Nat).getD 13 0 ≠ 0)) ∨
        Inet6.is_v4mapped [0, 0, 0, 0, 0, 0, 0, 0, 0, 0, 255, 255, 192, 0, 2, 128])) :=
  ⟨by decide, by decide,
    C3_dotted_tail_iff [0, 0, 0, 0, 0, 0, 0, 0, 0, 0, 255, 255, 192, 0, 2, 128] (by decide) 46
      (by decide)⟩

/-- C4: for every 16-byte value that `Inet6::to_string` (buffer of at least 46
bytes) does not print with a dotted IPv4 tail: when none of the eight words is
zero, the text is the eight words in hex joined by single colons; otherwise
there is a leftmost longest run `R` of zero words (a run of one word
qualifies), and for every such `R` the text is the words before `R` joined by
colons, two colons, and the words after `R` joined by colons.  The hex text of
each word is one to four lowercase hex digits whose value is the word, with no
leading zero. -/
theorem C4_text_without_ipv4_tail (b : List Nat) (hb : IsInet6 b) (dstsize : Nat)
    (hn : 46 ≤ dstsize) (hnd : ¬ Inet6.prints_ipv4_tail b dstsize) :
    ((∀ w ∈ Inet6.ipv6_words b, w ≠ 0) →
      Inet6.to_string b dstsize = some (join_colon ((Inet6.ipv6_words b).map sprintf_x))) ∧
    ((∃ w ∈ Inet6.ipv6_words b, w = 0) →
      ∃ pos len, IsLeftmostLongestZeroRun (Inet6.ipv6_words b) pos len) ∧
    (∀ pos len, IsLeftmostLongestZeroRun (Inet6.ipv6_words b) pos len →
      Inet6.to_string b dstsize = some (Inet6.gap_text (Inet6.ipv6_words b) pos len)) ∧
    (∀ w ∈ Inet6.ipv6_words b,
      IsHexGroup (sprintf_x w) ∧ hex_value (sprintf_x w) = w ∧
        (∀ c ∈ sprintf_x w, (48 ≤ c ∧ c ≤ 57) ∨ (97 ≤ c ∧ c ≤ 102)) ∧
        (w ≠ 0 → (sprintf_x w).head? ≠ some 48)) := by
  have ht : ¬ Inet6.ipv4_tail_words (Inet6.ipv6_words b) :=
    fun h => hnd ((Inet6.prints_ipv4_tail_iff b hb dstsize hn).2 h)
  obtain ⟨p1, p2⟩ := Inet6.to_string_plain b dstsize hn ht
  exact ⟨p1, Inet6.exists_run_of_zero _ (Inet6.ipv6_words_length b), p2,
    fun w hw => sprintf_x_spec w (Inet6.mem_ipv6_words_lt b w hw)⟩

/-- C4 at the address `2001:db8:0:0:1:0:0:1`, whose two zero runs have the same
length. -/
theorem C4_witness :
    IsInet6 [32, 1, 13, 184, 0, 0, 0, 0, 0, 1, 0, 0, 0, 0, 0, 1] ∧ 46 ≤ 46 ∧
    ¬ Inet6.prints_ipv4_tail [32, 1, 13, 184, 0, 0, 0, 0, 0, 1, 0, 0, 0, 0, 0, 1] 46 ∧
    IsLeftmostLongestZeroRun
      (Inet6.ipv6_words [32, 1, 13, 184, 0, 0, 0, 0, 0, 1, 0, 0, 0, 0, 0, 1]) 2 2 ∧
    Inet6.to_string [32, 1, 13, 184, 0, 0, 0, 0, 0, 1, 0, 0, 0, 0, 0, 1] 46 =
      some (Inet6.gap_text
        (Inet6.ipv6_words [32, 1, 13, 184, 0, 0, 0, 0, 0, 1, 0, 0, 0, 0, 0, 1]) 2 2) ∧
    Inet6.gap_text (Inet6.ipv6_words [32, 1, 13, 184, 0, 0, 0, 0, 0, 1, 0, 0, 0, 0, 0, 1]) 2 2 =
      str "2001:db8::1:0:0:1" :=
  ⟨by decide, by decide, by decide, by decide,
    (C4_text_without_ipv4_tail [32, 1, 13, 184, 0, 0, 0, 0, 0, 1, 0, 0, 0, 0, 0, 1] (by decide) 46
      (by decide) (by decide)).2.2.1 2 2 (by decide), by decide⟩

/-- C5: for every 16-byte value, the text written by `Inet6::to_string` (buffer
of at least 46 bytes) contains two consecutive colons at exactly one position
when at least one of the eight words is zero, and at none otherwise; it never
contains three consecutive colons. -/
theorem C5_double_colon_count (b : List Nat) (hb : IsInet6 b) (dstsize : Nat)
    (hn : 46 ≤ dstsize) :
    ∃ t, Inet6.to_string b dstsize = some t ∧
      count_double_colon t = (if ∃ w ∈ Inet6.ipv6_words b, w = 0 then 1 else 0) ∧
      ¬ [58, 58, 58] <:+: t := by
  obtain ⟨t, h1, h2⟩ := Inet6.to_string_count_double_colon b hb dstsize hn
  refine ⟨t, h1, h2, fun h3 => ?_⟩
  have := count_double_colon_of_triple t h3
  rw [h2] at this
  split at this <;> omega

/-- C5 at the address `1:2:3:0:5:6:7:8`, with a single isolated zero word. -/
theorem C5_witness :
    IsInet6 [0, 1, 0, 2, 0, 3, 0, 0, 0, 5, 0, 6, 0, 7, 0, 8] ∧ 46 ≤ 46 ∧
    ∃ t, Inet6.to_string [0, 1, 0, 2, 0, 3, 0, 0, 0, 5, 0, 6, 0, 7, 0, 8] 46 = some t ∧
      count_double_colon t =
        (if ∃ w ∈ Inet6.ipv6_words [0, 1, 0, 2, 0, 3, 0, 0, 0, 5, 0, 6, 0, 7, 0, 8], w = 0 then 1
          else 0) ∧
      ¬ [58, 58, 58] <:+: t :=
  ⟨by decide, by decide,
    C5_double_colon_count [0, 1, 0, 2, 0, 3, 0, 0, 0, 5, 0, 6, 0, 7, 0, 8] (by decide) 46
      (by decide)⟩

/-- C6: for every text `t` for which `INET6_ATON` returns a value `b`, the
value has 4 or 16 bytes, `INET6_NTOA` applied to `b` (a binary string) returns
a text, and `INET6_ATON` applied to that text returns the same `b`. -/
theorem C6_inet6_aton_ntoa_aton (t b : List Nat)
    (h : Item_func_inet6_aton.val_str (some t) = some b) :
    (b.length = 4 ∨ b.length = 16) ∧
    ∃ t1, Item_func_inet6_ntoa.val_str_ascii true (some b) = some t1 ∧
      Item_func_inet6_aton.val_str (some t1) = some b := by
  unfold Item_func_inet6_aton.val_str at h
  simp only at h
  cases h4 : Inet4.str_to_ipv4 t with
  | some q =>
    rw [h4] at h
    simp only [Option.some.injEq] at h
    subst h
    have hq := Inet4.str_to_ipv4_isInet4 t q h4
    obtain ⟨q0, q1, q2, q3, rfl, a0, a1, a2, a3⟩ := hq.eq_list4
    refine ⟨Or.inl rfl, Inet4.to_string [q0, q1, q2, q3] INET_ADDRSTRLEN, ?_, ?_⟩
    · simp [Item_func_inet6_ntoa.val_str_ascii, Inet4.binary_to_ipv4]
    · unfold Item_func_inet6_aton.val_str
      simp only [Inet4.roundtrip4 q0 q1 q2 q3 INET_ADDRSTRLEN a0 a1 a2 a3 (by decide)]
  | none =>
    rw [h4] at h
    simp only at h
    cases h6 : Inet6.str_to_ipv6 t with
    | none => rw [h6] at h; exact absurd h (by simp)
    | some r =>
      rw [h6] at h
      simp only [Option.some.injEq] at h
      subst h
      have hr := Inet6.str_to_ipv6_isInet6 t r h6
      obtain ⟨t1, e1, e2⟩ := Inet6.roundtrip16 r hr INET6_ADDRSTRLEN (by decide)
      obtain ⟨c1, c2⟩ := Inet6.to_string_colon_no_nul r hr INET6_ADDRSTRLEN (by decide) t1 e1
      have hl := hr.1
      refine ⟨Or.inr hl, t1, ?_, ?_⟩
      · simp [Item_func_inet6_ntoa.val_str_ascii, Inet4.binary_to_ipv4, Inet6.binary_to_ipv6, hl,
          e1]
      · unfold Item_func_inet6_aton.val_str
        simp only [Inet4.str_to_ipv4_of_colon t1 c1 c2, e2]

/-- C6 at the text `2001:DB8:0:0:1::1`. -/
theorem C6_witness :
    Item_func_inet6_aton.val_str (some (str "2001:DB8:0:0:1::1")) =
      some [32, 1, 13, 184, 0, 0, 0, 0, 0, 1, 0, 0, 0, 0, 0, 1] ∧
    (([32, 1, 13, 184, 0, 0, 0, 0, 0, 1, 0, 0, 0, 0, 0, 1] : List Nat).length = 4 ∨
      ([32, 1, 13, 184, 0, 0, 0, 0, 0, 1, 0, 0, 0, 0, 0, 1] : List Nat).length = 16) ∧
    ∃ t1, Item_func_inet6_ntoa.val_str_ascii true
        (some [32, 1, 13, 184, 0, 0, 0, 0, 0, 1, 0, 0, 0, 0, 0, 1]) = some t1 ∧
      Item_func_inet6_aton.val_str (some t1) =
        some [32, 1, 13, 184, 0, 0, 0, 0, 0, 1, 0, 0, 0, 0, 0, 1] :=
  ⟨by decide, C6_inet6_aton_ntoa_aton (str "2001:DB8:0:0:1::1")
    [32, 1, 13, 184, 0, 0, 0, 0, 0, 1, 0, 0, 0, 0, 0, 1] (by decide)⟩

/-- C7: for every text `t` accepted by `Inet6::str_to_ipv6` with value `b`, the
canonical text `c` written by `Inet6::to_string` for `b` (buffer of at least 46
bytes) is a fixpoint: `Inet6::str_to_ipv6` accepts `c`, and `Inet6::to_string`
of the value it returns is `c` again. -/
theorem C7_canonical_text_fixpoint (t b : List Nat) (h : Inet6.str_to_ipv6 t = some b)
    (dstsize : Nat) (hn : 46 ≤ dstsize) :
    ∃ c, Inet6.to_string b dstsize = some c ∧
      ∃ b1, Inet6.str_to_ipv6 c = some b1 ∧ Inet6.to_string b1 dstsize = some c := by
  obtain ⟨c, e1, e2⟩ := Inet6.roundtrip16 b (Inet6.str_to_ipv6_isInet6 t b h) dstsize hn
  exact ⟨c, e1, b, e2, e1⟩

/-- C7 at the text `::0001`, whose canonical text is `::1`. -/
theorem C7_witness :
    Inet6.str_to_ipv6 (str "::0001") = some [0, 0, 0, 0, 0, 0, 0, 0, 0, 0, 0, 0, 0, 0, 0, 1] ∧
    46 ≤ 46 ∧
    ∃ c, Inet6.to_string [0, 0, 0, 0, 0, 0, 0, 0, 0, 0, 0, 0, 0, 0, 0, 1] 46 = some c ∧
      ∃ b1, Inet6.str_to_ipv6 c = some b1 ∧ Inet6.to_string b1 46 = some c :=
  ⟨by decide, by decide,
    C7_canonical_text_fixpoint (str "::0001") [0, 0, 0, 0, 0, 0, 0, 0, 0, 0, 0, 0, 0, 0, 0, 1]
      (by decide) 46 (by decide)⟩

/-- C8: for every text `s` containing no zero byte, `Inet4::str_to_ipv4`
succeeds with result `r` if and only if `s` is exactly four groups of 1 to 3
ASCII digits, each of value at most 255, separated by exactly three dots, and
byte `i` of `r` is the numeric value of group `i` (leading zeros do not change
it); such a text has length 7 to 15. -/
theorem C8_str_to_ipv4_iff_four_groups (s : List Nat) (hz : 0 ∉ s) (r : List Nat) :
    (Inet4.str_to_ipv4 s = some r ↔
      ∃ g0 g1 g2 g3, IsDecGroup g0 ∧ IsDecGroup g1 ∧ IsDecGroup g2 ∧ IsDecGroup g3 ∧
        s = g0 ++ 46 :: (g1 ++ 46 :: (g2 ++ 46 :: g3)) ∧
        r = [dec_value g0, dec_value g1, dec_value g2, dec_value g3]) ∧
    (Inet4.str_to_ipv4 s = some r → 7 ≤ s.length ∧ s.length ≤ 15) := by
  refine ⟨⟨Inet4.str_to_ipv4_inv s hz r, ?_⟩, ?_⟩
  · rintro ⟨g0, g1, g2, g3, h0, h1, h2, h3, rfl, rfl⟩
    exact Inet4.str_to_ipv4_groups g0 g1 g2 g3 h0 h1 h2 h3
  · intro h
    unfold Inet4.str_to_ipv4 at h
    constructor
    · by_contra hc
      simp [Nat.lt_of_not_le hc] at h
    · by_contra hc
      have : s.length > 15 := Nat.lt_of_not_le hc
      simp [this] at h

/-- C8 at the text `010.0.00.255`, with leading zeros. -/
theorem C8_witness :
    0 ∉ str "010.0.00.255" ∧
    ((Inet4.str_to_ipv4 (str "010.0.00.255") = some [10, 0, 0, 255] ↔
      ∃ g0 g1 g2 g3, IsDecGroup g0 ∧ IsDecGroup g1 ∧ IsDecGroup g2 ∧ IsDecGroup g3 ∧
        str "010.0.00.255" = g0 ++ 46 :: (g1 ++ 46 :: (g2 ++ 46 :: g3)) ∧
        [10, 0, 0, 255] = [dec_value g0, dec_value g1, dec_value g2, dec_value g3]) ∧
    (Inet4.str_to_ipv4 (str "010.0.00.255") = some [10, 0, 0, 255] →
      7 ≤ (str "010.0.00.255").length ∧ (str "010.0.00.255").length ≤ 15)) :=
  ⟨by decide, C8_str_to_ipv4_iff_four_groups (str "010.0.00.255") (by decide) [10, 0, 0, 255]⟩

/-- C9 as stated fails: the text `1.2.3.4` followed by a zero byte contains a
byte that is neither a digit nor a dot, and `Inet4::str_to_ipv4` accepts it. -/
theorem C9_counterexample :
    (∃ x ∈ str "1.2.3.4" ++ [0], ¬ (48 ≤ x ∧ x ≤ 57) ∧ x ≠ 46) ∧
      Inet4.str_to_ipv4 (str "1.2.3.4" ++ [0]) = some [1, 2, 3, 4] := by
  decide

/-- C9, amended: a text in which a non-zero byte that is neither an ASCII digit
nor a dot occurs before any zero byte is rejected by `Inet4::str_to_ipv4` (the
scan stops at the first zero byte). -/
theorem C9_str_to_ipv4_rejects_invalid_byte (pre post : List Nat) (x : Nat) (hpre : 0 ∉ pre)
    (hx : x ≠ 0) (hnd : ¬ (48 ≤ x ∧ x ≤ 57)) (hdot : x ≠ 46) :
    Inet4.str_to_ipv4 (pre ++ x :: post) = none :=
  Inet4.str_to_ipv4_invalid pre post x hpre hx hnd hdot

/-- C9, amended, at the text `1.2.x.4`. -/
theorem C9_witness :
    0 ∉ str "1.2." ∧ (120 : Nat) ≠ 0 ∧ ¬ (48 ≤ 120 ∧ 120 ≤ 57) ∧ (120 : Nat) ≠ 46 ∧
      Inet4.str_to_ipv4 (str "1.2." ++ 120 :: str ".4") = none :=
  ⟨by decide, by decide, by decide, by decide,
    C9_str_to_ipv4_rejects_invalid_byte (str "1.2.") (str ".4") 120 (by decide) (by decide)
      (by decide) (by decide)⟩

/-- C10: for every list of `k >= 1` hex groups (1 to 4 hex digits each, in
either case) joined by single colons, `Inet6::str_to_ipv6` succeeds if and
only if `k = 8`, and then bytes `2i` and `2i+1` of the result are the
big-endian 16-bit value of group `i+1`, for `i = 0..7`. -/
theorem C10_groups_without_gap (gs : List (List Nat)) (hk : 1 ≤ gs.length)
    (hg : ∀ g ∈ gs, IsHexGroup g) :
    ((∃ r, Inet6.str_to_ipv6 (join_colon gs) = some r) ↔ gs.length = 8) ∧
    (∀ r, Inet6.str_to_ipv6 (join_colon gs) = some r →
      r = word_bytes (gs.map hex_value) ∧
      ∀ i < 8, r.getD (2 * i) 0 = hex_value (gs.getD i []) / 256 ∧
        r.getD (2 * i + 1) 0 = hex_value (gs.getD i []) % 256) := by
  obtain ⟨A, g, rfl⟩ : ∃ A g, gs = A ++ [g] := by
    rcases List.eq_nil_or_concat gs with e | ⟨A, g, e⟩
    · subst e; simp at hk
    · exact ⟨A, g, by rw [e, List.concat_eq_append]⟩
  have key := Inet6.str_to_ipv6_groups A g (fun x hx => hg x (by simp [hx])) (hg g (by simp))
  rw [join_colon_append_singleton, key]
  have hl : (A ++ [g]).length = A.length + 1 := by simp
  constructor
  · constructor
    · rintro ⟨r, hr⟩
      split at hr
      · omega
      · exact absurd hr (by simp)
    · intro h8
      exact ⟨_, by rw [if_pos (by omega)]⟩
  · intro r hr
    split at hr
    · rename_i h7
      simp only [Option.some.injEq] at hr
      subst hr
      refine ⟨rfl, fun i hi => ?_⟩
      have := word_bytes_getD ((A ++ [g]).map hex_value) i (by rw [List.length_map, hl]; omega)
      have e : ((A ++ [g]).map hex_value).getD i 0 = hex_value ((A ++ [g]).getD i []) := by
        have := List.getD_map (A ++ [g]) [] hex_value (n := i)
        rw [← this]
        rfl
      rw [e] at this
      exact this
    · exact absurd hr (by simp)

/-- C10 at the eight groups of `2001:DB8:0:0:1:0:0:1`. -/
theorem C10_witness :
    1 ≤ [str "2001", str "DB8", str "0", str "0", str "1", str "0", str "0", str "1"].length ∧
    (∀ g ∈ [str "2001", str "DB8", str "0", str "0", str "1", str "0", str "0", str "1"],
      IsHexGroup g) ∧
    ((∃ r, Inet6.str_to_ipv6 (join_colon
        [str "2001", str "DB8", str "0", str "0", str "1", str "0", str "0", str "1"]) = some r) ↔
      [str "2001", str "DB8", str "0", str "0", str "1", str "0", str "0", str "1"].length = 8) ∧
    (∀ r, Inet6.str_to_ipv6 (join_colon
        [str "2001", str "DB8", str "0", str "0", str "1", str "0", str "0", str "1"]) = some r →
      r = word_bytes
        ([str "2001", str "DB8", str "0", str "0", str "1", str "0", str "0", str "1"].map
          hex_value) ∧
      ∀ i < 8, r.getD (2 * i) 0 = hex_value
          ([str "2001", str "DB8", str "0", str "0", str "1", str "0", str "0", str "1"].getD i
            []) / 256 ∧
        r.getD (2 * i + 1) 0 = hex_value
          ([str "2001", str "DB8", str "0", str "0", str "1", str "0", str "0", str "1"].getD i
            []) % 256) :=
  ⟨by decide, by decide,
    C10_groups_without_gap
      [str "2001", str "DB8", str "0", str "0", str "1", str "0", str "0", str "1"] (by decide)
      (by decide)⟩

/-- C11: for lists `A` (m groups) and `B` (n groups) of hex groups, either
possibly empty, `Inet6::str_to_ipv6` applied to the groups of `A` joined by
colons, a double colon and the groups of `B` joined by colons succeeds if and
only if `m + n <= 7`, and the result is then the `2m` bytes of `A`, followed by
`2 * (8 - m - n)` zero bytes, followed by the `2n` bytes of `B`. -/
theorem C11_double_colon_between_groups (A B : List (List Nat))
    (hA : ∀ g ∈ A, IsHexGroup g) (hB : ∀ g ∈ B, IsHexGroup g) :
    Inet6.str_to_ipv6 (join_colon A ++ 58 :: 58 :: join_colon B) =
      if A.length + B.length ≤ 7 then
        some (word_bytes (A.map hex_value) ++
          List.replicate (2 * (8 - (A.length + B.length))) 0 ++
          word_bytes (B.map hex_value))
      else none := by
  by_cases h : A.length + B.length ≤ 7
  · rw [if_pos h]
    exact Inet6.str_to_ipv6_gap A B hA hB h
  · rw [if_neg h]
    exact Inet6.str_to_ipv6_gap_full A B hA hB (by omega)

/-- C11 at the texts `::` (all zero), `::1` (the loopback), `1::` (zeros on the
right) and `1:2:3:4:5:6:7:8::` (eight groups and a double colon, rejected). -/
theorem C11_witness :
    Inet6.str_to_ipv6 (str "::") = some [0, 0, 0, 0, 0, 0, 0, 0, 0, 0, 0, 0, 0, 0, 0, 0] ∧
    Inet6.str_to_ipv6 (str "::1") = some [0, 0, 0, 0, 0, 0, 0, 0, 0, 0, 0, 0, 0, 0, 0, 1] ∧
    Inet6.str_to_ipv6 (str "1::") = some [0, 1, 0, 0, 0, 0, 0, 0, 0, 0, 0, 0, 0, 0, 0, 0] ∧
    Inet6.str_to_ipv6 (str "1:2:3:4:5:6:7:8::") = none :=
  ⟨C11_double_colon_between_groups [] [] (by decide) (by decide),
    C11_double_colon_between_groups [] [str "1"] (by decide) (by decide),
    C11_double_colon_between_groups [str "1"] [] (by decide) (by decide),
    C11_double_colon_between_groups
      [str "1", str "2", str "3", str "4", str "5", str "6", str "7", str "8"] []
      (by decide) (by decide)⟩

/-- C12: for every text `d` accepted by `Inet4::str_to_ipv4` with bytes `q`,
`Inet6::str_to_ipv6` accepts `::` followed by `d` and returns twelve zero bytes
followed by `q`, and accepts `::ffff:` followed by `d` and returns ten zero
bytes, `ff ff`, then `q`; the latter value satisfies `is_v4mapped`. -/
theorem C12_ipv4_tail_after_gap (d q : List Nat) (hq : Inet4.str_to_ipv4 d = some q) :
    Inet6.str_to_ipv6 (str "::" ++ d) = some (List.replicate 12 0 ++ q) ∧
    Inet6.str_to_ipv6 (str "::ffff:" ++ d) = some (List.replicate 10 0 ++ 255 :: 255 :: q) ∧
    Inet6.is_v4mapped (List.replicate 10 0 ++ 255 :: 255 :: q) := by
  have hlen := (Inet4.str_to_ipv4_bounds d q hq).2
  obtain ⟨g0, rest, rfl, hg0, hl0⟩ := Inet4.str_to_ipv4_first_group d q hq
  refine ⟨?_, ?_, ?_⟩
  · have h := Inet6.str_to_ipv6_ipv4_tail [] (by simp) g0 rest q hg0 (by omega) hq (by simp)
      (by simp only [groups_colon, List.nil_append]; omega)
    exact h
  · have h := Inet6.str_to_ipv6_ipv4_tail [str "ffff"] (by decide) g0 rest q hg0 (by omega) hq
      (by simp) (by
        have e : groups_colon [str "ffff"] = [102, 102, 102, 102, 58] := by decide
        rw [e]
        simp only [List.length_append, List.length_cons, List.length_nil] at hlen ⊢
        omega)
    exact h
  · refine ⟨fun i hi => ?_, rfl, rfl⟩
    interval_cases i <;> rfl

/-- C12 at the dotted quad `192.0.2.128`. -/
theorem C12_witness :
    Inet4.str_to_ipv4 (str "192.0.2.128") = some [192, 0, 2, 128] ∧
    Inet6.str_to_ipv6 (str "::" ++ str "192.0.2.128") =
      some (List.replicate 12 0 ++ [192, 0, 2, 128]) ∧
    Inet6.str_to_ipv6 (str "::ffff:" ++ str "192.0.2.128") =
      some (List.replicate 10 0 ++ 255 :: 255 :: [192, 0, 2, 128]) ∧
    Inet6.is_v4mapped (List.replicate 10 0 ++ 255 :: 255 :: [192, 0, 2, 128]) :=
  ⟨by decide, C12_ipv4_tail_after_gap (str "192.0.2.128") [192, 0, 2, 128] (by decide)⟩

/-- C13: a text without a zero byte in which two colons stand at positions
`i`, `i + 1` and at positions `j`, `j + 1` with `i < j` (so also the two
overlapping occurrences in three colons) is rejected by
`Inet6::str_to_ipv6`. -/
theorem C13_two_double_colons (s : List Nat) (h0 : 0 ∉ s) (i j : Nat) (hij : i < j)
    (hi : [58, 58] <+: s.drop i) (hj : [58, 58] <+: s.drop j) :
    Inet6.str_to_ipv6 s = none :=
  Inet6.str_to_ipv6_two_gaps s h0 (count_double_colon_two s i j hij hi hj)

/-- C13 at the text `1::2::3`, with double colons at positions 1 and 4. -/
theorem C13_witness :
    0 ∉ str "1::2::3" ∧ 1 < 4 ∧ [58, 58] <+: (str "1::2::3").drop 1 ∧
      [58, 58] <+: (str "1::2::3").drop 4 ∧ Inet6.str_to_ipv6 (str "1::2::3") = none :=
  ⟨by decide, by decide, ⟨str "2::3", rfl⟩, ⟨str "3", rfl⟩,
    C13_two_double_colons (str "1::2::3") (by decide) 1 4 (by decide) ⟨str "2::3", rfl⟩
      ⟨str "3", rfl⟩⟩

/-- C14 as stated fails: the text `::1` followed by a zero byte contains a byte
that is not a hex digit, a colon or a dot, and `Inet6::str_to_ipv6` accepts
it. -/
theorem C14_counterexample :
    (∃ x ∈ str "::1" ++ [0], ¬ is_hex_digit x ∧ x ≠ 58 ∧ x ≠ 46) ∧
      Inet6.str_to_ipv6 (str "::1" ++ [0]) =
        some [0, 0, 0, 0, 0, 0, 0, 0, 0, 0, 0, 0, 0, 0, 0, 1] := by
  decide

/-- C14, amended: a text in which a non-zero byte that is not a hex digit, a
colon or a dot occurs before any zero byte is rejected by
`Inet6::str_to_ipv6` (the scan stops at the first zero byte). -/
theorem C14_str_to_ipv6_rejects_invalid_byte (pre post : List Nat) (x : Nat) (hpre : 0 ∉ pre)
    (hx : x ≠ 0) (hnh : ¬ is_hex_digit x) (hcolon : x ≠ 58) (hdot : x ≠ 46) :
    Inet6.str_to_ipv6 (pre ++ x :: post) = none :=
  Inet6.str_to_ipv6_invalid_byte pre post x hpre hx hcolon hdot hnh

/-- C14, amended, at the text `::g:1`. -/
theorem C14_witness :
    0 ∉ str "::" ∧ (103 : Nat) ≠ 0 ∧ ¬ is_hex_digit 103 ∧ (103 : Nat) ≠ 58 ∧ (103 : Nat) ≠ 46 ∧
      Inet6.str_to_ipv6 (str "::" ++ 103 :: str ":1") = none :=
  ⟨by decide, by decide, by decide, by decide, by decide,
    C14_str_to_ipv6_rejects_invalid_byte (str "::") (str ":1") 103 (by decide) (by decide)
      (by decide) (by decide) (by decide)⟩

/-- C15 as stated fails: `INET_ATON` returns a value for `1.2.3.4.5`, which has
four dots, and for `1..2`, which has an empty group. -/
theorem C15_counterexample :
    Item_func_inet_aton.val_int (some (str "1.2.3.4.5")) = some 4328719365 ∧
      (str "1.2.3.4.5").count 46 = 4 ∧
    Item_func_inet_aton.val_int (some (str "1..2")) = some 16777218 ∧
      [] ∈ dot_groups (str "1..2") := by
  decide

/-- C15, amended: `Item_func_inet_aton::val_int` returns a non-null value if
and only if the input is non-empty, does not end in a dot, and every group
(the bytes before, between and after the dots, possibly none) is a run of
decimal digits of value at most 255; the number of dots is not limited. -/
theorem C15_inet_aton_accepts_iff (s : List Nat) :
    (Item_func_inet_aton.val_int (some s)).isSome ↔
      s ≠ [] ∧ s.getLast? ≠ some 46 ∧ ∀ g ∈ dot_groups s, IsDecRun g :=
  Item_func_inet_aton.val_int_isSome_iff s

/-- C15, amended, at the text `127.1`. -/
theorem C15_witness :
    (Item_func_inet_aton.val_int (some (str "127.1"))).isSome ↔
      str "127.1" ≠ [] ∧ (str "127.1").getLast? ≠ some 46 ∧
        ∀ g ∈ dot_groups (str "127.1"), IsDecRun g :=
  C15_inet_aton_accepts_iff (str "127.1")

/-- C16 as stated fails: for `255.255.255.255.255` the function `INET_ATON`
returns 1099511627775, which is above `2^32 - 1` and for which `INET_NTOA`
returns null. -/
theorem C16_counterexample :
    Item_func_inet_aton.val_int (some (str "255.255.255.255.255")) = some 1099511627775 ∧
      ¬ ((1099511627775 : Int) ≤ 4294967295) ∧
      Item_func_inet_ntoa.val_str (some 1099511627775) = none := by
  decide

/-- C16, amended: whenever `Item_func_inet_aton::val_int` succeeds on a text
with at most three dots, the integer it returns lies in `0..=2^32-1`, and
`INET_NTOA` accepts it. -/
theorem C16_inet_aton_range (s : List Nat) (v : Int) (hdots : s.count 46 ≤ 3)
    (h : Item_func_inet_aton.val_int (some s) = some v) :
    0 ≤ v ∧ v ≤ 4294967295 ∧ (Item_func_inet_ntoa.val_str (some v)).isSome := by
  obtain ⟨h1, h2⟩ := Item_func_inet_aton.val_int_lt s v hdots h
  refine ⟨h1, h2, ?_⟩
  rw [Item_func_inet_ntoa.val_str_eq, if_neg (by unfold to_ulonglong; omega)]
  rfl

/-- C16, amended, at the text `127.2.1`. -/
theorem C16_witness :
    (str "127.2.1").count 46 ≤ 3 ∧
    Item_func_inet_aton.val_int (some (str "127.2.1")) = some 2130837505 ∧
    (0 : Int) ≤ 2130837505 ∧ (2130837505 : Int) ≤ 4294967295 ∧
      (Item_func_inet_ntoa.val_str (some 2130837505)).isSome :=
  ⟨by decide, by decide, C16_inet_aton_range (str "127.2.1") 2130837505 (by decide) (by decide)⟩

/-- C17: for all non-empty runs of decimal digits `a`, `b`, `c`, `d` of values
at most 255, `INET_ATON` returns `a` for `a`, `a * 2^24 + b` for `a.b`,
`a * 2^24 + b * 2^16 + c` for `a.b.c` and `a * 2^24 + b * 2^16 + c * 2^8 + d`
for `a.b.c.d`. -/
theorem C17_inet_aton_values (a b c d : List Nat) (ha : IsDecRun a) (hb : IsDecRun b)
    (hc : IsDecRun c) (hd : IsDecRun d) (ha0 : a ≠ []) (hb0 : b ≠ []) (hc0 : c ≠ [])
    (hd0 : d ≠ []) :
    Item_func_inet_aton.val_int (some a) = some ((dec_value a : Nat) : Int) ∧
    Item_func_inet_aton.val_int (some (a ++ 46 :: b)) =
      some ((dec_value a * 2 ^ 24 + dec_value b : Nat) : Int) ∧
    Item_func_inet_aton.val_int (some (a ++ 46 :: (b ++ 46 :: c))) =
      some ((dec_value a * 2 ^ 24 + dec_value b * 2 ^ 16 + dec_value c : Nat) : Int) ∧
    Item_func_inet_aton.val_int (some (a ++ 46 :: (b ++ 46 :: (c ++ 46 :: d)))) =
      some ((dec_value a * 2 ^ 24 + dec_value b * 2 ^ 16 + dec_value c * 2 ^ 8 + dec_value d :
        Nat) : Int) :=
  have h := Item_func_inet_aton.val_int_forms a b c d ha hb hc hd
  ⟨h.1 ha0, h.2.1 hb0, h.2.2.1 hc0, h.2.2.2 hd0⟩

/-- C17 at the groups `127`, `2`, `001` and `255`. -/
theorem C17_witness :
    Item_func_inet_aton.val_int (some (str "127")) = some 127 ∧
    Item_func_inet_aton.val_int (some (str "127.2")) = some 2130706434 ∧
    Item_func_inet_aton.val_int (some (str "127.2.001")) = some 2130837505 ∧
    Item_func_inet_aton.val_int (some (str "127.2.001.255")) = some 2130838015 :=
  have h := C17_inet_aton_values (str "127") (str "2") (str "001") (str "255") (by decide)
    (by decide) (by decide) (by decide) (by decide) (by decide) (by decide) (by decide)
  ⟨h.1.trans (by decide), h.2.1.trans (by decide), h.2.2.1.trans (by decide),
    h.2.2.2.trans (by decide)⟩

/-- C18: for every unsigned 64-bit `n`, `Item_func_inet_ntoa::val_str` returns
null when `n > 0xffffffff`, and otherwise the text
`dec((n>>24)&255).dec((n>>16)&255).dec((n>>8)&255).dec(n&255)`, the most
significant octet first, each octet in decimal without leading zeros. -/
theorem C18_inet_ntoa_text (n : Nat) (hn : n < 2 ^ 64) :
    Item_func_inet_ntoa.val_str (some (to_longlong n)) =
      (if n > 0xffffffff then none
      else some (sprintf_d (n >>> 24 &&& 255) ++ 46 :: (sprintf_d (n >>> 16 &&& 255) ++ 46 ::
        (sprintf_d (n >>> 8 &&& 255) ++ 46 :: sprintf_d (n &&& 255))))) ∧
    ∀ k, IsCanonicalOctet (sprintf_d (n >>> k &&& 255)) ∧
      dec_value (sprintf_d (n >>> k &&& 255)) = n >>> k &&& 255 := by
  have hand : ∀ x : Nat, x &&& 255 = x % 256 := fun x => Nat.and_pow_two_sub_one_eq_mod x 8
  constructor
  · rw [Item_func_inet_ntoa.val_str_eq, to_ulonglong_to_longlong, Nat.mod_eq_of_lt hn]
    simp only [hand, Nat.shiftRight_eq_div_pow]
  · intro k
    rw [hand]
    exact ⟨sprintf_d_canonical _ (Nat.mod_lt _ (by omega)),
      (sprintf_d_byte _ (Nat.mod_lt _ (by omega))).2⟩

/-- C18 at `n = 0x7F000001` and at `n = 2^32`. -/
theorem C18_witness :
    Item_func_inet_ntoa.val_str (some (to_longlong 0x7F000001)) = some (str "127.0.0.1") ∧
      Item_func_inet_ntoa.val_str (some (to_longlong 0x100000000)) = none :=
  ⟨(C18_inet_ntoa_text 0x7F000001 (by decide)).1, (C18_inet_ntoa_text 0x100000000 (by decide)).1⟩

/-- C19: for every text `s`, `INET_NTOA(INET_ATON(s))` is defined and equal to
`s` if and only if `s` is four groups joined by dots, each a decimal integer
in 0..255 written without leading zeros; for runs of digits `a`, `b`, `c` of
values at most 255, `c` not empty, the text `a.b.c` gives the four octets
`a.b.0.c`, which is not the text given. -/
theorem C19_inet_ntoa_of_inet_aton (s a b c : List Nat) (ha : IsDecRun a) (hb : IsDecRun b)
    (hc : IsDecRun c) (hc0 : c ≠ []) :
    (Item_func_inet_ntoa.val_str (Item_func_inet_aton.val_int (some s)) = some s ↔
      ∃ a b c d, IsCanonicalOctet a ∧ IsCanonicalOctet b ∧ IsCanonicalOctet c ∧
        IsCanonicalOctet d ∧ s = a ++ 46 :: (b ++ 46 :: (c ++ 46 :: d))) ∧
    Item_func_inet_ntoa.val_str
        (Item_func_inet_aton.val_int (some (a ++ 46 :: (b ++ 46 :: c)))) =
      some (sprintf_d (dec_value a) ++ 46 :: (sprintf_d (dec_value b) ++ 46 ::
        (48 :: 46 :: sprintf_d (dec_value c)))) ∧
    (IsCanonicalOctet a → IsCanonicalOctet b → IsCanonicalOctet c →
      Item_func_inet_ntoa.val_str
          (Item_func_inet_aton.val_int (some (a ++ 46 :: (b ++ 46 :: c)))) =
        some (a ++ 46 :: (b ++ 46 :: (48 :: 46 :: c)))) ∧
    Item_func_inet_ntoa.val_str
        (Item_func_inet_aton.val_int (some (a ++ 46 :: (b ++ 46 :: c)))) ≠
      some (a ++ 46 :: (b ++ 46 :: c)) := by
  have h3 := Item_func_inet_ntoa.val_str_val_int3 a b c ha hb hc hc0
  refine ⟨Item_func_inet_ntoa.val_str_val_int_iff s, h3, ?_, ?_⟩
  · intro ca cb cc
    rw [h3, ← ca.eq_sprintf_d, ← cb.eq_sprintf_d, ← cc.eq_sprintf_d]
    rfl
  · rw [h3]
    intro e
    exact Item_func_inet_ntoa.val_str_val_int3_ne a b c ha hb hc (Option.some.inj e)

/-- C19 at the texts `1.2.3.4` and `1.2.3`. -/
theorem C19_witness :
    Item_func_inet_ntoa.val_str (Item_func_inet_aton.val_int (some (str "1.2.3.4"))) =
      some (str "1.2.3.4") ∧
    Item_func_inet_ntoa.val_str (Item_func_inet_aton.val_int (some (str "1.2.3"))) =
      some (str "1.2.0.3") :=
  have h := C19_inet_ntoa_of_inet_aton (str "1.2.3.4") (str "1") (str "2") (str "3")
    (by decide) (by decide) (by decide) (by decide)
  ⟨h.1.2 ⟨str "1", str "2", str "3", str "4", by decide, by decide, by decide, by decide, rfl⟩,
    h.2.1⟩

/-- C20: for every text `s`, `Item_func_inet6_aton::val_str` returns the four
bytes decoded by `Inet4::str_to_ipv4` when that decoder accepts `s`, otherwise
the sixteen bytes decoded by `Inet6::str_to_ipv6` when that decoder accepts
`s`, otherwise null; a non-null result has length 4 or 16. -/
theorem C20_inet6_aton_dispatch (s : List Nat) :
    (∀ q, Inet4.str_to_ipv4 s = some q →
      Item_func_inet6_aton.val_str (some s) = some q ∧ q.length = 4) ∧
    (Inet4.str_to_ipv4 s = none → ∀ r, Inet6.str_to_ipv6 s = some r →
      Item_func_inet6_aton.val_str (some s) = some r ∧ r.length = 16) ∧
    (Inet4.str_to_ipv4 s = none → Inet6.str_to_ipv6 s = none →
      Item_func_inet6_aton.val_str (some s) = none) ∧
    (∀ b, Item_func_inet6_aton.val_str (some s) = some b → b.length = 4 ∨ b.length = 16) := by
  have h4 : ∀ q, Inet4.str_to_ipv4 s = some q →
      Item_func_inet6_aton.val_str (some s) = some q ∧ q.length = 4 := by
    intro q hq
    exact ⟨by simp only [Item_func_inet6_aton.val_str, hq], Inet4.str_to_ipv4_length s q hq⟩
  have h6 : Inet4.str_to_ipv4 s = none → ∀ r, Inet6.str_to_ipv6 s = some r →
      Item_func_inet6_aton.val_str (some s) = some r ∧ r.length = 16 := by
    intro hn r hr
    exact ⟨by simp only [Item_func_inet6_aton.val_str, hn, hr],
      (Inet6.str_to_ipv6_isInet6 s r hr).1⟩
  have h0 : Inet4.str_to_ipv4 s = none → Inet6.str_to_ipv6 s = none →
      Item_func_inet6_aton.val_str (some s) = none := by
    intro hn hr
    simp only [Item_func_inet6_aton.val_str, hn, hr]
  refine ⟨h4, h6, h0, ?_⟩
  intro b hb
  cases hq : Inet4.str_to_ipv4 s with
  | some q =>
    have := h4 q hq
    rw [this.1, Option.some.injEq] at hb
    rw [← hb]
    exact Or.inl this.2
  | none =>
    cases hr : Inet6.str_to_ipv6 s with
    | some r =>
      have := h6 hq r hr
      rw [this.1, Option.some.injEq] at hb
      rw [← hb]
      exact Or.inr this.2
    | none =>
      rw [h0 hq hr] at hb
      exact absurd hb (by simp)

/-- C20 at the texts `1.2.3.4`, `::1` and `1.2.3`. -/
theorem C20_witness :
    Item_func_inet6_aton.val_str (some (str "1.2.3.4")) = some [1, 2, 3, 4] ∧
    Item_func_inet6_aton.val_str (some (str "::1")) =
      some [0, 0, 0, 0, 0, 0, 0, 0, 0, 0, 0, 0, 0, 0, 0, 1] ∧
    Item_func_inet6_aton.val_str (some (str "1.2.3")) = none :=
  ⟨((C20_inet6_aton_dispatch (str "1.2.3.4")).1 [1, 2, 3, 4] (by decide)).1,
    ((C20_inet6_aton_dispatch (str "::1")).2.1 (by decide)
      [0, 0, 0, 0, 0, 0, 0, 0, 0, 0, 0, 0, 0, 0, 0, 1] (by decide)).1,
    (C20_inet6_aton_dispatch (str "1.2.3")).2.2.1 (by decide) (by decide)⟩

/-- C21: for every binary string `b`, `Item_func_inet6_ntoa::val_str_ascii`
returns the text of `Inet4::to_string` when `b` has length 4, the text of
`Inet6::to_string` when `b` has length 16 (a text is always written), and null
for every other length. -/
theorem C21_inet6_ntoa_by_length (b : List Nat) :
    Item_func_inet6_ntoa.val_str_ascii true (some b) =
      (if b.length = 4 then some (Inet4.to_string b INET_ADDRSTRLEN)
      else if b.length = 16 then Inet6.to_string b INET6_ADDRSTRLEN
      else none) ∧
    (Inet6.to_string b INET6_ADDRSTRLEN).isSome = true := by
  refine ⟨?_, Inet6.to_string_isSome b _⟩
  unfold Item_func_inet6_ntoa.val_str_ascii Inet4.binary_to_ipv4 Inet6.binary_to_ipv6
  by_cases h4 : b.length = 4
  · simp [h4]
  · by_cases h16 : b.length = 16
    · simp [h16]
    · simp [h4, h16]

/-- C21 at binary strings of 4, 16 and 5 bytes. -/
theorem C21_witness :
    Item_func_inet6_ntoa.val_str_ascii true (some [192, 0, 2, 128]) = some (str "192.0.2.128") ∧
    Item_func_inet6_ntoa.val_str_ascii true
      (some [0x20, 0x01, 0x0d, 0xb8, 0, 0, 0, 0, 0, 0, 0, 0, 0, 0, 0, 1]) =
      some (str "2001:db8::1") ∧
    Item_func_inet6_ntoa.val_str_ascii true (some [1, 2, 3, 4, 5]) = none :=
  ⟨(C21_inet6_ntoa_by_length [192, 0, 2, 128]).1.trans (by decide),
    (C21_inet6_ntoa_by_length [0x20, 0x01, 0x0d, 0xb8, 0, 0, 0, 0, 0, 0, 0, 0, 0, 0, 0, 1]).1.trans
      (by decide),
    (C21_inet6_ntoa_by_length [1, 2, 3, 4, 5]).1.trans (by decide)⟩

/-- C22: for every 16-byte value `v`, `Inet6::is_v4compat` holds exactly when
bytes 0..11 are zero, bytes 12..15 are not all zero and `v` is not the
loopback, that is when the top 96 bits are zero and the bottom 32 bits read
big-endian are greater than 1; `Item_func_is_ipv4_compat::val_int` on a text
returns 1 exactly when `Inet6::str_to_ipv6` decodes the text to such a value,
and 0 otherwise. -/
theorem C22_is_ipv4_compat (v : List Nat) (hv : IsInet6 v) (s : List Nat) :
    (Inet6.is_v4compat v ↔ (∀ i < 12, v.getD i 0 = 0) ∧ (∃ i < 4, v.getD (12 + i) 0 ≠ 0) ∧
      v ≠ [0, 0, 0, 0, 0, 0, 0, 0, 0, 0, 0, 0, 0, 0, 0, 1]) ∧
    (Inet6.is_v4compat v ↔ (∀ i < 12, v.getD i 0 = 0) ∧
      1 < v.getD 12 0 * 2 ^ 24 + v.getD 13 0 * 2 ^ 16 + v.getD 14 0 * 2 ^ 8 + v.getD 15 0) ∧
    (Item_func_is_ipv4_compat.val_int (Item.string (some (false, s))) = 1 ↔
      ∃ w, Inet6.str_to_ipv6 s = some w ∧ Inet6.is_v4compat w) ∧
    (Item_func_is_ipv4_compat.val_int (Item.string (some (false, s))) = 0 ↔
      ¬ ∃ w, Inet6.str_to_ipv6 s = some w ∧ Inet6.is_v4compat w) :=
  ⟨Iff.rfl, Inet6.is_v4compat_iff v hv, (Item_func_is_ipv4_compat.val_int_compat_text s).1,
    (Item_func_is_ipv4_compat.val_int_compat_text s).2⟩

/-- C22 at the value and the text of `::1.2.3.4`, and at the loopback. -/
theorem C22_witness :
    IsInet6 [0, 0, 0, 0, 0, 0, 0, 0, 0, 0, 0, 0, 1, 2, 3, 4] ∧
    Inet6.is_v4compat [0, 0, 0, 0, 0, 0, 0, 0, 0, 0, 0, 0, 1, 2, 3, 4] ∧
    Item_func_is_ipv4_compat.val_int (Item.string (some (false, str "::1.2.3.4"))) = 1 ∧
    Item_func_is_ipv4_compat.val_int (Item.string (some (false, str "::1"))) = 0 :=
  ⟨by decide,
    (C22_is_ipv4_compat [0, 0, 0, 0, 0, 0, 0, 0, 0, 0, 0, 0, 1, 2, 3, 4] (by decide)
      (str "::1.2.3.4")).2.1.2 (by decide),
    (C22_is_ipv4_compat [0, 0, 0, 0, 0, 0, 0, 0, 0, 0, 0, 0, 1, 2, 3, 4] (by decide)
      (str "::1.2.3.4")).2.2.1.2 ⟨[0, 0, 0, 0, 0, 0, 0, 0, 0, 0, 0, 0, 1, 2, 3, 4], by decide,
        by decide⟩,
    (C22_is_ipv4_compat [0, 0, 0, 0, 0, 0, 0, 0, 0, 0, 0, 0, 1, 2, 3, 4] (by decide)
      (str "::1")).2.2.2.2 (by
        rintro ⟨w, hw, hc⟩
        have e : Inet6.str_to_ipv6 (str "::1") =
            some [0, 0, 0, 0, 0, 0, 0, 0, 0, 0, 0, 0, 0, 0, 0, 1] := by decide
        rw [e] at hw
        cases hw
        exact absurd hc (by decide))⟩

/-- C23: for every 16-byte value `v`, `Inet6::is_v4mapped` holds exactly when
bytes 0..9 are zero and bytes 10 and 11 are both `0xff`;
`Item_func_is_ipv4_mapped::val_int` on a text returns 1 exactly when
`Inet6::str_to_ipv6` decodes the text to such a value, and 0 otherwise. -/
theorem C23_is_ipv4_mapped (v : List Nat) (s : List Nat) :
    (Inet6.is_v4mapped v ↔ (∀ i < 10, v.getD i 0 = 0) ∧ v.getD 10 0 = 0xff ∧
      v.getD 11 0 = 0xff) ∧
    (Item_func_is_ipv4_mapped.val_int (Item.string (some (false, s))) = 1 ↔
      ∃ w, Inet6.str_to_ipv6 s = some w ∧ (∀ i < 10, w.getD i 0 = 0) ∧ w.getD 10 0 = 0xff ∧
        w.getD 11 0 = 0xff) ∧
    (Item_func_is_ipv4_mapped.val_int (Item.string (some (false, s))) = 0 ↔
      ¬ ∃ w, Inet6.str_to_ipv6 s = some w ∧ (∀ i < 10, w.getD i 0 = 0) ∧ w.getD 10 0 = 0xff ∧
        w.getD 11 0 = 0xff) :=
  ⟨Iff.rfl, (Item_func_is_ipv4_mapped.val_int_mapped_text s).1,
    (Item_func_is_ipv4_mapped.val_int_mapped_text s).2⟩

/-- C23 at the texts `::ffff:1.2.3.4` and `::1.2.3.4`. -/
theorem C23_witness :
    Item_func_is_ipv4_mapped.val_int (Item.string (some (false, str "::ffff:1.2.3.4"))) = 1 ∧
    Item_func_is_ipv4_mapped.val_int (Item.string (some (false, str "::1.2.3.4"))) = 0 :=
  ⟨(C23_is_ipv4_mapped [] (str "::ffff:1.2.3.4")).2.1.2
      ⟨[0, 0, 0, 0, 0, 0, 0, 0, 0, 0, 255, 255, 1, 2, 3, 4], by decide, by decide, by decide,
        by decide⟩,
    (C23_is_ipv4_mapped [] (str "::1.2.3.4")).2.2.2 (by
      rintro ⟨w, hw, _, h10, _⟩
      have e : Inet6.str_to_ipv6 (str "::1.2.3.4") =
          some [0, 0, 0, 0, 0, 0, 0, 0, 0, 0, 0, 0, 1, 2, 3, 4] := by decide
      rw [e] at hw
      cases hw
      exact absurd h10 (by decide))⟩

/-- C24: for 16-byte values `a`, `b`, `c`, exactly one of `cmp(a,b) < 0`,
`cmp(a,b) = 0`, `cmp(a,b) > 0` holds; `cmp(a,b) = 0` exactly when `a = b`;
`Inet6::cmp(a,b)` is negative (positive) exactly when at the first position
where the bytes differ the byte of `a` is the smaller (the larger) as an
unsigned value; `Type_handler_inet6::cmp_native` returns the same value; and
the order is antisymmetric and transitive. -/
theorem C24_cmp_total_order (a b c : List Nat) (ha : a.length = 16) (hb : b.length = 16) :
    ((Inet6.cmp a b < 0 ∧ Inet6.cmp a b ≠ 0 ∧ ¬ 0 < Inet6.cmp a b) ∨
      (¬ Inet6.cmp a b < 0 ∧ Inet6.cmp a b = 0 ∧ ¬ 0 < Inet6.cmp a b) ∨
      (¬ Inet6.cmp a b < 0 ∧ Inet6.cmp a b ≠ 0 ∧ 0 < Inet6.cmp a b)) ∧
    (Inet6.cmp a b = 0 ↔ a = b) ∧
    (Inet6.cmp a b < 0 ↔
      ∃ i, i < 16 ∧ (∀ j, j < i → a.getD j 0 = b.getD j 0) ∧ a.getD i 0 < b.getD i 0) ∧
    (0 < Inet6.cmp a b ↔
      ∃ i, i < 16 ∧ (∀ j, j < i → a.getD j 0 = b.getD j 0) ∧ b.getD i 0 < a.getD i 0) ∧
    Type_handler_inet6.cmp_native a b = Inet6.cmp a b ∧
    (Inet6.cmp a b < 0 ↔ 0 < Inet6.cmp b a) ∧
    (Inet6.cmp a b < 0 → Inet6.cmp b c < 0 → Inet6.cmp a c < 0) := by
  have hswap : Inet6.cmp b a = - Inet6.cmp a b := memcmp_swap 16 a b
  refine ⟨by omega, ?_, ?_, ?_, rfl, by omega, memcmp_trans 16 a b c⟩
  · have h := memcmp_eq_zero_iff 16 a b (by omega) (by omega)
    rw [List.take_of_length_le (by omega), List.take_of_length_le (by omega)] at h
    exact h
  · exact memcmp_neg_iff 16 a b (by omega) (by omega)
  · have h := memcmp_neg_iff 16 b a (by omega) (by omega)
    have e : 0 < Inet6.cmp a b ↔ memcmp b a 16 < 0 := by
      have : memcmp b a 16 = Inet6.cmp b a := rfl
      rw [this]
      omega
    rw [e, h]
    constructor
    · rintro ⟨i, hi, hj, hlt⟩
      exact ⟨i, hi, fun j hji => (hj j hji).symm, hlt⟩
    · rintro ⟨i, hi, hj, hlt⟩
      exact ⟨i, hi, fun j hji => (hj j hji).symm, hlt⟩

/-- C24 at the values of `::1`, `::2` and `1::`. -/
theorem C24_witness :
    Inet6.cmp [0, 0, 0, 0, 0, 0, 0, 0, 0, 0, 0, 0, 0, 0, 0, 1]
      [0, 0, 0, 0, 0, 0, 0, 0, 0, 0, 0, 0, 0, 0, 0, 2] < 0 ∧
    Inet6.cmp [0, 0, 0, 0, 0, 0, 0, 0, 0, 0, 0, 0, 0, 0, 0, 2]
      [0, 1, 0, 0, 0, 0, 0, 0, 0, 0, 0, 0, 0, 0, 0, 0] < 0 ∧
    Inet6.cmp [0, 0, 0, 0, 0, 0, 0, 0, 0, 0, 0, 0, 0, 0, 0, 1]
      [0, 1, 0, 0, 0, 0, 0, 0, 0, 0, 0, 0, 0, 0, 0, 0] < 0 :=
  have h := C24_cmp_total_order [0, 0, 0, 0, 0, 0, 0, 0, 0, 0, 0, 0, 0, 0, 0, 1]
    [0, 0, 0, 0, 0, 0, 0, 0, 0, 0, 0, 0, 0, 0, 0, 2]
    [0, 1, 0, 0, 0, 0, 0, 0, 0, 0, 0, 0, 0, 0, 0, 0] (by decide) (by decide)
  have h1 : Inet6.cmp [0, 0, 0, 0, 0, 0, 0, 0, 0, 0, 0, 0, 0, 0, 0, 1]
      [0, 0, 0, 0, 0, 0, 0, 0, 0, 0, 0, 0, 0, 0, 0, 2] < 0 :=
    h.2.2.1.2 ⟨15, by decide, by decide, by decide⟩
  have h2 : Inet6.cmp [0, 0, 0, 0, 0, 0, 0, 0, 0, 0, 0, 0, 0, 0, 0, 2]
      [0, 1, 0, 0, 0, 0, 0, 0, 0, 0, 0, 0, 0, 0, 0, 0] < 0 := by decide
  ⟨h1, h2, h.2.2.2.2.2.2 h1 h2⟩

/-- C25: for every four bytes `b0..b3` and a buffer of at least 16 bytes,
`Inet4::to_string` writes `dec(b0).dec(b1).dec(b2).dec(b3)`, each octet a
decimal integer without leading zeros whose value is the byte, and the number
of characters written, which it returns, is between 7 and 15. -/
theorem C25_inet4_to_string_text (b0 b1 b2 b3 dstsize : Nat) (h0 : b0 < 256) (h1 : b1 < 256)
    (h2 : b2 < 256) (h3 : b3 < 256) (hn : 16 ≤ dstsize) :
    Inet4.to_string [b0, b1, b2, b3] dstsize =
      sprintf_d b0 ++ 46 :: (sprintf_d b1 ++ 46 :: (sprintf_d b2 ++ 46 :: sprintf_d b3)) ∧
    (∀ x ∈ [b0, b1, b2, b3], IsCanonicalOctet (sprintf_d x) ∧ dec_value (sprintf_d x) = x) ∧
    7 ≤ (Inet4.to_string [b0, b1, b2, b3] dstsize).length ∧
    (Inet4.to_string [b0, b1, b2, b3] dstsize).length ≤ 15 := by
  have e := Inet4.to_string_eq b0 b1 b2 b3 dstsize h0 h1 h2 h3 hn
  have l0 := (sprintf_d_byte b0 h0).1
  have l1 := (sprintf_d_byte b1 h1).1
  have l2 := (sprintf_d_byte b2 h2).1
  have l3 := (sprintf_d_byte b3 h3).1
  refine ⟨e, ?_, ?_, ?_⟩
  · intro x hx
    have hx256 : x < 256 := by
      simp only [List.mem_cons, List.mem_singleton, List.not_mem_nil, or_false] at hx
      rcases hx with rfl | rfl | rfl | rfl <;> assumption
    exact ⟨sprintf_d_canonical x hx256, (sprintf_d_byte x hx256).2⟩
  · rw [e]
    simp only [List.length_append, List.length_cons]
    have := l0.1
    have := l1.1
    have := l2.1
    have := l3.1
    omega
  · rw [e]
    simp only [List.length_append, List.length_cons]
    have := l0.2.1
    have := l1.2.1
    have := l2.2.1
    have := l3.2.1
    omega

/-- C25 at the bytes 192, 0, 2, 128 and a buffer of 16 bytes. -/
theorem C25_witness :
    Inet4.to_string [192, 0, 2, 128] 16 = str "192.0.2.128" ∧
      (Inet4.to_string [192, 0, 2, 128] 16).length = 11 :=
  have h := C25_inet4_to_string_text 192 0 2 128 16 (by decide) (by decide) (by decide)
    (by decide) (by decide)
  ⟨h.1.trans (by decide), by decide⟩

/-- C26: for every 16-byte value and a buffer of at least 46 bytes,
`Inet6::to_string` never leaves its loop by the `break` taken when fewer than
5 bytes are free, the length it returns is the length of the text written,
and that length is between 2 and 39, so the text passes the length check of
`Inet6::str_to_ipv6`. -/
theorem C26_inet6_to_string_length (b : List Nat) (hb : IsInet6 b) (dstsize : Nat)
    (hn : 46 ≤ dstsize) :
    ∃ t, Inet6.to_string_trace b dstsize = some (t, t.length, false) ∧
      Inet6.to_string b dstsize = some t ∧ 2 ≤ t.length ∧ t.length ≤ 39 ∧
      ¬ (t.length < 2) ∧ ¬ (t.length > IN6_ADDR_MAX_CHAR_LENGTH) := by
  obtain ⟨t, h1, h2, h3, h4⟩ := Inet6.to_string_trace_spec b hb dstsize hn
  have e : IN6_ADDR_MAX_CHAR_LENGTH = 39 := rfl
  exact ⟨t, h1, h2, h3, h4, by omega, by omega⟩

/-- C26 at the value with eight words `ffff` and a buffer of 46 bytes: the
text has 39 bytes. -/
theorem C26_witness :
    IsInet6 (List.replicate 16 255) ∧
    ∃ t, Inet6.to_string_trace (List.replicate 16 255) 46 = some (t, t.length, false) ∧
      Inet6.to_string (List.replicate 16 255) 46 = some t ∧ 2 ≤ t.length ∧ t.length ≤ 39 ∧
      ¬ (t.length < 2) ∧ ¬ (t.length > IN6_ADDR_MAX_CHAR_LENGTH) :=
  ⟨by decide, C26_inet6_to_string_length (List.replicate 16 255) (by decide) 46 (by decide)⟩

/-- C27: `Inet6::str_to_ipv6` rejects every text shorter than 2 bytes or longer
than 39 bytes, whatever its content. -/
theorem C27_str_to_ipv6_length_limits (s : List Nat) (h : s.length < 2 ∨ 39 < s.length) :
    Inet6.str_to_ipv6 s = none :=
  Inet6.str_to_ipv6_short s h

/-- C27 at six groups of four hex digits followed by `255.255.255.255`, a text
of 45 bytes; with the tail `1.2.3.4` the text has 37 bytes and is accepted. -/
theorem C27_witness :
    ((str "1111:2222:3333:4444:5555:6666:255.255.255.255").length < 2 ∨
      39 < (str "1111:2222:3333:4444:5555:6666:255.255.255.255").length) ∧
    Inet6.str_to_ipv6 (str "1111:2222:3333:4444:5555:6666:255.255.255.255") = none ∧
    Inet6.str_to_ipv6 (str "1111:2222:3333:4444:5555:6666:1.2.3.4") =
      some [17, 17, 34, 34, 51, 51, 68, 68, 85, 85, 102, 102, 1, 2, 3, 4] :=
  ⟨by decide,
    C27_str_to_ipv6_length_limits (str "1111:2222:3333:4444:5555:6666:255.255.255.255")
      (by decide),
    by decide⟩

/-- C28: a text of at least 2 bytes whose first byte is a colon and whose
second byte is not a colon is rejected by `Inet6::str_to_ipv6`. -/
theorem C28_leading_single_colon (x : Nat) (t : List Nat) (hx : x ≠ 58) :
    Inet6.str_to_ipv6 (58 :: x :: t) = none :=
  Inet6.str_to_ipv6_leading_colon x t hx

/-- C28 at the text `:1::`. -/
theorem C28_witness : (49 : Nat) ≠ 58 ∧ Inet6.str_to_ipv6 (58 :: 49 :: str "::") = none :=
  ⟨by decide, C28_leading_single_colon 49 (str "::") (by decide)⟩

/-- C29: a text without a zero byte whose last byte is a colon and whose byte
before it, if there is one, is not a colon is rejected by
`Inet6::str_to_ipv6`. -/
theorem C29_trailing_single_colon (pre : List Nat) (h0 : 0 ∉ pre)
    (hl : pre.getLast? ≠ some 58) : Inet6.str_to_ipv6 (pre ++ [58]) = none :=
  Inet6.str_to_ipv6_trailing_colon pre h0 hl

/-- C29 at the text `1::2:`. -/
theorem C29_witness :
    0 ∉ str "1::2" ∧ (str "1::2").getLast? ≠ some 58 ∧
      Inet6.str_to_ipv6 (str "1::2" ++ [58]) = none :=
  ⟨by decide, by decide, C29_trailing_single_colon (str "1::2") (by decide) (by decide)⟩

/-- C30: for every text `s`, `Inet6::str_to_ipv6` gives the same result (a
failure, or the same sixteen bytes) on `s` and on `s` with every letter
`A`..`F` replaced by its lowercase form. -/
theorem C30_hex_digits_case_insensitive (s : List Nat) :
    Inet6.str_to_ipv6 (s.map lower_hex_letter) = Inet6.str_to_ipv6 s :=
  Inet6.str_to_ipv6_lower s

/-- C30 at the text `2001:DB8::Ff`. -/
theorem C30_witness :
    (str "2001:DB8::Ff").map lower_hex_letter = str "2001:db8::ff" ∧
    Inet6.str_to_ipv6 (str "2001:db8::ff") = Inet6.str_to_ipv6 (str "2001:DB8::Ff") :=
  ⟨by decide, C30_hex_digits_case_insensitive (str "2001:DB8::Ff")⟩


/-- C31: every text made of four groups of decimal digits separated by three
dots that `Inet4::str_to_ipv4` accepts with the bytes `(a, b, c, d)` is also
accepted by `Item_func_inet_aton::val_int`, which returns
`a * 2^24 + b * 2^16 + c * 2^8 + d`. -/
theorem C31_inet_aton_of_str_to_ipv4 (g0 g1 g2 g3 : List Nat) (a b c d : Nat)
    (h0 : ∀ x ∈ g0, 48 ≤ x ∧ x ≤ 57) (h1 : ∀ x ∈ g1, 48 ≤ x ∧ x ≤ 57)
    (h2 : ∀ x ∈ g2, 48 ≤ x ∧ x ≤ 57) (h3 : ∀ x ∈ g3, 48 ≤ x ∧ x ≤ 57)
    (h : Inet4.str_to_ipv4 (g0 ++ 46 :: (g1 ++ 46 :: (g2 ++ 46 :: g3))) = some [a, b, c, d]) :
    Item_func_inet_aton.val_int (some (g0 ++ 46 :: (g1 ++ 46 :: (g2 ++ 46 :: g3)))) =
      some ((a * 2 ^ 24 + b * 2 ^ 16 + c * 2 ^ 8 + d : Nat) : Int) := by
  have hz : 0 ∉ g0 ++ 46 :: (g1 ++ 46 :: (g2 ++ 46 :: g3)) := by
    intro hm
    simp only [List.mem_append, List.mem_cons] at hm
    rcases hm with hm | hm | hm | hm | hm | hm | hm
    · have := h0 0 hm; omega
    · omega
    · have := h1 0 hm; omega
    · omega
    · have := h2 0 hm; omega
    · omega
    · have := h3 0 hm; omega
  obtain ⟨a1, b1, c1, e1, hq, hv⟩ := Item_func_inet_aton.val_int_of_ipv4 _ _ hz h
  simp only [List.cons.injEq, and_true] at hq
  obtain ⟨rfl, rfl, rfl, rfl⟩ := hq
  exact hv

/-- C31 at the text `192.0.2.128`. -/
theorem C31_witness :
    Inet4.str_to_ipv4 (str "192.0.2.128") = some [192, 0, 2, 128] ∧
    Item_func_inet_aton.val_int (some (str "192.0.2.128")) = some 3221226112 :=
  ⟨by decide,
    (C31_inet_aton_of_str_to_ipv4 (str "192") (str "0") (str "2") (str "128") 192 0 2 128
      (by decide) (by decide) (by decide) (by decide) (by decide)).trans (by decide)⟩

/-- C32: for every 16-byte value and a buffer of at least 46 bytes,
`Inet6::to_string` ends its text with the dotted quad of bytes 12..15 exactly
when words 0..5 are zero and word 6 is not, or words 0..4 are zero and word 5
is `0xffff`; in the first case the gap is at 0 with length 6 and the text is
`::` followed by `Inet4::to_string` of bytes 12..15, in the second the gap is
at 0 with length 5 and the text is `::ffff:` followed by it; in both cases the
length returned is the length of the whole text. -/
theorem C32_dotted_tail_text (b : List Nat) (hb : IsInet6 b) (dstsize : Nat)
    (hn : 46 ≤ dstsize) :
    (Inet6.prints_ipv4_tail b dstsize ↔
      (((∀ i < 6, (Inet6.ipv6_words b).getD i 0 = 0) ∧ (Inet6.ipv6_words b).getD 6 0 ≠ 0) ∨
        ((∀ i < 5, (Inet6.ipv6_words b).getD i 0 = 0) ∧
          (Inet6.ipv6_words b).getD 5 0 = 0xffff))) ∧
    (((∀ i < 6, (Inet6.ipv6_words b).getD i 0 = 0) ∧ (Inet6.ipv6_words b).getD 6 0 ≠ 0) →
      Inet6.find_gap (Inet6.ipv6_words b) = ⟨0, 6⟩ ∧
      Inet6.to_string b dstsize =
        some (str "::" ++ Inet4.to_string (b.drop 12) INET_ADDRSTRLEN) ∧
      Inet6.to_string_trace b dstsize =
        some (str "::" ++ Inet4.to_string (b.drop 12) INET_ADDRSTRLEN,
          (str "::" ++ Inet4.to_string (b.drop 12) INET_ADDRSTRLEN).length, false)) ∧
    (((∀ i < 5, (Inet6.ipv6_words b).getD i 0 = 0) ∧ (Inet6.ipv6_words b).getD 5 0 = 0xffff) →
      Inet6.find_gap (Inet6.ipv6_words b) = ⟨0, 5⟩ ∧
      Inet6.to_string b dstsize =
        some (str "::ffff:" ++ Inet4.to_string (b.drop 12) INET_ADDRSTRLEN) ∧
      Inet6.to_string_trace b dstsize =
        some (str "::ffff:" ++ Inet4.to_string (b.drop 12) INET_ADDRSTRLEN,
          (str "::ffff:" ++ Inet4.to_string (b.drop 12) INET_ADDRSTRLEN).length, false)) := by
  refine ⟨?_, ?_, ?_⟩
  · rw [Inet6.prints_ipv4_tail_iff b hb dstsize hn,
      Inet6.ipv4_tail_words_default _ (Inet6.ipv6_words_length b)]
  · intro h
    exact Inet6.to_string_trace_compat b hb dstsize hn h
  · intro h
    have e : sprintf_x 0xffff = str "ffff" := by decide
    have h1 := Inet6.to_string_trace_mapped b hb dstsize hn h
    rw [e] at h1
    exact h1

/-- C32 at the values of `::1.2.3.4` and `::ffff:1.2.3.4` with a buffer of 46
bytes, and at the value of `::0.0.1.2`, whose word 6 is zero. -/
theorem C32_witness :
    Inet6.to_string_trace [0, 0, 0, 0, 0, 0, 0, 0, 0, 0, 0, 0, 1, 2, 3, 4] 46 =
      some (str "::1.2.3.4", 9, false) ∧
    Inet6.to_string_trace [0, 0, 0, 0, 0, 0, 0, 0, 0, 0, 255, 255, 1, 2, 3, 4] 46 =
      some (str "::ffff:1.2.3.4", 14, false) ∧
    ¬ Inet6.prints_ipv4_tail [0, 0, 0, 0, 0, 0, 0, 0, 0, 0, 0, 0, 0, 0, 1, 2] 46 :=
  ⟨((C32_dotted_tail_text [0, 0, 0, 0, 0, 0, 0, 0, 0, 0, 0, 0, 1, 2, 3, 4] (by decide) 46
      (by decide)).2.1 (by decide)).2.2.trans (by decide),
    ((C32_dotted_tail_text [0, 0, 0, 0, 0, 0, 0, 0, 0, 0, 255, 255, 1, 2, 3, 4] (by decide) 46
      (by decide)).2.2 (by decide)).2.2.trans (by decide),
    fun h => absurd ((C32_dotted_tail_text [0, 0, 0, 0, 0, 0, 0, 0, 0, 0, 0, 0, 0, 0, 1, 2]
      (by decide) 46 (by decide)).1.1 h) (by decide)⟩

/-- C33 as stated fails: with the prefix `::1` and the dotted text `2.3.4.5`,
`Inet6::str_to_ipv6` reads `::12.3.4.5` with the bytes 12, 3, 4, 5 at the end,
and reads `::1` followed by `203:405` as the groups `1203` and `405`. -/
theorem C33_counterexample :
    Inet4.str_to_ipv4 (str "2.3.4.5") = some [2, 3, 4, 5] ∧
    Inet6.str_to_ipv6 (str "::1" ++ str "2.3.4.5") =
      some [0, 0, 0, 0, 0, 0, 0, 0, 0, 0, 0, 0, 12, 3, 4, 5] ∧
    Inet6.str_to_ipv6 (str "::1" ++ (sprintf_x (2 * 256 + 3) ++ 58 :: sprintf_x (4 * 256 + 5))) =
      some [0, 0, 0, 0, 0, 0, 0, 0, 0, 0, 0, 0, 18, 3, 4, 5] ∧
    ¬ (Inet6.str_to_ipv6
        (str "::1" ++ (sprintf_x (2 * 256 + 3) ++ 58 :: sprintf_x (4 * 256 + 5))) =
      some [0, 0, 0, 0, 0, 0, 0, 0, 0, 0, 0, 0, 12, 3, 4, 5]) := by
  decide

/-- C33, amended: for every prefix `P` that is empty or ends in a colon and
every text `d` accepted by `Inet4::str_to_ipv4` with the bytes `(a, b, c, e)`,
if `Inet6::str_to_ipv6` accepts `P` followed by `d`, then it also accepts `P`
followed by `hex(a*256+b)`, a colon and `hex(c*256+e)`, and returns the same
sixteen bytes. -/
theorem C33_dotted_tail_as_two_groups (P d : List Nat) (a b c e : Nat)
    (hd : Inet4.str_to_ipv4 d = some [a, b, c, e]) (hP : P = [] ∨ P.getLast? = some 58)
    (res : List Nat) (h : Inet6.str_to_ipv6 (P ++ d) = some res) :
    Inet6.str_to_ipv6 (P ++ (sprintf_x (a * 256 + b) ++ 58 :: sprintf_x (c * 256 + e))) =
      some res :=
  Inet6.str_to_ipv6_dotted_tail P d a b c e hd hP res h

/-- C33, amended, at the prefix `::ffff:` and the dotted text `192.0.2.128`:
the text `::ffff:c000:280` gives the same bytes. -/
theorem C33_witness :
    Inet4.str_to_ipv4 (str "192.0.2.128") = some [192, 0, 2, 128] ∧
    (str "::ffff:").getLast? = some 58 ∧
    Inet6.str_to_ipv6 (str "::ffff:" ++ str "192.0.2.128") =
      some [0, 0, 0, 0, 0, 0, 0, 0, 0, 0, 255, 255, 192, 0, 2, 128] ∧
    str "::ffff:" ++ (sprintf_x (192 * 256 + 0) ++ 58 :: sprintf_x (2 * 256 + 128)) =
      str "::ffff:c000:280" ∧
    Inet6.str_to_ipv6
        (str "::ffff:" ++ (sprintf_x (192 * 256 + 0) ++ 58 :: sprintf_x (2 * 256 + 128))) =
      some [0, 0, 0, 0, 0, 0, 0, 0, 0, 0, 255, 255, 192, 0, 2, 128] :=
  ⟨by decide, by decide, by decide, by decide,
    C33_dotted_tail_as_two_groups (str "::ffff:") (str "192.0.2.128") 192 0 2 128 (by decide)
      (Or.inr (by decide)) [0, 0, 0, 0, 0, 0, 0, 0, 0, 0, 255, 255, 192, 0, 2, 128] (by decide)⟩

/-- C34: no text is accepted by both `Inet4::str_to_ipv4` and
`Inet6::str_to_ipv6`; `Item_func_is_ipv4::val_int` and
`Item_func_is_ipv6::val_int` are never both 1 for the same text; and every
text that `Inet6::str_to_ipv6` decodes is decoded to the same bytes by
`Item_func_inet6_aton::val_str`, which tries `Inet4::str_to_ipv4` first. -/
theorem C34_ipv4_ipv6_disjoint (s : List Nat) :
    ¬ ((Inet4.str_to_ipv4 s).isSome = true ∧ (Inet6.str_to_ipv6 s).isSome = true) ∧
    ¬ (Item_func_is_ipv4.val_int (some s) = 1 ∧ Item_func_is_ipv6.val_int (some s) = 1) ∧
    ∀ r, Inet6.str_to_ipv6 s = some r → Item_func_inet6_aton.val_str (some s) = some r := by
  have key : ¬ ((Inet4.str_to_ipv4 s).isSome = true ∧ (Inet6.str_to_ipv6 s).isSome = true) := by
    rintro ⟨h4, h6⟩
    obtain ⟨q, hq⟩ := Option.isSome_iff_exists.1 h4
    rw [Inet6.str_to_ipv6_of_ipv4 s q hq] at h6
    exact absurd h6 (by simp)
  refine ⟨key, ?_, ?_⟩
  · rintro ⟨h4, h6⟩
    apply key
    unfold Item_func_is_ipv4.val_int at h4
    unfold Item_func_is_ipv6.val_int at h6
    simp only at h4 h6
    constructor
    · by_contra hc
      rw [if_neg hc] at h4
      omega
    · by_contra hc
      rw [if_neg hc] at h6
      omega
  · intro r hr
    cases h4 : Inet4.str_to_ipv4 s with
    | some q =>
      rw [Inet6.str_to_ipv6_of_ipv4 s q h4] at hr
      exact absurd hr (by simp)
    | none => simp only [Item_func_inet6_aton.val_str, h4, hr]

/-- C34 at the texts `1.2.3.4` and `::1.2.3.4`. -/
theorem C34_witness :
    Item_func_is_ipv4.val_int (some (str "1.2.3.4")) = 1 ∧
    ¬ (Item_func_is_ipv6.val_int (some (str "1.2.3.4")) = 1) ∧
    Item_func_inet6_aton.val_str (some (str "::1.2.3.4")) =
      some [0, 0, 0, 0, 0, 0, 0, 0, 0, 0, 0, 0, 1, 2, 3, 4] :=
  ⟨by decide,
    fun h => (C34_ipv4_ipv6_disjoint (str "1.2.3.4")).2.1 ⟨by decide, h⟩,
    (C34_ipv4_ipv6_disjoint (str "::1.2.3.4")).2.2 _ (by decide)⟩

/-- C35: for every `n` in `0..=0xffffffff`, `Item_func_inet_ntoa::val_str`
returns a text for `n`, and `Item_func_inet_aton::val_int` applied to this
text succeeds and returns `n`. -/
theorem C35_inet_aton_of_inet_ntoa (n : Nat) (hn : n ≤ 0xffffffff) :
    ∃ t, Item_func_inet_ntoa.val_str (some (n : Int)) = some t ∧
      Item_func_inet_aton.val_int (some t) = some (n : Int) :=
  Item_func_inet_aton.val_int_val_str n hn

/-- C35 at `n = 0xffffffff`. -/
theorem C35_witness :
    (0xffffffff : Nat) ≤ 0xffffffff ∧
    ∃ t, Item_func_inet_ntoa.val_str (some ((0xffffffff : Nat) : Int)) = some t ∧
      Item_func_inet_aton.val_int (some t) = some ((0xffffffff : Nat) : Int) :=
  ⟨by decide, C35_inet_aton_of_inet_ntoa 0xffffffff (by decide)⟩

/-- C36: `Item_func_inet_aton::val_int` returns null exactly when the text is
empty, or its last byte is a dot, or it contains a byte other than an ASCII
digit or a dot, or one of its runs of digits between dots has a decimal value
above 255; every other text is accepted, whatever the number of dots; and an
empty group (a leading dot or two consecutive dots) counts as the group `0`. -/
theorem C36_inet_aton_null_iff (s : List Nat) :
    (Item_func_inet_aton.val_int (some s) = none ↔
      s = [] ∨ s.getLast? = some 46 ∨ (∃ c ∈ s, ¬ (48 ≤ c ∧ c ≤ 57) ∧ c ≠ 46) ∨
        (∃ g ∈ dot_groups s, (∀ c ∈ g, 48 ≤ c ∧ c ≤ 57) ∧ 255 < dec_value g)) ∧
    ((Item_func_inet_aton.val_int (some s)).isSome = true ↔
      ¬ (s = [] ∨ s.getLast? = some 46 ∨ (∃ c ∈ s, ¬ (48 ≤ c ∧ c ≤ 57) ∧ c ≠ 46) ∨
        (∃ g ∈ dot_groups s, (∀ c ∈ g, 48 ≤ c ∧ c ≤ 57) ∧ 255 < dec_value g))) ∧
    (∀ a b : List Nat, IsDecRun a → IsDecRun b → b ≠ [] →
      Item_func_inet_aton.val_int (some (46 :: b)) =
        Item_func_inet_aton.val_int (some (48 :: 46 :: b)) ∧
      Item_func_inet_aton.val_int (some (a ++ 46 :: 46 :: b)) =
        Item_func_inet_aton.val_int (some (a ++ 46 :: 48 :: 46 :: b))) := by
  have h := Item_func_inet_aton.val_int_eq_none_iff s
  refine ⟨h, ?_, fun a b ha hb hb0 => Item_func_inet_aton.val_int_empty_group a b ha hb hb0⟩
  rw [← h]
  cases Item_func_inet_aton.val_int (some s) <;> simp

/-- C36 at the texts `1.2.3.4.5`, `.1`, `1..2`, `1.`, `1.256` and `1.x`. -/
theorem C36_witness :
    Item_func_inet_aton.val_int (some (str "1.2.3.4.5")) = some 4328719365 ∧
    Item_func_inet_aton.val_int (some (str ".1")) = some 1 ∧
    Item_func_inet_aton.val_int (some (str "1..2")) = some 16777218 ∧
    Item_func_inet_aton.val_int (some (str "1.")) = none ∧
    Item_func_inet_aton.val_int (some (str "1.256")) = none ∧
    Item_func_inet_aton.val_int (some (str "1.x")) = none :=
  ⟨by decide, by decide, by decide,
    (C36_inet_aton_null_iff (str "1.")).1.2 (Or.inr (Or.inl (by decide))),
    (C36_inet_aton_null_iff (str "1.256")).1.2
      (Or.inr (Or.inr (Or.inr ⟨str "256", by decide, by decide, by decide⟩))),
    (C36_inet_aton_null_iff (str "1.x")).1.2
      (Or.inr (Or.inr (Or.inl ⟨120, by decide, by decide, by decide⟩)))⟩

/-- C37: no value satisfies both `Inet6::is_v4compat` and `Inet6::is_v4mapped`,
so `Item_func_is_ipv4_compat::val_int` and `Item_func_is_ipv4_mapped::val_int`
are never both 1 for the same argument. -/
theorem C37_compat_mapped_exclusive (v : List Nat) (arg : Item) :
    ¬ (Inet6.is_v4compat v ∧ Inet6.is_v4mapped v) ∧
    ¬ (Item_func_is_ipv4_compat.val_int arg = 1 ∧ Item_func_is_ipv4_mapped.val_int arg = 1) :=
  ⟨Inet6.not_v4compat_and_v4mapped v, Item_func_is_ipv4_compat.not_both arg⟩

/-- C37 at the text `::ffff:1.2.3.4`, for which `IS_IPV4_MAPPED` is 1. -/
theorem C37_witness :
    Item_func_is_ipv4_mapped.val_int (Item.string (some (false, str "::ffff:1.2.3.4"))) = 1 ∧
    ¬ (Item_func_is_ipv4_compat.val_int (Item.string (some (false, str "::ffff:1.2.3.4"))) = 1) :=
  ⟨by decide,
    fun h => (C37_compat_mapped_exclusive []
      (Item.string (some (false, str "::ffff:1.2.3.4")))).2 ⟨h, by decide⟩⟩

/-- C38: for every input, every access `Inet6::str_to_ipv6` makes to its
16-byte buffer stays inside it: each group commit and the IPv4-tail commit
write at offsets below 16, and every read and write of the gap fix-up loop
uses an offset in 0..15.  The accesses are those of the instrumented decoder,
which returns what `Inet6::str_to_ipv6` returns. -/
theorem C38_str_to_ipv6_buffer_offsets (s : List Nat) :
    (Inet6.str_to_ipv6_trace s).2 = Inet6.str_to_ipv6 s ∧
    ∀ e ∈ (Inet6.str_to_ipv6_trace s).1, ∀ o ∈ e.offsets, 0 ≤ o ∧ o < (IN6_ADDR_SIZE : Int) :=
  ⟨Inet6.str_to_ipv6_trace_result s, Inet6.str_to_ipv6_trace_bounds s⟩

/-- C38 at the text `1::2:3.4.5.6`: the offsets used by the group commits at 0
and 2, by the IPv4-tail commit at 4 and by the six moves of the gap fix-up,
each with its target and its source. -/
theorem C38_witness :
    ((Inet6.str_to_ipv6_trace (str "1::2:3.4.5.6")).1.map Inet6.Event.offsets).flatten =
      [0, 1, 2, 3, 4, 5, 6, 7, 15, 7, 14, 6, 13, 5, 12, 4, 11, 3, 10, 2] ∧
    ∀ e ∈ (Inet6.str_to_ipv6_trace (str "1::2:3.4.5.6")).1, ∀ o ∈ e.offsets,
      0 ≤ o ∧ o < (IN6_ADDR_SIZE : Int) :=
  ⟨by decide, (C38_str_to_ipv6_buffer_offsets (str "1::2:3.4.5.6")).2⟩

/-- C39: the assertion `group_value <= 0xffff` of `Inet6::str_to_ipv6` holds
every time it is evaluated, for every input, and every committed group value
fits in 16 bits: a group has at most 4 hex digits when it is committed or
rejected. -/
theorem C39_group_value_assertion (s : List Nat) :
    (Inet6.str_to_ipv6_trace s).2 = Inet6.str_to_ipv6 s ∧
    ∀ e ∈ (Inet6.str_to_ipv6_trace s).1, ∀ v ∈ e.group_values, v ≤ 0xffff :=
  ⟨Inet6.str_to_ipv6_trace_result s, Inet6.str_to_ipv6_trace_group_value s⟩

/-- C39 at the text `ffff::fffff`, rejected at the fifth digit of its last
group: the values asserted and committed. -/
theorem C39_witness :
    ((Inet6.str_to_ipv6_trace (str "ffff::fffff")).1.map Inet6.Event.group_values).flatten =
      [15, 255, 4095, 65535, 65535, 15, 255, 4095, 65535] ∧
    ∀ e ∈ (Inet6.str_to_ipv6_trace (str "ffff::fffff")).1, ∀ v ∈ e.group_values, v ≤ 0xffff :=
  ⟨by decide, (C39_group_value_assertion (str "ffff::fffff")).2⟩
